import Mathlib

/-!
# PathMaster-Pro routing engine: graph, Dijkstra, A*, bidirectional A*, query cache

Shallow embedding of `RoutingEngine/src/{graph,dijkstra,astar,bidir_astar}.cpp`, of
`RoutingEngine/include/lru_cache.h` and of the query branch of `RoutingEngine/src/main.cpp`.

Modelling conventions.
* A C++ `double` that holds a cost is an `Option Int`: `some x` is a finite value, `none`
  is `+infinity`.  Edge weights and heuristic values are finite (`Int`).
* The searches are embedded twice.  In `dijkstra`, `a_star` and `bidir_a_star` the sums
  (`addW`, `addD`) are exact: this embedding is used for the statements about the nodes of
  a returned path, the unreachable case and the stopping test, and for runs in which every
  sum is a small whole number.  In `Dbl.dijkstra`, `Dbl.a_star` and `Dbl.bidir_a_star`
  (section "Double arithmetic") every sum (`faddW`, `faddD`) is rounded as IEEE 754
  prescribes for binary64: to nearest with 53 significant bits, a tie going to the even
  significand, and to `+infinity` on overflow.  There `some x` stands for the `double` of
  value `x * 2^-1074`, so that every finite `double` is the image of an integer, and
  `whole k` is the `double` `k.0`.  The general statements about the returned distance
  (least cost, agreement of the searches, weight of the returned path) are made of this
  second embedding.
* Node ids are natural numbers; the sentinel `-1` of the parent arrays is `none`.
* The per-query arrays (`dist`, `parent`, `gscore`, ...) are total maps `Nat → _` holding the
  initial value everywhere; on a graph whose edge targets are in range every access of the
  source is within the allocated size `N`.
* `std::priority_queue<PDI, vector<PDI>, greater<PDI>>` is a list of pairs; `top`/`pop`
  return and remove a least pair in the lexicographic order of `std::pair`.
* A `while` loop takes a fuel argument and returns `none` when the fuel runs out.
* The trigonometric body of `haversine` is a parameter `hav` of the model.
* A node of the `std::list` of the cache carries its address; an iterator is an address, the
  `std::unordered_map` is a map from keys to addresses.
* The ids read by the dispatcher are of type `int` (`Int`); the searches take node ids that
  are natural numbers, and a call with a negative id has no result in the model.
* Vector accesses are total in the model (`getD`, `modifyAt`, total maps); the definitions
  named `...Chk` repeat loops with every access tested, to state that none is out of range.
-/

namespace PathMaster

/-! ## Costs -/

/-- The value `std::numeric_limits<double>::infinity()`. -/
def INF : Option Int := none

/-- Exact sum `d + w` of a cost and a finite weight (`INF + w = INF`); `faddW` is the sum
as the source computes it, rounded. -/
def addW (d : Option Int) (w : Int) : Option Int :=
  match d with
  | some x => some (x + w)
  | none => none

/-- Exact sum of two costs; `faddD` is the sum as the source computes it, rounded. -/
def addD (a b : Option Int) : Option Int :=
  match a, b with
  | some x, some y => some (x + y)
  | _, _ => none

/-- Strict comparison `a < b` of two costs. -/
def ltD (a b : Option Int) : Bool :=
  match a, b with
  | some x, some y => decide (x < y)
  | some _, none => true
  | none, _ => false

/-- The function `std::min` on two costs. -/
def minD (a b : Option Int) : Option Int := if ltD b a then b else a

/-- Array write `a[i] = x` on a total map. -/
def upd {α : Type} (a : Nat → α) (i : Nat) (x : α) : Nat → α :=
  fun j => if j = i then x else a j

/-! ## Priority queue of `(priority, node)` pairs -/

/-- The pair type `PDI = std::pair<double,int>`. -/
abbrev PDI := Option Int × Nat

/-- Order `a <= b` of `std::pair`: first components, then second components. -/
def pdiLe (a b : PDI) : Bool :=
  ltD a.1 b.1 || (!ltD b.1 a.1 && decide (a.2 ≤ b.2))

/-- Least pair of `x :: q`. -/
def pqMin (x : PDI) : List PDI → PDI
  | [] => x
  | y :: q => pqMin (if pdiLe x y then x else y) q

/-- The call `pq.top()`; `none` on an empty queue. -/
def pqTop : List PDI → Option PDI
  | [] => none
  | x :: q => some (pqMin x q)

/-- The calls `pq.top(); pq.pop()`: the least pair and the queue without one copy of it. -/
def pqPop (q : List PDI) : Option (PDI × List PDI) :=
  match pqTop q with
  | none => none
  | some m => some (m, q.erase m)

/-! ## Graph (`graph.h`, `graph.cpp`) -/

/-- The struct `Node`. -/
structure Node where
  id : Nat
  name : String
  lat : Int
  lon : Int
deriving DecidableEq

/-- The default-constructed node `Node()`. -/
def Node.default : Node := ⟨0, "", 0, 0⟩

/-- The struct `Edge`. -/
structure Edge where
  target : Nat
  weight : Int
deriving DecidableEq

/-- The class `Graph`: three parallel vectors. -/
structure Graph where
  nodes : List Node
  adj : List (List Edge)
  radj : List (List Edge)
deriving DecidableEq

/-- The constructor `Graph::Graph()`. -/
def Graph.empty : Graph := ⟨[], [], []⟩

/-- The call `v.resize(n)` with default element `d`. -/
def resize {α : Type} (d : α) (l : List α) (n : Nat) : List α :=
  l.take n ++ List.replicate (n - l.length) d

/-- In-place change `v[i] = f (v[i])`. -/
def modifyAt {α : Type} (f : α → α) : Nat → List α → List α
  | _, [] => []
  | 0, x :: l => f x :: l
  | i + 1, x :: l => x :: modifyAt f i l

/-- The method `Graph::reserve`. -/
def Graph.reserve (_g : Graph) (n : Nat) : Graph :=
  ⟨List.replicate n Node.default, List.replicate n [], List.replicate n []⟩

/-- The method `Graph::addNode`. -/
def Graph.addNode (g : Graph) (id : Nat) (name : String) (lat lon : Int) : Graph :=
  let g1 : Graph :=
    if id ≥ g.nodes.length then
      let newSize := max (id + 1) (g.nodes.length * 2)
      ⟨resize Node.default g.nodes newSize, resize [] g.adj newSize, resize [] g.radj newSize⟩
    else g
  { g1 with nodes := modifyAt (fun _ => ⟨id, name, lat, lon⟩) id g1.nodes }

/-- The method `Graph::addEdge`. -/
def Graph.addEdge (g : Graph) (src dest : Nat) (weight : Int) : Graph :=
  let g1 : Graph :=
    if src ≥ g.adj.length ∨ dest ≥ g.adj.length then
      let newSize := max src dest + 1
      ⟨resize Node.default g.nodes newSize, resize [] g.adj newSize, resize [] g.radj newSize⟩
    else g
  { g1 with adj := modifyAt (fun es => es ++ [⟨dest, weight⟩]) src g1.adj }

/-- First entry of `es` whose target is `t` gets weight `w` (the loop with `break`);
the flag tells whether one was found. -/
def setFirst (t : Nat) (w : Int) : List Edge → List Edge × Bool
  | [] => ([], false)
  | e :: es =>
    if e.target = t then (⟨e.target, w⟩ :: es, true)
    else ((setFirst t w es).1.cons e, (setFirst t w es).2)

/-- The method `Graph::updateEdgeWeight`: the new graph and the returned flag. -/
def Graph.updateEdgeWeight (g : Graph) (src dest : Nat) (weight : Int) : Graph × Bool :=
  if src ≥ g.adj.length then (g, false)
  else
    let r := setFirst dest weight (g.adj.getD src [])
    if r.2 then
      ({ g with adj := modifyAt (fun _ => r.1) src g.adj,
                radj := modifyAt (fun res => (setFirst src weight res).1) dest g.radj }, true)
    else (g, false)

/-- Inner loop of `buildReverseAdj`: `radj[e.to].emplace_back(u, e.weight)` for each `e`. -/
def revEdges (u : Nat) : List Edge → List (List Edge) → List (List Edge)
  | [], r => r
  | e :: es, r => revEdges u es (modifyAt (fun l => l ++ [⟨u, e.weight⟩]) e.target r)

/-- Outer loop of `buildReverseAdj`, over the rows `adj[u], adj[u+1], ...`. -/
def revRows : Nat → List (List Edge) → List (List Edge) → List (List Edge)
  | _, [], r => r
  | u, es :: rows, r => revRows (u + 1) rows (revEdges u es r)

/-- The method `Graph::buildReverseAdj`. -/
def Graph.buildReverseAdj (g : Graph) : Graph :=
  { g with radj := revRows 0 g.adj (List.replicate g.adj.length []) }

/-- The method `Graph::haversineDistance`; `hav` is the function `haversine`. -/
def Graph.haversineDistance (hav : Int → Int → Int → Int → Int) (g : Graph) (u v : Nat) : Int :=
  if u ≥ g.nodes.length ∨ v ≥ g.nodes.length then 0
  else
    hav (g.nodes.getD u Node.default).lat (g.nodes.getD u Node.default).lon
      (g.nodes.getD v Node.default).lat (g.nodes.getD v Node.default).lon

/-! ## Path reconstruction -/

/-- The loop `for (cur = c; cur != -1; cur = parent[cur]) path.push_back(cur)`. -/
def walkParents (parent : Nat → Option Nat) : Nat → Option Nat → Option (List Nat)
  | _, none => some []
  | 0, some _ => none
  | fuel + 1, some c =>
    match walkParents parent fuel (parent c) with
    | some l => some (c :: l)
    | none => none

/-! ## Dijkstra (`dijkstra.cpp`) -/

/-- Local state of `dijkstra`. -/
structure DState where
  dist : Nat → Option Int
  parent : Nat → Option Nat
  pq : List PDI

/-- The loop `for (const auto &e : g.adj[u])` of `dijkstra`. -/
def dijkstraRelax (u : Nat) : List Edge → DState → DState
  | [], s => s
  | e :: es, s =>
    if ltD (addW (s.dist u) e.weight) (s.dist e.target) then
      dijkstraRelax u es
        { dist := upd s.dist e.target (addW (s.dist u) e.weight)
          parent := upd s.parent e.target (some u)
          pq := (addW (s.dist u) e.weight, e.target) :: s.pq }
    else dijkstraRelax u es s

/-- The loop `while (!pq.empty())` of `dijkstra`. -/
def dijkstraLoop (g : Graph) (dst : Nat) : Nat → DState → Option DState
  | fuel, s =>
    match pqPop s.pq with
    | none => some s
    | some ((d, u), rest) =>
      match fuel with
      | 0 => none
      | fuel + 1 =>
        if ltD (s.dist u) d then dijkstraLoop g dst fuel { s with pq := rest }
        else if u = dst then some { s with pq := rest }
        else if u ≥ g.adj.length then dijkstraLoop g dst fuel { s with pq := rest }
        else dijkstraLoop g dst fuel (dijkstraRelax u (g.adj.getD u []) { s with pq := rest })

/-- State of `dijkstra` when the loop is entered. -/
def dijkstraInit (src : Nat) : DState :=
  { dist := upd (fun _ => INF) src (some 0)
    parent := fun _ => none
    pq := [(some 0, src)] }

/-- The function `dijkstra`. -/
def dijkstra (fuel : Nat) (g : Graph) (src dst : Nat) : Option (Option Int × List Nat) :=
  match dijkstraLoop g dst fuel (dijkstraInit src) with
  | none => none
  | some s =>
    if s.dist dst = INF then some (INF, [])
    else
      match walkParents s.parent fuel (some dst) with
      | none => none
      | some path => some (s.dist dst, path.reverse)

/-! ## Forward A* (`astar.cpp`) -/

/-- Local state of `a_star`. -/
structure AState where
  gscore : Nat → Option Int
  fscore : Nat → Option Int
  parent : Nat → Option Nat
  openQ : List PDI

/-- The loop `for (const auto &e : g.adj[u])` of `a_star`; `heuristic` is the lambda. -/
def aStarRelax (heuristic : Nat → Int) (u : Nat) : List Edge → AState → AState
  | [], s => s
  | e :: es, s =>
    if ltD (addW (s.gscore u) e.weight) (s.gscore e.target) then
      aStarRelax heuristic u es
        { parent := upd s.parent e.target (some u)
          gscore := upd s.gscore e.target (addW (s.gscore u) e.weight)
          fscore := upd s.fscore e.target
            (addW (addW (s.gscore u) e.weight) (heuristic e.target))
          openQ := (addW (addW (s.gscore u) e.weight) (heuristic e.target), e.target)
            :: s.openQ }
    else aStarRelax heuristic u es s

/-- The loop `while (!open.empty())` of `a_star`. -/
def aStarLoop (g : Graph) (heuristic : Nat → Int) (dst : Nat) : Nat → AState → Option AState
  | fuel, s =>
    match pqPop s.openQ with
    | none => some s
    | some ((_f, u), rest) =>
      match fuel with
      | 0 => none
      | fuel + 1 =>
        if u = dst then some { s with openQ := rest }
        else if u ≥ g.adj.length then aStarLoop g heuristic dst fuel { s with openQ := rest }
        else
          aStarLoop g heuristic dst fuel
            (aStarRelax heuristic u (g.adj.getD u []) { s with openQ := rest })

/-- State of `a_star` when the loop is entered. -/
def aStarInit (heuristic : Nat → Int) (src : Nat) : AState :=
  { gscore := upd (fun _ => INF) src (some 0)
    fscore := upd (fun _ => INF) src (some (heuristic src))
    parent := fun _ => none
    openQ := [(some (heuristic src), src)] }

/-- The function `a_star`. -/
def a_star (hav : Int → Int → Int → Int → Int) (fuel : Nat) (g : Graph) (src dst : Nat) :
    Option (Option Int × List Nat) :=
  let heuristic : Nat → Int := fun u => g.haversineDistance hav u dst
  match aStarLoop g heuristic dst fuel (aStarInit heuristic src) with
  | none => none
  | some s =>
    if s.gscore dst = INF then some (INF, [])
    else
      match walkParents s.parent fuel (some dst) with
      | none => none
      | some path => some (s.gscore dst, path.reverse)

/-! ## Bidirectional A* (`bidir_astar.cpp`) -/

/-- One search direction of `bidir_a_star`: the arrays `g*`, `f*`, `p*`, `seen*` and the
queue `open*`. -/
structure Side where
  g : Nat → Option Int
  f : Nat → Option Int
  p : Nat → Option Nat
  seen : Nat → Bool
  openQ : List PDI

/-- Local state of `bidir_a_star`. -/
structure BState where
  fwd : Side
  bwd : Side
  best : Option Int
  meeting : Option Nat

/-- The relaxation loop of one direction: `if (g[v] > g[u] + w) ...`. -/
def sideRelax (heur : Nat → Int) (u : Nat) : List Edge → Side → Side
  | [], s => s
  | e :: es, s =>
    if ltD (addW (s.g u) e.weight) (s.g e.target) then
      sideRelax heur u es
        { s with
          g := upd s.g e.target (addW (s.g u) e.weight)
          p := upd s.p e.target (some u)
          f := upd s.f e.target (addW (addW (s.g u) e.weight) (heur e.target))
          openQ := (addW (addW (s.g u) e.weight) (heur e.target), e.target) :: s.openQ }
    else sideRelax heur u es s

/-- The update `if (total < best) { best = total; meeting = u; }` when `u` was seen by the
other side. -/
def meet (otherSeen : Nat → Bool) (u : Nat) (s : BState) : BState :=
  if otherSeen u then
    if ltD (addD (s.fwd.g u) (s.bwd.g u)) s.best then
      { s with best := addD (s.fwd.g u) (s.bwd.g u), meeting := some u }
    else s
  else s

/-- The test `best < std::min(topF, topB)` at the end of an iteration. -/
def stopTest (s : BState) : Bool :=
  let topF := match pqTop s.fwd.openQ with
    | none => INF
    | some t => t.1
  let topB := match pqTop s.bwd.openQ with
    | none => INF
    | some t => t.1
  ltD s.best (minD topF topB)

/-- The backward half of an iteration followed by the stopping test; the flag is false for
`continue` and for falling through to the next iteration, true for `break`. -/
def bwdHalf (g : Graph) (heurB : Nat → Int) (s : BState) : BState × Bool :=
  match pqPop s.bwd.openQ with
  | none => (s, stopTest s)
  | some ((f, u), rest) =>
    let s1 : BState := { s with bwd := { s.bwd with openQ := rest } }
    if ltD (s1.bwd.f u) f then (s1, false)
    else
      let s2 : BState := { s1 with bwd := { s1.bwd with seen := upd s1.bwd.seen u true } }
      let s3 := meet s2.fwd.seen u s2
      let s4 : BState :=
        if u < g.radj.length then
          { s3 with bwd := sideRelax heurB u (g.radj.getD u []) s3.bwd }
        else s3
      (s4, stopTest s4)

/-- One iteration of the loop body: the new state and whether `break` was taken. -/
def bidirIter (g : Graph) (heurF heurB : Nat → Int) (s : BState) : BState × Bool :=
  match pqPop s.fwd.openQ with
  | none => bwdHalf g heurB s
  | some ((f, u), rest) =>
    let s1 : BState := { s with fwd := { s.fwd with openQ := rest } }
    if ltD (s1.fwd.f u) f then (s1, false)
    else
      let s2 : BState := { s1 with fwd := { s1.fwd with seen := upd s1.fwd.seen u true } }
      let s3 := meet s2.bwd.seen u s2
      let s4 : BState :=
        if u < g.adj.length then
          { s3 with fwd := sideRelax heurF u (g.adj.getD u []) s3.fwd }
        else s3
      bwdHalf g heurB s4

/-- The loop `while (!openF.empty() && !openB.empty())`. -/
def bidirLoop (g : Graph) (heurF heurB : Nat → Int) : Nat → BState → Option BState
  | fuel, s =>
    if s.fwd.openQ = [] ∨ s.bwd.openQ = [] then some s
    else
      match fuel with
      | 0 => none
      | fuel + 1 =>
        if (bidirIter g heurF heurB s).2 then some (bidirIter g heurF heurB s).1
        else bidirLoop g heurF heurB fuel (bidirIter g heurF heurB s).1

/-- Initial arrays and queue of one direction started at `start`. -/
def sideInit (heur : Nat → Int) (start : Nat) : Side :=
  { g := upd (fun _ => INF) start (some 0)
    f := upd (fun _ => INF) start (some (heur start))
    p := fun _ => none
    seen := fun _ => false
    openQ := [(some (heur start), start)] }

/-- State of `bidir_a_star` when the loop is entered. -/
def bidirInit (heurF heurB : Nat → Int) (src dst : Nat) : BState :=
  { fwd := sideInit heurF src, bwd := sideInit heurB dst, best := INF, meeting := none }

/-- The function `bidir_a_star`. -/
def bidir_a_star (hav : Int → Int → Int → Int → Int) (fuel : Nat) (g : Graph) (src dst : Nat) :
    Option (Option Int × List Nat) :=
  if src = dst then some (some 0, [src])
  else
    let heurF : Nat → Int := fun u => g.haversineDistance hav u dst
    let heurB : Nat → Int := fun u => g.haversineDistance hav u src
    match bidirLoop g heurF heurB fuel (bidirInit heurF heurB src dst) with
    | none => none
    | some s =>
      match s.meeting with
      | none => some (INF, [])
      | some m =>
        match walkParents s.fwd.p fuel (some m), walkParents s.bwd.p fuel (some m) with
        | some pathF, some pathB => some (s.best, pathF.reverse ++ pathB.tail)
        | _, _ => none

/-! ## Specification vocabulary -/

/-- Forward adjacency as a total map: `g.adj[u]`, empty beyond the vector. -/
def Graph.fwd (g : Graph) : Nat → List Edge := fun u => g.adj.getD u []

/-- Reverse adjacency as a total map: `g.radj[u]`, empty beyond the vector. -/
def Graph.bwd (g : Graph) : Nat → List Edge := fun u => g.radj.getD u []

/-- Every forward edge has a non-negative weight. -/
def Graph.NonNeg (g : Graph) : Prop := ∀ es ∈ g.adj, ∀ e ∈ es, 0 ≤ e.weight

/-- Every forward edge targets a node slot of the graph. -/
def Graph.InRange (g : Graph) : Prop := ∀ es ∈ g.adj, ∀ e ∈ es, e.target < g.adj.length

/-- The reverse adjacency is the one `buildReverseAdj` builds from the forward adjacency. -/
def Graph.Rebuilt (g : Graph) : Prop := g.radj = g.buildReverseAdj.radj

/-- The reverse adjacency holds exactly the forward edges, turned around. -/
def Graph.Transposed (g : Graph) : Prop :=
  ∀ u v w, (⟨v, w⟩ : Edge) ∈ g.fwd u ↔ (⟨u, w⟩ : Edge) ∈ g.bwd v

instance (g : Graph) : Decidable g.NonNeg := by unfold Graph.NonNeg; infer_instance
instance (g : Graph) : Decidable g.InRange := by unfold Graph.InRange; infer_instance
instance (g : Graph) : Decidable g.Rebuilt := by unfold Graph.Rebuilt; infer_instance

/-- A sequence of edges of `E` leads from `u` to `v`, and its weights sum to `c`. -/
inductive Walk (E : Nat → List Edge) : Nat → Nat → Int → Prop
  | nil (u : Nat) : Walk E u u 0
  | cons {u v t : Nat} {w c : Int} : (⟨v, w⟩ : Edge) ∈ E u → Walk E v t c → Walk E u t (w + c)

/-- Node `dst` is reachable from `src` along edges of `E`. -/
def Reachable (E : Nat → List Edge) (src dst : Nat) : Prop := ∃ c, Walk E src dst c

/-- The value `d` is the least cost of a walk from `src` to `dst`. -/
def IsShortest (E : Nat → List Edge) (src dst : Nat) (d : Int) : Prop :=
  Walk E src dst d ∧ ∀ c, Walk E src dst c → d ≤ c

/-- The estimate `h u` never exceeds the cost of a walk from `u` to `t`. -/
def Admissible (E : Nat → List Edge) (h : Nat → Int) (t : Nat) : Prop :=
  ∀ u c, Walk E u t c → h u ≤ c

/-- The node list is a path of `E` (one edge per consecutive pair) of total weight `c`. -/
inductive PathCost (E : Nat → List Edge) : List Nat → Int → Prop
  | single (v : Nat) : PathCost E [v] 0
  | cons {a b : Nat} {l : List Nat} {w c : Int} :
      (⟨b, w⟩ : Edge) ∈ E a → PathCost E (b :: l) c → PathCost E (a :: b :: l) (w + c)

/-- Each consecutive pair of the list is joined by an edge of `E`. -/
def IsPath (E : Nat → List Edge) (l : List Nat) : Prop :=
  List.Chain' (fun a b => ∃ e ∈ E a, e.target = b) l

/-- The heuristic of the forward searches: great-circle distance to `dst`. -/
def Graph.heurTo (hav : Int → Int → Int → Int → Int) (g : Graph) (dst : Nat) : Nat → Int :=
  fun u => g.haversineDistance hav u dst

/-! ## Proof device: the data common to the three searches -/

/-- Cost array, parent array and queue of one search. -/
structure Core where
  g : Nat → Option Int
  p : Nat → Option Nat
  q : List PDI

/-- The relaxation loop on the common data, with priority `g + h`. -/
def coreRelax (h : Nat → Int) (u : Nat) : List Edge → Core → Core
  | [], c => c
  | e :: es, c =>
    if ltD (addW (c.g u) e.weight) (c.g e.target) then
      coreRelax h u es
        { g := upd c.g e.target (addW (c.g u) e.weight)
          p := upd c.p e.target (some u)
          q := (addW (addW (c.g u) e.weight) (h e.target), e.target) :: c.q }
    else coreRelax h u es c

/-- The common data of a `dijkstra` state. -/
def DState.core (s : DState) : Core := ⟨s.dist, s.parent, s.pq⟩

/-- The common data of an `a_star` state. -/
def AState.core (s : AState) : Core := ⟨s.gscore, s.parent, s.openQ⟩

/-- The common data of one direction of `bidir_a_star`. -/
def Side.core (s : Side) : Core := ⟨s.g, s.p, s.openQ⟩

/-- The sum `f 0 + ... + f (n-1)`. -/
def sumTo (f : Nat → Nat) : Nat → Nat
  | 0 => 0
  | n + 1 => sumTo f n + f n

/-- Number of nodes below `B` whose cost is still infinite. -/
def infCount (B : Nat) (g : Nat → Option Int) : Nat :=
  sumTo (fun v => if g v = none then 1 else 0) B

/-- Sum of the finite costs of the nodes below `B`. -/
def costSum (B : Nat) (g : Nat → Option Int) : Nat :=
  sumTo (fun v => ((g v).getD 0).toNat) B

/-- Great-circle distance of two points of one meridian, in whole kilometres
(`6371 * pi / 180` km per degree of latitude, `pi` taken as `355/113`): a stand-in for
`haversine` in runs whose outcome does not hinge on the fraction of a kilometre it drops. -/
def havMeridian (lat1 _lon1 lat2 _lon2 : Int) : Int :=
  (6371 * 355 * (Int.natAbs (lat2 - lat1) : Int)) / (113 * 180)

/-- The scenario graph: nodes `0..3` at the given latitudes on the zero meridian, edges
`0->1 (1)`, `1->2 (1)`, `0->2 (5)`, `2->3 (1)`, reverse adjacency rebuilt. -/
def scenario (lat0 lat1 lat2 lat3 : Int) : Graph :=
  ((((((((Graph.empty.addNode 0 "n0" lat0 0).addNode 1 "n1" lat1 0).addNode 2 "n2" lat2 0).addNode
    3 "n3" lat3 0).addEdge 0 1 1).addEdge 1 2 1).addEdge 0 2 5).addEdge 2 3 1).buildReverseAdj

/-- Invariant of one search over the edges `E` from `start` with heuristic `h`, while node
`u` is being expanded and the edges `todo` of `u` are still to be relaxed (`todo = []`
between expansions).

* costs are non-negative, the start has cost `0` and no parent, every other node with a
  finite cost has a parent;
* a parent link `v -> u'` comes with an edge `u' -> v` whose weight bridges the two costs,
  and a rank `t` decreases along links of equal cost;
* every queued pair carries a cost that the array has reached or improved;
* a node with a finite cost has its current pair in the queue, or all its edges are relaxed. -/
structure CoreInv (E : Nat → List Edge) (h : Nat → Int) (start u : Nat) (todo : List Edge)
    (c : Core) : Prop where
  g_start : c.g start = some 0
  p_start : c.p start = none
  g_nonneg : ∀ v x, c.g v = some x → 0 ≤ x
  p_some : ∀ v x, c.g v = some x → v ≠ start → ∃ u', c.p v = some u'
  p_link : ∃ t : Nat → Nat, ∀ v u', c.p v = some u' →
    ∃ x y w, c.g v = some x ∧ c.g u' = some y ∧ (⟨v, w⟩ : Edge) ∈ E u' ∧ y + w ≤ x ∧
      (y < x ∨ t u' < t v)
  q_sound : ∀ f v, (f, v) ∈ c.q → ∃ y x, f = some (y + h v) ∧ c.g v = some x ∧ x ≤ y
  frontier : ∀ v x, c.g v = some x → (some (x + h v), v) ∈ c.q ∨
    ∀ e ∈ E v, (v = u ∧ e ∈ todo) ∨ ∃ y, c.g e.target = some y ∧ y ≤ x + e.weight
  todo_sub : ∀ e ∈ todo, e ∈ E u

/-- All edge weights of `E` are non-negative. -/
def NonNegE (E : Nat → List Edge) : Prop := ∀ a e, e ∈ E a → 0 ≤ e.weight

/-- Lexicographic order on triples of natural numbers. -/
def Lt3 (m1 m2 : Nat × Nat × Nat) : Prop :=
  m1.1 < m2.1 ∨ (m1.1 = m2.1 ∧ (m1.2.1 < m2.2.1 ∨ (m1.2.1 = m2.2.1 ∧ m1.2.2 < m2.2.2)))

/-- Termination measure of one search: infinite costs, sum of finite costs, queue length. -/
def Core.mu (B : Nat) (c : Core) : Nat × Nat × Nat :=
  (infCount B c.g, costSum B c.g, c.q.length)

/-- All edge targets of `E` are below `B`. -/
def BoundedE (E : Nat → List Edge) (B : Nat) : Prop := ∀ a e, e ∈ E a → e.target < B

/-- The part of the search invariant that speaks of the cost and parent arrays only. -/
structure TreeInv (E : Nat → List Edge) (start : Nat) (g : Nat → Option Int)
    (p : Nat → Option Nat) : Prop where
  g_start : g start = some 0
  p_start : p start = none
  g_nonneg : ∀ v x, g v = some x → 0 ≤ x
  p_some : ∀ v x, g v = some x → v ≠ start → ∃ u', p v = some u'
  p_link : ∃ t : Nat → Nat, ∀ v u', p v = some u' →
    ∃ x y w, g v = some x ∧ g u' = some y ∧ (⟨v, w⟩ : Edge) ∈ E u' ∧ y + w ≤ x ∧
      (y < x ∨ t u' < t v)

/-! ## Proof device: one half of an iteration of `bidir_a_star` -/

/-- The state with the two directions exchanged. -/
def BState.swap (s : BState) : BState := ⟨s.bwd, s.fwd, s.best, s.meeting⟩

/-- The first direction drops a stale pair (`continue`). -/
def skipSide (rest : List PDI) (s : BState) : BState :=
  { s with fwd := { s.fwd with openQ := rest } }

/-- The first direction pops `u`, marks it seen, records a meeting and relaxes the edges of
`u` in `adj`. -/
def expandSide (adj : List (List Edge)) (heur : Nat → Int) (u : Nat) (rest : List PDI)
    (s : BState) : BState :=
  let s1 : BState := { s with fwd := { s.fwd with openQ := rest } }
  let s2 : BState := { s1 with fwd := { s1.fwd with seen := upd s1.fwd.seen u true } }
  let s3 := meet s2.bwd.seen u s2
  if u < adj.length then { s3 with fwd := sideRelax heur u (adj.getD u []) s3.fwd } else s3

/-- Invariant of `bidir_a_star` between two half-iterations; `EF`, `hF`, `a` describe the
first direction and `EB`, `hB`, `b` the second.

* each direction satisfies the search invariant and `f = g + h`;
* a node marked seen has a finite cost, and a node with a finite cost is marked seen or has
  its current pair queued;
* a node with finite costs in both directions is covered by `best`, or one of its current
  pairs is still queued;
* `best` is infinite exactly when no meeting node is recorded; otherwise it is at least the
  sum of the two costs of the meeting node and at least the weight of a walk through it. -/
structure BInv (EF : Nat → List Edge) (hF : Nat → Int) (a : Nat) (EB : Nat → List Edge)
    (hB : Nat → Int) (b : Nat) (s : BState) : Prop where
  cf : CoreInv EF hF a 0 [] s.fwd.core
  cb : CoreInv EB hB b 0 [] s.bwd.core
  ff : ∀ v, s.fwd.f v = addW (s.fwd.g v) (hF v)
  fb : ∀ v, s.bwd.f v = addW (s.bwd.g v) (hB v)
  sgF : ∀ v, s.fwd.seen v = true → ∃ x, s.fwd.g v = some x
  sgB : ∀ v, s.bwd.seen v = true → ∃ x, s.bwd.g v = some x
  kF : ∀ v x, s.fwd.g v = some x → s.fwd.seen v = true ∨ (some (x + hF v), v) ∈ s.fwd.openQ
  kB : ∀ v x, s.bwd.g v = some x → s.bwd.seen v = true ∨ (some (x + hB v), v) ∈ s.bwd.openQ
  cover : ∀ v x y, s.fwd.g v = some x → s.bwd.g v = some y →
    (∃ z, s.best = some z ∧ z ≤ x + y) ∨ (some (x + hF v), v) ∈ s.fwd.openQ ∨
      (some (y + hB v), v) ∈ s.bwd.openQ
  bm_none : s.meeting = none → s.best = none
  bm_some : ∀ m, s.meeting = some m → ∃ z x y c1 c2, s.best = some z ∧ s.fwd.g m = some x ∧
    s.bwd.g m = some y ∧ x + y ≤ z ∧ Walk EF a m c1 ∧ Walk EB b m c2 ∧ c1 + c2 ≤ z

/-- After the first iteration no pair of the start node is queued any more. -/
def Started (a b : Nat) (s : BState) : Prop :=
  (∀ e ∈ s.fwd.openQ, e.2 ≠ a) ∧ (∀ e ∈ s.bwd.openQ, e.2 ≠ b)

/-- Lexicographic measure of `bidir_a_star`: the sum of the measures of both directions. -/
def BState.mu (B : Nat) (s : BState) : Nat × Nat × Nat :=
  ((Core.mu B s.fwd.core).1 + (Core.mu B s.bwd.core).1,
    (Core.mu B s.fwd.core).2.1 + (Core.mu B s.bwd.core).2.1,
    (Core.mu B s.fwd.core).2.2 + (Core.mu B s.bwd.core).2.2)

/-- What a search `run` (a function of the fuel) does on the pair `(src, dst)`: with enough
fuel it returns `(+infinity, [])` and `dst` is unreachable, or it returns a finite distance `d`
and a path from `src` to `dst` whose weight `cst` is at most `d`; under the condition `adm`
the weight equals `d` and `d` is the least weight of a walk. -/
def Outcome (run : Nat → Option (Option Int × List Nat)) (E : Nat → List Edge) (src dst : Nat)
    (adm : Prop) : Prop :=
  ∃ n, (¬ Reachable E src dst ∧ ∀ fuel, n ≤ fuel → run fuel = some (INF, [])) ∨
    ∃ d path cst, (∀ fuel, n ≤ fuel → run fuel = some (some d, path)) ∧
      Walk E src dst cst ∧ path.head? = some src ∧ path.getLast? = some dst ∧
      PathCost E path cst ∧ cst ≤ d ∧ (adm → cst = d ∧ ∀ c, Walk E src dst c → d ≤ c)

/-! ## Proof device: tight parent links -/

/-- Node `c` descends from `v` through parent links that are tight: the cost of each child
is the cost of its parent plus the weight `wu` recorded for the child. -/
inductive TightDesc (g : Nat → Option Int) (p : Nat → Option Nat) (wu : Nat → Int) :
    Nat → Nat → Prop
  | refl (v : Nat) : TightDesc g p wu v v
  | step {c c' v : Nat} {y : Int} : p c' = some c → g c = some y → g c' = some (y + wu c') →
      TightDesc g p wu c v → TightDesc g p wu c' v

/-- Invariant of a search that always pops a least pair, between two pops; `wu v` is the
weight of the edge that gave `v` its cost.  For a link `v -> x`, with `G` the cost `x` had
when it gave `v` its cost: the queued pairs of cost below `G` have priority at least
`G + h x`, or the queued pairs of the tight descendants of `v` have. -/
structure TightInv (E : Nat → List Edge) (h : Nat → Int) (wu : Nat → Int) (c : Core) :
    Prop where
  wu_edge : ∀ v x, c.p v = some x → (⟨v, wu v⟩ : Edge) ∈ E x ∧
    ∃ gv gx, c.g v = some gv ∧ c.g x = some gx ∧ gx + wu v ≤ gv
  omega : ∀ v x gv, c.p v = some x → c.g v = some gv →
    (∀ z y, ((some (y + h z), z) : PDI) ∈ c.q → y < gv - wu v → gv - wu v + h x ≤ y + h z) ∨
      (∀ z f, ((some f, z) : PDI) ∈ c.q → TightDesc c.g c.p wu z v → gv - wu v + h x ≤ f)

/-- The same invariant while node `u`, popped with its current cost `gu`, is expanded. -/
structure TightStep (E : Nat → List Edge) (h : Nat → Int) (wu : Nat → Int) (u : Nat)
    (gu : Int) (c : Core) : Prop where
  gu_eq : c.g u = some gu
  wu_edge : ∀ v x, c.p v = some x → (⟨v, wu v⟩ : Edge) ∈ E x ∧
    ∃ gv gx, c.g v = some gv ∧ c.g x = some gx ∧ gx + wu v ≤ gv
  minlow : ∀ z y, ((some (y + h z), z) : PDI) ∈ c.q → y < gu → gu + h u ≤ y + h z
  sv : ∀ v x gv, c.p v = some x → c.g v = some gv →
    (gv - wu v ≤ gu ∧
        ∀ z y, ((some (y + h z), z) : PDI) ∈ c.q → y < gv - wu v →
          gv - wu v + h x ≤ y + h z) ∨
      (¬ TightDesc c.g c.p wu u v ∧
        ∀ z f, ((some f, z) : PDI) ∈ c.q → TightDesc c.g c.p wu z v → gv - wu v + h x ≤ f)

/-! ## Query cache (`lru_cache.h`) -/

/-- A node of the list `items`: the address an iterator to it holds, and its pair. -/
structure Item (K V : Type) where
  addr : Nat
  key : K
  val : V

/-- The class `LRUCache<K,V>`: `capacity`, the list `items` (front first) and the map
`mapIt` from keys to iterators; `fresh` is the address the next allocated node gets. -/
structure LRUCache (K V : Type) where
  capacity : Nat
  items : List (Item K V)
  mapIt : K → Option Nat
  fresh : Nat

/-- The constructor `LRUCache(cap)`. -/
def LRUCache.new {K V : Type} (cap : Nat) : LRUCache K V := ⟨cap, [], fun _ => none, 0⟩

/-- The write `m[k] = a` (or `m.erase(k)` for `a = none`) on the hash map. -/
def mapSet {K : Type} [DecidableEq K] (m : K → Option Nat) (k : K) (a : Option Nat) :
    K → Option Nat :=
  fun j => if j = k then a else m j

/-- The iterator dereference `*it`: the node at address `a`. -/
def nodeAt {K V : Type} (a : Nat) (items : List (Item K V)) : Option (Item K V) :=
  items.find? (fun n => decide (n.addr = a))

/-- The call `items.splice(items.begin(), items, it)`: the node at address `a` moves to the
front. -/
def spliceFront {K V : Type} (a : Nat) (items : List (Item K V)) : List (Item K V) :=
  match nodeAt a items with
  | some n => n :: items.filter (fun m => decide (m.addr ≠ a))
  | none => items

/-- The write `it->second = v` to the node at address `a`. -/
def setVal {K V : Type} (a : Nat) (v : V) (items : List (Item K V)) : List (Item K V) :=
  items.map (fun n => if n.addr = a then { n with val := v } else n)

/-- The method `LRUCache::get`: `some v` for `true` with `value = v`, `none` for `false`. -/
def LRUCache.get {K V : Type} (s : LRUCache K V) (key : K) : Option V × LRUCache K V :=
  match s.mapIt key with
  | none => (none, s)
  | some a =>
    let items := spliceFront a s.items
    ((nodeAt a items).map (fun n => n.val), { s with items := items })

/-- The method `LRUCache::put`. -/
def LRUCache.put {K V : Type} [DecidableEq K] (s : LRUCache K V) (key : K) (value : V) :
    LRUCache K V :=
  match s.mapIt key with
  | some a => { s with items := spliceFront a (setVal a value s.items) }
  | none =>
    let s1 : LRUCache K V :=
      if s.items.length ≥ s.capacity then
        match s.items.getLast? with
        | some last => { s with mapIt := mapSet s.mapIt last.key none, items := s.items.dropLast }
        | none => s
      else s
    { s1 with
      items := ⟨s1.fresh, key, value⟩ :: s1.items
      mapIt := mapSet s1.mapIt key (some s1.fresh)
      fresh := s1.fresh + 1 }

/-- The method `LRUCache::clear`. -/
def LRUCache.clear {K V : Type} (s : LRUCache K V) : LRUCache K V :=
  { s with items := [], mapIt := fun _ => none }

/-! ## Proof device: the cache as a list of pairs -/

/-- The pairs held by the list `items`, most recently used first. -/
def LRUCache.entries {K V : Type} (s : LRUCache K V) : List (K × V) :=
  s.items.map (fun n => (n.key, n.val))

/-- The method `get` on a list of pairs with distinct keys. -/
def absGet {K V : Type} [DecidableEq K] (k : K) (l : List (K × V)) :
    Option V × List (K × V) :=
  match l.lookup k with
  | none => (none, l)
  | some v => (some v, (k, v) :: l.filter (fun e => decide (e.1 ≠ k)))

/-- The method `put` on a list of pairs with distinct keys. -/
def absPut {K V : Type} [DecidableEq K] (cap : Nat) (k : K) (v : V) (l : List (K × V)) :
    List (K × V) :=
  match l.lookup k with
  | some _ => (k, v) :: l.filter (fun e => decide (e.1 ≠ k))
  | none => (k, v) :: (if l.length ≥ cap then l.dropLast else l)

/-- Representation invariant of the cache: node addresses are distinct and below `fresh`,
`mapIt` holds exactly the iterators of the nodes of `items` under their keys, and the list
holds at most `capacity` nodes (one node, when `capacity` is zero). -/
structure LRUCache.Wf {K V : Type} (s : LRUCache K V) : Prop where
  addr_nodup : (s.items.map (fun n => n.addr)).Nodup
  map_of_item : ∀ n ∈ s.items, s.mapIt n.key = some n.addr
  item_of_map : ∀ k a, s.mapIt k = some a → ∃ n ∈ s.items, n.addr = a ∧ n.key = k
  addr_lt : ∀ n ∈ s.items, n.addr < s.fresh
  size_le : s.items.length ≤ max s.capacity 1

/-- The states a cache of capacity `cap` reaches from its constructor by calls of `get`,
`put` and `clear`. -/
inductive LRUCache.Reach {K V : Type} [DecidableEq K] (cap : Nat) : LRUCache K V → Prop
  | new : LRUCache.Reach cap (LRUCache.new cap)
  | get {s : LRUCache K V} (k : K) : LRUCache.Reach cap s → LRUCache.Reach cap (s.get k).2
  | put {s : LRUCache K V} (k : K) (v : V) :
      LRUCache.Reach cap s → LRUCache.Reach cap (s.put k v)
  | clear {s : LRUCache K V} : LRUCache.Reach cap s → LRUCache.Reach cap s.clear

/-- A call of `get` or of `put`. -/
inductive CacheOp (K V : Type) where
  | get (k : K) : CacheOp K V
  | put (k : K) (v : V) : CacheOp K V

/-- The key a call is about. -/
def CacheOp.key {K V : Type} : CacheOp K V → K
  | CacheOp.get k => k
  | CacheOp.put k _ => k

/-- The state after the calls `ops`, made in order. -/
def LRUCache.run {K V : Type} [DecidableEq K] (s : LRUCache K V) :
    List (CacheOp K V) → LRUCache K V
  | [] => s
  | CacheOp.get k :: ops => LRUCache.run (s.get k).2 ops
  | CacheOp.put k v :: ops => LRUCache.run (s.put k v) ops

/-- The state after `put` was called on each pair of `kvs`, in order. -/
def LRUCache.putAll {K V : Type} [DecidableEq K] (s : LRUCache K V) :
    List (K × V) → LRUCache K V
  | [] => s
  | (k, v) :: kvs => LRUCache.putAll (s.put k v) kvs

/-! ## Proof device: the rows of the rebuilt reverse adjacency -/

/-- What row `es = adj[u]` contributes to `radj[v]`: one entry `(u, weight)` for each edge of
`es` that targets `v`, in order. -/
def contrib (v u : Nat) (es : List Edge) : List Edge :=
  (es.filter (fun e => decide (e.target = v))).map (fun e => ⟨u, e.weight⟩)

/-- The entries `buildReverseAdj` appends to `radj[v]` while it scans the rows
`adj[u], adj[u+1], ...`. -/
def incoming (v : Nat) : Nat → List (List Edge) → List Edge
  | _, [] => []
  | u, es :: rows => contrib v u es ++ incoming v (u + 1) rows

/-- The graphs reached from the empty graph by calls of `reserve`, `addNode`, `addEdge`,
`updateEdgeWeight` and `buildReverseAdj`. -/
inductive Graph.Reached : Graph → Prop
  | empty : Graph.Reached Graph.empty
  | reserve {g : Graph} (n : Nat) : Graph.Reached g → Graph.Reached (g.reserve n)
  | addNode {g : Graph} (id : Nat) (name : String) (lat lon : Int) :
      Graph.Reached g → Graph.Reached (g.addNode id name lat lon)
  | addEdge {g : Graph} (src dest : Nat) (weight : Int) :
      Graph.Reached g → Graph.Reached (g.addEdge src dest weight)
  | updateEdgeWeight {g : Graph} (src dest : Nat) (weight : Int) :
      Graph.Reached g → Graph.Reached (g.updateEdgeWeight src dest weight).1
  | buildReverseAdj {g : Graph} : Graph.Reached g → Graph.Reached g.buildReverseAdj

/-! ## Proof device: the iterations of `bidir_a_star` -/

/-- The value `open.empty() ? INF : open.top().first`. -/
def topPri (q : List PDI) : Option Int :=
  match pqTop q with
  | none => INF
  | some t => t.1

/-- Whether the backward half of an iteration started in `s` gets to the stopping test:
its popped pair, if any, is not discarded by `continue`. -/
def bwdReaches (s : BState) : Bool :=
  match pqPop s.bwd.openQ with
  | none => true
  | some ((f, u), _) => !ltD (s.bwd.f u) f

/-- Whether the iteration started in `s` gets to the stopping test: neither popped pair is
discarded by `continue`. -/
def reachesTest (g : Graph) (heurF : Nat → Int) (s : BState) : Bool :=
  match pqPop s.fwd.openQ with
  | none => bwdReaches s
  | some ((f, u), rest) =>
    if ltD (s.fwd.f u) f then false else bwdReaches (expandSide g.adj heurF u rest s)

/-- The state in which iteration number `k` (counted from zero) of the loop starts, when
the loop started in `s` gets that far. -/
def bidirAt (g : Graph) (heurF heurB : Nat → Int) : Nat → BState → Option BState
  | 0, s => some s
  | k + 1, s =>
    if s.fwd.openQ = [] ∨ s.bwd.openQ = [] then none
    else if (bidirIter g heurF heurB s).2 then none
    else bidirAt g heurF heurB k (bidirIter g heurF heurB s).1

/-- Four nodes: `0`, `1` and `3` at the point `(0, 0)` and node `2` one degree of latitude
to the north, with the edges `0->2 (0)`, `0->1 (5)`, `2->1 (0)`, `3->1 (5)`, reverse adjacency
rebuilt.  The great-circle distance is exactly `0` between the nodes `0`, `1`, `3` and more
than `5` from node `2` to each of them, so every priority that decides the run is a sum of
edge weights. -/
def tieGraph : Graph :=
  ((((((((Graph.empty.addNode 0 "a" 0 0).addNode 1 "b" 0 0).addNode 2 "c" 1 0).addNode
    3 "d" 0 0).addEdge 0 2 0).addEdge 0 1 5).addEdge 2 1 0).addEdge 3 1 5).buildReverseAdj

/-! ## Command dispatcher (`main.cpp`) -/

/-- The struct `QueryResult`. -/
structure QueryResult where
  dist : Option Int
  path : List Nat

/-- The function `makeKey`. -/
def makeKey (alg : String) (s t : Int) : String :=
  alg ++ "|" ++ toString s ++ "|" ++ toString t

/-- What the branch of `main` for a query command prints: `Invalid ids`, a cached result,
`No path found`, or a computed distance and path. -/
inductive QueryOutput where
  | invalidIds : QueryOutput
  | cached (qr : QueryResult) : QueryOutput
  | noPath : QueryOutput
  | found (d : Option Int) (path : List Nat) : QueryOutput

/-- The test `s >= (int)graph.adj.size() || t >= (int)graph.adj.size()` of `main`; the ids
are of type `int`. -/
def idsRejected (g : Graph) (s t : Int) : Bool :=
  decide (s ≥ (g.adj.length : Int)) || decide (t ≥ (g.adj.length : Int))

/-- The call of the search selected by the command name.  A negative id makes the search
index its arrays below zero, which is undefined: the model has no result for it (`none`,
as when the fuel runs out). -/
def runSearch (hav : Int → Int → Int → Int → Int) (fuel : Nat) (g : Graph) (cmd : String)
    (s t : Int) : Option (Option Int × List Nat) :=
  if s < 0 ∨ t < 0 then none
  else if cmd = "dijkstra" then dijkstra fuel g s.toNat t.toNat
  else if cmd = "astar" then a_star hav fuel g s.toNat t.toNat
  else bidir_a_star hav fuel g s.toNat t.toNat

/-- The branch of `main` for the commands `dijkstra`, `astar` and `bidir`: what is printed
and the cache afterwards. -/
def queryCommand (hav : Int → Int → Int → Int → Int) (fuel : Nat) (g : Graph)
    (cache : LRUCache String QueryResult) (cmd : String) (s t : Int) :
    Option (QueryOutput × LRUCache String QueryResult) :=
  if idsRejected g s t then some (QueryOutput.invalidIds, cache)
  else
    match cache.get (makeKey cmd s t) with
    | (some qr, cache1) => some (QueryOutput.cached qr, cache1)
    | (none, cache1) =>
      match runSearch hav fuel g cmd s t with
      | none => none
      | some res =>
        if res.1 = INF then some (QueryOutput.noPath, cache1)
        else
          some (QueryOutput.found res.1 res.2,
            cache1.put (makeKey cmd s t) ⟨res.1, res.2⟩)

/-- Whether the output is `Invalid ids`. -/
def QueryOutput.isInvalid : QueryOutput → Bool
  | QueryOutput.invalidIds => true
  | _ => false

/-- Four nodes on the zero meridian at latitudes `2, 4, 0, 5` (degrees) with the edges
`0->1 (111)`, `0->1 (0)`, `2->0 (444)`, `2->1 (555)`, `3->2 (0)`, reverse adjacency
rebuilt. -/
def staleTopGraph : Graph :=
  (((((((((Graph.empty.addNode 0 "a" 2 0).addNode 1 "b" 4 0).addNode 2 "c" 0 0).addNode
    3 "d" 5 0).addEdge 0 1 111).addEdge 0 1 0).addEdge 2 0 444).addEdge 2 1 555).addEdge
    3 2 0).buildReverseAdj

/-! ## Array accesses made explicit

The functions below repeat loops of the source with every index into a vector tested against
the size of that vector: the result is `none` as soon as an index is out of range. -/

/-- Inner loop of `buildReverseAdj` with the access `radj[e.to]` tested. -/
def revEdgesChk (u : Nat) : List Edge → List (List Edge) → Option (List (List Edge))
  | [], r => some r
  | e :: es, r =>
    if e.target < r.length then
      revEdgesChk u es (modifyAt (fun l => l ++ [⟨u, e.weight⟩]) e.target r)
    else none

/-- Outer loop of `buildReverseAdj` with the accesses `radj[e.to]` tested. -/
def revRowsChk : Nat → List (List Edge) → List (List Edge) → Option (List (List Edge))
  | _, [], r => some r
  | u, es :: rows, r =>
    match revEdgesChk u es r with
    | some r1 => revRowsChk (u + 1) rows r1
    | none => none

/-- The method `Graph::buildReverseAdj` with the accesses `radj[e.to]` tested. -/
def Graph.buildReverseAdjChk (g : Graph) : Option Graph :=
  match revRowsChk 0 g.adj (List.replicate g.adj.length []) with
  | some r => some { g with radj := r }
  | none => none

/-- The method `Graph::updateEdgeWeight` with the access `radj[to]` tested (the access
`adj[from]` follows the test `from >= adj.size()` of the source). -/
def Graph.updateEdgeWeightChk (g : Graph) (src dest : Nat) (weight : Int) :
    Option (Graph × Bool) :=
  if src ≥ g.adj.length then some (g, false)
  else
    let r := setFirst dest weight (g.adj.getD src [])
    if r.2 then
      if dest < g.radj.length then
        some ({ g with adj := modifyAt (fun _ => r.1) src g.adj,
                       radj := modifyAt (fun res => (setFirst src weight res).1) dest g.radj },
          true)
      else none
    else some (g, false)

/-- The relaxation loop of `dijkstra` with the accesses `dist[u]`, `dist[v]`, `parent[v]`
tested against the size `n` of these vectors. -/
def dijkstraRelaxChk (n u : Nat) : List Edge → DState → Option DState
  | [], s => some s
  | e :: es, s =>
    if u < n ∧ e.target < n then
      if ltD (addW (s.dist u) e.weight) (s.dist e.target) then
        dijkstraRelaxChk n u es
          { dist := upd s.dist e.target (addW (s.dist u) e.weight)
            parent := upd s.parent e.target (some u)
            pq := (addW (s.dist u) e.weight, e.target) :: s.pq }
      else dijkstraRelaxChk n u es s
    else none

/-- The relaxation loop of `a_star` with the accesses `gscore[u]`, `gscore[v]`, `parent[v]`,
`fscore[v]` tested against the size `n` of these vectors. -/
def aStarRelaxChk (n : Nat) (heuristic : Nat → Int) (u : Nat) :
    List Edge → AState → Option AState
  | [], s => some s
  | e :: es, s =>
    if u < n ∧ e.target < n then
      if ltD (addW (s.gscore u) e.weight) (s.gscore e.target) then
        aStarRelaxChk n heuristic u es
          { parent := upd s.parent e.target (some u)
            gscore := upd s.gscore e.target (addW (s.gscore u) e.weight)
            fscore := upd s.fscore e.target
              (addW (addW (s.gscore u) e.weight) (heuristic e.target))
            openQ := (addW (addW (s.gscore u) e.weight) (heuristic e.target), e.target)
              :: s.openQ }
      else aStarRelaxChk n heuristic u es s
    else none

/-- The relaxation loop of one direction of `bidir_a_star` with the accesses `g[u]`, `g[v]`,
`p[v]`, `f[v]` tested against the size `n` of these vectors. -/
def sideRelaxChk (n : Nat) (heur : Nat → Int) (u : Nat) : List Edge → Side → Option Side
  | [], s => some s
  | e :: es, s =>
    if u < n ∧ e.target < n then
      if ltD (addW (s.g u) e.weight) (s.g e.target) then
        sideRelaxChk n heur u es
          { s with
            g := upd s.g e.target (addW (s.g u) e.weight)
            p := upd s.p e.target (some u)
            f := upd s.f e.target (addW (addW (s.g u) e.weight) (heur e.target))
            openQ := (addW (addW (s.g u) e.weight) (heur e.target), e.target) :: s.openQ }
      else sideRelaxChk n heur u es s
    else none

/-- Every entry of the reverse adjacency names a node slot of the graph. -/
def Graph.RevInRange (g : Graph) : Prop := ∀ es ∈ g.radj, ∀ e ∈ es, e.target < g.radj.length

instance (g : Graph) : Decidable g.RevInRange := by unfold Graph.RevInRange; infer_instance

/-! ## Proof device: the updated scenario -/

/-- What the arrays of `a_star` can hold on the graph with the edges `0->1 (1)`, `1->2 (1)`,
`0->2 (1)`, `2->3 (1)` when the search starts at node 0: nodes 1 and 2 get their costs
together, from node 0, and node 3 gets its cost from node 2. -/
def ShortcutA (s : AState) : Prop :=
  s.gscore 0 = some 0 ∧ s.parent 0 = none ∧
    ((s.gscore 1 = none ∧ s.gscore 2 = none ∧ s.gscore 3 = none) ∨
      (s.gscore 1 = some 1 ∧ s.gscore 2 = some 1 ∧ s.parent 2 = some 0 ∧
        (s.gscore 3 = none ∨ (s.gscore 3 = some 2 ∧ s.parent 3 = some 2))))

/-- Costs, parents, candidate and meeting node of `bidir_a_star` on the same graph for the
query `(0, 3)`, once a meeting node is recorded. -/
structure ShortcutB (s : BState) : Prop where
  best : s.best = some 2
  meeting : s.meeting = some 2
  gF0 : s.fwd.g 0 = some 0
  gF1 : s.fwd.g 1 = some 1
  gF2 : s.fwd.g 2 = some 1
  gF3 : s.fwd.g 3 = some 2
  gFn : ∀ v, 4 ≤ v → s.fwd.g v = none
  gB0 : s.bwd.g 0 = some 2
  gB1 : s.bwd.g 1 = some 2
  gB2 : s.bwd.g 2 = some 1
  gB3 : s.bwd.g 3 = some 0
  gBn : ∀ v, 4 ≤ v → s.bwd.g v = none
  pF2 : s.fwd.p 2 = some 0
  pF0 : s.fwd.p 0 = none
  pB2 : s.bwd.p 2 = some 3
  pB3 : s.bwd.p 3 = none

/-! ## Double arithmetic

A finite `double` is a whole multiple of `2^-1074`, the least positive `double`.  In the
definitions of this section a cost `some x` stands for the `double` of value `x * 2^-1074`,
so that every finite `double` is the image of an integer; edge weights and the values of
`hav` are read in the same unit.  A sum of two such values is computed exactly and then
rounded once, as IEEE 754 prescribes for `+`. -/

/-- Number of low bits that `n` loses when it is stored with 53 significant bits (the first
argument bounds the number of halvings). -/
def dropBits : Nat → Nat → Nat
  | 0, _ => 0
  | k + 1, n => if n < 2 ^ 53 then 0 else dropBits k (n / 2) + 1

/-- Rounding of `n` to a multiple of `s`, to nearest, a tie going to the even multiple. -/
def roundTo (s n : Nat) : Nat :=
  if 2 * (n % s) < s then n / s * s
  else if s < 2 * (n % s) then (n / s + 1) * s
  else if n / s % 2 = 0 then n / s * s
  else (n / s + 1) * s

/-- Rounding of a natural number to 53 significant bits, to nearest, a tie going to the even
significand: what is kept of `n` when it is stored in a `double`. -/
def roundNat (n : Nat) : Nat := roundTo (2 ^ dropBits n n) n

/-- The value `2^1024` in units of `2^-1074`: a rounded magnitude that reaches it overflows. -/
def overflowD : Nat := 2 ^ 2098

/-- The `double` nearest to the exact value `x`; `none` (`+infinity`) when the rounded value
overflows.  The model has no `-infinity`: a value that would round below the least finite
`double` is kept at the least finite `double` (the sum of a non-negative cost and a finite
`double`, the only kind of sum the searches make on non-negative weights, is never below
it). -/
def roundD (x : Int) : Option Int :=
  if 0 ≤ x then
    if roundNat x.toNat < overflowD then some (roundNat x.toNat) else none
  else some (-((min (roundNat (-x).toNat) (overflowD - 2 ^ 2045) : Nat) : Int))

/-- The C++ sum `d + w` of a cost and a finite weight, in `double` arithmetic. -/
def faddW (d : Option Int) (w : Int) : Option Int :=
  match d with
  | some x => roundD (x + w)
  | none => none

/-- The C++ sum `a + b` of two costs, in `double` arithmetic. -/
def faddD (a b : Option Int) : Option Int :=
  match a, b with
  | some x, some y => roundD (x + y)
  | _, _ => none

/-- The whole number `k` as a `double`, in units of `2^-1074`. -/
def whole (k : Int) : Int := k * 2 ^ 1074

/-! ## The searches in double arithmetic -/

/-- The loop `for (const auto &e : g.adj[u])` of `dijkstra`, the sum `dist[u] + w` rounded. -/
def Dbl.dijkstraRelax (u : Nat) : List Edge → DState → DState
  | [], s => s
  | e :: es, s =>
    if ltD (faddW (s.dist u) e.weight) (s.dist e.target) then
      Dbl.dijkstraRelax u es
        { dist := upd s.dist e.target (faddW (s.dist u) e.weight)
          parent := upd s.parent e.target (some u)
          pq := (faddW (s.dist u) e.weight, e.target) :: s.pq }
    else Dbl.dijkstraRelax u es s

/-- The loop `while (!pq.empty())` of `dijkstra`. -/
def Dbl.dijkstraLoop (g : Graph) (dst : Nat) : Nat → DState → Option DState
  | fuel, s =>
    match pqPop s.pq with
    | none => some s
    | some ((d, u), rest) =>
      match fuel with
      | 0 => none
      | fuel + 1 =>
        if ltD (s.dist u) d then Dbl.dijkstraLoop g dst fuel { s with pq := rest }
        else if u = dst then some { s with pq := rest }
        else if u ≥ g.adj.length then Dbl.dijkstraLoop g dst fuel { s with pq := rest }
        else
          Dbl.dijkstraLoop g dst fuel (Dbl.dijkstraRelax u (g.adj.getD u []) { s with pq := rest })

/-- The function `dijkstra`, in double arithmetic. -/
def Dbl.dijkstra (fuel : Nat) (g : Graph) (src dst : Nat) : Option (Option Int × List Nat) :=
  match Dbl.dijkstraLoop g dst fuel (dijkstraInit src) with
  | none => none
  | some s =>
    if s.dist dst = INF then some (INF, [])
    else
      match walkParents s.parent fuel (some dst) with
      | none => none
      | some path => some (s.dist dst, path.reverse)

/-- The loop `for (const auto &e : g.adj[u])` of `a_star`: `tentative_g = gscore[u] + e.weight`
and `fscore[v] = tentative_g + heuristic(v)` are rounded sums. -/
def Dbl.aStarRelax (heuristic : Nat → Int) (u : Nat) : List Edge → AState → AState
  | [], s => s
  | e :: es, s =>
    if ltD (faddW (s.gscore u) e.weight) (s.gscore e.target) then
      Dbl.aStarRelax heuristic u es
        { parent := upd s.parent e.target (some u)
          gscore := upd s.gscore e.target (faddW (s.gscore u) e.weight)
          fscore := upd s.fscore e.target
            (faddW (faddW (s.gscore u) e.weight) (heuristic e.target))
          openQ := (faddW (faddW (s.gscore u) e.weight) (heuristic e.target), e.target)
            :: s.openQ }
    else Dbl.aStarRelax heuristic u es s

/-- The loop `while (!open.empty())` of `a_star`. -/
def Dbl.aStarLoop (g : Graph) (heuristic : Nat → Int) (dst : Nat) : Nat → AState → Option AState
  | fuel, s =>
    match pqPop s.openQ with
    | none => some s
    | some ((_f, u), rest) =>
      match fuel with
      | 0 => none
      | fuel + 1 =>
        if u = dst then some { s with openQ := rest }
        else if u ≥ g.adj.length then Dbl.aStarLoop g heuristic dst fuel { s with openQ := rest }
        else
          Dbl.aStarLoop g heuristic dst fuel
            (Dbl.aStarRelax heuristic u (g.adj.getD u []) { s with openQ := rest })

/-- The function `a_star`, in double arithmetic. -/
def Dbl.a_star (hav : Int → Int → Int → Int → Int) (fuel : Nat) (g : Graph) (src dst : Nat) :
    Option (Option Int × List Nat) :=
  let heuristic : Nat → Int := fun u => g.haversineDistance hav u dst
  match Dbl.aStarLoop g heuristic dst fuel (aStarInit heuristic src) with
  | none => none
  | some s =>
    if s.gscore dst = INF then some (INF, [])
    else
      match walkParents s.parent fuel (some dst) with
      | none => none
      | some path => some (s.gscore dst, path.reverse)

/-- The relaxation loop of one direction of `bidir_a_star`: `g[u] + w` and `g[v] + heur(v)`
are rounded sums. -/
def Dbl.sideRelax (heur : Nat → Int) (u : Nat) : List Edge → Side → Side
  | [], s => s
  | e :: es, s =>
    if ltD (faddW (s.g u) e.weight) (s.g e.target) then
      Dbl.sideRelax heur u es
        { s with
          g := upd s.g e.target (faddW (s.g u) e.weight)
          p := upd s.p e.target (some u)
          f := upd s.f e.target (faddW (faddW (s.g u) e.weight) (heur e.target))
          openQ := (faddW (faddW (s.g u) e.weight) (heur e.target), e.target) :: s.openQ }
    else Dbl.sideRelax heur u es s

/-- The update `total = gF[u] + gB[u]; if (total < best) { best = total; meeting = u; }` when
`u` was seen by the other side, the sum rounded. -/
def Dbl.meet (otherSeen : Nat → Bool) (u : Nat) (s : BState) : BState :=
  if otherSeen u then
    if ltD (faddD (s.fwd.g u) (s.bwd.g u)) s.best then
      { s with best := faddD (s.fwd.g u) (s.bwd.g u), meeting := some u }
    else s
  else s

/-- The backward half of an iteration followed by the stopping test. -/
def Dbl.bwdHalf (g : Graph) (heurB : Nat → Int) (s : BState) : BState × Bool :=
  match pqPop s.bwd.openQ with
  | none => (s, stopTest s)
  | some ((f, u), rest) =>
    let s1 : BState := { s with bwd := { s.bwd with openQ := rest } }
    if ltD (s1.bwd.f u) f then (s1, false)
    else
      let s2 : BState := { s1 with bwd := { s1.bwd with seen := upd s1.bwd.seen u true } }
      let s3 := Dbl.meet s2.fwd.seen u s2
      let s4 : BState :=
        if u < g.radj.length then
          { s3 with bwd := Dbl.sideRelax heurB u (g.radj.getD u []) s3.bwd }
        else s3
      (s4, stopTest s4)

/-- One iteration of the loop body of `bidir_a_star`. -/
def Dbl.bidirIter (g : Graph) (heurF heurB : Nat → Int) (s : BState) : BState × Bool :=
  match pqPop s.fwd.openQ with
  | none => Dbl.bwdHalf g heurB s
  | some ((f, u), rest) =>
    let s1 : BState := { s with fwd := { s.fwd with openQ := rest } }
    if ltD (s1.fwd.f u) f then (s1, false)
    else
      let s2 : BState := { s1 with fwd := { s1.fwd with seen := upd s1.fwd.seen u true } }
      let s3 := Dbl.meet s2.bwd.seen u s2
      let s4 : BState :=
        if u < g.adj.length then
          { s3 with fwd := Dbl.sideRelax heurF u (g.adj.getD u []) s3.fwd }
        else s3
      Dbl.bwdHalf g heurB s4

/-- The loop `while (!openF.empty() && !openB.empty())`. -/
def Dbl.bidirLoop (g : Graph) (heurF heurB : Nat → Int) : Nat → BState → Option BState
  | fuel, s =>
    if s.fwd.openQ = [] ∨ s.bwd.openQ = [] then some s
    else
      match fuel with
      | 0 => none
      | fuel + 1 =>
        if (Dbl.bidirIter g heurF heurB s).2 then some (Dbl.bidirIter g heurF heurB s).1
        else Dbl.bidirLoop g heurF heurB fuel (Dbl.bidirIter g heurF heurB s).1

/-- The function `bidir_a_star`, in double arithmetic. -/
def Dbl.bidir_a_star (hav : Int → Int → Int → Int → Int) (fuel : Nat) (g : Graph)
    (src dst : Nat) : Option (Option Int × List Nat) :=
  if src = dst then some (some 0, [src])
  else
    let heurF : Nat → Int := fun u => g.haversineDistance hav u dst
    let heurB : Nat → Int := fun u => g.haversineDistance hav u src
    match Dbl.bidirLoop g heurF heurB fuel (bidirInit heurF heurB src dst) with
    | none => none
    | some s =>
      match s.meeting with
      | none => some (INF, [])
      | some m =>
        match walkParents s.fwd.p fuel (some m), walkParents s.bwd.p fuel (some m) with
        | some pathF, some pathB => some (s.best, pathF.reverse ++ pathB.tail)
        | _, _ => none


/-- The exact value `x` is the value of a `double`: storing it loses nothing. -/
def IsDouble (x : Int) : Prop := roundD x = some x

instance (x : Int) : Decidable (IsDouble x) := by unfold IsDouble; infer_instance


/-- A simple path from `start` to `v`, built edge by edge from `start`: `c` is the sum of its
weights added in that order, and `vis` lists the nodes visited, each with the sum reached
there (the last node first). -/
inductive Trail (E : Nat → List Edge) (start : Nat) : Nat → Int → List (Nat × Int) → Prop
  | base : Trail E start start 0 [(start, 0)]
  | snoc {u v : Nat} {w c : Int} {vis : List (Nat × Int)} :
      Trail E start u c vis → (⟨v, w⟩ : Edge) ∈ E u → (∀ p ∈ vis, p.1 ≠ v) →
      Trail E start v (c + w) ((v, c + w) :: vis)

/-- No sum of weights formed along a simple path from `start` is rounded: each is the value
of a `double`. -/
def ExactFrom (E : Nat → List Edge) (start : Nat) : Prop :=
  ∀ v c vis, Trail E start v c vis → IsDouble c

/-- The sum of the weights of a simple path from `src` to a node and of a simple path from
`dst` to the same node along `EB` is the value of a `double`. -/
def ExactMeet (EF EB : Nat → List Edge) (src dst : Nat) : Prop :=
  ∀ u cF visF cB visB, Trail EF src u cF visF → Trail EB dst u cB visB → IsDouble (cF + cB)

/-- The sums that the searches from `src` to `dst` may form are exact: along every simple
path out of `src`, along every simple path into `dst` (summed from `dst`), and for every pair
of such paths that meet. -/
def Graph.ExactSums (g : Graph) (src dst : Nat) : Prop :=
  ExactFrom g.fwd src ∧ ExactFrom g.bwd dst ∧ ExactMeet g.fwd g.bwd src dst

/-- Every finite cost is the sum along a simple path from the start, no node of which has
a cost above the sum reached there. -/
def TrailInv (E : Nat → List Edge) (start : Nat) (g : Nat → Option Int) : Prop :=
  ∀ v x, g v = some x →
    ∃ vis, Trail E start v x vis ∧ ∀ p ∈ vis, ∃ y, g p.1 = some y ∧ y ≤ p.2


/-! ## Proof device: the search invariant with rounded priorities -/

/-- Priority of a cost: `key y v` for a finite cost `y`, `+infinity` for an infinite one. -/
def keyOf (key : Int → Nat → Option Int) (d : Option Int) (v : Nat) : Option Int :=
  match d with
  | some y => key y v
  | none => none

/-- The first direction pops `u`, marks it seen, records a meeting and relaxes the edges of
`u` in `adj`, in double arithmetic. -/
def Dbl.expandSide (adj : List (List Edge)) (heur : Nat → Int) (u : Nat) (rest : List PDI)
    (s : BState) : BState :=
  let s1 : BState := { s with fwd := { s.fwd with openQ := rest } }
  let s2 : BState := { s1 with fwd := { s1.fwd with seen := upd s1.fwd.seen u true } }
  let s3 := Dbl.meet s2.bwd.seen u s2
  if u < adj.length then { s3 with fwd := Dbl.sideRelax heur u (adj.getD u []) s3.fwd } else s3

/-- Every forward edge weighs a whole number of units (a multiple of `2^1074`), between `0`
and `K` units. -/
def Graph.WholeUpTo (g : Graph) (K : Nat) : Prop :=
  ∀ es ∈ g.adj, ∀ e ∈ es, 0 ≤ e.weight ∧ e.weight ≤ whole K ∧ e.weight % 2 ^ 1074 = 0

instance (g : Graph) (K : Nat) : Decidable (g.WholeUpTo K) := by
  unfold Graph.WholeUpTo; infer_instance

/-- Every edge of `E` targets a node below `N` and weighs a whole number of units, at most
`K`. -/
def WholeE (E : Nat → List Edge) (N K : Nat) : Prop :=
  ∀ a e, e ∈ E a → e.target < N ∧ ∃ k : Nat, k ≤ K ∧ e.weight = whole k


/-! ## Inputs in double arithmetic -/

/-- The scenario graph with its weights as doubles: nodes `0..3` at the given latitudes on
the zero meridian, edges `0->1 (1.0)`, `1->2 (1.0)`, `0->2 (5.0)`, `2->3 (1.0)`, reverse
adjacency rebuilt. -/
def scenarioKm (lat0 lat1 lat2 lat3 : Int) : Graph :=
  ((((((((Graph.empty.addNode 0 "n0" lat0 0).addNode 1 "n1" lat1 0).addNode 2 "n2" lat2 0).addNode
    3 "n3" lat3 0).addEdge 0 1 (whole 1)).addEdge 1 2 (whole 1)).addEdge 0 2 (whole 5)).addEdge
    2 3 (whole 1)).buildReverseAdj

/-- Four nodes at one point with the edges `0->3 (2^53 + 2)`, `0->1 (2^53)`, `1->2 (1.0)`,
`2->3 (1.0)`, reverse adjacency rebuilt: both paths from `0` to `3` weigh `2^53 + 2`, and
the double sum `2^53 + 1.0` rounds to `2^53`. -/
def roundGraph : Graph :=
  ((((((((Graph.empty.addNode 0 "a" 0 0).addNode 1 "b" 0 0).addNode 2 "c" 0 0).addNode
    3 "d" 0 0).addEdge 0 3 (whole (2 ^ 53 + 2))).addEdge 0 1 (whole (2 ^ 53))).addEdge
    1 2 (whole 1)).addEdge 2 3 (whole 1)).buildReverseAdj

@[simp] theorem ltD_some_some (x y : Int) : ltD (some x) (some y) = decide (x < y) := rfl
@[simp] theorem ltD_some_none (x : Int) : ltD (some x) none = true := rfl
@[simp] theorem ltD_none (b : Option Int) : ltD none b = false := by cases b <;> rfl
@[simp] theorem addW_some (x w : Int) : addW (some x) w = some (x + w) := rfl
@[simp] theorem addW_none (w : Int) : addW none w = none := rfl
@[simp] theorem addD_some_some (x y : Int) : addD (some x) (some y) = some (x + y) := rfl
@[simp] theorem addD_none_left (b : Option Int) : addD none b = none := rfl
@[simp] theorem addD_none_right (a : Option Int) : addD a none = none := by cases a <;> rfl
@[simp] theorem upd_same {α : Type} (a : Nat → α) (i : Nat) (x : α) : upd a i x i = x := by
  simp [upd]
theorem upd_other {α : Type} (a : Nat → α) {i j : Nat} (x : α) (h : j ≠ i) :
    upd a i x j = a j := by
  simp [upd, h]

theorem ltD_false_trans {a b c : Option Int} (h1 : ltD b a = false) (h2 : ltD c b = false) :
    ltD c a = false := by
  cases a <;> cases b <;> cases c <;> simp_all
  omega

theorem ltD_true_iff {a b : Option Int} :
    ltD a b = true ↔ ∃ x, a = some x ∧ ∀ y, b = some y → x < y := by
  cases a <;> cases b <;> simp

theorem ltD_false_iff {a : Option Int} {x : Int} :
    ltD (some x) a = false ↔ ∃ y, a = some y ∧ y ≤ x := by
  cases a <;> simp

theorem pqMin_mem (x : PDI) (q : List PDI) : pqMin x q ∈ x :: q := by
  induction q generalizing x with
  | nil => simp [pqMin]
  | cons y q ih =>
    have h := ih (if pdiLe x y then x else y)
    simp only [pqMin]
    rcases List.mem_cons.1 h with h1 | h1
    · rw [h1]
      split
      · exact List.mem_cons_self _ _
      · exact List.mem_cons_of_mem _ (List.mem_cons_self _ _)
    · exact List.mem_cons_of_mem _ (List.mem_cons_of_mem _ h1)

theorem pqMin_le (x : PDI) (q : List PDI) : ∀ e ∈ x :: q, ltD e.1 (pqMin x q).1 = false := by
  induction q generalizing x with
  | nil =>
    intro e he
    simp only [List.mem_singleton] at he
    subst he
    cases h : e.1 <;> simp [pqMin, h]
  | cons y q ih =>
    intro e he
    simp only [pqMin]
    by_cases hxy : pdiLe x y = true
    · simp only [hxy, if_true]
      have hx := ih x x (List.mem_cons_self _ _)
      have hyx : ltD y.1 x.1 = false := by
        simp only [pdiLe, Bool.or_eq_true, Bool.and_eq_true, Bool.not_eq_true'] at hxy
        rcases hxy with h | h
        · cases hx1 : x.1 <;> cases hy1 : y.1 <;> simp_all
          omega
        · exact h.1
      rcases List.mem_cons.1 he with rfl | he
      · exact hx
      rcases List.mem_cons.1 he with rfl | he
      · exact ltD_false_trans hx hyx
      · exact ih x e (List.mem_cons_of_mem _ he)
    · simp only [hxy, if_false, Bool.false_eq_true]
      have hy := ih y y (List.mem_cons_self _ _)
      have hxy2 : ltD x.1 y.1 = false := by
        simp only [pdiLe, Bool.or_eq_true, not_or, Bool.not_eq_true] at hxy
        exact hxy.1
      rcases List.mem_cons.1 he with rfl | he
      · exact ltD_false_trans hy hxy2
      rcases List.mem_cons.1 he with rfl | he
      · exact hy
      · exact ih y e (List.mem_cons_of_mem _ he)

theorem pqPop_none {q : List PDI} : pqPop q = none ↔ q = [] := by
  cases q <;> simp [pqPop, pqTop]

theorem pqPop_some {q : List PDI} {m : PDI} {rest : List PDI} (h : pqPop q = some (m, rest)) :
    m ∈ q ∧ rest = q.erase m ∧ ∀ e ∈ q, ltD e.1 m.1 = false := by
  cases q with
  | nil => simp [pqPop, pqTop] at h
  | cons x q =>
    simp only [pqPop, pqTop, Option.some.injEq, Prod.mk.injEq] at h
    obtain ⟨rfl, rfl⟩ := h
    exact ⟨pqMin_mem x q, rfl, pqMin_le x q⟩

theorem pqTop_some {q : List PDI} {m : PDI} (h : pqTop q = some m) :
    m ∈ q ∧ ∀ e ∈ q, ltD e.1 m.1 = false := by
  cases q with
  | nil => simp [pqTop] at h
  | cons x q =>
    simp only [pqTop, Option.some.injEq] at h
    subst h
    exact ⟨pqMin_mem x q, pqMin_le x q⟩

theorem pqTop_none {q : List PDI} : pqTop q = none ↔ q = [] := by
  cases q <;> simp [pqTop]

/-! ### Relaxation keeps the search invariant -/

section Relax
variable {E : Nat → List Edge} {h : Nat → Int} {start u : Nat}

theorem CoreInv.step (hw : NonNegE E) {e : Edge} {es : List Edge} {c : Core}
    (hc : CoreInv E h start u (e :: es) c) :
    CoreInv E h start u es
      (if ltD (addW (c.g u) e.weight) (c.g e.target) then
        { g := upd c.g e.target (addW (c.g u) e.weight)
          p := upd c.p e.target (some u)
          q := (addW (addW (c.g u) e.weight) (h e.target), e.target) :: c.q }
      else c) := by
  have heE : e ∈ E u := hc.todo_sub e (List.mem_cons_self _ _)
  have hw0 : 0 ≤ e.weight := hw u e heE
  by_cases hlt : ltD (addW (c.g u) e.weight) (c.g e.target) = true
  · simp only [hlt, if_true]
    cases hgu : c.g u with
    | none => simp [hgu] at hlt
    | some x =>
      simp only [hgu, addW_some] at hlt ⊢
      have hx0 : 0 ≤ x := hc.g_nonneg u x hgu
      have hlt2 : ∀ y, c.g e.target = some y → x + e.weight < y := by
        intro y hy
        simpa [hy] using hlt
      have hne_u : e.target ≠ u := by
        intro heq
        have := hlt2 x (by rw [heq]; exact hgu)
        omega
      have hne_s : e.target ≠ start := by
        intro heq
        have := hlt2 0 (by rw [heq]; exact hc.g_start)
        omega
      have hgu2 : upd c.g e.target (some (x + e.weight)) u = some x := by
        rw [upd_other _ _ (Ne.symm hne_u)]; exact hgu
      refine ⟨?_, ?_, ?_, ?_, ?_, ?_, ?_, ?_⟩
      · show upd c.g e.target _ start = some 0
        rw [upd_other _ _ (Ne.symm hne_s)]; exact hc.g_start
      · show upd c.p e.target _ start = none
        rw [upd_other _ _ (Ne.symm hne_s)]; exact hc.p_start
      · intro v y hv
        dsimp only at hv
        by_cases hvt : v = e.target
        · subst hvt
          simp only [upd_same, Option.some.injEq] at hv
          omega
        · rw [show upd c.g e.target (some (x + e.weight)) v = c.g v from upd_other _ _ hvt] at hv
          exact hc.g_nonneg v y hv
      · intro v y hv hvs
        dsimp only at hv ⊢
        by_cases hvt : v = e.target
        · subst hvt
          exact ⟨u, by simp⟩
        · rw [show upd c.g e.target (some (x + e.weight)) v = c.g v from upd_other _ _ hvt] at hv
          obtain ⟨u', hu'⟩ := hc.p_some v y hv hvs
          exact ⟨u', by show upd c.p e.target _ v = some u'; rw [upd_other _ _ hvt]; exact hu'⟩
      · obtain ⟨t, ht⟩ := hc.p_link
        refine ⟨upd t e.target (t u + 1), ?_⟩
        intro v u' hp
        dsimp only at hp ⊢
        by_cases hvt : v = e.target
        · subst hvt
          have hu' : u' = u := by
            have : upd c.p e.target (some u) e.target = some u' := hp
            simp only [upd_same, Option.some.injEq] at this
            exact this.symm
          subst hu'
          refine ⟨x + e.weight, x, e.weight, by simp, hgu2, heE, le_refl _, Or.inr ?_⟩
          rw [upd_same, upd_other _ _ (Ne.symm hne_u)]
          omega
        · have hp' : c.p v = some u' := by
            have : upd c.p e.target (some u) v = some u' := hp
            rwa [upd_other _ _ hvt] at this
          obtain ⟨xv, y, w, h1, h2, h3, h4, h5⟩ := ht v u' hp'
          by_cases hut : u' = e.target
          · subst hut
            have hy := hlt2 y h2
            have hw' : 0 ≤ w := hw _ _ h3
            refine ⟨xv, x + e.weight, w, ?_, by simp, h3, by omega, Or.inl (by omega)⟩
            show upd c.g _ _ v = some xv
            rw [upd_other _ _ hvt]; exact h1
          · refine ⟨xv, y, w, ?_, ?_, h3, h4, ?_⟩
            · show upd c.g _ _ v = some xv
              rw [upd_other _ _ hvt]; exact h1
            · show upd c.g _ _ u' = some y
              rw [upd_other _ _ hut]; exact h2
            · rw [upd_other _ _ hut, upd_other _ _ hvt]; exact h5
      · intro f v hfv
        dsimp only at hfv ⊢
        rcases List.mem_cons.1 hfv with heq | hmem
        · simp only [Prod.mk.injEq] at heq
          obtain ⟨rfl, rfl⟩ := heq
          exact ⟨x + e.weight, x + e.weight, rfl, by simp, le_refl _⟩
        · obtain ⟨y, xv, h1, h2, h3⟩ := hc.q_sound f v hmem
          by_cases hvt : v = e.target
          · subst hvt
            have := hlt2 xv h2
            exact ⟨y, x + e.weight, h1, by simp, by omega⟩
          · exact ⟨y, xv, h1, by show upd c.g _ _ v = some xv; rw [upd_other _ _ hvt]; exact h2, h3⟩
      · intro v xv hv
        dsimp only at hv ⊢
        by_cases hvt : v = e.target
        · subst hvt
          left
          have hv' : upd c.g e.target (some (x + e.weight)) e.target = some xv := hv
          simp only [upd_same, Option.some.injEq] at hv'
          subst hv'
          exact List.mem_cons_self _ _
        · have hv' : c.g v = some xv := by
            have : upd c.g e.target (some (x + e.weight)) v = some xv := hv
            rwa [upd_other _ _ hvt] at this
          rcases hc.frontier v xv hv' with hq | hcl
          · left; exact List.mem_cons_of_mem _ hq
          · right
            intro e' he'
            have key : ∀ y, c.g e'.target = some y → y ≤ xv + e'.weight →
                ∃ y', upd c.g e.target (some (x + e.weight)) e'.target = some y' ∧
                  y' ≤ xv + e'.weight := by
              intro y hy hle
              by_cases het : e'.target = e.target
              · refine ⟨x + e.weight, by rw [het]; simp, ?_⟩
                have := hlt2 y (by rw [← het]; exact hy)
                omega
              · exact ⟨y, by rw [upd_other _ _ het]; exact hy, hle⟩
            rcases hcl e' he' with ⟨hvu, hmem⟩ | ⟨y, hy, hle⟩
            · rcases List.mem_cons.1 hmem with heq | hmem'
              · right
                subst heq
                subst hvu
                have hxv : xv = x := by
                  rw [hgu] at hv'
                  exact (Option.some.inj hv').symm
                subst hxv
                exact ⟨xv + e'.weight, by simp, le_refl _⟩
              · left; exact ⟨hvu, hmem'⟩
            · right; exact key y hy hle
      · intro e' he'
        exact hc.todo_sub e' (List.mem_cons_of_mem _ he')
  · simp only [hlt, if_false, Bool.false_eq_true]
    have hlt' : ltD (addW (c.g u) e.weight) (c.g e.target) = false := by
      simpa using hlt
    refine ⟨hc.g_start, hc.p_start, hc.g_nonneg, hc.p_some, hc.p_link, hc.q_sound, ?_, ?_⟩
    · intro v xv hv
      rcases hc.frontier v xv hv with hq | hcl
      · left; exact hq
      · right
        intro e' he'
        rcases hcl e' he' with ⟨hvu, hmem⟩ | hr
        · rcases List.mem_cons.1 hmem with heq | hmem'
          · right
            subst heq
            subst hvu
            rw [hv, addW_some] at hlt'
            obtain ⟨y, hy, hle⟩ := ltD_false_iff.1 hlt'
            exact ⟨y, hy, hle⟩
          · left; exact ⟨hvu, hmem'⟩
        · right; exact hr
    · intro e' he'
      exact hc.todo_sub e' (List.mem_cons_of_mem _ he')

theorem CoreInv.relax (hw : NonNegE E) (es : List Edge) (c : Core)
    (hc : CoreInv E h start u es c) : CoreInv E h start u [] (coreRelax h u es c) := by
  induction es generalizing c with
  | nil => exact hc
  | cons e es ih =>
    have hs := CoreInv.step hw hc
    simp only [coreRelax]
    split
    · rename_i hlt
      simp only [hlt, if_true] at hs
      exact ih _ hs
    · rename_i hlt
      simp only [hlt, if_false] at hs
      exact ih _ hs

end Relax

/-! ### Popping a pair -/

section Pop
variable {E : Nat → List Edge} {h : Nat → Int} {start : Nat}

theorem CoreInv.retarget {u u' : Nat} {c : Core} (hc : CoreInv E h start u [] c) :
    CoreInv E h start u' [] c := by
  refine ⟨hc.g_start, hc.p_start, hc.g_nonneg, hc.p_some, hc.p_link, hc.q_sound, ?_, ?_⟩
  · intro v x hv
    rcases hc.frontier v x hv with hq | hcl
    · exact Or.inl hq
    · right
      intro e he
      rcases hcl e he with ⟨_, hm⟩ | hr
      · simp at hm
      · exact Or.inr hr
  · intro e he
    simp at he

/-- Removing a pair of node `u` and starting to expand `u`. -/
theorem CoreInv.pop {u0 : Nat} {c : Core} (hc : CoreInv E h start u0 [] c) (f : Option Int)
    (u : Nat) : CoreInv E h start u (E u) ⟨c.g, c.p, c.q.erase (f, u)⟩ := by
  refine ⟨hc.g_start, hc.p_start, hc.g_nonneg, hc.p_some, hc.p_link, ?_, ?_, ?_⟩
  · intro f' v hm
    exact hc.q_sound f' v (List.mem_of_mem_erase hm)
  · intro v x hv
    by_cases hvu : v = u
    · right
      intro e he
      left
      exact ⟨hvu, by rw [← hvu]; exact he⟩
    · rcases hc.frontier v x hv with hq | hcl
      · left
        have hne : ((some (x + h v), v) : PDI) ≠ (f, u) := by
          intro heq
          exact hvu (congrArg Prod.snd heq)
        exact (List.mem_erase_of_ne hne).2 hq
      · right
        intro e he
        rcases hcl e he with ⟨_, hm⟩ | hr
        · simp at hm
        · exact Or.inr hr
  · intro e he
    exact he

/-- Discarding a pair that is not the current pair of its node. -/
theorem CoreInv.skip {u0 : Nat} {c : Core} (hc : CoreInv E h start u0 [] c) (f : Option Int)
    (u : Nat) (hstale : ∀ x, c.g u = some x → f ≠ some (x + h u)) :
    CoreInv E h start u0 [] ⟨c.g, c.p, c.q.erase (f, u)⟩ := by
  refine ⟨hc.g_start, hc.p_start, hc.g_nonneg, hc.p_some, hc.p_link, ?_, ?_, hc.todo_sub⟩
  · intro f' v hm
    exact hc.q_sound f' v (List.mem_of_mem_erase hm)
  · intro v x hv
    rcases hc.frontier v x hv with hq | hcl
    · left
      have hne : ((some (x + h v), v) : PDI) ≠ (f, u) := by
        intro heq
        have h1 : v = u := congrArg Prod.snd heq
        have h2 : some (x + h v) = f := congrArg Prod.fst heq
        subst h1
        exact hstale x hv h2.symm
      exact (List.mem_erase_of_ne hne).2 hq
    · exact Or.inr hcl

/-- Popping a pair of `u` and relaxing all edges of `u`. -/
theorem CoreInv.expand (hw : NonNegE E) {u0 : Nat} {c : Core} (hc : CoreInv E h start u0 [] c)
    (f : Option Int) (u : Nat) :
    CoreInv E h start u0 [] (coreRelax h u (E u) ⟨c.g, c.p, c.q.erase (f, u)⟩) :=
  (CoreInv.relax hw (E u) _ (hc.pop f u)).retarget

theorem CoreInv.init (u0 : Nat) :
    CoreInv E h start u0 []
      ⟨upd (fun _ => INF) start (some 0), fun _ => none, [(some (h start), start)]⟩ := by
  refine ⟨by simp, rfl, ?_, ?_, ⟨fun _ => 0, ?_⟩, ?_, ?_, ?_⟩
  · intro v x hv
    by_cases hvs : v = start
    · subst hvs
      simp only [upd_same, Option.some.injEq] at hv
      omega
    · simp [upd, hvs, INF] at hv
  · intro v x hv hvs
    simp [upd, hvs, INF] at hv
  · intro v u' hp
    simp at hp
  · intro f v hm
    simp only [List.mem_singleton, Prod.mk.injEq] at hm
    obtain ⟨rfl, rfl⟩ := hm
    exact ⟨0, 0, by simp, by simp, le_refl _⟩
  · intro v x hv
    by_cases hvs : v = start
    · subst hvs
      simp only [upd_same, Option.some.injEq] at hv
      subst hv
      left
      simp
    · simp [upd, hvs, INF] at hv
  · intro e he
    simp at he

end Pop

/-! ### Paths, walks and parent chains -/

section Chain
variable {E : Nat → List Edge}

theorem PathCost.ne_nil {l : List Nat} {c : Int} (hp : PathCost E l c) : l ≠ [] := by
  cases hp <;> simp

theorem PathCost.cost_nonneg (hw : NonNegE E) {l : List Nat} {c : Int} (hp : PathCost E l c) :
    0 ≤ c := by
  induction hp with
  | single v => exact le_refl _
  | @cons a b l w c he _ ih =>
    have : 0 ≤ w := hw _ _ he
    omega

theorem PathCost.snoc_node {l : List Nat} {c : Int} (hp : PathCost E l c) {a b : Nat} {w : Int}
    (hlast : l.getLast? = some a) (he : (⟨b, w⟩ : Edge) ∈ E a) :
    PathCost E (l ++ [b]) (c + w) := by
  induction hp with
  | single v =>
    simp only [List.getLast?_singleton, Option.some.injEq] at hlast
    subst hlast
    have := PathCost.cons he (PathCost.single (E := E) b)
    simpa using this
  | @cons a' b' l' w' c' he' hp' ih =>
    have hl : (b' :: l').getLast? = some a := by
      rw [List.getLast?_cons_cons] at hlast
      exact hlast
    have := PathCost.cons he' (ih hl)
    rw [show w' + c' + w = w' + (c' + w) by ring]
    exact this

theorem PathCost.isPath {l : List Nat} {c : Int} (hp : PathCost E l c) : IsPath E l := by
  induction hp with
  | single v => exact List.chain'_singleton v
  | @cons a b l w c he _ ih =>
    exact List.Chain'.cons ⟨⟨b, w⟩, he, rfl⟩ ih

theorem PathCost.walk {l : List Nat} {c : Int} (hp : PathCost E l c) :
    ∀ a b, l.head? = some a → l.getLast? = some b → Walk E a b c := by
  induction hp with
  | single v =>
    intro a b ha hb
    simp only [List.head?_cons, Option.some.injEq] at ha
    simp only [List.getLast?_singleton, Option.some.injEq] at hb
    subst ha
    subst hb
    exact Walk.nil _
  | @cons a' b' l' w' c' he _ ih =>
    intro a b ha hb
    simp only [List.head?_cons, Option.some.injEq] at ha
    subst ha
    rw [List.getLast?_cons_cons] at hb
    exact Walk.cons he (ih b' b rfl hb)

theorem Walk.weight_nonneg (hw : NonNegE E) {a b : Nat} {c : Int} (hwk : Walk E a b c) : 0 ≤ c := by
  induction hwk with
  | nil u => exact le_refl _
  | @cons u v t w c he _ ih =>
    have : 0 ≤ w := hw _ _ he
    omega

theorem walkParents_none (p : Nat → Option Nat) (fuel : Nat) :
    walkParents p fuel none = some [] := by
  cases fuel <;> rfl

theorem walkParents_succ (p : Nat → Option Nat) (fuel c : Nat) :
    walkParents p (fuel + 1) (some c) =
      match walkParents p fuel (p c) with
      | some l => some (c :: l)
      | none => none := rfl

/-- The parent chain of a node with a finite cost ends at the start; read backwards it is
a path from the start whose weight does not exceed the cost. -/
theorem TreeInv.chain {start : Nat} {gg : Nat → Option Int} {pp : Nat → Option Nat}
    (hw : NonNegE E) (hc : TreeInv E start gg pp) :
    ∀ v x, gg v = some x →
      ∃ l cst, (∀ fuel, l.length ≤ fuel → walkParents pp fuel (some v) = some l) ∧
        l.head? = some v ∧ l.getLast? = some start ∧ PathCost E l.reverse cst ∧ cst ≤ x := by
  obtain ⟨t, ht⟩ := hc.p_link
  have main : ∀ n k v x, x.toNat = n → t v = k → gg v = some x →
      ∃ l cst, (∀ fuel, l.length ≤ fuel → walkParents pp fuel (some v) = some l) ∧
        l.head? = some v ∧ l.getLast? = some start ∧ PathCost E l.reverse cst ∧ cst ≤ x := by
    intro n
    induction n using Nat.strong_induction_on with
    | _ n ihn =>
      intro k
      induction k using Nat.strong_induction_on with
      | _ k ihk =>
        intro v x hn hk hv
        by_cases hvs : v = start
        · subst hvs
          have hx : x = 0 := by
            have := hc.g_start
            rw [hv] at this
            exact Option.some.inj this
          refine ⟨[v], 0, ?_, rfl, rfl, PathCost.single v, by omega⟩
          intro fuel hf
          cases fuel with
          | zero => simp at hf
          | succ f => rw [walkParents_succ, hc.p_start, walkParents_none]
        · obtain ⟨u', hu'⟩ := hc.p_some v x hv hvs
          obtain ⟨xv, y, w, h1, h2, h3, h4, h5⟩ := ht v u' hu'
          have hxv : xv = x := by
            rw [hv] at h1
            exact (Option.some.inj h1).symm
          subst hxv
          have hy0 := hc.g_nonneg u' y h2
          have hw0 : 0 ≤ w := hw _ _ h3
          have ih : ∃ l cst, (∀ fuel, l.length ≤ fuel →
              walkParents pp fuel (some u') = some l) ∧
              l.head? = some u' ∧ l.getLast? = some start ∧ PathCost E l.reverse cst ∧
              cst ≤ y := by
            by_cases hyx : y < xv
            · exact ihn y.toNat (by omega) (t u') u' y rfl rfl h2
            · have hyeq : y = xv := by omega
              have htlt : t u' < t v := by
                rcases h5 with h5 | h5
                · exact absurd h5 hyx
                · exact h5
              exact ihk (t u') (by omega) u' y (by omega) rfl h2
          obtain ⟨l, cst, hl1, hl2, hl3, hl4, hl5⟩ := ih
          have hlne : l ≠ [] := by
            intro hnil
            simp [hnil] at hl2
          refine ⟨v :: l, cst + w, ?_, rfl, ?_, ?_, by omega⟩
          · intro fuel hf
            cases fuel with
            | zero => simp at hf
            | succ f =>
              rw [walkParents_succ, hu', hl1 f (by simpa using hf)]
          · obtain ⟨a, l', rfl⟩ := List.exists_cons_of_ne_nil hlne
            rw [List.getLast?_cons_cons]
            exact hl3
          · rw [List.reverse_cons]
            refine PathCost.snoc_node hl4 ?_ h3
            rw [List.getLast?_reverse]
            exact hl2
  intro v x hv
  exact main x.toNat (t v) v x rfl rfl hv

theorem CoreInv.tree {h : Nat → Int} {start u0 : Nat} {todo : List Edge} {c : Core}
    (hc : CoreInv E h start u0 todo c) : TreeInv E start c.g c.p :=
  ⟨hc.g_start, hc.p_start, hc.g_nonneg, hc.p_some, hc.p_link⟩

/-- A finite cost is at least the cost of some walk from the start. -/
theorem TreeInv.lower {start : Nat} {gg : Nat → Option Int} {pp : Nat → Option Nat}
    (hw : NonNegE E) (hc : TreeInv E start gg pp) {v : Nat} {x : Int}
    (hv : gg v = some x) : ∃ cst, Walk E start v cst ∧ cst ≤ x := by
  obtain ⟨l, cst, _, hl2, hl3, hl4, hl5⟩ := hc.chain hw v x hv
  refine ⟨cst, ?_, hl5⟩
  refine hl4.walk start v ?_ ?_
  · rw [List.head?_reverse]; exact hl3
  · rw [List.getLast?_reverse]; exact hl2

end Chain

/-! ### Bounds from the invariant -/

section Bounds
variable {E : Nat → List Edge} {h : Nat → Int} {start u0 : Nat} {c : Core}

/-- Along a walk out of a node with a finite cost, either a queued current pair lies on the
walk, or the end of the walk has a cost no larger than the walk promises. -/
theorem CoreInv.frontier_walk (hc : CoreInv E h start u0 [] c) {u t : Nat} {cw : Int}
    (hwk : Walk E u t cw) :
    ∀ x, c.g u = some x →
      (∃ n y cn, (some (y + h n), n) ∈ c.q ∧ c.g n = some y ∧ Walk E n t cn ∧
        y + cn ≤ x + cw) ∨ ∃ z, c.g t = some z ∧ z ≤ x + cw := by
  induction hwk with
  | nil u =>
    intro x hx
    exact Or.inr ⟨x, hx, by omega⟩
  | @cons u v t w cr he hrest ih =>
    intro x hx
    rcases hc.frontier u x hx with hq | hcl
    · exact Or.inl ⟨u, x, w + cr, hq, hx, Walk.cons he hrest, le_refl _⟩
    · rcases hcl _ he with ⟨_, hm⟩ | ⟨y, hy, hle⟩
      · simp at hm
      · simp only at hy hle
        rcases ih y hy with ⟨n, y', cn, h1, h2, h3, h4⟩ | ⟨z, hz, hzle⟩
        · exact Or.inl ⟨n, y', cn, h1, h2, h3, by omega⟩
        · exact Or.inr ⟨z, hz, by omega⟩

/-- With an admissible heuristic: for every walk from the start to `t`, a queued pair has a
priority within the cost of the walk, or the cost of `t` is within it. -/
theorem CoreInv.frontier_adm (hc : CoreInv E h start u0 [] c) {t : Nat}
    (hadm : Admissible E h t) {cw : Int} (hwk : Walk E start t cw) :
    (∃ f n, ((some f, n) : PDI) ∈ c.q ∧ f ≤ cw) ∨ ∃ z, c.g t = some z ∧ z ≤ cw := by
  rcases hc.frontier_walk hwk 0 hc.g_start with ⟨n, y, cn, h1, _, h3, h4⟩ | ⟨z, hz, hzle⟩
  · have := hadm n cn h3
    exact Or.inl ⟨y + h n, n, h1, by omega⟩
  · exact Or.inr ⟨z, hz, by omega⟩

end Bounds

/-! ### The termination measure -/

theorem sumTo_congr {f f' : Nat → Nat} {B : Nat} (hsame : ∀ j, j < B → f' j = f j) :
    sumTo f' B = sumTo f B := by
  induction B with
  | zero => rfl
  | succ n ih =>
    simp only [sumTo]
    rw [ih (fun j hj => hsame j (by omega)), hsame n (by omega)]

theorem sumTo_update {f f' : Nat → Nat} {i B : Nat} (hi : i < B)
    (hsame : ∀ j, j ≠ i → f' j = f j) : sumTo f' B + f i = sumTo f B + f' i := by
  induction B with
  | zero => omega
  | succ n ih =>
    simp only [sumTo]
    by_cases hin : i = n
    · subst hin
      have := @sumTo_congr f f' i (fun j hj => hsame j (by omega))
      omega
    · have := ih (by omega)
      have := hsame n (fun hh => hin hh.symm)
      omega

theorem lt3_induction {α : Type} (μ : α → Nat × Nat × Nat) (P : α → Prop)
    (step : ∀ s, (∀ s', Lt3 (μ s') (μ s) → P s') → P s) : ∀ s, P s := by
  have main : ∀ a b n s, (μ s).1 = a → (μ s).2.1 = b → (μ s).2.2 = n → P s := by
    intro a
    induction a using Nat.strong_induction_on with
    | _ a iha =>
      intro b
      induction b using Nat.strong_induction_on with
      | _ b ihb =>
        intro n
        induction n using Nat.strong_induction_on with
        | _ n ihn =>
          intro s h1 h2 h3
          apply step
          intro s' hlt
          rcases hlt with hlt | ⟨he1, hlt | ⟨he2, hlt⟩⟩
          · exact iha _ (by omega) _ _ s' rfl rfl rfl
          · exact ihb _ (by omega) _ s' (by omega) rfl rfl
          · exact ihn _ (by omega) s' (by omega) (by omega) rfl
  intro s
  exact main _ _ _ s rfl rfl rfl

theorem measure_upd {B : Nat} {g : Nat → Option Int} {t : Nat} {x' : Int} (ht : t < B)
    (hx' : 0 ≤ x') (hlt : ∀ y, g t = some y → x' < y) :
    infCount B (upd g t (some x')) < infCount B g ∨
      (infCount B (upd g t (some x')) = infCount B g ∧
        costSum B (upd g t (some x')) < costSum B g) := by
  have h1 := @sumTo_update (fun v => if g v = none then 1 else 0)
    (fun v => if upd g t (some x') v = none then 1 else 0) t B ht
    (fun j hj => by simp only [upd_other _ _ hj])
  have h2 := @sumTo_update (fun v => ((g v).getD 0).toNat)
    (fun v => ((upd g t (some x') v).getD 0).toNat) t B ht
    (fun j hj => by simp only [upd_other _ _ hj])
  simp only [upd_same, Option.getD_some] at h1 h2
  unfold infCount costSum
  cases hgt : g t with
  | none =>
    left
    simp only [hgt] at h1
    simp at h1
    omega
  | some y =>
    right
    have := hlt y hgt
    simp only [hgt, Option.getD_some] at h1 h2
    simp at h1
    constructor
    · omega
    · omega

section RelaxMeasure
variable {E : Nat → List Edge} {h : Nat → Int} {start u : Nat} {B : Nat}

theorem coreRelax_mu (hw : NonNegE E) (hB : BoundedE E B) (es : List Edge) (c : Core)
    (hc : CoreInv E h start u es c) :
    (infCount B (coreRelax h u es c).g < infCount B c.g ∨
      (infCount B (coreRelax h u es c).g = infCount B c.g ∧
        costSum B (coreRelax h u es c).g < costSum B c.g)) ∨ coreRelax h u es c = c := by
  induction es generalizing c with
  | nil => exact Or.inr rfl
  | cons e es ih =>
    have hs := CoreInv.step hw hc
    have heE : e ∈ E u := hc.todo_sub e (List.mem_cons_self _ _)
    simp only [coreRelax]
    by_cases hlt : ltD (addW (c.g u) e.weight) (c.g e.target) = true
    · simp only [hlt, if_true] at hs ⊢
      left
      cases hgu : c.g u with
      | none => simp [hgu] at hlt
      | some x =>
        simp only [hgu, addW_some] at hlt hs ⊢
        have hstep := @measure_upd B c.g e.target (x + e.weight)
          (hB u e heE)
          (by have := hc.g_nonneg u x hgu; have := hw u e heE; omega)
          (by intro y hy; simpa [hy] using hlt)
        rcases ih _ hs with hr | hr
        · dsimp only at hr
          omega
        · rw [hr]
          exact hstep
    · simp only [hlt, if_false, Bool.false_eq_true] at hs ⊢
      exact ih c hs

end RelaxMeasure

/-! ### The three relaxation loops on the common data -/

theorem addW_zero (d : Option Int) : addW d 0 = d := by
  cases d <;> simp

theorem dijkstraRelax_core (u : Nat) (es : List Edge) (s : DState) :
    (dijkstraRelax u es s).core = coreRelax (fun _ => 0) u es s.core := by
  induction es generalizing s with
  | nil => rfl
  | cons e es ih =>
    simp only [dijkstraRelax, coreRelax]
    by_cases hlt : ltD (addW (s.dist u) e.weight) (s.dist e.target) = true
    · have hlt' : ltD (addW (s.core.g u) e.weight) (s.core.g e.target) = true := hlt
      simp only [hlt, hlt', if_true]
      rw [ih]
      simp [DState.core, addW_zero]
    · have hlt' : ¬ ltD (addW (s.core.g u) e.weight) (s.core.g e.target) = true := hlt
      simp only [hlt, hlt', if_false]
      exact ih s

theorem aStarRelax_core (heuristic : Nat → Int) (u : Nat) (es : List Edge) (s : AState) :
    (aStarRelax heuristic u es s).core = coreRelax heuristic u es s.core := by
  induction es generalizing s with
  | nil => rfl
  | cons e es ih =>
    simp only [aStarRelax, coreRelax]
    by_cases hlt : ltD (addW (s.gscore u) e.weight) (s.gscore e.target) = true
    · have hlt' : ltD (addW (s.core.g u) e.weight) (s.core.g e.target) = true := hlt
      simp only [hlt, hlt', if_true]
      rw [ih]
      simp [AState.core]
    · have hlt' : ¬ ltD (addW (s.core.g u) e.weight) (s.core.g e.target) = true := hlt
      simp only [hlt, hlt', if_false]
      exact ih s

theorem sideRelax_core (heur : Nat → Int) (u : Nat) (es : List Edge) (s : Side) :
    (sideRelax heur u es s).core = coreRelax heur u es s.core := by
  induction es generalizing s with
  | nil => rfl
  | cons e es ih =>
    simp only [sideRelax, coreRelax]
    by_cases hlt : ltD (addW (s.g u) e.weight) (s.g e.target) = true
    · have hlt' : ltD (addW (s.core.g u) e.weight) (s.core.g e.target) = true := hlt
      simp only [hlt, hlt', if_true]
      rw [ih]
      simp [Side.core]
    · have hlt' : ¬ ltD (addW (s.core.g u) e.weight) (s.core.g e.target) = true := hlt
      simp only [hlt, hlt', if_false]
      exact ih s

theorem sideRelax_seen (heur : Nat → Int) (u : Nat) (es : List Edge) (s : Side) :
    (sideRelax heur u es s).seen = s.seen := by
  induction es generalizing s with
  | nil => rfl
  | cons e es ih =>
    simp only [sideRelax]
    split
    · rw [ih]
    · exact ih s

theorem sideRelax_f (heur : Nat → Int) (u : Nat) (es : List Edge) (s : Side)
    (hf : ∀ v, s.f v = addW (s.g v) (heur v)) :
    ∀ v, (sideRelax heur u es s).f v = addW ((sideRelax heur u es s).g v) (heur v) := by
  induction es generalizing s with
  | nil => exact hf
  | cons e es ih =>
    simp only [sideRelax]
    split
    · apply ih
      intro v
      dsimp only
      by_cases hv : v = e.target
      · subst hv
        simp
      · rw [upd_other _ _ hv, upd_other _ _ hv]
        exact hf v
    · exact ih s hf

theorem dijkstraLoop_empty (g : Graph) (dst fuel : Nat) (s : DState) (h : pqPop s.pq = none) :
    dijkstraLoop g dst fuel s = some s := by
  cases fuel <;> simp [dijkstraLoop, h]

theorem dijkstraLoop_zero (g : Graph) (dst : Nat) (s : DState) {m : PDI × List PDI}
    (h : pqPop s.pq = some m) : dijkstraLoop g dst 0 s = none := by
  obtain ⟨⟨d, u⟩, rest⟩ := m
  simp [dijkstraLoop, h]

theorem dijkstraLoop_succ (g : Graph) (dst fuel : Nat) (s : DState) {d : Option Int} {u : Nat}
    {rest : List PDI} (h : pqPop s.pq = some ((d, u), rest)) :
    dijkstraLoop g dst (fuel + 1) s =
      if ltD (s.dist u) d then dijkstraLoop g dst fuel { s with pq := rest }
      else if u = dst then some { s with pq := rest }
      else if u ≥ g.adj.length then dijkstraLoop g dst fuel { s with pq := rest }
      else dijkstraLoop g dst fuel (dijkstraRelax u (g.adj.getD u []) { s with pq := rest }) := by
  rw [dijkstraLoop]
  simp only [h]

/-! ### Graph predicates as facts about the adjacency maps -/

theorem mem_getD_row {l : List (List Edge)} {u : Nat} {e : Edge} (he : e ∈ l.getD u []) :
    ∃ es ∈ l, e ∈ es := by
  by_cases hu : u < l.length
  · rw [List.getD_eq_getElem _ _ hu] at he
    exact ⟨l[u], List.getElem_mem _, he⟩
  · rw [List.getD_eq_default _ _ (by omega)] at he
    simp at he

theorem Graph.NonNeg.toE {g : Graph} (h : g.NonNeg) : NonNegE g.fwd := by
  intro a e he
  obtain ⟨es, hes, hm⟩ := mem_getD_row he
  exact h es hes e hm

theorem Graph.InRange.toBounded {g : Graph} (h : g.InRange) : BoundedE g.fwd g.adj.length := by
  intro a e he
  obtain ⟨es, hes, hm⟩ := mem_getD_row he
  exact h es hes e hm

theorem Graph.fwd_of_ge {g : Graph} {u : Nat} (hu : u ≥ g.adj.length) : g.fwd u = [] :=
  List.getD_eq_default _ _ hu

/-! ### Measure of a pop -/

theorem mu_erase (B : Nat) (c : Core) {m : PDI} (hm : m ∈ c.q) :
    Lt3 (Core.mu B ⟨c.g, c.p, c.q.erase m⟩) (Core.mu B c) := by
  right
  refine ⟨rfl, Or.inr ⟨rfl, ?_⟩⟩
  simp only [Core.mu]
  rw [List.length_erase_of_mem hm]
  have : 0 < c.q.length := List.length_pos_of_mem hm
  omega

theorem mu_expand {E : Nat → List Edge} {h : Nat → Int} {start u0 : Nat} {B : Nat}
    (hw : NonNegE E) (hB : BoundedE E B) {c : Core} (hc : CoreInv E h start u0 [] c)
    {f : Option Int} {u : Nat} (hm : (f, u) ∈ c.q) :
    Lt3 (Core.mu B (coreRelax h u (E u) ⟨c.g, c.p, c.q.erase (f, u)⟩)) (Core.mu B c) := by
  have h1 := coreRelax_mu (B := B) hw hB (E u) _ (hc.pop f u)
  have h2 := mu_erase B c hm
  rcases h1 with h1 | h1
  · dsimp only at h1
    simp only [Lt3, Core.mu]
    omega
  · rw [h1]
    exact h2

/-! ### The loop of `dijkstra` -/

section DijkstraLoop
variable {g : Graph} {src dst : Nat}

theorem zero_admissible {E : Nat → List Edge} (hw : NonNegE E) (t : Nat) :
    Admissible E (fun _ => 0) t := fun _ _ hwk => hwk.weight_nonneg hw

theorem dijkstra_skip_inv {s : DState} (hc : CoreInv g.fwd (fun _ => 0) src 0 [] s.core)
    {d : Option Int} {u : Nat} (hst : ltD (s.dist u) d = true) (rest : List PDI)
    (hrest : rest = s.pq.erase (d, u)) :
    CoreInv g.fwd (fun _ => 0) src 0 [] ({ s with pq := rest } : DState).core := by
  subst hrest
  refine hc.skip d u ?_
  intro x hx heq
  have hx' : s.dist u = some x := hx
  rw [hx', heq] at hst
  simp at hst

theorem dijkstra_expand_inv (hw : NonNegE g.fwd) {s : DState}
    (hc : CoreInv g.fwd (fun _ => 0) src 0 [] s.core) (d : Option Int) (u : Nat)
    (rest : List PDI) (hrest : rest = s.pq.erase (d, u)) :
    CoreInv g.fwd (fun _ => 0) src 0 []
      (dijkstraRelax u (g.adj.getD u []) { s with pq := rest }).core := by
  subst hrest
  rw [dijkstraRelax_core]
  exact hc.expand hw d u

theorem dijkstra_out_inv (hw : NonNegE g.fwd) {s : DState}
    (hc : CoreInv g.fwd (fun _ => 0) src 0 [] s.core) (d : Option Int) {u : Nat}
    (hu : u ≥ g.adj.length) (rest : List PDI) (hrest : rest = s.pq.erase (d, u)) :
    CoreInv g.fwd (fun _ => 0) src 0 [] ({ s with pq := rest } : DState).core := by
  subst hrest
  have := hc.expand hw d u
  rw [Graph.fwd_of_ge hu] at this
  exact this

theorem dijkstraLoop_terminates (hw : NonNegE g.fwd) {B : Nat} (hB : BoundedE g.fwd B) :
    ∀ s : DState, CoreInv g.fwd (fun _ => 0) src 0 [] s.core →
      ∃ fuel s', dijkstraLoop g dst fuel s = some s' := by
  refine lt3_induction (fun s : DState => Core.mu B s.core) _ ?_
  intro s ih hc
  cases hpop : pqPop s.pq with
  | none => exact ⟨0, s, dijkstraLoop_empty g dst 0 s hpop⟩
  | some m =>
    obtain ⟨⟨d, u⟩, rest⟩ := m
    obtain ⟨hm, hrest, _⟩ := pqPop_some hpop
    have herase : Lt3 (Core.mu B ({ s with pq := rest } : DState).core) (Core.mu B s.core) := by
      subst hrest
      exact mu_erase B s.core hm
    by_cases hst : ltD (s.dist u) d = true
    · obtain ⟨n, s', hn⟩ := ih _ herase (dijkstra_skip_inv hc hst rest hrest)
      exact ⟨n + 1, s', by rw [dijkstraLoop_succ g dst n s hpop]; simp only [hst, if_true]; exact hn⟩
    · by_cases hud : u = dst
      · refine ⟨1, { s with pq := rest }, ?_⟩
        rw [dijkstraLoop_succ g dst 0 s hpop, if_neg hst, if_pos hud]
      · by_cases hu : u ≥ g.adj.length
        · obtain ⟨n, s', hn⟩ := ih _ herase (dijkstra_out_inv hw hc d hu rest hrest)
          refine ⟨n + 1, s', ?_⟩
          rw [dijkstraLoop_succ g dst n s hpop]
          simp only [hst, hud, hu, if_true, if_false]
          exact hn
        · have hlt : Lt3 (Core.mu B (dijkstraRelax u (g.adj.getD u [])
              { s with pq := rest }).core) (Core.mu B s.core) := by
            subst hrest
            rw [dijkstraRelax_core]
            exact mu_expand hw hB hc hm
          obtain ⟨n, s', hn⟩ := ih _ hlt (dijkstra_expand_inv hw hc d u rest hrest)
          refine ⟨n + 1, s', ?_⟩
          rw [dijkstraLoop_succ g dst n s hpop]
          simp only [hst, hud, hu, if_false]
          exact hn

theorem dijkstraLoop_mono {fuel : Nat} {s s' : DState}
    (h : dijkstraLoop g dst fuel s = some s') (k : Nat) :
    dijkstraLoop g dst (fuel + k) s = some s' := by
  induction fuel generalizing s with
  | zero =>
    cases hpop : pqPop s.pq with
    | none =>
      rw [dijkstraLoop_empty g dst _ s hpop] at h ⊢
      exact h
    | some m => rw [dijkstraLoop_zero g dst s hpop] at h; cases h
  | succ n ih =>
    cases hpop : pqPop s.pq with
    | none =>
      rw [dijkstraLoop_empty g dst _ s hpop] at h ⊢
      exact h
    | some m =>
      obtain ⟨⟨d, u⟩, rest⟩ := m
      rw [dijkstraLoop_succ g dst n s hpop] at h
      rw [show n + 1 + k = (n + k) + 1 by omega, dijkstraLoop_succ g dst (n + k) s hpop]
      split at h
      · rename_i h1
        simp only [h1, if_true]
        exact ih h
      · rename_i h1
        simp only [h1, if_false]
        split at h
        · rename_i h2
          simp only [h2, if_true]
          exact h
        · rename_i h2
          simp only [h2, if_false]
          split at h
          · rename_i h3
            simp only [h3, if_true]
            exact ih h
          · rename_i h3
            simp only [h3, if_false]
            exact ih h

theorem dijkstraLoop_post (hw : NonNegE g.fwd) :
    ∀ (fuel : Nat) (s s' : DState), CoreInv g.fwd (fun _ => 0) src 0 [] s.core →
      dijkstraLoop g dst fuel s = some s' →
      TreeInv g.fwd src s'.dist s'.parent ∧
        ∀ cw, Walk g.fwd src dst cw → ∃ z, s'.dist dst = some z ∧ z ≤ cw := by
  intro fuel
  induction fuel with
  | zero =>
    intro s s' hc h
    cases hpop : pqPop s.pq with
    | none =>
      rw [dijkstraLoop_empty g dst _ s hpop] at h
      cases h
      refine ⟨hc.tree, ?_⟩
      intro cw hwk
      rcases hc.frontier_adm (zero_admissible hw dst) hwk with ⟨f, n, hq, _⟩ | hz
      · have hq' : ((some f, n) : PDI) ∈ s.pq := hq
        rw [pqPop_none.1 hpop] at hq'
        simp at hq'
      · exact hz
    | some m => rw [dijkstraLoop_zero g dst s hpop] at h; cases h
  | succ n ih =>
    intro s s' hc h
    cases hpop : pqPop s.pq with
    | none =>
      rw [dijkstraLoop_empty g dst _ s hpop] at h
      cases h
      refine ⟨hc.tree, ?_⟩
      intro cw hwk
      rcases hc.frontier_adm (zero_admissible hw dst) hwk with ⟨f, n, hq, _⟩ | hz
      · have hq' : ((some f, n) : PDI) ∈ s.pq := hq
        rw [pqPop_none.1 hpop] at hq'
        simp at hq'
      · exact hz
    | some m =>
      obtain ⟨⟨d, u⟩, rest⟩ := m
      obtain ⟨hm, hrest, hmin⟩ := pqPop_some hpop
      rw [dijkstraLoop_succ g dst n s hpop] at h
      split at h
      · rename_i h1
        exact ih _ _ (dijkstra_skip_inv hc h1 rest hrest) h
      · split at h
        · rename_i h1 h2
          cases h
          subst h2
          refine ⟨hc.tree, ?_⟩
          intro cw hwk
          obtain ⟨y, x, hd, hx, hxy⟩ := hc.q_sound d u hm
          rcases hc.frontier_adm (zero_admissible hw u) hwk with ⟨f, n, hq, hf⟩ | hz
          · have := hmin _ hq
            rw [hd] at this
            simp at this
            exact ⟨x, hx, by omega⟩
          · exact hz
        · split at h
          · rename_i h3
            exact ih _ _ (dijkstra_out_inv hw hc d h3 rest hrest) h
          · exact ih _ _ (dijkstra_expand_inv hw hc d u rest hrest) h

theorem dijkstraInit_inv : CoreInv g.fwd (fun _ => 0) src 0 [] (dijkstraInit src).core :=
  @CoreInv.init g.fwd (fun _ => 0) src 0

end DijkstraLoop

/-- The function `dijkstra` returns; it returns `(+infinity, [])` exactly when `dst` is
unreachable, and otherwise the least cost together with a path of that cost. -/
theorem dijkstra_total {g : Graph} (hnn : g.NonNeg) (hir : g.InRange) (src dst : Nat) :
    ∃ n, (¬ Reachable g.fwd src dst ∧
        ∀ fuel, n ≤ fuel → dijkstra fuel g src dst = some (INF, [])) ∨
      ∃ d path, (∀ fuel, n ≤ fuel → dijkstra fuel g src dst = some (some d, path)) ∧
        IsShortest g.fwd src dst d ∧ path.head? = some src ∧ path.getLast? = some dst ∧
        PathCost g.fwd path d := by
  have hw := hnn.toE
  obtain ⟨n1, s, hloop⟩ : ∃ fuel s', dijkstraLoop g dst fuel (dijkstraInit src) = some s' :=
    dijkstraLoop_terminates hw hir.toBounded (dijkstraInit src) dijkstraInit_inv
  obtain ⟨htree, hopt⟩ := dijkstraLoop_post hw n1 _ s dijkstraInit_inv hloop
  cases hd : s.dist dst with
  | none =>
    refine ⟨n1, Or.inl ⟨?_, ?_⟩⟩
    · rintro ⟨c, hc⟩
      obtain ⟨z, hz, _⟩ := hopt c hc
      rw [hd] at hz
      cases hz
    · intro fuel hf
      obtain ⟨k, rfl⟩ := Nat.exists_eq_add_of_le hf
      simp [dijkstra, dijkstraLoop_mono hloop k, hd, INF]
  | some x =>
    obtain ⟨l, cst, hl1, hl2, hl3, hl4, hl5⟩ := htree.chain hw dst x hd
    have hwalk : Walk g.fwd src dst cst := by
      refine hl4.walk src dst ?_ ?_
      · rw [List.head?_reverse]; exact hl3
      · rw [List.getLast?_reverse]; exact hl2
    obtain ⟨z, hz, hzle⟩ := hopt cst hwalk
    have hzx : z = x := by
      rw [hd] at hz
      exact (Option.some.inj hz).symm
    have hcx : cst = x := by omega
    subst hcx
    refine ⟨max n1 l.length, Or.inr ⟨cst, l.reverse, ?_, ⟨hwalk, ?_⟩, ?_, ?_, hl4⟩⟩
    · intro fuel hf
      have h1 : n1 ≤ fuel := le_trans (le_max_left _ _) hf
      have h2 : l.length ≤ fuel := le_trans (le_max_right _ _) hf
      obtain ⟨k, rfl⟩ := Nat.exists_eq_add_of_le h1
      simp [dijkstra, dijkstraLoop_mono hloop k, hd, INF, hl1 _ h2]
    · intro c hc
      obtain ⟨z', hz', hzle'⟩ := hopt c hc
      rw [hd] at hz'
      cases hz'
      exact hzle'
    · rw [List.head?_reverse]; exact hl3
    · rw [List.getLast?_reverse]; exact hl2

/-! ### The loop of `a_star` -/

section AStarLoop
variable {g : Graph} {h : Nat → Int} {src dst : Nat}

theorem aStarLoop_empty (fuel : Nat) (s : AState) (hp : pqPop s.openQ = none) :
    aStarLoop g h dst fuel s = some s := by
  cases fuel <;> simp [aStarLoop, hp]

theorem aStarLoop_zero (s : AState) {m : PDI × List PDI} (hp : pqPop s.openQ = some m) :
    aStarLoop g h dst 0 s = none := by
  obtain ⟨⟨d, u⟩, rest⟩ := m
  simp [aStarLoop, hp]

theorem aStarLoop_succ (fuel : Nat) (s : AState) {f : Option Int} {u : Nat}
    {rest : List PDI} (hp : pqPop s.openQ = some ((f, u), rest)) :
    aStarLoop g h dst (fuel + 1) s =
      if u = dst then some { s with openQ := rest }
      else if u ≥ g.adj.length then aStarLoop g h dst fuel { s with openQ := rest }
      else aStarLoop g h dst fuel (aStarRelax h u (g.adj.getD u []) { s with openQ := rest }) := by
  rw [aStarLoop]
  simp only [hp]

theorem aStar_expand_inv (hw : NonNegE g.fwd) {s : AState}
    (hc : CoreInv g.fwd h src 0 [] s.core) (f : Option Int) (u : Nat)
    (rest : List PDI) (hrest : rest = s.openQ.erase (f, u)) :
    CoreInv g.fwd h src 0 [] (aStarRelax h u (g.adj.getD u []) { s with openQ := rest }).core := by
  subst hrest
  rw [aStarRelax_core]
  exact hc.expand hw f u

theorem aStar_out_inv (hw : NonNegE g.fwd) {s : AState}
    (hc : CoreInv g.fwd h src 0 [] s.core) (f : Option Int) {u : Nat}
    (hu : u ≥ g.adj.length) (rest : List PDI) (hrest : rest = s.openQ.erase (f, u)) :
    CoreInv g.fwd h src 0 [] ({ s with openQ := rest } : AState).core := by
  subst hrest
  have := hc.expand hw f u
  rw [Graph.fwd_of_ge hu] at this
  exact this

theorem aStarLoop_terminates (hw : NonNegE g.fwd) {B : Nat} (hB : BoundedE g.fwd B) :
    ∀ s : AState, CoreInv g.fwd h src 0 [] s.core →
      ∃ fuel s', aStarLoop g h dst fuel s = some s' := by
  refine lt3_induction (fun s : AState => Core.mu B s.core) _ ?_
  intro s ih hc
  cases hpop : pqPop s.openQ with
  | none => exact ⟨0, s, aStarLoop_empty 0 s hpop⟩
  | some m =>
    obtain ⟨⟨f, u⟩, rest⟩ := m
    obtain ⟨hm, hrest, _⟩ := pqPop_some hpop
    have herase : Lt3 (Core.mu B ({ s with openQ := rest } : AState).core)
        (Core.mu B s.core) := by
      subst hrest
      exact mu_erase B s.core hm
    by_cases hud : u = dst
    · refine ⟨1, { s with openQ := rest }, ?_⟩
      rw [aStarLoop_succ 0 s hpop, if_pos hud]
    · by_cases hu : u ≥ g.adj.length
      · obtain ⟨n, s', hn⟩ := ih _ herase (aStar_out_inv hw hc f hu rest hrest)
        refine ⟨n + 1, s', ?_⟩
        rw [aStarLoop_succ n s hpop, if_neg hud, if_pos hu]
        exact hn
      · have hlt : Lt3 (Core.mu B (aStarRelax h u (g.adj.getD u [])
            { s with openQ := rest }).core) (Core.mu B s.core) := by
          subst hrest
          rw [aStarRelax_core]
          exact mu_expand hw hB hc hm
        obtain ⟨n, s', hn⟩ := ih _ hlt (aStar_expand_inv hw hc f u rest hrest)
        refine ⟨n + 1, s', ?_⟩
        rw [aStarLoop_succ n s hpop, if_neg hud, if_neg hu]
        exact hn

theorem aStarLoop_mono {fuel : Nat} {s s' : AState}
    (hl : aStarLoop g h dst fuel s = some s') (k : Nat) :
    aStarLoop g h dst (fuel + k) s = some s' := by
  induction fuel generalizing s with
  | zero =>
    cases hpop : pqPop s.openQ with
    | none =>
      rw [aStarLoop_empty _ s hpop] at hl ⊢
      exact hl
    | some m => rw [aStarLoop_zero s hpop] at hl; cases hl
  | succ n ih =>
    cases hpop : pqPop s.openQ with
    | none =>
      rw [aStarLoop_empty _ s hpop] at hl ⊢
      exact hl
    | some m =>
      obtain ⟨⟨f, u⟩, rest⟩ := m
      rw [aStarLoop_succ n s hpop] at hl
      rw [show n + 1 + k = (n + k) + 1 by omega, aStarLoop_succ (n + k) s hpop]
      split at hl
      · rename_i h1
        rw [if_pos h1]
        exact hl
      · rename_i h1
        rw [if_neg h1]
        split at hl
        · rename_i h2
          rw [if_pos h2]
          exact ih hl
        · rename_i h2
          rw [if_neg h2]
          exact ih hl

theorem aStarLoop_post (hw : NonNegE g.fwd) :
    ∀ (fuel : Nat) (s s' : AState), CoreInv g.fwd h src 0 [] s.core →
      aStarLoop g h dst fuel s = some s' →
      TreeInv g.fwd src s'.gscore s'.parent ∧
        ∀ cw, Walk g.fwd src dst cw → ∃ z, s'.gscore dst = some z ∧
          (Admissible g.fwd h dst → 0 ≤ h dst → z ≤ cw) := by
  have hempty : ∀ s : AState, CoreInv g.fwd h src 0 [] s.core → pqPop s.openQ = none →
      TreeInv g.fwd src s.gscore s.parent ∧
        ∀ cw, Walk g.fwd src dst cw → ∃ z, s.gscore dst = some z ∧
          (Admissible g.fwd h dst → 0 ≤ h dst → z ≤ cw) := by
    intro s hc hpop
    have hq : s.core.q = [] := pqPop_none.1 hpop
    refine ⟨hc.tree, ?_⟩
    intro cw hwk
    rcases hc.frontier_walk hwk 0 hc.g_start with ⟨n, y, cn, h1, _⟩ | ⟨z, hz, _⟩
    · rw [hq] at h1
      simp at h1
    · refine ⟨z, hz, ?_⟩
      intro hadm _
      rcases hc.frontier_adm hadm hwk with ⟨f, n, h1, _⟩ | ⟨z', hz', hle⟩
      · rw [hq] at h1
        simp at h1
      · have hz2 : s.core.g dst = some z := hz
        rw [hz2] at hz'
        cases hz'
        exact hle
  intro fuel
  induction fuel with
  | zero =>
    intro s s' hc hl
    cases hpop : pqPop s.openQ with
    | none =>
      rw [aStarLoop_empty _ s hpop] at hl
      cases hl
      exact hempty s hc hpop
    | some m => rw [aStarLoop_zero s hpop] at hl; cases hl
  | succ n ih =>
    intro s s' hc hl
    cases hpop : pqPop s.openQ with
    | none =>
      rw [aStarLoop_empty _ s hpop] at hl
      cases hl
      exact hempty s hc hpop
    | some m =>
      obtain ⟨⟨f, u⟩, rest⟩ := m
      obtain ⟨hm, hrest, hmin⟩ := pqPop_some hpop
      rw [aStarLoop_succ n s hpop] at hl
      split at hl
      · rename_i h1
        cases hl
        subst h1
        refine ⟨hc.tree, ?_⟩
        intro cw hwk
        obtain ⟨y, x, hd, hx, hxy⟩ := hc.q_sound f u hm
        refine ⟨x, hx, ?_⟩
        intro hadm h0
        rcases hc.frontier_adm hadm hwk with ⟨f', n, hq, hf⟩ | ⟨z', hz', hle⟩
        · have := hmin _ hq
          rw [hd] at this
          simp at this
          omega
        · have hx2 : s.core.g u = some x := hx
          rw [hx2] at hz'
          cases hz'
          exact hle
      · split at hl
        · rename_i h3
          exact ih _ _ (aStar_out_inv hw hc f h3 rest hrest) hl
        · exact ih _ _ (aStar_expand_inv hw hc f u rest hrest) hl

theorem aStarInit_inv : CoreInv g.fwd h src 0 [] (aStarInit h src).core :=
  @CoreInv.init g.fwd h src 0

end AStarLoop

/-! ### Tight parent links -/

section Tight
variable {E : Nat → List Edge} {h : Nat → Int}

theorem TightDesc.cost_le {g : Nat → Option Int} {p : Nat → Option Nat} {wu : Nat → Int}
    (hwu : ∀ v x, p v = some x → 0 ≤ wu v) {c v : Nat} (htd : TightDesc g p wu c v) :
    ∀ gv, g v = some gv → ∃ gc, g c = some gc ∧ gv ≤ gc := by
  induction htd with
  | refl v => intro gv hv; exact ⟨gv, hv, le_refl _⟩
  | @step c c' v y hp hc hc' _ ih =>
    intro gv hv
    obtain ⟨gc, h1, h2⟩ := ih gv hv
    rw [hc] at h1
    have h1' : y = gc := Option.some.inj h1
    have := hwu c' c hp
    exact ⟨y + wu c', hc', by omega⟩

theorem TightDesc.extend {g : Nat → Option Int} {p : Nat → Option Nat} {wu : Nat → Int}
    {c v x : Nat} {gx : Int} (htd : TightDesc g p wu c v) (hp : p v = some x)
    (hx : g x = some gx) (hv : g v = some (gx + wu v)) : TightDesc g p wu c x := by
  induction htd with
  | refl v => exact TightDesc.step hp hx hv (TightDesc.refl x)
  | @step c c' v y hp' hc hc' _ ih => exact TightDesc.step hp' hc hc' (ih hp hv)

theorem TightInv.wu_nonneg (hw : NonNegE E) {wu : Nat → Int} {c : Core}
    (ht : TightInv E h wu c) : ∀ v x, c.p v = some x → 0 ≤ wu v := by
  intro v x hp
  exact hw x ⟨v, wu v⟩ (ht.wu_edge v x hp).1

/-- Dropping pairs from the queue keeps the invariant. -/
theorem TightInv.sub {wu : Nat → Int} {c : Core} (ht : TightInv E h wu c) {q' : List PDI}
    (hsub : ∀ e ∈ q', e ∈ c.q) : TightInv E h wu ⟨c.g, c.p, q'⟩ := by
  refine ⟨ht.wu_edge, ?_⟩
  intro v x gv hp hv
  rcases ht.omega v x gv hp hv with h1 | h1
  · exact Or.inl fun z y hm hy => h1 z y (hsub _ hm) hy
  · exact Or.inr fun z f hm htd => h1 z f (hsub _ hm) htd

theorem TightStep.finish {wu : Nat → Int} {u : Nat} {gu : Int} {c : Core}
    (ht : TightStep E h wu u gu c) : TightInv E h wu c := by
  refine ⟨ht.wu_edge, ?_⟩
  intro v x gv hp hv
  rcases ht.sv v x gv hp hv with ⟨_, h1⟩ | ⟨_, h1⟩
  · exact Or.inl h1
  · exact Or.inr h1

/-- Popping a least pair that carries the current cost of `u`. -/
theorem TightInv.start (hw : NonNegE E) {wu : Nat → Int} {c : Core}
    (ht : TightInv E h wu c) {u : Nat} {gu : Int} (hgu : c.g u = some gu)
    (hm : ((some (gu + h u), u) : PDI) ∈ c.q)
    (hmin : ∀ e ∈ c.q, ltD e.1 (some (gu + h u)) = false) :
    TightStep E h wu u gu ⟨c.g, c.p, c.q.erase (some (gu + h u), u)⟩ := by
  have hall : ∀ z f, ((some f, z) : PDI) ∈ c.q.erase (some (gu + h u), u) → gu + h u ≤ f := by
    intro z f hmem
    have := hmin _ (List.mem_of_mem_erase hmem)
    simpa using this
  refine ⟨hgu, ht.wu_edge, fun z y hmem _ => hall z _ hmem, ?_⟩
  intro v x gv hp hv
  have hp' : c.p v = some x := hp
  have hv' : c.g v = some gv := hv
  have hwv := ht.wu_nonneg hw v x hp'
  rcases ht.omega v x gv hp' hv' with h1 | h1
  · by_cases hG : gv - wu v ≤ gu
    · exact Or.inl ⟨hG, fun z y hmem hy => h1 z y (List.mem_of_mem_erase hmem) hy⟩
    · have hA := h1 u gu hm (by omega)
      refine Or.inr ⟨?_, fun z f hmem _ => ?_⟩
      · intro htd
        obtain ⟨gc, h2, h3⟩ := htd.cost_le (ht.wu_nonneg hw) gv hv'
        have h2' : c.g u = some gc := h2
        rw [hgu] at h2'
        have := Option.some.inj h2'
        omega
      · have := hall z f hmem
        omega
  · by_cases htd : TightDesc c.g c.p wu u v
    · have hA := h1 u _ hm htd
      obtain ⟨gc, h2, h3⟩ := htd.cost_le (ht.wu_nonneg hw) gv hv'
      rw [hgu] at h2
      have h2' := Option.some.inj h2
      refine Or.inl ⟨by omega, fun z y hmem _ => ?_⟩
      have := hall z _ hmem
      omega
    · exact Or.inr ⟨htd, fun z f hmem htd' => h1 z f (List.mem_of_mem_erase hmem) htd'⟩

end Tight

section Tight2
variable {E : Nat → List Edge} {h : Nat → Int}

/-- Tight descent after one improvement of `t` through `u`, in terms of tight descent
before it. -/
theorem TightDesc.of_upd {g : Nat → Option Int} {p : Nat → Option Nat} {wu : Nat → Int}
    {t u : Nat} {gu w : Int} (hne : t ≠ u) (hlt : ∀ y, g t = some y → gu + w < y)
    (hlink : ∀ v x, p v = some x →
      ∃ gv gx, g v = some gv ∧ g x = some gx ∧ gx + wu v ≤ gv)
    {c v : Nat}
    (htd : TightDesc (upd g t (some (gu + w))) (upd p t (some u)) (upd wu t w) c v) :
    (c = t → v = t ∨ TightDesc g p wu u v) ∧ (c ≠ t → TightDesc g p wu c v) := by
  induction htd with
  | refl v => exact ⟨fun hv => Or.inl hv, fun _ => TightDesc.refl v⟩
  | @step c c' v y hp hc hc' _ ih =>
    constructor
    · intro hct
      subst hct
      simp only [upd_same, Option.some.injEq] at hp
      subst hp
      exact Or.inr (ih.2 (Ne.symm hne))
    · intro hct
      rw [upd_other _ _ hct] at hp hc'
      rw [upd_other _ _ hct] at hc'
      by_cases hc2 : c = t
      · subst hc2
        simp only [upd_same, Option.some.injEq] at hc
        obtain ⟨gv, gx, h1, h2, h3⟩ := hlink c' c hp
        rw [hc'] at h1
        have h1' := Option.some.inj h1
        have := hlt gx h2
        omega
      · rw [upd_other _ _ hc2] at hc
        exact TightDesc.step hp hc hc' (ih.2 hc2)

/-- One relaxation step keeps the invariant of an expansion. -/
theorem TightStep.relaxOne (hw : NonNegE E) {start u : Nat} {gu : Int} {e : Edge}
    {es : List Edge} {c : Core} {wu : Nat → Int} (hc : CoreInv E h start u (e :: es) c)
    (ht : TightStep E h wu u gu c) :
    ∃ wu', TightStep E h wu' u gu
      (if ltD (addW (c.g u) e.weight) (c.g e.target) then
        { g := upd c.g e.target (addW (c.g u) e.weight)
          p := upd c.p e.target (some u)
          q := (addW (addW (c.g u) e.weight) (h e.target), e.target) :: c.q }
      else c) := by
  have heE : e ∈ E u := hc.todo_sub e (List.mem_cons_self _ _)
  have hw0 : 0 ≤ e.weight := hw u e heE
  have hgu := ht.gu_eq
  by_cases hlt : ltD (addW (c.g u) e.weight) (c.g e.target) = true
  · simp only [hlt, if_true]
    simp only [hgu, addW_some] at hlt ⊢
    have hlt2 : ∀ y, c.g e.target = some y → gu + e.weight < y := by
      intro y hy
      simpa [hy] using hlt
    have hne_u : e.target ≠ u := by
      intro heq
      have := hlt2 gu (by rw [heq]; exact hgu)
      omega
    have hlink : ∀ v x, c.p v = some x →
        ∃ gv gx, c.g v = some gv ∧ c.g x = some gx ∧ gx + wu v ≤ gv :=
      fun v x hp => (ht.wu_edge v x hp).2
    have hgu2 : upd c.g e.target (some (gu + e.weight)) u = some gu := by
      rw [upd_other _ _ (Ne.symm hne_u)]; exact hgu
    refine ⟨upd wu e.target e.weight, hgu2, ?_, ?_, ?_⟩
    · intro v x hp
      dsimp only at hp ⊢
      by_cases hvt : v = e.target
      · subst hvt
        simp only [upd_same, Option.some.injEq] at hp
        subst hp
        refine ⟨by simpa using heE, gu + e.weight, gu, by simp, hgu2, ?_⟩
        simp
      · rw [upd_other _ _ hvt] at hp
        rw [upd_other _ _ hvt, upd_other _ _ hvt]
        obtain ⟨hmem, gv, gx, h1, h2, h3⟩ := ht.wu_edge v x hp
        refine ⟨hmem, ?_⟩
        by_cases hxt : x = e.target
        · subst hxt
          have := hlt2 gx h2
          exact ⟨gv, gu + e.weight, h1, by simp, by omega⟩
        · exact ⟨gv, gx, h1, by rw [upd_other _ _ hxt]; exact h2, h3⟩
    · intro z y hm hy
      dsimp only at hm
      rcases List.mem_cons.1 hm with heq | hm'
      · have h1 : z = e.target := congrArg Prod.snd heq
        have h2 : some (y + h z) = some (gu + e.weight + h e.target) := congrArg Prod.fst heq
        subst h1
        have := Option.some.inj h2
        omega
      · exact ht.minlow z y hm' hy
    · intro v x gv hp hv
      dsimp only at hp hv ⊢
      by_cases hvt : v = e.target
      · subst hvt
        simp only [upd_same, Option.some.injEq] at hp hv
        subst hp
        subst hv
        left
        simp only [upd_same]
        refine ⟨by omega, ?_⟩
        intro z y hm hy
        have hy' : y < gu := by omega
        rcases List.mem_cons.1 hm with heq | hm'
        · have h1 : z = e.target := congrArg Prod.snd heq
          have h2 : some (y + h z) = some (gu + e.weight + h e.target) :=
            congrArg Prod.fst heq
          subst h1
          have := Option.some.inj h2
          omega
        · have := ht.minlow z y hm' hy'
          omega
      · rw [upd_other _ _ hvt] at hp hv
        rw [upd_other _ _ hvt]
        rcases ht.sv v x gv hp hv with ⟨h1, h2⟩ | ⟨h1, h2⟩
        · left
          refine ⟨h1, ?_⟩
          intro z y hm hy
          rcases List.mem_cons.1 hm with heq | hm'
          · have h3 : z = e.target := congrArg Prod.snd heq
            have h4 : some (y + h z) = some (gu + e.weight + h e.target) :=
              congrArg Prod.fst heq
            subst h3
            have := Option.some.inj h4
            omega
          · exact h2 z y hm' hy
        · right
          refine ⟨?_, ?_⟩
          · intro htd
            exact h1 ((TightDesc.of_upd hne_u hlt2 hlink htd).2 (Ne.symm hne_u))
          · intro z f hm htd
            have hof := TightDesc.of_upd hne_u hlt2 hlink htd
            by_cases hzt : z = e.target
            · rcases hof.1 hzt with h3 | h3
              · exact absurd h3 hvt
              · exact absurd h3 h1
            · rcases List.mem_cons.1 hm with heq | hm'
              · exact absurd (congrArg Prod.snd heq) hzt
              · exact h2 z f hm' (hof.2 hzt)
  · have hlt' : ltD (addW (c.g u) e.weight) (c.g e.target) = false := by
      simpa using hlt
    simp only [hlt', Bool.false_eq_true, if_false]
    exact ⟨wu, ht⟩

theorem TightStep.relaxAll (hw : NonNegE E) {start u : Nat} {gu : Int} (es : List Edge)
    (c : Core) (wu : Nat → Int) (hc : CoreInv E h start u es c)
    (ht : TightStep E h wu u gu c) :
    ∃ wu', TightStep E h wu' u gu (coreRelax h u es c) := by
  induction es generalizing c wu with
  | nil => exact ⟨wu, ht⟩
  | cons e es ih =>
    have hs := CoreInv.step hw hc
    obtain ⟨wu1, ht1⟩ := TightStep.relaxOne hw hc ht
    simp only [coreRelax]
    split
    · rename_i hlt
      simp only [hlt, if_true] at hs ht1
      exact ih _ wu1 hs ht1
    · rename_i hlt
      simp only [hlt, if_false] at hs ht1
      exact ih _ wu1 hs ht1

/-- Relaxing the edges of a node all of whose edges are relaxed changes nothing. -/
theorem coreRelax_closed {u : Nat} {x : Int} (es : List Edge) (c : Core)
    (hgu : c.g u = some x)
    (hcl : ∀ e ∈ es, ∃ y, c.g e.target = some y ∧ y ≤ x + e.weight) :
    coreRelax h u es c = c := by
  induction es with
  | nil => rfl
  | cons e es ih =>
    obtain ⟨y, hy, hle⟩ := hcl e (List.mem_cons_self _ _)
    have hlt : ltD (addW (c.g u) e.weight) (c.g e.target) = false := by
      rw [hgu, hy]
      simp
      omega
    simp only [coreRelax, hlt, Bool.false_eq_true, if_false]
    exact ih fun e' he' => hcl e' (List.mem_cons_of_mem _ he')

end Tight2

section Tight3
variable {E : Nat → List Edge} {h : Nat → Int}

/-- Popping a least pair and relaxing the edges of its node keeps the invariant. -/
theorem TightInv.popMin (hw : NonNegE E) {start u0 : Nat} {c : Core} {wu : Nat → Int}
    (hc : CoreInv E h start u0 [] c) (ht : TightInv E h wu c) {f : Option Int} {u : Nat}
    (hm : (f, u) ∈ c.q) (hmin : ∀ e ∈ c.q, ltD e.1 f = false) :
    ∃ wu', TightInv E h wu' (coreRelax h u (E u) ⟨c.g, c.p, c.q.erase (f, u)⟩) := by
  obtain ⟨y, x, hf, hx, hxy⟩ := hc.q_sound f u hm
  subst hf
  by_cases hcur : x = y
  · subst hcur
    have hst := ht.start hw hx hm hmin
    obtain ⟨wu', hrel⟩ := TightStep.relaxAll hw (E u) _ wu (hc.pop (some (x + h u)) u) hst
    exact ⟨wu', hrel.finish⟩
  · rcases hc.frontier u x hx with hq | hcl
    · have := hmin _ hq
      simp at this
      omega
    · have hcl' : ∀ e ∈ E u, ∃ y', c.g e.target = some y' ∧ y' ≤ x + e.weight := by
        intro e he
        rcases hcl e he with ⟨_, hnil⟩ | hr
        · simp at hnil
        · exact hr
      rw [coreRelax_closed (E u) ⟨c.g, c.p, c.q.erase (some (y + h u), u)⟩ hx hcl']
      exact ⟨wu, ht.sub fun e he => List.mem_of_mem_erase he⟩

theorem TightInv.atInit (start : Nat) :
    TightInv E h (fun _ => 0)
      ⟨upd (fun _ => INF) start (some 0), fun _ => none, [(some (h start), start)]⟩ := by
  refine ⟨?_, ?_⟩
  · intro v x hp
    simp at hp
  · intro v x gv hp
    simp at hp

/-- A tight descendant of the start has a parent chain that, read backwards, is a path
from the start whose weight is exactly the cost of the node. -/
theorem TightDesc.path {g : Nat → Option Int} {p : Nat → Option Nat} {wu : Nat → Int}
    (hedge : ∀ v x, p v = some x → (⟨v, wu v⟩ : Edge) ∈ E x) {c v : Nat}
    (htd : TightDesc g p wu c v) :
    g v = some 0 → p v = none → ∀ gc, g c = some gc →
      ∃ l, (∀ fuel, l.length ≤ fuel → walkParents p fuel (some c) = some l) ∧
        l.head? = some c ∧ l.getLast? = some v ∧ PathCost E l.reverse gc := by
  induction htd with
  | refl v =>
    intro h0 hp0 gc hgc
    rw [h0] at hgc
    have hgc' := Option.some.inj hgc
    subst hgc'
    refine ⟨[v], ?_, rfl, rfl, PathCost.single v⟩
    intro fuel hf
    cases fuel with
    | zero => simp at hf
    | succ f => rw [walkParents_succ, hp0, walkParents_none]
  | @step c c' v y hp hc hc' _ ih =>
    intro h0 hp0 gc hgc
    rw [hc'] at hgc
    have hgc' := Option.some.inj hgc
    subst hgc'
    obtain ⟨l, hl1, hl2, hl3, hl4⟩ := ih h0 hp0 y hc
    have hlne : l ≠ [] := by
      intro hnil
      simp [hnil] at hl2
    refine ⟨c' :: l, ?_, rfl, ?_, ?_⟩
    · intro fuel hf
      cases fuel with
      | zero => simp at hf
      | succ f => rw [walkParents_succ, hp, hl1 f (by simpa using hf)]
    · obtain ⟨a, l', rfl⟩ := List.exists_cons_of_ne_nil hlne
      rw [List.getLast?_cons_cons]
      exact hl3
    · rw [List.reverse_cons]
      refine PathCost.snoc_node hl4 ?_ (hedge c' c hp)
      rw [List.getLast?_reverse]
      exact hl2

/-- When the queue is empty, or a least pair of it belongs to `dst`, every parent link
above `dst` is tight: the parent chain of `dst` is a path whose weight is the cost of
`dst`. -/
theorem TightInv.final (hw : NonNegE E) {start u0 dst : Nat} {c : Core} {wu : Nat → Int}
    (hc : CoreInv E h start u0 [] c) (ht : TightInv E h wu c)
    (hend : c.q = [] ∨ ∃ f, ((f, dst) : PDI) ∈ c.q ∧ ∀ e ∈ c.q, ltD e.1 f = false) :
    ∀ x, c.g dst = some x →
      ∃ l, (∀ fuel, l.length ≤ fuel → walkParents c.p fuel (some dst) = some l) ∧
        l.head? = some dst ∧ l.getLast? = some start ∧ PathCost E l.reverse x := by
  obtain ⟨t, hlink⟩ := hc.p_link
  have main : ∀ n k v gv, gv.toNat = n → t v = k → c.g v = some gv →
      TightDesc c.g c.p wu dst v → TightDesc c.g c.p wu dst start := by
    intro n
    induction n using Nat.strong_induction_on with
    | _ n ihn =>
      intro k
      induction k using Nat.strong_induction_on with
      | _ k ihk =>
        intro v gv hn hk hv htd
        by_cases hvs : v = start
        · subst hvs
          exact htd
        · obtain ⟨x, hpx⟩ := hc.p_some v gv hv hvs
          obtain ⟨xv, y, w, h1, h2, _, h4, h5⟩ := hlink v x hpx
          obtain ⟨hmem, gv', gx, h6, h7, h8⟩ := ht.wu_edge v x hpx
          rw [hv] at h1 h6
          have e1 := Option.some.inj h1
          have e2 := Option.some.inj h6
          rw [h7] at h2
          have e3 := Option.some.inj h2
          subst e1 e2 e3
          have hgx0 := hc.g_nonneg x gx h7
          have hwv : 0 ≤ wu v := hw x ⟨v, wu v⟩ hmem
          by_cases htight : gx + wu v = gv
          · have hv' : c.g v = some (gx + wu v) := by rw [htight]; exact hv
            have htd' : TightDesc c.g c.p wu dst x := htd.extend hpx h7 hv'
            by_cases hlt : gx < gv
            · exact ihn gx.toNat (by omega) (t x) x gx rfl rfl h7 htd'
            · have htlt : t x < t v := by
                rcases h5 with h5 | h5
                · exact absurd h5 hlt
                · exact h5
              exact ihk (t x) (by omega) x gx (by omega) rfl h7 htd'
          · exfalso
            rcases hc.frontier x gx h7 with hq | hcl
            · rcases hend with hnil | ⟨f, hfm, hfmin⟩
              · rw [hnil] at hq
                simp at hq
              · rcases ht.omega v x gv hpx hv with hd1 | hd2
                · have := hd1 x gx hq (by omega)
                  omega
                · obtain ⟨y', x', hf, _, _⟩ := hc.q_sound f dst hfm
                  subst hf
                  have h9 := hd2 dst _ hfm htd
                  have h10 := hfmin _ hq
                  simp at h10
                  omega
            · rcases hcl ⟨v, wu v⟩ hmem with ⟨_, hnil⟩ | ⟨y', hy', hle⟩
              · simp at hnil
              · have hy2 : c.g v = some y' := hy'
                rw [hv] at hy2
                have := Option.some.inj hy2
                have hle' : y' ≤ gx + wu v := hle
                omega
  intro x hx
  have htd := main x.toNat (t dst) dst x rfl rfl hx (TightDesc.refl dst)
  exact htd.path (fun v x hp => (ht.wu_edge v x hp).1) hc.g_start hc.p_start x hx

end Tight3

section AStarTight
variable {g : Graph} {h : Nat → Int} {src dst : Nat}

/-- When the loop of `a_star` stops with a finite cost for `dst`, the parent chain of
`dst` is a path from `src` whose weight is that cost. -/
theorem aStarLoop_tight (hw : NonNegE g.fwd) :
    ∀ (fuel : Nat) (s s' : AState), CoreInv g.fwd h src 0 [] s.core →
      (∃ wu, TightInv g.fwd h wu s.core) → aStarLoop g h dst fuel s = some s' →
      ∀ x, s'.gscore dst = some x →
        ∃ l, (∀ fuel, l.length ≤ fuel → walkParents s'.parent fuel (some dst) = some l) ∧
          l.head? = some dst ∧ l.getLast? = some src ∧ PathCost g.fwd l.reverse x := by
  have hempty : ∀ s : AState, CoreInv g.fwd h src 0 [] s.core →
      (∃ wu, TightInv g.fwd h wu s.core) → pqPop s.openQ = none →
      ∀ x, s.gscore dst = some x →
        ∃ l, (∀ fuel, l.length ≤ fuel → walkParents s.parent fuel (some dst) = some l) ∧
          l.head? = some dst ∧ l.getLast? = some src ∧ PathCost g.fwd l.reverse x := by
    intro s hc ⟨wu, ht⟩ hpop
    have hq : s.core.q = [] := pqPop_none.1 hpop
    exact ht.final hw hc (Or.inl hq)
  intro fuel
  induction fuel with
  | zero =>
    intro s s' hc ht hl
    cases hpop : pqPop s.openQ with
    | none =>
      rw [aStarLoop_empty _ s hpop] at hl
      cases hl
      exact hempty s hc ht hpop
    | some m => rw [aStarLoop_zero s hpop] at hl; cases hl
  | succ n ih =>
    intro s s' hc ht hl
    cases hpop : pqPop s.openQ with
    | none =>
      rw [aStarLoop_empty _ s hpop] at hl
      cases hl
      exact hempty s hc ht hpop
    | some m =>
      obtain ⟨⟨f, u⟩, rest⟩ := m
      obtain ⟨hm, hrest, hmin⟩ := pqPop_some hpop
      obtain ⟨wu, ht⟩ := ht
      rw [aStarLoop_succ n s hpop] at hl
      split at hl
      · rename_i h1
        cases hl
        subst h1
        exact ht.final hw hc (Or.inr ⟨f, hm, hmin⟩)
      · split at hl
        · rename_i h3
          refine ih _ _ (aStar_out_inv hw hc f h3 rest hrest) ⟨wu, ?_⟩ hl
          subst hrest
          exact ht.sub fun e he => List.mem_of_mem_erase he
        · refine ih _ _ (aStar_expand_inv hw hc f u rest hrest) ?_ hl
          subst hrest
          rw [aStarRelax_core]
          exact ht.popMin hw hc hm hmin

end AStarTight

/-- The function `a_star` returns; it returns `(+infinity, [])` exactly when `dst` is
unreachable, and otherwise a cost and a path from `src` to `dst` whose weight is that cost;
with an admissible heuristic the cost is the least one. -/
theorem a_star_total (hav : Int → Int → Int → Int → Int) {g : Graph} (hnn : g.NonNeg)
    (hir : g.InRange) (src dst : Nat) :
    ∃ n, (¬ Reachable g.fwd src dst ∧
        ∀ fuel, n ≤ fuel → a_star hav fuel g src dst = some (INF, [])) ∨
      ∃ d path, (∀ fuel, n ≤ fuel → a_star hav fuel g src dst = some (some d, path)) ∧
        Walk g.fwd src dst d ∧ path.head? = some src ∧ path.getLast? = some dst ∧
        PathCost g.fwd path d ∧
        (Admissible g.fwd (g.heurTo hav dst) dst → 0 ≤ g.heurTo hav dst dst →
          ∀ c, Walk g.fwd src dst c → d ≤ c) := by
  have hw := hnn.toE
  obtain ⟨n1, s, hloop⟩ : ∃ fuel s', aStarLoop g (g.heurTo hav dst) dst fuel
      (aStarInit (g.heurTo hav dst) src) = some s' :=
    aStarLoop_terminates hw hir.toBounded (aStarInit (g.heurTo hav dst) src) aStarInit_inv
  obtain ⟨_, hopt⟩ := aStarLoop_post hw n1 _ s aStarInit_inv hloop
  have htight := aStarLoop_tight hw n1 _ s aStarInit_inv
    ⟨fun _ => 0, TightInv.atInit src⟩ hloop
  cases hd : s.gscore dst with
  | none =>
    refine ⟨n1, Or.inl ⟨?_, ?_⟩⟩
    · rintro ⟨c, hc⟩
      obtain ⟨z, hz, _⟩ := hopt c hc
      rw [hd] at hz
      cases hz
    · intro fuel hf
      obtain ⟨k, rfl⟩ := Nat.exists_eq_add_of_le hf
      have : aStarLoop g (fun u => g.haversineDistance hav u dst) dst (n1 + k)
          (aStarInit (fun u => g.haversineDistance hav u dst) src) = some s :=
        aStarLoop_mono hloop k
      simp [a_star, this, hd, INF]
  | some x =>
    obtain ⟨l, hl1, hl2, hl3, hl4⟩ := htight x hd
    have hwalk : Walk g.fwd src dst x := by
      refine hl4.walk src dst ?_ ?_
      · rw [List.head?_reverse]; exact hl3
      · rw [List.getLast?_reverse]; exact hl2
    refine ⟨max n1 l.length, Or.inr ⟨x, l.reverse, ?_, hwalk, ?_, ?_, hl4, ?_⟩⟩
    · intro fuel hf
      have h1 : n1 ≤ fuel := le_trans (le_max_left _ _) hf
      have h2 : l.length ≤ fuel := le_trans (le_max_right _ _) hf
      obtain ⟨k, rfl⟩ := Nat.exists_eq_add_of_le h1
      have : aStarLoop g (fun u => g.haversineDistance hav u dst) dst (n1 + k)
          (aStarInit (fun u => g.haversineDistance hav u dst) src) = some s :=
        aStarLoop_mono hloop k
      simp [a_star, this, hd, INF, hl1 _ h2]
    · rw [List.head?_reverse]; exact hl3
    · rw [List.getLast?_reverse]; exact hl2
    · intro hadm h0 c hc
      obtain ⟨z', hz', hzle'⟩ := hopt c hc
      rw [hd] at hz'
      have := Option.some.inj hz'
      subst this
      exact hzle' hadm h0

/-! ### The two halves of an iteration of `bidir_a_star` -/

theorem addD_comm (a b : Option Int) : addD a b = addD b a := by
  cases a <;> cases b <;> simp [Int.add_comm]

@[simp] theorem BState.swap_swap (s : BState) : s.swap.swap = s := rfl

theorem meet_swap (os : Nat → Bool) (u : Nat) (s : BState) :
    (meet os u s.swap).swap = meet os u s := by
  unfold meet
  by_cases h1 : os u = true
  · simp only [h1, if_true]
    have hc : addD (s.swap.fwd.g u) (s.swap.bwd.g u) = addD (s.fwd.g u) (s.bwd.g u) :=
      addD_comm _ _
    rw [hc]
    have hb : s.swap.best = s.best := rfl
    rw [hb]
    split <;> rfl
  · simp only [h1, if_false, Bool.false_eq_true]
    rfl

theorem bidirIter_eq (g : Graph) (hF hB : Nat → Int) (s : BState) :
    bidirIter g hF hB s =
      match pqPop s.fwd.openQ with
      | none => bwdHalf g hB s
      | some ((f, u), rest) =>
        if ltD (s.fwd.f u) f then (skipSide rest s, false)
        else bwdHalf g hB (expandSide g.adj hF u rest s) := rfl

theorem bwdHalf_eq (g : Graph) (hB : Nat → Int) (s : BState) :
    bwdHalf g hB s =
      match pqPop s.bwd.openQ with
      | none => (s, stopTest s)
      | some ((f, u), rest) =>
        if ltD (s.bwd.f u) f then ((skipSide rest s.swap).swap, false)
        else ((expandSide g.radj hB u rest s.swap).swap,
          stopTest (expandSide g.radj hB u rest s.swap).swap) := by
  unfold bwdHalf
  cases hpop : pqPop s.bwd.openQ with
  | none => rfl
  | some m =>
    obtain ⟨⟨f, u⟩, rest⟩ := m
    dsimp only
    have hexp : (expandSide g.radj hB u rest s.swap).swap =
        (if u < g.radj.length then
          { (meet s.fwd.seen u
              { s with bwd := { s.bwd with openQ := rest, seen := upd s.bwd.seen u true } }) with
            bwd := sideRelax hB u (g.radj.getD u [])
              (meet s.fwd.seen u
                { s with bwd := { s.bwd with openQ := rest,
                                             seen := upd s.bwd.seen u true } }).bwd }
        else meet s.fwd.seen u
          { s with bwd := { s.bwd with openQ := rest, seen := upd s.bwd.seen u true } }) := by
      unfold expandSide
      dsimp only
      rw [← meet_swap s.fwd.seen u
        { s with bwd := { s.bwd with openQ := rest, seen := upd s.bwd.seen u true } }]
      split <;> rfl
    rw [hexp]
    split <;> rfl

theorem BInv.swap {EF EB : Nat → List Edge} {hF hB : Nat → Int} {a b : Nat} {s : BState}
    (hs : BInv EF hF a EB hB b s) : BInv EB hB b EF hF a s.swap := by
  refine ⟨hs.cb, hs.cf, hs.fb, hs.ff, hs.sgB, hs.sgF, hs.kB, hs.kF, ?_, hs.bm_none, ?_⟩
  · intro v x y hx hy
    rcases hs.cover v y x hy hx with ⟨z, hz, hle⟩ | h2 | h3
    · exact Or.inl ⟨z, hz, by omega⟩
    · exact Or.inr (Or.inr h2)
    · exact Or.inr (Or.inl h3)
  · intro m hm
    obtain ⟨z, x, y, c1, c2, h1, h2, h3, h4, h5, h6, h7⟩ := hs.bm_some m hm
    exact ⟨z, y, x, c2, c1, h1, h3, h2, by omega, h6, h5, by omega⟩

/-! ### What a relaxation loop changes -/

section RelaxFacts
variable {h : Nat → Int} {u : Nat}

theorem coreRelax_sub (es : List Edge) (c : Core) :
    ∀ e ∈ c.q, e ∈ (coreRelax h u es c).q := by
  induction es generalizing c with
  | nil => intro e he; exact he
  | cons e0 es ih =>
    intro e he
    simp only [coreRelax]
    split
    · exact ih _ e (List.mem_cons_of_mem _ he)
    · exact ih c e he

theorem coreRelax_changed (es : List Edge) (c : Core) :
    ∀ v x, (coreRelax h u es c).g v = some x →
      c.g v = some x ∨ (some (x + h v), v) ∈ (coreRelax h u es c).q := by
  induction es generalizing c with
  | nil => intro v x hv; exact Or.inl hv
  | cons e0 es ih =>
    intro v x hv
    simp only [coreRelax] at hv ⊢
    split at hv
    · rename_i hlt
      rw [if_pos hlt]
      rcases ih _ v x hv with h1 | h1
      · dsimp only at h1
        by_cases hvt : v = e0.target
        · subst hvt
          right
          apply coreRelax_sub
          simp only [upd_same] at h1
          cases hgu : c.g u with
          | none => simp [hgu] at hlt
          | some y =>
            simp only [hgu, addW_some, Option.some.injEq] at h1 ⊢
            subst h1
            exact List.mem_cons_self _ _
        · left
          rwa [upd_other _ _ hvt] at h1
      · exact Or.inr h1
    · rename_i hlt
      rw [if_neg hlt]
      exact ih c v x hv

theorem coreRelax_le (es : List Edge) (c : Core) :
    ∀ v x, c.g v = some x → ∃ x', (coreRelax h u es c).g v = some x' ∧ x' ≤ x := by
  induction es generalizing c with
  | nil => intro v x hv; exact ⟨x, hv, le_refl _⟩
  | cons e0 es ih =>
    intro v x hv
    simp only [coreRelax]
    split
    · rename_i hlt
      by_cases hvt : v = e0.target
      · subst hvt
        have hex : ∃ y, c.g u = some y := by
          cases hgu : c.g u with
          | none => simp [hgu] at hlt
          | some y => exact ⟨y, rfl⟩
        obtain ⟨y, hgu⟩ := hex
        have hlt2 : y + e0.weight < x := by
          rw [hgu, hv] at hlt
          simpa using hlt
        obtain ⟨x', h1, h2⟩ := ih
          { g := upd c.g e0.target (addW (c.g u) e0.weight)
            p := upd c.p e0.target (some u)
            q := (addW (addW (c.g u) e0.weight) (h e0.target), e0.target) :: c.q }
          e0.target (y + e0.weight) (by simp [hgu])
        exact ⟨x', h1, by omega⟩
      · exact ih _ v x (by dsimp only; rw [upd_other _ _ hvt]; exact hv)
    · exact ih c v x hv

theorem coreRelax_pushed {E : Nat → List Edge} {start : Nat} (hw : NonNegE E)
    (es : List Edge) (c : Core) (hc : CoreInv E h start u es c) :
    ∀ e ∈ (coreRelax h u es c).q, e ∈ c.q ∨ e.2 ≠ start := by
  induction es generalizing c with
  | nil => intro e he; exact Or.inl he
  | cons e0 es ih =>
    intro e he
    have hs := CoreInv.step hw hc
    simp only [coreRelax] at he
    by_cases hlt : ltD (addW (c.g u) e0.weight) (c.g e0.target) = true
    · rw [if_pos hlt] at he hs
      rcases ih _ hs e he with h1 | h1
      · rcases List.mem_cons.1 h1 with h2 | h2
        · right
          subst h2
          dsimp only
          intro heq
          cases hgu : c.g u with
          | none => simp [hgu] at hlt
          | some x =>
            have h0 := hc.g_nonneg u x hgu
            have hw0 := hw u e0 (hc.todo_sub e0 (List.mem_cons_self _ _))
            rw [hgu, heq, hc.g_start] at hlt
            simp at hlt
            omega
        · exact Or.inl h2
      · exact Or.inr h1
    · rw [if_neg hlt] at he hs
      exact ih c hs e he

end RelaxFacts

/-! ### Recording a meeting node -/

@[simp] theorem meet_fwd (os : Nat → Bool) (u : Nat) (s : BState) : (meet os u s).fwd = s.fwd := by
  unfold meet
  split
  · split <;> rfl
  · rfl

@[simp] theorem meet_bwd (os : Nat → Bool) (u : Nat) (s : BState) : (meet os u s).bwd = s.bwd := by
  unfold meet
  split
  · split <;> rfl
  · rfl

/-- The candidate never grows. -/
theorem meet_best_le (os : Nat → Bool) (u : Nat) (s : BState) {z : Int} (hz : s.best = some z) :
    ∃ z', (meet os u s).best = some z' ∧ z' ≤ z := by
  unfold meet
  split
  · split
    · rename_i h1 h2
      rw [hz] at h2
      obtain ⟨t, ht, hlt⟩ := ltD_true_iff.1 h2
      exact ⟨t, ht, le_of_lt (hlt z rfl)⟩
    · exact ⟨z, hz, le_refl _⟩
  · exact ⟨z, hz, le_refl _⟩

/-- After `u` was seen by the other side the candidate covers the sum of the costs of `u`. -/
theorem meet_covers (os : Nat → Bool) (u : Nat) (s : BState) (hos : os u = true) {x y : Int}
    (hx : s.fwd.g u = some x) (hy : s.bwd.g u = some y) :
    ∃ z, (meet os u s).best = some z ∧ z ≤ x + y := by
  unfold meet
  rw [if_pos hos, hx, hy, addD_some_some]
  split
  · exact ⟨x + y, rfl, le_refl _⟩
  · rename_i h2
    have h3 : ltD (some (x + y)) s.best = false := by simpa using h2
    obtain ⟨z, hz, hle⟩ := ltD_false_iff.1 h3
    exact ⟨z, hz, hle⟩

/-- Either nothing is recorded, or `u` becomes the meeting node with the sum of its costs. -/
theorem meet_cases (os : Nat → Bool) (u : Nat) (s : BState) :
    ((meet os u s).best = s.best ∧ (meet os u s).meeting = s.meeting) ∨
      ∃ x y, s.fwd.g u = some x ∧ s.bwd.g u = some y ∧ (meet os u s).best = some (x + y) ∧
        (meet os u s).meeting = some u := by
  unfold meet
  split
  · split
    · rename_i h1 h2
      right
      obtain ⟨t, ht, _⟩ := ltD_true_iff.1 h2
      cases hx : s.fwd.g u with
      | none => simp [hx] at ht
      | some x =>
        cases hy : s.bwd.g u with
        | none => simp [hx, hy] at ht
        | some y => exact ⟨x, y, rfl, rfl, by simp [hx, hy], rfl⟩
    · exact Or.inl ⟨rfl, rfl⟩
  · exact Or.inl ⟨rfl, rfl⟩

/-! ### The shape of an expansion -/

theorem sideRelax_nil_of_ge (heur : Nat → Int) (u : Nat) {adj : List (List Edge)}
    (hu : ¬ u < adj.length) (s : Side) : sideRelax heur u (adj.getD u []) s = s := by
  rw [List.getD_eq_default _ _ (by omega)]
  rfl

theorem expandSide_fwd (adj : List (List Edge)) (heur : Nat → Int) (u : Nat) (rest : List PDI)
    (s : BState) :
    (expandSide adj heur u rest s).fwd =
      sideRelax heur u (adj.getD u [])
        { s.fwd with openQ := rest, seen := upd s.fwd.seen u true } := by
  unfold expandSide
  dsimp only
  split
  · simp
  · rename_i hu
    rw [sideRelax_nil_of_ge heur u hu]
    simp

theorem expandSide_bwd (adj : List (List Edge)) (heur : Nat → Int) (u : Nat) (rest : List PDI)
    (s : BState) : (expandSide adj heur u rest s).bwd = s.bwd := by
  unfold expandSide
  dsimp only
  split <;> simp

theorem expandSide_best (adj : List (List Edge)) (heur : Nat → Int) (u : Nat) (rest : List PDI)
    (s : BState) :
    (expandSide adj heur u rest s).best =
        (meet s.bwd.seen u
          { s with fwd := { s.fwd with openQ := rest, seen := upd s.fwd.seen u true } }).best ∧
      (expandSide adj heur u rest s).meeting =
        (meet s.bwd.seen u
          { s with fwd := { s.fwd with openQ := rest, seen := upd s.fwd.seen u true } }).meeting := by
  unfold expandSide
  dsimp only
  split <;> exact ⟨rfl, rfl⟩

/-! ### A half-iteration keeps the invariant -/

section Half
variable {EF EB : Nat → List Edge} {hF hB : Nat → Int} {a b : Nat} {s : BState}

theorem BInv.stale_ne (hs : BInv EF hF a EB hB b s) {f : Option Int} {u : Nat}
    (hst : ltD (s.fwd.f u) f = true) : ∀ x, s.fwd.g u = some x → f ≠ some (x + hF u) := by
  intro x hx heq
  rw [hs.ff u, hx, heq] at hst
  simp at hst

theorem BInv.current (hs : BInv EF hF a EB hB b s) {f : Option Int} {u : Nat}
    (hm : (f, u) ∈ s.fwd.openQ) (hns : ltD (s.fwd.f u) f = false) :
    ∃ x, s.fwd.g u = some x ∧ f = some (x + hF u) := by
  obtain ⟨y, x, h1, h2, h3⟩ := hs.cf.q_sound f u hm
  have h2' : s.fwd.g u = some x := h2
  rw [hs.ff u, h2', h1] at hns
  simp at hns
  have : y = x := by omega
  subst this
  exact ⟨y, h2', h1⟩

theorem BInv.skipF (hs : BInv EF hF a EB hB b s) {f : Option Int} {u : Nat}
    (hst : ltD (s.fwd.f u) f = true) :
    BInv EF hF a EB hB b (skipSide (s.fwd.openQ.erase (f, u)) s) := by
  have hne := hs.stale_ne hst
  have hkeep : ∀ v x, s.fwd.g v = some x → (some (x + hF v), v) ∈ s.fwd.openQ →
      ((some (x + hF v), v) : PDI) ∈ s.fwd.openQ.erase (f, u) := by
    intro v x hv hq
    have hne2 : ((some (x + hF v), v) : PDI) ≠ (f, u) := by
      intro heq
      have h1 : v = u := congrArg Prod.snd heq
      have h2 : some (x + hF v) = f := congrArg Prod.fst heq
      subst h1
      exact hne x hv h2.symm
    exact (List.mem_erase_of_ne hne2).2 hq
  refine ⟨hs.cf.skip f u hne, hs.cb, hs.ff, hs.fb, hs.sgF, hs.sgB, ?_, hs.kB, ?_,
    hs.bm_none, hs.bm_some⟩
  · intro v x hv
    rcases hs.kF v x hv with h1 | h1
    · exact Or.inl h1
    · exact Or.inr (hkeep v x hv h1)
  · intro v x y hx hy
    rcases hs.cover v x y hx hy with h1 | h1 | h1
    · exact Or.inl h1
    · exact Or.inr (Or.inl (hkeep v x hx h1))
    · exact Or.inr (Or.inr h1)

theorem BInv.expandF {adj : List (List Edge)} (hEF : EF = fun v => adj.getD v [])
    (hwF : NonNegE EF) (hwB : NonNegE EB) (hs : BInv EF hF a EB hB b s) {f : Option Int}
    {u : Nat} (hm : (f, u) ∈ s.fwd.openQ) (hns : ltD (s.fwd.f u) f = false) :
    BInv EF hF a EB hB b (expandSide adj hF u (s.fwd.openQ.erase (f, u)) s) := by
  obtain ⟨x, hxu, hfx⟩ := hs.current hm hns
  have hEu : adj.getD u [] = EF u := by rw [hEF]
  have hfwd := expandSide_fwd adj hF u (s.fwd.openQ.erase (f, u)) s
  have hbwd := expandSide_bwd adj hF u (s.fwd.openQ.erase (f, u)) s
  obtain ⟨hbest, hmeet⟩ := expandSide_best adj hF u (s.fwd.openQ.erase (f, u)) s
  have hcore : (expandSide adj hF u (s.fwd.openQ.erase (f, u)) s).fwd.core =
      coreRelax hF u (EF u) ⟨s.fwd.g, s.fwd.p, s.fwd.openQ.erase (f, u)⟩ := by
    rw [hfwd, sideRelax_core, hEu]
    rfl
  have hg : (expandSide adj hF u (s.fwd.openQ.erase (f, u)) s).fwd.g =
      (coreRelax hF u (EF u) ⟨s.fwd.g, s.fwd.p, s.fwd.openQ.erase (f, u)⟩).g :=
    congrArg Core.g hcore
  have hq : (expandSide adj hF u (s.fwd.openQ.erase (f, u)) s).fwd.openQ =
      (coreRelax hF u (EF u) ⟨s.fwd.g, s.fwd.p, s.fwd.openQ.erase (f, u)⟩).q :=
    congrArg Core.q hcore
  have hseen : (expandSide adj hF u (s.fwd.openQ.erase (f, u)) s).fwd.seen =
      upd s.fwd.seen u true := by
    rw [hfwd, sideRelax_seen]
  have hle := coreRelax_le (h := hF) (u := u) (EF u)
    ⟨s.fwd.g, s.fwd.p, s.fwd.openQ.erase (f, u)⟩
  have hch := coreRelax_changed (h := hF) (u := u) (EF u)
    ⟨s.fwd.g, s.fwd.p, s.fwd.openQ.erase (f, u)⟩
  have hsub := coreRelax_sub (h := hF) (u := u) (EF u)
    ⟨s.fwd.g, s.fwd.p, s.fwd.openQ.erase (f, u)⟩
  -- a current pair other than the popped one stays queued
  have hkeep : ∀ v y, s.fwd.g v = some y → (some (y + hF v), v) ∈ s.fwd.openQ → v ≠ u →
      ((some (y + hF v), v) : PDI) ∈
        (coreRelax hF u (EF u) ⟨s.fwd.g, s.fwd.p, s.fwd.openQ.erase (f, u)⟩).q := by
    intro v y _ hqv hvu
    apply hsub
    have hne2 : ((some (y + hF v), v) : PDI) ≠ (f, u) := fun heq => hvu (congrArg Prod.snd heq)
    exact (List.mem_erase_of_ne hne2).2 hqv
  refine ⟨?_, ?_, ?_, ?_, ?_, ?_, ?_, ?_, ?_, ?_, ?_⟩
  · rw [hcore]
    exact hs.cf.expand hwF f u
  · rw [hbwd]; exact hs.cb
  · rw [hfwd]
    exact sideRelax_f hF u _ _ hs.ff
  · rw [hbwd]; exact hs.fb
  · intro v hv
    rw [hseen] at hv
    rw [hg]
    by_cases hvu : v = u
    · subst hvu
      obtain ⟨x', h1, _⟩ := hle v x hxu
      exact ⟨x', h1⟩
    · rw [upd_other _ _ hvu] at hv
      obtain ⟨y, hy⟩ := hs.sgF v hv
      obtain ⟨x', h1, _⟩ := hle v y hy
      exact ⟨x', h1⟩
  · rw [hbwd]; exact hs.sgB
  · intro v x' hv
    rw [hg] at hv
    rw [hseen, hq]
    rcases hch v x' hv with h1 | h1
    · by_cases hvu : v = u
      · left; subst hvu; simp
      · rcases hs.kF v x' h1 with h2 | h2
        · left; rw [upd_other _ _ hvu]; exact h2
        · right; exact hkeep v x' h1 h2 hvu
    · exact Or.inr h1
  · rw [hbwd]; exact hs.kB
  · intro v x' y hv hy
    rw [hg] at hv
    rw [hbwd] at hy
    rw [hbest, hq, hbwd]
    rcases hch v x' hv with h1 | h1
    · by_cases hvu : v = u
      · subst hvu
        have hxx : x' = x := by
          have h1' : s.fwd.g v = some x' := h1
          rw [hxu] at h1'
          exact (Option.some.inj h1').symm
        subst hxx
        rcases hs.kB v y hy with h2 | h2
        · left
          exact meet_covers s.bwd.seen v _ h2 hxu hy
        · exact Or.inr (Or.inr h2)
      · rcases hs.cover v x' y h1 hy with ⟨z, hz, hzle⟩ | h2 | h2
        · left
          obtain ⟨z', hz', hle'⟩ := meet_best_le s.bwd.seen u
            { s with fwd := { s.fwd with openQ := s.fwd.openQ.erase (f, u),
                                         seen := upd s.fwd.seen u true } } hz
          exact ⟨z', hz', by omega⟩
        · exact Or.inr (Or.inl (hkeep v x' h1 h2 hvu))
        · exact Or.inr (Or.inr h2)
    · exact Or.inr (Or.inl h1)
  · intro hnone
    rw [hmeet] at hnone
    rw [hbest]
    rcases meet_cases s.bwd.seen u
      { s with fwd := { s.fwd with openQ := s.fwd.openQ.erase (f, u),
                                   seen := upd s.fwd.seen u true } } with ⟨h1, h2⟩ | ⟨_, _, _, _, _, h4⟩
    · rw [h1]
      rw [h2] at hnone
      exact hs.bm_none hnone
    · rw [h4] at hnone
      cases hnone
  · intro m hmm
    rw [hmeet] at hmm
    rw [hbest, hg, hbwd]
    rcases meet_cases s.bwd.seen u
      { s with fwd := { s.fwd with openQ := s.fwd.openQ.erase (f, u),
                                   seen := upd s.fwd.seen u true } } with
      ⟨h1, h2⟩ | ⟨x0, y0, hx0, hy0, h3, h4⟩
    · rw [h2] at hmm
      obtain ⟨z, x1, y1, c1, c2, e1, e2, e3, e4, e5, e6, e7⟩ := hs.bm_some m hmm
      obtain ⟨x', hx', hxle⟩ := hle m x1 e2
      exact ⟨z, x', y1, c1, c2, by rw [h1]; exact e1, hx', e3, by omega, e5, e6, e7⟩
    · rw [h4] at hmm
      cases hmm
      have hx0' : s.fwd.g u = some x0 := hx0
      have hy0' : s.bwd.g u = some y0 := hy0
      obtain ⟨x', hx', hxle⟩ := hle u x0 hx0'
      obtain ⟨c1, hw1, hc1⟩ := hs.cf.tree.lower hwF hx0'
      obtain ⟨c2, hw2, hc2⟩ := hs.cb.tree.lower hwB hy0'
      exact ⟨x0 + y0, x', y0, c1, c2, h3, hx', hy0', by omega, hw1, hw2, by omega⟩

end Half

/-! ### Pairs of the start node, and the measure of a half-iteration -/

section HalfMore
variable {EF EB : Nat → List Edge} {hF hB : Nat → Int} {a b : Nat} {s : BState}

theorem expandF_noStart {adj : List (List Edge)} (hEF : EF = fun v => adj.getD v [])
    (hwF : NonNegE EF) (hs : BInv EF hF a EB hB b s) (f : Option Int) (u : Nat)
    (hno : ∀ e ∈ s.fwd.openQ.erase (f, u), e.2 ≠ a) :
    ∀ e ∈ (expandSide adj hF u (s.fwd.openQ.erase (f, u)) s).fwd.openQ, e.2 ≠ a := by
  intro e he
  have hEu : adj.getD u [] = EF u := by rw [hEF]
  rw [expandSide_fwd] at he
  have he' : e ∈ (sideRelax hF u (adj.getD u [])
      { s.fwd with openQ := s.fwd.openQ.erase (f, u), seen := upd s.fwd.seen u true }).core.q := he
  rw [sideRelax_core, hEu] at he'
  rcases coreRelax_pushed hwF (EF u) _ (hs.cf.pop f u) e he' with h1 | h1
  · exact hno e h1
  · exact h1

theorem initForm_not_stale (hs : BInv EF hF a EB hB b s)
    (hq : s.fwd.openQ = [(some (hF a), a)]) :
    pqPop s.fwd.openQ = some ((some (hF a), a), []) ∧ ltD (s.fwd.f a) (some (hF a)) = false := by
  refine ⟨by rw [hq]; simp [pqPop, pqTop, pqMin], ?_⟩
  rw [hs.ff a, show s.fwd.g a = some 0 from hs.cf.g_start]
  simp

theorem erase_single (x : PDI) : [x].erase x = [] := by simp

theorem expandF_mu {adj : List (List Edge)} (hEF : EF = fun v => adj.getD v [])
    (hwF : NonNegE EF) {B : Nat} (hB' : BoundedE EF B) (hs : BInv EF hF a EB hB b s)
    {f : Option Int} {u : Nat} (hm : (f, u) ∈ s.fwd.openQ) :
    Lt3 (Core.mu B (expandSide adj hF u (s.fwd.openQ.erase (f, u)) s).fwd.core)
      (Core.mu B s.fwd.core) := by
  have hEu : adj.getD u [] = EF u := by rw [hEF]
  rw [expandSide_fwd, sideRelax_core, hEu]
  exact mu_expand hwF hB' hs.cf hm

theorem skipF_mu (B : Nat) {f : Option Int} {u : Nat} (hm : (f, u) ∈ s.fwd.openQ) :
    Lt3 (Core.mu B (skipSide (s.fwd.openQ.erase (f, u)) s).fwd.core) (Core.mu B s.fwd.core) :=
  mu_erase B s.fwd.core hm

end HalfMore

theorem lt3_add_right {t t' : Nat × Nat × Nat} (k : Nat × Nat × Nat) (hlt : Lt3 t' t) :
    Lt3 (t'.1 + k.1, t'.2.1 + k.2.1, t'.2.2 + k.2.2) (t.1 + k.1, t.2.1 + k.2.1, t.2.2 + k.2.2) := by
  unfold Lt3 at *
  dsimp only
  omega

theorem lt3_add_left {t t' : Nat × Nat × Nat} (k : Nat × Nat × Nat) (hlt : Lt3 t' t) :
    Lt3 (k.1 + t'.1, k.2.1 + t'.2.1, k.2.2 + t'.2.2) (k.1 + t.1, k.2.1 + t.2.1, k.2.2 + t.2.2) := by
  unfold Lt3 at *
  dsimp only
  omega

theorem lt3_trans {t1 t2 t3 : Nat × Nat × Nat} (h12 : Lt3 t1 t2) (h23 : Lt3 t2 t3) :
    Lt3 t1 t3 := by
  unfold Lt3 at *
  omega

theorem BState.mu_fwd {B : Nat} {s s' : BState} (hb : s'.bwd = s.bwd)
    (hlt : Lt3 (Core.mu B s'.fwd.core) (Core.mu B s.fwd.core)) :
    Lt3 (BState.mu B s') (BState.mu B s) := by
  unfold BState.mu
  rw [hb]
  exact lt3_add_right _ hlt

theorem BState.mu_bwd {B : Nat} {s s' : BState} (hf : s'.fwd = s.fwd)
    (hlt : Lt3 (Core.mu B s'.bwd.core) (Core.mu B s.bwd.core)) :
    Lt3 (BState.mu B s') (BState.mu B s) := by
  unfold BState.mu
  rw [hf]
  exact lt3_add_left _ hlt

/-! ### One iteration of `bidir_a_star` -/

section Iter
variable {g : Graph} {hF hB : Nat → Int} {src dst : Nat} {B : Nat}

theorem bwdHalf_spec (hwF : NonNegE g.fwd) (hwB : NonNegE g.bwd) (hBB : BoundedE g.bwd B)
    {s : BState} (hs : BInv g.fwd hF src g.bwd hB dst s)
    (hnoF : ∀ e ∈ s.fwd.openQ, e.2 ≠ src)
    (hB0 : s.bwd.openQ = [(some (hB dst), dst)] ∨ ∀ e ∈ s.bwd.openQ, e.2 ≠ dst)
    (hne : s.bwd.openQ ≠ []) :
    BInv g.fwd hF src g.bwd hB dst (bwdHalf g hB s).1 ∧ Started src dst (bwdHalf g hB s).1 ∧
      ((bwdHalf g hB s).2 = true → stopTest (bwdHalf g hB s).1 = true) ∧
      Lt3 (BState.mu B (bwdHalf g hB s).1) (BState.mu B s) := by
  rw [bwdHalf_eq]
  cases hpop : pqPop s.bwd.openQ with
  | none => exact absurd (pqPop_none.1 hpop) hne
  | some m =>
    obtain ⟨⟨f, u⟩, rest⟩ := m
    obtain ⟨hm, hrest, _⟩ := pqPop_some hpop
    subst hrest
    have hsw := hs.swap
    dsimp only
    by_cases hst : ltD (s.bwd.f u) f = true
    · rw [if_pos hst]
      dsimp only
      have hnotInit : ∀ e ∈ s.bwd.openQ, e.2 ≠ dst := by
        rcases hB0 with h0 | h0
        · obtain ⟨h1, h2⟩ := initForm_not_stale hsw h0
          have h1' : pqPop s.bwd.openQ = some ((some (hB dst), dst), []) := h1
          rw [hpop] at h1'
          simp only [Option.some.injEq, Prod.mk.injEq] at h1'
          obtain ⟨⟨rfl, rfl⟩, _⟩ := h1'
          have h2' : ltD (s.bwd.f u) (some (hB u)) = false := h2
          rw [h2'] at hst
          cases hst
        · exact h0
      refine ⟨(hsw.skipF hst).swap, ⟨hnoF, ?_⟩, ?_, ?_⟩
      · intro e he
        exact hnotInit e (List.mem_of_mem_erase he)
      · intro hh; cases hh
      · exact BState.mu_bwd rfl (skipF_mu (s := s.swap) B hm)
    · have hns : ltD (s.bwd.f u) f = false := by simpa using hst
      rw [if_neg hst]
      dsimp only
      have hno : ∀ e ∈ s.swap.fwd.openQ.erase (f, u), e.2 ≠ dst := by
        intro e he
        rcases hB0 with h0 | h0
        · have he' : e ∈ s.bwd.openQ.erase (f, u) := he
          have hm' := hm
          rw [h0] at he' hm'
          simp only [List.mem_singleton] at hm'
          rw [hm'] at he'
          simp at he'
        · exact h0 e (List.mem_of_mem_erase he)
      refine ⟨(hsw.expandF rfl hwB hwF hm hns).swap, ⟨?_, ?_⟩, ?_, ?_⟩
      · intro e he
        have : (expandSide g.radj hB u (s.bwd.openQ.erase (f, u)) s.swap).swap.fwd = s.fwd :=
          expandSide_bwd _ _ _ _ _
        rw [this] at he
        exact hnoF e he
      · exact expandF_noStart (s := s.swap) rfl hwB hsw f u hno
      · intro hh; exact hh
      · refine BState.mu_bwd (expandSide_bwd _ _ _ _ _) ?_
        exact expandF_mu (s := s.swap) rfl hwB hBB hsw hm

theorem bidirIter_spec (hwF : NonNegE g.fwd) (hwB : NonNegE g.bwd) (hBF : BoundedE g.fwd B)
    (hBB : BoundedE g.bwd B) {s : BState} (hs : BInv g.fwd hF src g.bwd hB dst s)
    (h0 : (s.fwd.openQ = [(some (hF src), src)] ∧ s.bwd.openQ = [(some (hB dst), dst)]) ∨
      Started src dst s)
    (hneF : s.fwd.openQ ≠ []) (hneB : s.bwd.openQ ≠ []) :
    BInv g.fwd hF src g.bwd hB dst (bidirIter g hF hB s).1 ∧
      Started src dst (bidirIter g hF hB s).1 ∧
      ((bidirIter g hF hB s).2 = true → stopTest (bidirIter g hF hB s).1 = true) ∧
      Lt3 (BState.mu B (bidirIter g hF hB s).1) (BState.mu B s) := by
  rw [bidirIter_eq]
  cases hpop : pqPop s.fwd.openQ with
  | none => exact absurd (pqPop_none.1 hpop) hneF
  | some m =>
    obtain ⟨⟨f, u⟩, rest⟩ := m
    obtain ⟨hm, hrest, _⟩ := pqPop_some hpop
    subst hrest
    dsimp only
    by_cases hst : ltD (s.fwd.f u) f = true
    · rw [if_pos hst]
      dsimp only
      have hstarted : Started src dst s := by
        rcases h0 with ⟨hq, _⟩ | h0
        · obtain ⟨h1, h2⟩ := initForm_not_stale hs hq
          rw [hpop] at h1
          simp only [Option.some.injEq, Prod.mk.injEq] at h1
          obtain ⟨⟨rfl, rfl⟩, _⟩ := h1
          rw [h2] at hst
          cases hst
        · exact h0
      refine ⟨hs.skipF hst, ⟨?_, hstarted.2⟩, ?_, ?_⟩
      · intro e he
        exact hstarted.1 e (List.mem_of_mem_erase he)
      · intro hh; cases hh
      · exact BState.mu_fwd rfl (skipF_mu B hm)
    · have hns : ltD (s.fwd.f u) f = false := by simpa using hst
      rw [if_neg hst]
      have hno : ∀ e ∈ s.fwd.openQ.erase (f, u), e.2 ≠ src := by
        intro e he
        rcases h0 with ⟨hq, _⟩ | h0
        · have hm' := hm
          rw [hq] at he hm'
          simp only [List.mem_singleton] at hm'
          rw [hm'] at he
          simp at he
        · exact h0.1 e (List.mem_of_mem_erase he)
      have hs4 := hs.expandF (rfl : g.fwd = fun v => g.adj.getD v []) hwF hwB hm hns
      have hnoF := expandF_noStart (rfl : g.fwd = fun v => g.adj.getD v []) hwF hs f u hno
      have hbw : (expandSide g.adj hF u (s.fwd.openQ.erase (f, u)) s).bwd = s.bwd :=
        expandSide_bwd _ _ _ _ _
      have hB0 : (expandSide g.adj hF u (s.fwd.openQ.erase (f, u)) s).bwd.openQ =
            [(some (hB dst), dst)] ∨
          ∀ e ∈ (expandSide g.adj hF u (s.fwd.openQ.erase (f, u)) s).bwd.openQ, e.2 ≠ dst := by
        rw [hbw]
        rcases h0 with ⟨_, hq⟩ | h0
        · exact Or.inl hq
        · exact Or.inr h0.2
      have hne4 : (expandSide g.adj hF u (s.fwd.openQ.erase (f, u)) s).bwd.openQ ≠ [] := by
        rw [hbw]; exact hneB
      obtain ⟨r1, r2, r3, r4⟩ := bwdHalf_spec (B := B) hwF hwB hBB hs4 hnoF hB0 hne4
      refine ⟨r1, r2, r3, lt3_trans r4 ?_⟩
      exact BState.mu_fwd hbw (expandF_mu rfl hwF hBF hs hm)

end Iter

/-! ### Leaving the loop of `bidir_a_star` -/

theorem ltD_minD_left {x a b : Option Int} (h : ltD x (minD a b) = true) : ltD x a = true := by
  unfold minD at h
  split at h
  · rename_i hba
    cases x <;> cases a <;> cases b <;> simp_all
    omega
  · exact h

theorem stopTest_top {s : BState} (h : stopTest s = true) :
    ∃ z, s.best = some z ∧ ∀ t, pqTop s.fwd.openQ = some t → ∀ y, t.1 = some y → z < y := by
  unfold stopTest at h
  dsimp only at h
  have h1 := ltD_minD_left h
  obtain ⟨z, hz, hlt⟩ := ltD_true_iff.1 h1
  refine ⟨z, hz, ?_⟩
  intro t ht y hy
  rw [ht] at hlt
  exact hlt y hy

section Exit
variable {EF EB : Nat → List Edge} {hF hB : Nat → Int} {a b : Nat} {s : BState}

/-- When the loop is left, every walk from the source to the destination has been accounted
for: `best` is finite, and with an admissible forward heuristic it is within the cost of the
walk. -/
theorem BInv.exit_post (hs : BInv EF hF a EB hB b s) (hst : Started a b s)
    (hex : s.fwd.openQ = [] ∨ s.bwd.openQ = [] ∨ stopTest s = true) {cw : Int}
    (hwF : Walk EF a b cw) (hwB : Walk EB b a cw) :
    ∃ z, s.best = some z ∧ (Admissible EF hF b → z ≤ cw) := by
  have hga : s.fwd.g a = some 0 := hs.cf.g_start
  have hgb : s.bwd.g b = some 0 := hs.cb.g_start
  have hnoB : ∀ y, ¬ ((some (y + hB b), b) : PDI) ∈ s.bwd.openQ :=
    fun y hmem => hst.2 _ hmem rfl
  have hnoA : ∀ y, ¬ ((some (y + hF a), a) : PDI) ∈ s.fwd.openQ :=
    fun y hmem => hst.1 _ hmem rfl
  rcases hex with hex | hex | hex
  · rcases hs.cf.frontier_walk hwF 0 hs.cf.g_start with ⟨n, y, cn, h1, _⟩ | ⟨z, hz, hzle⟩
    · have h1' : ((some (y + hF n), n) : PDI) ∈ s.fwd.openQ := h1
      rw [hex] at h1'
      simp at h1'
    · rcases hs.cover b z 0 hz hgb with ⟨z', hz', hle⟩ | h2 | h2
      · exact ⟨z', hz', fun _ => by omega⟩
      · rw [hex] at h2
        simp at h2
      · exact absurd h2 (hnoB 0)
  · rcases hs.cb.frontier_walk hwB 0 hs.cb.g_start with ⟨n, y, cn, h1, _⟩ | ⟨z, hz, hzle⟩
    · have h1' : ((some (y + hB n), n) : PDI) ∈ s.bwd.openQ := h1
      rw [hex] at h1'
      simp at h1'
    · rcases hs.cover a 0 z hga hz with ⟨z', hz', hle⟩ | h2 | h2
      · exact ⟨z', hz', fun _ => by omega⟩
      · exact absurd h2 (hnoA 0)
      · rw [hex] at h2
        simp at h2
  · obtain ⟨z0, hz0, htop⟩ := stopTest_top hex
    refine ⟨z0, hz0, ?_⟩
    intro hadm
    have hbound : ∀ f n, ((some f, n) : PDI) ∈ s.fwd.openQ → z0 < f := by
      intro f n hmem
      cases ht : pqTop s.fwd.openQ with
      | none =>
        rw [pqTop_none.1 ht] at hmem
        simp at hmem
      | some t =>
        obtain ⟨_, hmin⟩ := pqTop_some ht
        have h3 := hmin _ hmem
        obtain ⟨y, hy, hyle⟩ := ltD_false_iff.1 h3
        have := htop t ht y hy
        omega
    rcases hs.cf.frontier_adm hadm hwF with ⟨f, n, h1, hf⟩ | ⟨z, hz, hzle⟩
    · have := hbound f n h1
      omega
    · rcases hs.cover b z 0 hz hgb with ⟨z', hz', hle⟩ | h2 | h2
      · rw [hz0] at hz'
        cases hz'
        omega
      · have := hbound _ _ h2
        have := hadm b 0 (Walk.nil b)
        omega
      · exact absurd h2 (hnoB 0)

end Exit

/-! ### The loop of `bidir_a_star` -/

section BidirLoop
variable {g : Graph} {hF hB : Nat → Int} {src dst : Nat}

theorem bidirLoop_exit (fuel : Nat) (s : BState) (h : s.fwd.openQ = [] ∨ s.bwd.openQ = []) :
    bidirLoop g hF hB fuel s = some s := by
  cases fuel <;> simp [bidirLoop, h]

theorem bidirLoop_zero (s : BState) (h : ¬ (s.fwd.openQ = [] ∨ s.bwd.openQ = [])) :
    bidirLoop g hF hB 0 s = none := by
  simp [bidirLoop, h]

theorem bidirLoop_succ (fuel : Nat) (s : BState) (h : ¬ (s.fwd.openQ = [] ∨ s.bwd.openQ = [])) :
    bidirLoop g hF hB (fuel + 1) s =
      if (bidirIter g hF hB s).2 then some (bidirIter g hF hB s).1
      else bidirLoop g hF hB fuel (bidirIter g hF hB s).1 := by
  rw [bidirLoop]
  simp only [h, if_false]

theorem bidirLoop_mono {fuel : Nat} {s s' : BState}
    (hl : bidirLoop g hF hB fuel s = some s') (k : Nat) :
    bidirLoop g hF hB (fuel + k) s = some s' := by
  induction fuel generalizing s with
  | zero =>
    by_cases hex : s.fwd.openQ = [] ∨ s.bwd.openQ = []
    · rw [bidirLoop_exit _ s hex] at hl ⊢
      exact hl
    · rw [bidirLoop_zero s hex] at hl
      cases hl
  | succ n ih =>
    by_cases hex : s.fwd.openQ = [] ∨ s.bwd.openQ = []
    · rw [bidirLoop_exit _ s hex] at hl ⊢
      exact hl
    · rw [bidirLoop_succ n s hex] at hl
      rw [show n + 1 + k = (n + k) + 1 by omega, bidirLoop_succ (n + k) s hex]
      split at hl
      · rename_i h1
        rw [if_pos h1]
        exact hl
      · rename_i h1
        rw [if_neg h1]
        exact ih hl

theorem bidirLoop_terminates (hwF : NonNegE g.fwd) (hwB : NonNegE g.bwd) {B : Nat}
    (hBF : BoundedE g.fwd B) (hBB : BoundedE g.bwd B) :
    ∀ s : BState, BInv g.fwd hF src g.bwd hB dst s →
      ((s.fwd.openQ = [(some (hF src), src)] ∧ s.bwd.openQ = [(some (hB dst), dst)]) ∨
        Started src dst s) →
      ∃ fuel s', bidirLoop g hF hB fuel s = some s' := by
  refine lt3_induction (fun s : BState => BState.mu B s) _ ?_
  intro s ih hs h0
  by_cases hex : s.fwd.openQ = [] ∨ s.bwd.openQ = []
  · exact ⟨0, s, bidirLoop_exit 0 s hex⟩
  · have hneF : s.fwd.openQ ≠ [] := fun h => hex (Or.inl h)
    have hneB : s.bwd.openQ ≠ [] := fun h => hex (Or.inr h)
    obtain ⟨r1, r2, _, r4⟩ := bidirIter_spec (B := B) hwF hwB hBF hBB hs h0 hneF hneB
    by_cases hbrk : (bidirIter g hF hB s).2 = true
    · refine ⟨1, (bidirIter g hF hB s).1, ?_⟩
      rw [bidirLoop_succ 0 s hex, if_pos hbrk]
    · obtain ⟨n, s', hn⟩ := ih _ r4 r1 (Or.inr r2)
      refine ⟨n + 1, s', ?_⟩
      rw [bidirLoop_succ n s hex, if_neg hbrk]
      exact hn

theorem bidirLoop_post (hwF : NonNegE g.fwd) (hwB : NonNegE g.bwd) {B : Nat}
    (hBF : BoundedE g.fwd B) (hBB : BoundedE g.bwd B) :
    ∀ (fuel : Nat) (s s' : BState), BInv g.fwd hF src g.bwd hB dst s →
      ((s.fwd.openQ = [(some (hF src), src)] ∧ s.bwd.openQ = [(some (hB dst), dst)]) ∨
        Started src dst s) →
      bidirLoop g hF hB fuel s = some s' →
      BInv g.fwd hF src g.bwd hB dst s' ∧
        ∀ cw, Walk g.fwd src dst cw → Walk g.bwd dst src cw →
          ∃ z, s'.best = some z ∧ (Admissible g.fwd hF dst → z ≤ cw) := by
  have hexit : ∀ s : BState, BInv g.fwd hF src g.bwd hB dst s →
      ((s.fwd.openQ = [(some (hF src), src)] ∧ s.bwd.openQ = [(some (hB dst), dst)]) ∨
        Started src dst s) → (s.fwd.openQ = [] ∨ s.bwd.openQ = []) →
      BInv g.fwd hF src g.bwd hB dst s ∧
        ∀ cw, Walk g.fwd src dst cw → Walk g.bwd dst src cw →
          ∃ z, s.best = some z ∧ (Admissible g.fwd hF dst → z ≤ cw) := by
    intro s hs h0 hex
    have hst : Started src dst s := by
      rcases h0 with ⟨h1, h2⟩ | h0
      · rcases hex with hex | hex
        · rw [hex] at h1; cases h1
        · rw [hex] at h2; cases h2
      · exact h0
    refine ⟨hs, ?_⟩
    intro cw w1 w2
    refine hs.exit_post hst ?_ w1 w2
    rcases hex with hex | hex
    · exact Or.inl hex
    · exact Or.inr (Or.inl hex)
  intro fuel
  induction fuel with
  | zero =>
    intro s s' hs h0 hl
    by_cases hex : s.fwd.openQ = [] ∨ s.bwd.openQ = []
    · rw [bidirLoop_exit _ s hex] at hl
      cases hl
      exact hexit s hs h0 hex
    · rw [bidirLoop_zero s hex] at hl
      cases hl
  | succ n ih =>
    intro s s' hs h0 hl
    by_cases hex : s.fwd.openQ = [] ∨ s.bwd.openQ = []
    · rw [bidirLoop_exit _ s hex] at hl
      cases hl
      exact hexit s hs h0 hex
    · have hneF : s.fwd.openQ ≠ [] := fun h => hex (Or.inl h)
      have hneB : s.bwd.openQ ≠ [] := fun h => hex (Or.inr h)
      obtain ⟨r1, r2, r3, _⟩ := bidirIter_spec (B := B) hwF hwB hBF hBB hs h0 hneF hneB
      rw [bidirLoop_succ n s hex] at hl
      split at hl
      · rename_i hbrk
        cases hl
        refine ⟨r1, ?_⟩
        intro cw w1 w2
        exact r1.exit_post r2 (Or.inr (Or.inr (r3 hbrk))) w1 w2
      · exact ih _ _ r1 (Or.inr r2) hl

theorem bidirInit_inv (hne : src ≠ dst) :
    BInv g.fwd hF src g.bwd hB dst (bidirInit hF hB src dst) := by
  refine ⟨CoreInv.init 0, CoreInv.init 0, ?_, ?_, ?_, ?_, ?_, ?_, ?_, ?_, ?_⟩
  · intro v
    by_cases hv : v = src
    · subst hv; simp [bidirInit, sideInit]
    · simp [bidirInit, sideInit, upd, hv, INF]
  · intro v
    by_cases hv : v = dst
    · subst hv; simp [bidirInit, sideInit]
    · simp [bidirInit, sideInit, upd, hv, INF]
  · intro v hv
    simp [bidirInit, sideInit] at hv
  · intro v hv
    simp [bidirInit, sideInit] at hv
  · intro v x hv
    right
    by_cases hvs : v = src
    · subst hvs
      simp [bidirInit, sideInit] at hv ⊢
      omega
    · simp [bidirInit, sideInit, upd, hvs, INF] at hv
  · intro v x hv
    right
    by_cases hvs : v = dst
    · subst hvs
      simp [bidirInit, sideInit] at hv ⊢
      omega
    · simp [bidirInit, sideInit, upd, hvs, INF] at hv
  · intro v x y hx hy
    by_cases hvs : v = src
    · subst hvs
      simp [bidirInit, sideInit, upd, hne, INF] at hy
    · simp [bidirInit, sideInit, upd, hvs, INF] at hx
  · intro _
    rfl
  · intro m hm
    simp [bidirInit] at hm

end BidirLoop

/-! ### The transposed graph -/

section Transpose
variable {EF EB : Nat → List Edge}

theorem Walk.snoc_edge {E : Nat → List Edge} {a b d : Nat} {c w : Int} (hwk : Walk E a b c)
    (he : (⟨d, w⟩ : Edge) ∈ E b) : Walk E a d (c + w) := by
  induction hwk with
  | nil u =>
    have := Walk.cons he (Walk.nil (E := E) d)
    simpa using this
  | @cons u v t w' c' he' _ ih =>
    have := Walk.cons he' (ih he)
    rw [show w' + c' + w = w' + (c' + w) by ring]
    exact this

theorem Walk.rev_walk (htr : ∀ u v w, (⟨v, w⟩ : Edge) ∈ EF u ↔ (⟨u, w⟩ : Edge) ∈ EB v)
    {a b : Nat} {c : Int} (hwk : Walk EF a b c) : Walk EB b a c := by
  induction hwk with
  | nil u => exact Walk.nil u
  | @cons u v t w c' he _ ih =>
    have := Walk.snoc_edge ih ((htr u v w).1 he)
    rw [show w + c' = c' + w by ring]
    exact this

theorem PathCost.rev_path (htr : ∀ u v w, (⟨v, w⟩ : Edge) ∈ EF u ↔ (⟨u, w⟩ : Edge) ∈ EB v)
    {l : List Nat} {c : Int} (hp : PathCost EB l c) : PathCost EF l.reverse c := by
  induction hp with
  | single v => exact PathCost.single v
  | @cons a b l w c' he _ ih =>
    rw [List.reverse_cons]
    have hlast : (b :: l).reverse.getLast? = some b := by
      rw [List.getLast?_reverse]
      rfl
    have := PathCost.snoc_node ih hlast ((htr b a w).2 he)
    rw [show w + c' = c' + w by ring]
    exact this

theorem PathCost.glue {E : Nat → List Edge} {l1 l2 : List Nat} {c1 c2 : Int}
    (h1 : PathCost E l1 c1) (h2 : PathCost E l2 c2) (hj : l1.getLast? = l2.head?) :
    PathCost E (l1 ++ l2.tail) (c1 + c2) := by
  induction h1 with
  | single v =>
    cases h2 with
    | single v' =>
      simp at hj
      subst hj
      simpa using PathCost.single (E := E) v
    | @cons a b l w c he hp =>
      simp at hj
      subst hj
      simpa using PathCost.cons he hp
  | @cons a b l w c he hp ih =>
    have hj' : (b :: l).getLast? = l2.head? := by
      rw [List.getLast?_cons_cons] at hj
      exact hj
    have := PathCost.cons he (ih hj')
    rw [show w + c + c2 = w + (c + c2) by ring]
    exact this

theorem glue_ends {l1 l2 : List Nat} {m : Nat} (h1 : l1.getLast? = some m)
    (h2 : l2.head? = some m) :
    (l1 ++ l2.tail).head? = l1.head? ∧ (l1 ++ l2.tail).getLast? = l2.getLast? := by
  cases l2 with
  | nil => simp at h2
  | cons x t =>
    simp only [List.head?_cons, Option.some.injEq] at h2
    subst h2
    cases l1 with
    | nil => simp at h1
    | cons y l1' =>
      refine ⟨by simp, ?_⟩
      cases t with
      | nil => simpa using h1
      | cons t0 ts =>
        simp only [List.tail_cons]
        rw [List.getLast?_cons_cons, List.getLast?_append_of_ne_nil _ (by simp)]

theorem transposed_nonneg (htr : ∀ u v w, (⟨v, w⟩ : Edge) ∈ EF u ↔ (⟨u, w⟩ : Edge) ∈ EB v)
    (hw : NonNegE EF) : NonNegE EB := by
  intro v e he
  have : (⟨v, e.weight⟩ : Edge) ∈ EF e.target := (htr e.target v e.weight).2 he
  exact hw e.target ⟨v, e.weight⟩ this

theorem Graph.Transposed.bounded {g : Graph} (htr : g.Transposed) :
    BoundedE g.bwd g.adj.length := by
  intro v e he
  have h1 : (⟨v, e.weight⟩ : Edge) ∈ g.fwd e.target := (htr e.target v e.weight).2 he
  by_contra hge
  have : g.fwd e.target = [] := Graph.fwd_of_ge (by omega)
  rw [this] at h1
  simp at h1

end Transpose

/-- The function `bidir_a_star` returns (for `src != dst`); it returns `(+infinity, [])`
exactly when `dst` is unreachable, and otherwise a cost and a path from `src` to `dst` whose
weight does not exceed that cost; with an admissible forward heuristic the cost is the least
one and the weight of the path equals it. -/
theorem bidir_total (hav : Int → Int → Int → Int → Int) {g : Graph} (hnn : g.NonNeg)
    (hir : g.InRange) (htr : g.Transposed) {src dst : Nat} (hne : src ≠ dst) :
    ∃ n, (¬ Reachable g.fwd src dst ∧
        ∀ fuel, n ≤ fuel → bidir_a_star hav fuel g src dst = some (INF, [])) ∨
      ∃ d path cst,
        (∀ fuel, n ≤ fuel → bidir_a_star hav fuel g src dst = some (some d, path)) ∧
        Walk g.fwd src dst cst ∧ path.head? = some src ∧ path.getLast? = some dst ∧
        PathCost g.fwd path cst ∧ cst ≤ d ∧
        (Admissible g.fwd (g.heurTo hav dst) dst →
          cst = d ∧ ∀ c, Walk g.fwd src dst c → d ≤ c) := by
  have hwF := hnn.toE
  have hwB : NonNegE g.bwd := transposed_nonneg htr hwF
  have hBF := hir.toBounded
  have hBB := htr.bounded
  have hinit : BInv g.fwd (g.heurTo hav dst) src g.bwd (g.heurTo hav src) dst
      (bidirInit (g.heurTo hav dst) (g.heurTo hav src) src dst) := bidirInit_inv hne
  have h0 : ((bidirInit (g.heurTo hav dst) (g.heurTo hav src) src dst).fwd.openQ =
        [(some (g.heurTo hav dst src), src)] ∧
      (bidirInit (g.heurTo hav dst) (g.heurTo hav src) src dst).bwd.openQ =
        [(some (g.heurTo hav src dst), dst)]) ∨
      Started src dst (bidirInit (g.heurTo hav dst) (g.heurTo hav src) src dst) :=
    Or.inl ⟨rfl, rfl⟩
  obtain ⟨n1, s, hloop⟩ := bidirLoop_terminates hwF hwB hBF hBB _ hinit h0
  obtain ⟨hs, hpost⟩ := bidirLoop_post hwF hwB hBF hBB n1 _ s hinit h0 hloop
  have hloop' : ∀ k, bidirLoop g (fun u => g.haversineDistance hav u dst)
      (fun u => g.haversineDistance hav u src) (n1 + k)
      (bidirInit (fun u => g.haversineDistance hav u dst)
        (fun u => g.haversineDistance hav u src) src dst) = some s :=
    fun k => bidirLoop_mono hloop k
  cases hmeet : s.meeting with
  | none =>
    refine ⟨n1, Or.inl ⟨?_, ?_⟩⟩
    · rintro ⟨c, hc⟩
      obtain ⟨z, hz, _⟩ := hpost c hc (hc.rev_walk htr)
      rw [hs.bm_none hmeet] at hz
      cases hz
    · intro fuel hf
      obtain ⟨k, rfl⟩ := Nat.exists_eq_add_of_le hf
      simp [bidir_a_star, hne, hloop' k, hmeet, INF]
  | some m =>
    obtain ⟨z, x, y, c1, c2, e1, e2, e3, e4, _, _, _⟩ := hs.bm_some m hmeet
    obtain ⟨lF, cF, hF1, hF2, hF3, hF4, hF5⟩ := hs.cf.tree.chain hwF m x e2
    obtain ⟨lB, cB, hB1, hB2, hB3, hB4, hB5⟩ := hs.cb.tree.chain hwB m y e3
    have hB4' : PathCost g.fwd lB cB := by
      have := @PathCost.rev_path g.fwd g.bwd htr _ _ hB4
      rwa [List.reverse_reverse] at this
    have hlastF : lF.reverse.getLast? = some m := by
      rw [List.getLast?_reverse]; exact hF2
    have hpath : PathCost g.fwd (lF.reverse ++ lB.tail) (cF + cB) :=
      PathCost.glue hF4 hB4' (by rw [hlastF, hB2])
    obtain ⟨hhead, hlast⟩ := glue_ends hlastF hB2
    have hhead' : (lF.reverse ++ lB.tail).head? = some src := by
      rw [hhead, List.head?_reverse]; exact hF3
    have hlast' : (lF.reverse ++ lB.tail).getLast? = some dst := by
      rw [hlast]; exact hB3
    have hwalk : Walk g.fwd src dst (cF + cB) := hpath.walk src dst hhead' hlast'
    refine ⟨max n1 (max lF.length lB.length),
      Or.inr ⟨z, lF.reverse ++ lB.tail, cF + cB, ?_, hwalk, hhead', hlast', hpath,
        by omega, ?_⟩⟩
    · intro fuel hf
      have h1 : n1 ≤ fuel := le_trans (le_max_left _ _) hf
      have h2 : lF.length ≤ fuel :=
        le_trans (le_trans (le_max_left _ _) (le_max_right _ _)) hf
      have h3 : lB.length ≤ fuel :=
        le_trans (le_trans (le_max_right _ _) (le_max_right _ _)) hf
      obtain ⟨k, rfl⟩ := Nat.exists_eq_add_of_le h1
      have hF1' : walkParents s.fwd.p (n1 + k) (some m) = some lF := hF1 _ h2
      have hB1' : walkParents s.bwd.p (n1 + k) (some m) = some lB := hB1 _ h3
      simp [bidir_a_star, hne, hloop' k, hmeet, hF1', hB1', e1]
    · intro hadm
      have hmin : ∀ c, Walk g.fwd src dst c → z ≤ c := by
        intro c hc
        obtain ⟨z', hz', hzle⟩ := hpost c hc (hc.rev_walk htr)
        rw [e1] at hz'
        cases hz'
        exact hzle hadm
      have := hmin _ hwalk
      exact ⟨by omega, hmin⟩

theorem bidir_same (hav : Int → Int → Int → Int → Int) (fuel : Nat) (g : Graph) (s : Nat) :
    bidir_a_star hav fuel g s s = some (some 0, [s]) := by
  simp [bidir_a_star]

/-! ### `buildReverseAdj` builds the transposed adjacency -/

theorem modifyAt_length {α : Type} (f : α → α) (i : Nat) (l : List α) :
    (modifyAt f i l).length = l.length := by
  induction l generalizing i with
  | nil => cases i <;> rfl
  | cons x l ih =>
    cases i with
    | zero => rfl
    | succ i => simp [modifyAt, ih]

theorem modifyAt_getD {α : Type} (f : α → α) (i j : Nat) (l : List α) (d : α) :
    (modifyAt f i l).getD j d = if j = i ∧ j < l.length then f (l.getD j d) else l.getD j d := by
  induction l generalizing i j with
  | nil => cases i <;> simp [modifyAt]
  | cons x l ih =>
    cases i with
    | zero =>
      cases j with
      | zero => simp [modifyAt]
      | succ j => simp [modifyAt]
    | succ i =>
      cases j with
      | zero => simp [modifyAt]
      | succ j =>
        simp only [modifyAt, List.getD_cons_succ, ih, List.length_cons]
        simp

theorem revEdges_length (u : Nat) (es : List Edge) (r : List (List Edge)) :
    (revEdges u es r).length = r.length := by
  induction es generalizing r with
  | nil => rfl
  | cons e es ih => simp [revEdges, ih, modifyAt_length]

theorem revEdges_mem (u : Nat) (es : List Edge) (r : List (List Edge)) (v : Nat) (x : Edge) :
    x ∈ (revEdges u es r).getD v [] ↔
      x ∈ r.getD v [] ∨ (v < r.length ∧ ∃ e ∈ es, e.target = v ∧ x = ⟨u, e.weight⟩) := by
  induction es generalizing r with
  | nil => simp [revEdges]
  | cons e es ih =>
    simp only [revEdges]
    rw [ih, modifyAt_length, modifyAt_getD]
    constructor
    · rintro (h | ⟨hv, e', he', ht, hx⟩)
      · split at h
        · rename_i hc
          rcases List.mem_append.1 h with h | h
          · exact Or.inl h
          · simp only [List.mem_singleton] at h
            exact Or.inr ⟨hc.2, e, List.mem_cons_self _ _, hc.1.symm, h⟩
        · exact Or.inl h
      · exact Or.inr ⟨hv, e', List.mem_cons_of_mem _ he', ht, hx⟩
    · rintro (h | ⟨hv, e', he', ht, hx⟩)
      · left
        split
        · exact List.mem_append_left _ h
        · exact h
      · rcases List.mem_cons.1 he' with rfl | he''
        · left
          rw [if_pos ⟨ht.symm, hv⟩]
          exact List.mem_append_right _ (by simp [hx])
        · exact Or.inr ⟨hv, e', he'', ht, hx⟩

theorem revRows_length (k : Nat) (rows : List (List Edge)) (r : List (List Edge)) :
    (revRows k rows r).length = r.length := by
  induction rows generalizing k r with
  | nil => rfl
  | cons es rows ih => simp [revRows, ih, revEdges_length]

theorem revRows_mem (k : Nat) (rows : List (List Edge)) (r : List (List Edge)) (v : Nat)
    (x : Edge) :
    x ∈ (revRows k rows r).getD v [] ↔
      x ∈ r.getD v [] ∨
        (v < r.length ∧ ∃ i, ∃ e ∈ rows.getD i [], e.target = v ∧ x = ⟨k + i, e.weight⟩) := by
  induction rows generalizing k r with
  | nil => simp [revRows]
  | cons es rows ih =>
    simp only [revRows]
    rw [ih, revEdges_length, revEdges_mem]
    constructor
    · rintro ((h | ⟨hv, e, he, ht, hx⟩) | ⟨hv, i, e, he, ht, hx⟩)
      · exact Or.inl h
      · exact Or.inr ⟨hv, 0, e, by simpa using he, ht, by simpa using hx⟩
      · refine Or.inr ⟨hv, i + 1, e, by simpa using he, ht, ?_⟩
        rw [hx]
        congr 1
        omega
    · rintro (h | ⟨hv, i, e, he, ht, hx⟩)
      · exact Or.inl (Or.inl h)
      · cases i with
        | zero => exact Or.inl (Or.inr ⟨hv, e, by simpa using he, ht, by simpa using hx⟩)
        | succ i =>
          refine Or.inr ⟨hv, i, e, by simpa using he, ht, ?_⟩
          rw [hx]
          congr 1
          omega

theorem Graph.Rebuilt.transposed {g : Graph} (hr : g.Rebuilt) (hir : g.InRange) :
    g.Transposed := by
  intro u v w
  unfold Graph.bwd
  rw [hr]
  simp only [Graph.buildReverseAdj, Graph.fwd]
  rw [revRows_mem]
  constructor
  · intro h
    right
    obtain ⟨es, hes, hm⟩ := mem_getD_row h
    refine ⟨by simpa using hir es hes _ hm, u, ⟨v, w⟩, h, rfl, by simp⟩
  · rintro (h | ⟨_, i, e, he, ht, hx⟩)
    · by_cases hv : v < g.adj.length
      · rw [List.getD_eq_getElem _ _ (by simpa using hv)] at h
        simp at h
      · rw [List.getD_eq_default _ _ (by simpa using hv)] at h
        simp at h
    · simp only [Edge.mk.injEq, zero_add] at hx
      obtain ⟨rfl, rfl⟩ := hx
      subst ht
      exact he

theorem scenario_eq (a b c d : Int) :
    scenario a b c d =
      ⟨[⟨0, "n0", a, 0⟩, ⟨1, "n1", b, 0⟩, ⟨2, "n2", c, 0⟩, ⟨3, "n3", d, 0⟩],
        [[⟨1, 1⟩, ⟨2, 5⟩], [⟨2, 1⟩], [⟨3, 1⟩], []],
        [[], [⟨0, 1⟩], [⟨0, 5⟩, ⟨1, 1⟩], [⟨2, 1⟩]]⟩ := by
  have h1 : Graph.empty.addNode 0 "n0" a 0 = ⟨[⟨0, "n0", a, 0⟩], [[]], [[]]⟩ := rfl
  have h2 : (⟨[⟨0, "n0", a, 0⟩], [[]], [[]]⟩ : Graph).addNode 1 "n1" b 0 =
      ⟨[⟨0, "n0", a, 0⟩, ⟨1, "n1", b, 0⟩], [[], []], [[], []]⟩ := rfl
  have h3 : (⟨[⟨0, "n0", a, 0⟩, ⟨1, "n1", b, 0⟩], [[], []], [[], []]⟩ : Graph).addNode 2 "n2" c 0 =
      ⟨[⟨0, "n0", a, 0⟩, ⟨1, "n1", b, 0⟩, ⟨2, "n2", c, 0⟩, Node.default],
        [[], [], [], []], [[], [], [], []]⟩ := rfl
  have h4 : (⟨[⟨0, "n0", a, 0⟩, ⟨1, "n1", b, 0⟩, ⟨2, "n2", c, 0⟩, Node.default],
        [[], [], [], []], [[], [], [], []]⟩ : Graph).addNode 3 "n3" d 0 =
      ⟨[⟨0, "n0", a, 0⟩, ⟨1, "n1", b, 0⟩, ⟨2, "n2", c, 0⟩, ⟨3, "n3", d, 0⟩],
        [[], [], [], []], [[], [], [], []]⟩ := rfl
  have h5 : ∀ ns : List Node, (((((⟨ns, [[], [], [], []], [[], [], [], []]⟩ : Graph).addEdge 0 1 1).addEdge
      1 2 1).addEdge 0 2 5).addEdge 2 3 1).buildReverseAdj =
      ⟨ns, [[⟨1, 1⟩, ⟨2, 5⟩], [⟨2, 1⟩], [⟨3, 1⟩], []],
        [[], [⟨0, 1⟩], [⟨0, 5⟩, ⟨1, 1⟩], [⟨2, 1⟩]]⟩ := fun _ => rfl
  unfold scenario
  rw [h1, h2, h3, h4, h5]

/-! ### Paths of the scenario graph -/

theorem PathCost.single_inv {E : Nat → List Edge} {v : Nat} {c : Int}
    (hp : PathCost E [v] c) : c = 0 := by
  generalize hl : [v] = l at hp
  cases hp with
  | single v' => rfl
  | cons _ _ => simp at hl

theorem PathCost.cons_inv {E : Nat → List Edge} {a b : Nat} {l : List Nat} {c : Int}
    (hp : PathCost E (a :: b :: l) c) :
    ∃ w c', (⟨b, w⟩ : Edge) ∈ E a ∧ PathCost E (b :: l) c' ∧ c = w + c' := by
  generalize hl : a :: b :: l = l0 at hp
  cases hp with
  | single v' => simp at hl
  | @cons a' b' l' w c' he hrest =>
    simp only [List.cons.injEq] at hl
    obtain ⟨rfl, rfl, rfl⟩ := hl
    exact ⟨w, c', he, hrest, rfl⟩

/-- In a graph with the edges `0->1 (1)`, `1->2 (1)`, `0->2 (w)`, `2->3 (1)` the paths from
`0` to `3` are `[0,1,2,3]` of weight `3` and `[0,2,3]` of weight `w + 1`. -/
theorem scenario_paths {g : Graph} {w : Int}
    (hadj : g.adj = [[⟨1, 1⟩, ⟨2, w⟩], [⟨2, 1⟩], [⟨3, 1⟩], []]) {path : List Nat} {c : Int}
    (hp : PathCost g.fwd path c) (hh : path.head? = some 0) (hl : path.getLast? = some 3) :
    (path = [0, 1, 2, 3] ∧ c = 3) ∨ (path = [0, 2, 3] ∧ c = w + 1) := by
  have e0 : g.fwd 0 = [⟨1, 1⟩, ⟨2, w⟩] := by simp [Graph.fwd, hadj]
  have e1 : g.fwd 1 = [⟨2, 1⟩] := by simp [Graph.fwd, hadj]
  have e2 : g.fwd 2 = [⟨3, 1⟩] := by simp [Graph.fwd, hadj]
  have e3 : g.fwd 3 = [] := by simp [Graph.fwd, hadj]
  have from3 : ∀ t c', PathCost g.fwd (3 :: t) c' → t = [] ∧ c' = 0 := by
    intro t c' h
    cases t with
    | nil => exact ⟨rfl, h.single_inv⟩
    | cons b t' =>
      obtain ⟨w', _, he, _, _⟩ := h.cons_inv
      rw [e3] at he
      simp at he
  have from2 : ∀ t c', PathCost g.fwd (2 :: t) c' → (2 :: t).getLast? = some 3 →
      t = [3] ∧ c' = 1 := by
    intro t c' h hlast
    cases t with
    | nil => simp at hlast
    | cons b t' =>
      obtain ⟨w', c'', he, hrest, hc⟩ := h.cons_inv
      rw [e2] at he
      simp only [List.mem_singleton, Edge.mk.injEq] at he
      obtain ⟨rfl, rfl⟩ := he
      obtain ⟨rfl, rfl⟩ := from3 t' c'' hrest
      exact ⟨rfl, by omega⟩
  have from1 : ∀ t c', PathCost g.fwd (1 :: t) c' → (1 :: t).getLast? = some 3 →
      t = [2, 3] ∧ c' = 2 := by
    intro t c' h hlast
    cases t with
    | nil => simp at hlast
    | cons b t' =>
      obtain ⟨w', c'', he, hrest, hc⟩ := h.cons_inv
      rw [e1] at he
      simp only [List.mem_singleton, Edge.mk.injEq] at he
      obtain ⟨rfl, rfl⟩ := he
      rw [List.getLast?_cons_cons] at hlast
      obtain ⟨rfl, rfl⟩ := from2 t' c'' hrest hlast
      exact ⟨rfl, by omega⟩
  cases path with
  | nil => simp at hh
  | cons a t =>
    simp only [List.head?_cons, Option.some.injEq] at hh
    subst hh
    cases t with
    | nil => simp at hl
    | cons b t' =>
      obtain ⟨w', c'', he, hrest, hc⟩ := hp.cons_inv
      rw [List.getLast?_cons_cons] at hl
      rw [e0] at he
      simp only [List.mem_cons, Edge.mk.injEq, List.mem_singleton, List.not_mem_nil,
        or_false] at he
      rcases he with ⟨rfl, rfl⟩ | ⟨rfl, rfl⟩
      · obtain ⟨rfl, rfl⟩ := from1 t' c'' hrest hl
        exact Or.inl ⟨rfl, by omega⟩
      · obtain ⟨rfl, rfl⟩ := from2 t' c'' hrest hl
        exact Or.inr ⟨rfl, by omega⟩

/-! ### The heuristic at its own target -/

theorem Graph.heurTo_self {hav : Int → Int → Int → Int → Int} (hself : ∀ a b, hav a b a b = 0)
    (g : Graph) (t : Nat) : g.heurTo hav t t = 0 := by
  unfold Graph.heurTo Graph.haversineDistance
  split
  · rfl
  · exact hself _ _

theorem Graph.heurTo_zero (g : Graph) (t u : Nat) : g.heurTo (fun _ _ _ _ => 0) t u = 0 := by
  unfold Graph.heurTo Graph.haversineDistance
  split <;> rfl

theorem Graph.zero_heur_admissible {g : Graph} (hnn : g.NonNeg) (t : Nat) :
    Admissible g.fwd (g.heurTo (fun _ _ _ _ => 0) t) t := by
  intro u c hwk
  rw [Graph.heurTo_zero]
  exact hwk.weight_nonneg hnn.toE

/-! ### Outcomes of the three searches -/

theorem dijkstra_outcome {g : Graph} (hnn : g.NonNeg) (hir : g.InRange) (src dst : Nat) :
    Outcome (fun fuel => dijkstra fuel g src dst) g.fwd src dst True := by
  obtain ⟨n, h | ⟨d, path, h1, h2, h3, h4, h5⟩⟩ := dijkstra_total hnn hir src dst
  · exact ⟨n, Or.inl h⟩
  · exact ⟨n, Or.inr ⟨d, path, d, h1, h2.1, h3, h4, h5, le_refl _, fun _ => ⟨rfl, h2.2⟩⟩⟩

theorem a_star_outcome (hav : Int → Int → Int → Int → Int) {g : Graph} (hnn : g.NonNeg)
    (hir : g.InRange) (src dst : Nat) :
    Outcome (fun fuel => a_star hav fuel g src dst) g.fwd src dst
      ((∀ a b, hav a b a b = 0) ∧ Admissible g.fwd (g.heurTo hav dst) dst) := by
  obtain ⟨n, h | ⟨d, path, h1, h2, h3, h4, h5, h7⟩⟩ := a_star_total hav hnn hir src dst
  · exact ⟨n, Or.inl h⟩
  · refine ⟨n, Or.inr ⟨d, path, d, h1, h2, h3, h4, h5, le_refl _, ?_⟩⟩
    rintro ⟨hself, hadm⟩
    exact ⟨rfl, h7 hadm (le_of_eq (Graph.heurTo_self hself g dst).symm)⟩

/-- Whenever `a_star` returns a non-empty path, the returned distance is the weight of
that path. -/
theorem a_star_weight (hav : Int → Int → Int → Int → Int) {g : Graph} (hnn : g.NonNeg)
    (hir : g.InRange) (src dst : Nat) :
    ∃ n, ∀ fuel, n ≤ fuel → ∃ d path, a_star hav fuel g src dst = some (d, path) ∧
      (path ≠ [] → ∃ x, d = some x ∧ PathCost g.fwd path x) := by
  obtain ⟨n, h | ⟨d, path, h1, _, _, _, h5, _⟩⟩ := a_star_total hav hnn hir src dst
  · exact ⟨n, fun fuel hf => ⟨INF, [], h.2 fuel hf, fun hne => absurd rfl hne⟩⟩
  · exact ⟨n, fun fuel hf => ⟨some d, path, h1 fuel hf, fun _ => ⟨d, rfl, h5⟩⟩⟩

theorem bidir_outcome (hav : Int → Int → Int → Int → Int) {g : Graph} (hnn : g.NonNeg)
    (hir : g.InRange) (htr : g.Transposed) (src dst : Nat) :
    Outcome (fun fuel => bidir_a_star hav fuel g src dst) g.fwd src dst
      (Admissible g.fwd (g.heurTo hav dst) dst) := by
  by_cases hne : src = dst
  · subst hne
    refine ⟨0, Or.inr ⟨0, [src], 0, ?_, Walk.nil _, rfl, rfl, PathCost.single _, le_refl _, ?_⟩⟩
    · intro fuel _
      exact bidir_same hav fuel g src
    · intro _
      exact ⟨rfl, fun c hc => hc.weight_nonneg hnn.toE⟩
  · exact bidir_total hav hnn hir htr hne

section OutcomeFacts
variable {run : Nat → Option (Option Int × List Nat)} {E : Nat → List Edge} {src dst : Nat}
  {adm : Prop}

theorem Outcome.valid (ho : Outcome run E src dst adm) :
    ∃ n, ∀ fuel, n ≤ fuel → ∃ d path, run fuel = some (d, path) ∧
      (path ≠ [] → path.head? = some src ∧ path.getLast? = some dst ∧ IsPath E path) := by
  obtain ⟨n, h | ⟨d, path, cst, h1, _, h3, h4, h5, _⟩⟩ := ho
  · exact ⟨n, fun fuel hf => ⟨INF, [], h.2 fuel hf, fun hne => absurd rfl hne⟩⟩
  · exact ⟨n, fun fuel hf => ⟨some d, path, h1 fuel hf, fun _ => ⟨h3, h4, h5.isPath⟩⟩⟩

theorem Outcome.unreachable (ho : Outcome run E src dst adm) (hun : ¬ Reachable E src dst) :
    ∃ n, ∀ fuel, n ≤ fuel → run fuel = some (INF, []) := by
  obtain ⟨n, h | ⟨d, path, cst, _, h2, _⟩⟩ := ho
  · exact ⟨n, h.2⟩
  · exact absurd ⟨cst, h2⟩ hun

theorem Outcome.optimal (ho : Outcome run E src dst adm) (hadm : adm)
    (hre : Reachable E src dst) :
    ∃ n d path, (∀ fuel, n ≤ fuel → run fuel = some (some d, path)) ∧ IsShortest E src dst d ∧
      path.head? = some src ∧ path.getLast? = some dst ∧ PathCost E path d := by
  obtain ⟨n, h | ⟨d, path, cst, h1, h2, h3, h4, h5, _, h7⟩⟩ := ho
  · exact absurd hre h.1
  · obtain ⟨rfl, hmin⟩ := h7 hadm
    exact ⟨n, cst, path, h1, ⟨h2, hmin⟩, h3, h4, h5⟩

theorem Outcome.weight (ho : Outcome run E src dst adm) :
    ∃ n, ∀ fuel, n ≤ fuel → ∃ d path, run fuel = some (d, path) ∧
      (path ≠ [] → ∃ x cst, d = some x ∧ PathCost E path cst ∧ cst ≤ x ∧ (adm → cst = x)) := by
  obtain ⟨n, h | ⟨d, path, cst, h1, _, _, _, h5, h6, h7⟩⟩ := ho
  · exact ⟨n, fun fuel hf => ⟨INF, [], h.2 fuel hf, fun hne => absurd rfl hne⟩⟩
  · exact ⟨n, fun fuel hf => ⟨some d, path, h1 fuel hf,
      fun _ => ⟨d, cst, rfl, h5, h6, fun ha => (h7 ha).1⟩⟩⟩

end OutcomeFacts

/-- A graph with the four-node adjacency of the scenario, the edge `0->2` having weight `w`. -/
theorem diamond_facts (ns : List Node) (w : Int) (hw : 0 ≤ w) :
    (⟨ns, [[⟨1, 1⟩, ⟨2, w⟩], [⟨2, 1⟩], [⟨3, 1⟩], []],
      [[], [⟨0, 1⟩], [⟨0, w⟩, ⟨1, 1⟩], [⟨2, 1⟩]]⟩ : Graph).NonNeg ∧
    (⟨ns, [[⟨1, 1⟩, ⟨2, w⟩], [⟨2, 1⟩], [⟨3, 1⟩], []],
      [[], [⟨0, 1⟩], [⟨0, w⟩, ⟨1, 1⟩], [⟨2, 1⟩]]⟩ : Graph).InRange ∧
    (⟨ns, [[⟨1, 1⟩, ⟨2, w⟩], [⟨2, 1⟩], [⟨3, 1⟩], []],
      [[], [⟨0, 1⟩], [⟨0, w⟩, ⟨1, 1⟩], [⟨2, 1⟩]]⟩ : Graph).Rebuilt := by
  refine ⟨?_, ?_, rfl⟩
  · simp [Graph.NonNeg, hw]
  · simp [Graph.InRange]

theorem updated_eq (a b c d : Int) :
    (scenario a b c d).updateEdgeWeight 0 2 1 =
      (⟨[⟨0, "n0", a, 0⟩, ⟨1, "n1", b, 0⟩, ⟨2, "n2", c, 0⟩, ⟨3, "n3", d, 0⟩],
        [[⟨1, 1⟩, ⟨2, 1⟩], [⟨2, 1⟩], [⟨3, 1⟩], []],
        [[], [⟨0, 1⟩], [⟨0, 1⟩, ⟨1, 1⟩], [⟨2, 1⟩]]⟩, true) := by
  rw [scenario_eq]
  rfl

/-- On the four-node adjacency, a search whose outcome is optimal returns the cheaper of the
two paths from `0` to `3`. -/
theorem diamond_result {run : Nat → Option (Option Int × List Nat)} {g : Graph} {w : Int}
    (hadj : g.adj = [[⟨1, 1⟩, ⟨2, w⟩], [⟨2, 1⟩], [⟨3, 1⟩], []]) {adm : Prop}
    (ho : Outcome run g.fwd 0 3 adm) (hadm : adm) :
    (2 < w → ∃ n, ∀ fuel, n ≤ fuel → run fuel = some (some 3, [0, 1, 2, 3])) ∧
      (w < 2 → ∃ n, ∀ fuel, n ≤ fuel → run fuel = some (some (w + 1), [0, 2, 3])) := by
  have e0 : g.fwd 0 = [⟨1, 1⟩, ⟨2, w⟩] := by simp [Graph.fwd, hadj]
  have e1 : g.fwd 1 = [⟨2, 1⟩] := by simp [Graph.fwd, hadj]
  have e2 : g.fwd 2 = [⟨3, 1⟩] := by simp [Graph.fwd, hadj]
  have w23 : Walk g.fwd 2 3 (1 + 0) :=
    Walk.cons (by rw [e2]; exact List.mem_cons_self _ _) (Walk.nil 3)
  have wlong : Walk g.fwd 0 3 (1 + (1 + (1 + 0))) :=
    Walk.cons (by rw [e0]; exact List.mem_cons_self _ _)
      (Walk.cons (by rw [e1]; exact List.mem_cons_self _ _) w23)
  have wshort : Walk g.fwd 0 3 (w + (1 + 0)) :=
    Walk.cons (by rw [e0]; exact List.mem_cons_of_mem _ (List.mem_cons_self _ _)) w23
  obtain ⟨n, d, path, h1, h2, h3, h4, h5⟩ := ho.optimal hadm ⟨_, wlong⟩
  have hlong := h2.2 _ wlong
  have hshort := h2.2 _ wshort
  rcases scenario_paths hadj h5 h3 h4 with ⟨rfl, rfl⟩ | ⟨rfl, rfl⟩
  · exact ⟨fun _ => ⟨n, h1⟩, fun hw => by omega⟩
  · exact ⟨fun hw => by omega, fun _ => ⟨n, h1⟩⟩

theorem exists_both {P Q : Nat → Prop} (hP : ∃ n, ∀ fuel, n ≤ fuel → P fuel)
    (hQ : ∃ n, ∀ fuel, n ≤ fuel → Q fuel) : ∃ n, ∀ fuel, n ≤ fuel → P fuel ∧ Q fuel := by
  obtain ⟨n1, h1⟩ := hP
  obtain ⟨n2, h2⟩ := hQ
  exact ⟨max n1 n2, fun fuel hf =>
    ⟨h1 fuel (le_trans (le_max_left _ _) hf), h2 fuel (le_trans (le_max_right _ _) hf)⟩⟩

/-! ### The query cache -/

section CacheLists
variable {K V : Type} [DecidableEq K]

theorem lookup_eq_none_iff (k : K) (l : List (K × V)) :
    l.lookup k = none ↔ ∀ e ∈ l, e.1 ≠ k := by
  induction l with
  | nil => simp
  | cons e l ih =>
    obtain ⟨k', v'⟩ := e
    by_cases h : k = k'
    · subst h
      simp [List.lookup]
    · have h' : (k == k') = false := by simpa using h
      simp [List.lookup, h', ih, Ne.symm h]

theorem lookup_split (k : K) (v : V) (l1 l2 : List (K × V)) (h1 : ∀ e ∈ l1, e.1 ≠ k) :
    (l1 ++ (k, v) :: l2).lookup k = some v := by
  induction l1 with
  | nil => simp [List.lookup]
  | cons e l ih =>
    obtain ⟨k', v'⟩ := e
    have hne : k' ≠ k := h1 (k', v') (List.mem_cons_self _ _)
    have h' : (k == k') = false := by simpa using Ne.symm hne
    simp only [List.cons_append, List.lookup, h']
    exact ih fun e he => h1 e (List.mem_cons_of_mem _ he)

theorem filter_key_split (k : K) (v : V) (l1 l2 : List (K × V)) (h1 : ∀ e ∈ l1, e.1 ≠ k)
    (h2 : ∀ e ∈ l2, e.1 ≠ k) :
    (l1 ++ (k, v) :: l2).filter (fun e => decide (e.1 ≠ k)) = l1 ++ l2 := by
  have e1 : l1.filter (fun e => decide (e.1 ≠ k)) = l1 :=
    List.filter_eq_self.2 fun e he => by simpa using h1 e he
  have e2 : l2.filter (fun e => decide (e.1 ≠ k)) = l2 :=
    List.filter_eq_self.2 fun e he => by simpa using h2 e he
  rw [List.filter_append, List.filter_cons, e1, e2]
  simp

theorem lookup_mem_of_nodup (l : List (K × V)) (hnd : (l.map Prod.fst).Nodup) (k : K) (v : V)
    (hm : (k, v) ∈ l) : l.lookup k = some v := by
  obtain ⟨l1, l2, rfl⟩ := List.append_of_mem hm
  refine lookup_split k v l1 l2 ?_
  intro e he hek
  rw [List.map_append, List.map_cons, List.nodup_append] at hnd
  exact hnd.2.2 (List.mem_map_of_mem Prod.fst he) (by simp [hek])

theorem lookup_some_mem (l : List (K × V)) (k : K) (v : V) (h : l.lookup k = some v) :
    (k, v) ∈ l := by
  induction l with
  | nil => simp at h
  | cons e l ih =>
    obtain ⟨k', v'⟩ := e
    by_cases hk : k = k'
    · subst hk
      simp [List.lookup] at h
      simp [h]
    · have h' : (k == k') = false := by simpa using hk
      simp only [List.lookup, h'] at h
      exact List.mem_cons_of_mem _ (ih h)

end CacheLists

section CacheNodes
variable {K V : Type}

theorem nodeAt_split (a : Nat) (n : Item K V) (pre post : List (Item K V))
    (h1 : ∀ m ∈ pre, m.addr ≠ a) (hn : n.addr = a) : nodeAt a (pre ++ n :: post) = some n := by
  induction pre with
  | nil => simp [nodeAt, hn]
  | cons m l ih =>
    have hne : m.addr ≠ a := h1 m (List.mem_cons_self _ _)
    simp only [nodeAt, List.cons_append, List.find?_cons, hne, decide_False]
    exact ih fun e he => h1 e (List.mem_cons_of_mem _ he)

theorem filter_addr_split (a : Nat) (n : Item K V) (pre post : List (Item K V))
    (h1 : ∀ m ∈ pre, m.addr ≠ a) (h2 : ∀ m ∈ post, m.addr ≠ a) (hn : n.addr = a) :
    (pre ++ n :: post).filter (fun m => decide (m.addr ≠ a)) = pre ++ post := by
  have e1 : pre.filter (fun m => decide (m.addr ≠ a)) = pre :=
    List.filter_eq_self.2 fun e he => by simpa using h1 e he
  have e2 : post.filter (fun m => decide (m.addr ≠ a)) = post :=
    List.filter_eq_self.2 fun e he => by simpa using h2 e he
  rw [List.filter_append, List.filter_cons, e1, e2]
  simp [hn]

theorem spliceFront_split (a : Nat) (n : Item K V) (pre post : List (Item K V))
    (h1 : ∀ m ∈ pre, m.addr ≠ a) (h2 : ∀ m ∈ post, m.addr ≠ a) (hn : n.addr = a) :
    spliceFront a (pre ++ n :: post) = n :: (pre ++ post) := by
  simp only [spliceFront, nodeAt_split a n pre post h1 hn,
    filter_addr_split a n pre post h1 h2 hn]

theorem setVal_split (a : Nat) (v : V) (n : Item K V) (pre post : List (Item K V))
    (h1 : ∀ m ∈ pre, m.addr ≠ a) (h2 : ∀ m ∈ post, m.addr ≠ a) (hn : n.addr = a) :
    setVal a v (pre ++ n :: post) = pre ++ { n with val := v } :: post := by
  have e1 : pre.map (fun m => if m.addr = a then { m with val := v } else m) = pre := by
    rw [List.map_congr_left fun m hm => if_neg (h1 m hm), List.map_id']
  have e2 : post.map (fun m => if m.addr = a then { m with val := v } else m) = post := by
    rw [List.map_congr_left fun m hm => if_neg (h2 m hm), List.map_id']
  simp only [setVal, List.map_append, List.map_cons, e1, e2, hn, if_true]

/-- The node a stored iterator points to, with the rest of the list. -/
theorem LRUCache.Wf.split {s : LRUCache K V} (hw : s.Wf) {k : K} {a : Nat}
    (hm : s.mapIt k = some a) :
    ∃ pre n post, s.items = pre ++ n :: post ∧ n.addr = a ∧ n.key = k ∧
      (∀ m ∈ pre, m.addr ≠ a ∧ m.key ≠ k) ∧ (∀ m ∈ post, m.addr ≠ a ∧ m.key ≠ k) := by
  obtain ⟨n, hn, hna, hnk⟩ := hw.item_of_map k a hm
  obtain ⟨pre, post, hsplit⟩ := List.append_of_mem hn
  have hnd := hw.addr_nodup
  rw [hsplit, List.map_append, List.map_cons, List.nodup_append, List.nodup_cons] at hnd
  obtain ⟨_, ⟨hpost, _⟩, hdis⟩ := hnd
  have key : ∀ m ∈ s.items, m.addr ≠ a → m.key ≠ k := by
    intro m hmem hne hk
    have := hw.map_of_item m hmem
    rw [hk, hm] at this
    exact hne (Option.some.inj this).symm
  refine ⟨pre, n, post, hsplit, hna, hnk, ?_, ?_⟩
  · intro m hmem
    have hne : m.addr ≠ a := by
      intro heq
      exact hdis (List.mem_map_of_mem (fun n => n.addr) hmem) (by simp [hna, heq])
    exact ⟨hne, key m (by rw [hsplit]; simp [hmem]) hne⟩
  · intro m hmem
    have hne : m.addr ≠ a := by
      intro heq
      apply hpost
      rw [hna, ← heq]
      exact List.mem_map_of_mem (fun n => n.addr) hmem
    exact ⟨hne, key m (by rw [hsplit]; simp [hmem]) hne⟩

/-- A key without an iterator is the key of no node. -/
theorem LRUCache.Wf.absent {s : LRUCache K V} (hw : s.Wf) {k : K} (hm : s.mapIt k = none) :
    ∀ n ∈ s.items, n.key ≠ k := by
  intro n hn hk
  have := hw.map_of_item n hn
  rw [hk, hm] at this
  cases this

end CacheNodes

section CacheSim
variable {K V : Type}

/-- The invariant speaks of the addresses and keys of the nodes only, not of their order
or values. -/
theorem LRUCache.Wf.of_skeleton {s : LRUCache K V} (hw : s.Wf) {items' : List (Item K V)}
    (hp : (items'.map fun n => (n.addr, n.key)).Perm (s.items.map fun n => (n.addr, n.key))) :
    ({ s with items := items' } : LRUCache K V).Wf := by
  have hmem1 : ∀ n ∈ items', ∃ m ∈ s.items, m.addr = n.addr ∧ m.key = n.key := by
    intro n hn
    have h1 : (n.addr, n.key) ∈ items'.map fun n => (n.addr, n.key) :=
      List.mem_map_of_mem (fun n => (n.addr, n.key)) hn
    obtain ⟨m, hm, heq⟩ := List.mem_map.1 (hp.mem_iff.1 h1)
    simp only [Prod.mk.injEq] at heq
    exact ⟨m, hm, heq.1, heq.2⟩
  have hmem2 : ∀ m ∈ s.items, ∃ n ∈ items', n.addr = m.addr ∧ n.key = m.key := by
    intro m hm
    have h1 : (m.addr, m.key) ∈ s.items.map fun n => (n.addr, n.key) :=
      List.mem_map_of_mem (fun n => (n.addr, n.key)) hm
    obtain ⟨n, hn, heq⟩ := List.mem_map.1 (hp.mem_iff.2 h1)
    simp only [Prod.mk.injEq] at heq
    exact ⟨n, hn, heq.1, heq.2⟩
  refine ⟨?_, ?_, ?_, ?_, ?_⟩
  · have h1 := hp.map Prod.fst
    simp only [List.map_map] at h1
    exact (h1.nodup_iff).2 hw.addr_nodup
  · intro n hn
    obtain ⟨m, hm, h1, h2⟩ := hmem1 n hn
    have := hw.map_of_item m hm
    rw [h1, h2] at this
    exact this
  · intro k a hka
    obtain ⟨m, hm, h1, h2⟩ := hw.item_of_map k a hka
    obtain ⟨n, hn, h3, h4⟩ := hmem2 m hm
    exact ⟨n, hn, by rw [h3, h1], by rw [h4, h2]⟩
  · intro n hn
    obtain ⟨m, hm, h1, _⟩ := hmem1 n hn
    have := hw.addr_lt m hm
    rw [h1] at this
    exact this
  · have h1 := hp.length_eq
    simp only [List.length_map] at h1
    show items'.length ≤ max s.capacity 1
    rw [h1]
    exact hw.size_le

theorem LRUCache.Wf.ofNew (cap : Nat) : (LRUCache.new cap : LRUCache K V).Wf := by
  refine ⟨?_, ?_, ?_, ?_, ?_⟩ <;> simp [LRUCache.new]

theorem LRUCache.Wf.cleared {s : LRUCache K V} (_hw : s.Wf) : s.clear.Wf := by
  refine ⟨?_, ?_, ?_, ?_, ?_⟩ <;> simp [LRUCache.clear]

variable [DecidableEq K]

/-- On a well-formed cache `get` is `absGet` on the list of pairs. -/
theorem LRUCache.get_sim {s : LRUCache K V} (hw : s.Wf) (k : K) :
    (s.get k).1 = (absGet k s.entries).1 ∧ (s.get k).2.entries = (absGet k s.entries).2 ∧
      (s.get k).2.Wf ∧ (s.get k).2.capacity = s.capacity := by
  cases hm : s.mapIt k with
  | none =>
    have habs : s.entries.lookup k = none := by
      rw [lookup_eq_none_iff]
      intro e he
      obtain ⟨n, hn, rfl⟩ := List.mem_map.1 he
      exact hw.absent hm n hn
    simp only [LRUCache.get, hm, absGet, habs]
    exact ⟨trivial, trivial, hw, trivial⟩
  | some a =>
    obtain ⟨pre, n, post, hsplit, hna, hnk, hpre, hpost⟩ := hw.split hm
    have hsp : spliceFront a s.items = n :: (pre ++ post) := by
      rw [hsplit]
      exact spliceFront_split a n pre post (fun m h => (hpre m h).1) (fun m h => (hpost m h).1)
        hna
    have hnode : nodeAt a (n :: (pre ++ post)) = some n :=
      nodeAt_split a n [] (pre ++ post) (by simp) hna
    have hent : s.entries = pre.map (fun n => (n.key, n.val)) ++
        (k, n.val) :: post.map (fun n => (n.key, n.val)) := by
      simp [LRUCache.entries, hsplit, hnk]
    have hpre' : ∀ e ∈ pre.map (fun n : Item K V => (n.key, n.val)), e.1 ≠ k := by
      intro e he
      obtain ⟨m, hm', rfl⟩ := List.mem_map.1 he
      exact (hpre m hm').2
    have hpost' : ∀ e ∈ post.map (fun n : Item K V => (n.key, n.val)), e.1 ≠ k := by
      intro e he
      obtain ⟨m, hm', rfl⟩ := List.mem_map.1 he
      exact (hpost m hm').2
    have hlook : s.entries.lookup k = some n.val := by
      rw [hent]
      exact lookup_split k n.val _ _ hpre'
    have hfil : s.entries.filter (fun e => decide (e.1 ≠ k)) =
        pre.map (fun n => (n.key, n.val)) ++ post.map (fun n => (n.key, n.val)) := by
      rw [hent]
      exact filter_key_split k n.val _ _ hpre' hpost'
    simp only [LRUCache.get, hm, absGet, hlook, hsp, hnode, hfil]
    refine ⟨rfl, ?_, ?_, trivial⟩
    · simp [LRUCache.entries, hnk]
    · refine hw.of_skeleton ?_
      rw [hsplit]
      simp only [List.map_cons, List.map_append]
      exact List.perm_middle.symm

/-- On a well-formed cache `put` is `absPut` on the list of pairs. -/
theorem LRUCache.put_sim {s : LRUCache K V} (hw : s.Wf) (k : K) (v : V) :
    (s.put k v).entries = absPut s.capacity k v s.entries ∧ (s.put k v).Wf ∧
      (s.put k v).capacity = s.capacity := by
  cases hm : s.mapIt k with
  | some a =>
    obtain ⟨pre, n, post, hsplit, hna, hnk, hpre, hpost⟩ := hw.split hm
    have hsv : setVal a v s.items = pre ++ { n with val := v } :: post := by
      rw [hsplit]
      exact setVal_split a v n pre post (fun m h => (hpre m h).1) (fun m h => (hpost m h).1) hna
    have hsp : spliceFront a (setVal a v s.items) = { n with val := v } :: (pre ++ post) := by
      rw [hsv]
      exact spliceFront_split a _ pre post (fun m h => (hpre m h).1) (fun m h => (hpost m h).1)
        hna
    have hent : s.entries = pre.map (fun n => (n.key, n.val)) ++
        (k, n.val) :: post.map (fun n => (n.key, n.val)) := by
      simp [LRUCache.entries, hsplit, hnk]
    have hpre' : ∀ e ∈ pre.map (fun n : Item K V => (n.key, n.val)), e.1 ≠ k := by
      intro e he
      obtain ⟨m, hm', rfl⟩ := List.mem_map.1 he
      exact (hpre m hm').2
    have hpost' : ∀ e ∈ post.map (fun n : Item K V => (n.key, n.val)), e.1 ≠ k := by
      intro e he
      obtain ⟨m, hm', rfl⟩ := List.mem_map.1 he
      exact (hpost m hm').2
    have hlook : s.entries.lookup k = some n.val := by
      rw [hent]
      exact lookup_split k n.val _ _ hpre'
    have hfil : s.entries.filter (fun e => decide (e.1 ≠ k)) =
        pre.map (fun n => (n.key, n.val)) ++ post.map (fun n => (n.key, n.val)) := by
      rw [hent]
      exact filter_key_split k n.val _ _ hpre' hpost'
    simp only [LRUCache.put, hm, absPut, hlook, hsp, hfil]
    refine ⟨?_, ?_, trivial⟩
    · simp [LRUCache.entries, hnk]
    · refine hw.of_skeleton ?_
      rw [hsplit]
      simp only [List.map_cons, List.map_append]
      exact List.perm_middle.symm
  | none =>
    have habs0 := hw.absent hm
    have habs : s.entries.lookup k = none := by
      rw [lookup_eq_none_iff]
      intro e he
      obtain ⟨n, hn, rfl⟩ := List.mem_map.1 he
      exact habs0 n hn
    -- the state after the eviction step
    obtain ⟨s1, hs1, hw1, hent1, hcap1, hmap1, hlen1⟩ : ∃ s1 : LRUCache K V,
        s1 = (if s.items.length ≥ s.capacity then
          match s.items.getLast? with
          | some last =>
            { s with mapIt := mapSet s.mapIt last.key none, items := s.items.dropLast }
          | none => s
        else s) ∧ s1.Wf ∧
        s1.entries = (if s.entries.length ≥ s.capacity then s.entries.dropLast
          else s.entries) ∧
        s1.capacity = s.capacity ∧ s1.mapIt k = none ∧
        s1.items.length + 1 ≤ max s.capacity 1 := by
      refine ⟨_, rfl, ?_⟩
      by_cases hfull : s.items.length ≥ s.capacity
      · have hfull' : s.entries.length ≥ s.capacity := by simpa [LRUCache.entries] using hfull
        simp only [hfull, hfull', if_true]
        cases hlast : s.items.getLast? with
        | none =>
          have hnil : s.items = [] := List.getLast?_eq_none_iff.1 hlast
          refine ⟨hw, ?_, rfl, hm, ?_⟩
          · simp [LRUCache.entries, hnil]
          · rw [hnil]
            simp
        | some last =>
          obtain ⟨ys, hys⟩ := List.getLast?_eq_some_iff.1 hlast
          have hdl : s.items.dropLast = ys := by rw [hys]; simp
          have hnd := hw.addr_nodup
          rw [hys, List.map_append, List.nodup_append] at hnd
          have hlastk : ∀ m ∈ ys, m.key ≠ last.key := by
            intro m hmem hk
            have h1 := hw.map_of_item m (by rw [hys]; simp [hmem])
            have h2 := hw.map_of_item last (by rw [hys]; simp)
            rw [hk, h2] at h1
            have h3 : last.addr = m.addr := Option.some.inj h1
            exact hnd.2.2 (List.mem_map_of_mem (fun n => n.addr) hmem) (by simp [h3])
          refine ⟨⟨?_, ?_, ?_, ?_, ?_⟩, ?_, rfl, ?_, ?_⟩
          · show (s.items.dropLast.map fun n => n.addr).Nodup
            rw [hdl]
            exact hnd.1
          · intro n hn
            have hn' : n ∈ ys := by rw [← hdl]; exact hn
            show mapSet s.mapIt last.key none n.key = some n.addr
            simp only [mapSet, hlastk n hn', if_false]
            exact hw.map_of_item n (by rw [hys]; simp [hn'])
          · intro k' a hk'
            have hk'' : mapSet s.mapIt last.key none k' = some a := hk'
            by_cases hkl : k' = last.key
            · simp [mapSet, hkl] at hk''
            · simp only [mapSet, hkl, if_false] at hk''
              obtain ⟨n, hn, h1, h2⟩ := hw.item_of_map k' a hk''
              rw [hys] at hn
              rcases List.mem_append.1 hn with h3 | h3
              · exact ⟨n, by show n ∈ s.items.dropLast; rw [hdl]; exact h3, h1, h2⟩
              · simp only [List.mem_singleton] at h3
                rw [h3] at h2
                exact absurd h2.symm hkl
          · intro n hn
            exact hw.addr_lt n (List.dropLast_subset _ hn)
          · show s.items.dropLast.length ≤ max s.capacity 1
            have := hw.size_le
            simp only [List.length_dropLast]
            omega
          · simp [LRUCache.entries]
          · show mapSet s.mapIt last.key none k = none
            simp only [mapSet]
            split
            · rfl
            · exact hm
          · show s.items.dropLast.length + 1 ≤ max s.capacity 1
            have := hw.size_le
            simp only [List.length_dropLast]
            have hpos : 0 < s.items.length := by rw [hys]; simp
            omega
      · have hfull' : ¬ s.entries.length ≥ s.capacity := by
          simpa [LRUCache.entries] using hfull
        simp only [hfull, hfull', if_false]
        exact ⟨hw, trivial, trivial, hm, by omega⟩
    have hput : s.put k v = { s1 with
        items := ⟨s1.fresh, k, v⟩ :: s1.items
        mapIt := mapSet s1.mapIt k (some s1.fresh)
        fresh := s1.fresh + 1 } := by
      simp only [LRUCache.put, hm, hs1]
    rw [hput]
    have habs1 := hw1.absent hmap1
    refine ⟨?_, ⟨?_, ?_, ?_, ?_, ?_⟩, hcap1⟩
    · simp only [absPut, habs]
      show (k, v) :: s1.entries = _
      rw [hent1]
    · show ((⟨s1.fresh, k, v⟩ :: s1.items).map fun n => n.addr).Nodup
      rw [List.map_cons, List.nodup_cons]
      refine ⟨?_, hw1.addr_nodup⟩
      intro hmem
      obtain ⟨m, hm', heq⟩ := List.mem_map.1 hmem
      have := hw1.addr_lt m hm'
      simp only at heq
      omega
    · intro n hn
      show mapSet s1.mapIt k (some s1.fresh) n.key = some n.addr
      rcases List.mem_cons.1 hn with rfl | hn'
      · simp [mapSet]
      · simp only [mapSet, habs1 n hn', if_false]
        exact hw1.map_of_item n hn'
    · intro k' a hk'
      have hk'' : mapSet s1.mapIt k (some s1.fresh) k' = some a := hk'
      by_cases hkk : k' = k
      · simp only [mapSet, hkk, if_true, Option.some.injEq] at hk''
        exact ⟨⟨s1.fresh, k, v⟩, List.mem_cons_self _ _, hk'', hkk.symm⟩
      · simp only [mapSet, hkk, if_false] at hk''
        obtain ⟨n, hn, h1, h2⟩ := hw1.item_of_map k' a hk''
        exact ⟨n, List.mem_cons_of_mem _ hn, h1, h2⟩
    · intro n hn
      show n.addr < s1.fresh + 1
      rcases List.mem_cons.1 hn with rfl | hn'
      · simp
      · have := hw1.addr_lt n hn'
        omega
    · show (⟨s1.fresh, k, v⟩ :: s1.items).length ≤ max s1.capacity 1
      rw [hcap1]
      simpa using hlen1

end CacheSim

section CacheKeys
variable {K V : Type}

/-- The keys held by a well-formed cache are pairwise distinct. -/
theorem LRUCache.Wf.keys_nodup {s : LRUCache K V} (hw : s.Wf) :
    (s.entries.map Prod.fst).Nodup := by
  have h1 : s.entries.map Prod.fst = s.items.map fun n => n.key := by
    simp [LRUCache.entries, List.map_map, Function.comp_def]
  rw [h1]
  have hnd : s.items.Nodup := List.Nodup.of_map _ hw.addr_nodup
  refine List.Nodup.map_on ?_ hnd
  intro x hx y hy hxy
  have h2 := hw.map_of_item x hx
  have h3 := hw.map_of_item y hy
  rw [hxy, h3] at h2
  exact List.inj_on_of_nodup_map hw.addr_nodup hx hy (Option.some.inj h2).symm

end CacheKeys

section CacheFacts
variable {K V : Type} [DecidableEq K]

/-- Every reached state is well formed and keeps the capacity of the constructor. -/
theorem LRUCache.Reach.wf {cap : Nat} {s : LRUCache K V} (hr : LRUCache.Reach cap s) :
    s.Wf ∧ s.capacity = cap := by
  induction hr with
  | new => exact ⟨LRUCache.Wf.ofNew cap, rfl⟩
  | get k _ ih =>
    obtain ⟨_, _, h3, h4⟩ := LRUCache.get_sim ih.1 k
    exact ⟨h3, h4.trans ih.2⟩
  | put k v _ ih =>
    obtain ⟨_, h3, h4⟩ := LRUCache.put_sim ih.1 k v
    exact ⟨h3, h4.trans ih.2⟩
  | clear _ ih => exact ⟨ih.1.cleared, ih.2⟩

/-- The result of `get` is the value stored under the key, if any. -/
theorem LRUCache.get_fst {s : LRUCache K V} (hw : s.Wf) (k : K) :
    (s.get k).1 = s.entries.lookup k := by
  rw [(LRUCache.get_sim hw k).1]
  unfold absGet
  cases s.entries.lookup k <;> rfl

theorem take_append_take {α : Type} (c : Nat) (A B : List α) :
    (A ++ B.take c).take c = (A ++ B).take c := by
  rw [List.take_append_eq_append_take, List.take_append_eq_append_take, List.take_take]
  congr 2
  omega

/-- Inserting an absent key into a list of at most `max cap 1` pairs. -/
theorem absPut_absent (cap : Nat) (k : K) (v : V) (l : List (K × V))
    (habs : l.lookup k = none) (hlen : l.length ≤ max cap 1) :
    absPut cap k v l = ((k, v) :: l).take (max cap 1) := by
  simp only [absPut, habs]
  have hpos : max cap 1 = (max cap 1 - 1) + 1 := by omega
  rw [hpos, List.take_succ_cons]
  congr 1
  by_cases hfull : l.length ≥ cap
  · simp only [hfull, if_true]
    rw [List.dropLast_eq_take]
    congr 1
    omega
  · simp only [hfull, if_false]
    rw [List.take_of_length_le]
    omega

/-- Inserting pairwise distinct keys that the cache does not hold. -/
theorem LRUCache.putAll_entries (kvs : List (K × V)) :
    ∀ (s : LRUCache K V), s.Wf → (kvs.map Prod.fst).Nodup →
      (∀ e ∈ kvs, s.entries.lookup e.1 = none) →
      (s.putAll kvs).entries = (kvs.reverse ++ s.entries).take (max s.capacity 1) ∧
        (s.putAll kvs).Wf ∧ (s.putAll kvs).capacity = s.capacity := by
  induction kvs with
  | nil =>
    intro s hw _ _
    refine ⟨?_, hw, rfl⟩
    have : s.entries.length ≤ max s.capacity 1 := by
      simpa [LRUCache.entries] using hw.size_le
    simp [LRUCache.putAll, List.take_of_length_le this]
  | cons e kvs ih =>
    intro s hw hnd habs
    obtain ⟨k, v⟩ := e
    rw [List.map_cons, List.nodup_cons] at hnd
    have hk : s.entries.lookup k = none := habs (k, v) (List.mem_cons_self _ _)
    have hlen : s.entries.length ≤ max s.capacity 1 := by
      simpa [LRUCache.entries] using hw.size_le
    obtain ⟨h1, h2, h3⟩ := LRUCache.put_sim hw k v
    rw [absPut_absent _ k v _ hk hlen] at h1
    have habs' : ∀ e ∈ kvs, (s.put k v).entries.lookup e.1 = none := by
      intro e he
      rw [lookup_eq_none_iff]
      intro e' he' heq
      rw [h1] at he'
      rcases List.mem_cons.1 (List.mem_of_mem_take he') with rfl | hmem
      · exact hnd.1 (by rw [heq]; exact List.mem_map_of_mem Prod.fst he)
      · exact (lookup_eq_none_iff _ _).1 (habs e (List.mem_cons_of_mem _ he)) e' hmem heq
    obtain ⟨h4, h5, h6⟩ := ih (s.put k v) h2 hnd.2 habs'
    refine ⟨?_, h5, h6.trans h3⟩
    show ((s.put k v).putAll kvs).entries = _
    rw [h4, h1, h3, take_append_take]
    simp

end CacheFacts

section CacheFrame
variable {K V : Type} [DecidableEq K]

theorem lookup_filter_ne (k j : K) (hjk : j ≠ k) (l : List (K × V)) :
    (l.filter (fun e => decide (e.1 ≠ k))).lookup j = l.lookup j := by
  induction l with
  | nil => rfl
  | cons e l ih =>
    obtain ⟨k', v'⟩ := e
    by_cases h1 : k' = k
    · subst h1
      have h2 : (j == k') = false := by simpa using hjk
      simpa [List.filter_cons, List.lookup, h2] using ih
    · by_cases h3 : j = k'
      · subst h3
        simp [List.filter_cons, List.lookup, h1]
      · have h4 : (j == k') = false := by simpa using h3
        simpa [List.filter_cons, List.lookup, h1, h4] using ih

/-- A stored key splits a list with distinct keys around its pair. -/
theorem split_of_lookup (l : List (K × V)) (hnd : (l.map Prod.fst).Nodup) (k : K) (w : V)
    (h : l.lookup k = some w) :
    ∃ l1 l2, l = l1 ++ (k, w) :: l2 ∧ (∀ e ∈ l1, e.1 ≠ k) ∧ (∀ e ∈ l2, e.1 ≠ k) := by
  obtain ⟨l1, l2, rfl⟩ := List.append_of_mem (lookup_some_mem l k w h)
  rw [List.map_append, List.map_cons, List.nodup_append, List.nodup_cons] at hnd
  refine ⟨l1, l2, rfl, ?_, ?_⟩
  · intro e he heq
    exact hnd.2.2 (List.mem_map.2 ⟨e, he, rfl⟩) (by simp [heq])
  · intro e he heq
    exact hnd.2.1.1 (List.mem_map.2 ⟨e, he, heq⟩)

/-- The list of pairs after `put` on a key the cache holds. -/
theorem LRUCache.put_present {s : LRUCache K V} (hw : s.Wf) (k : K) (v w : V)
    (h : s.entries.lookup k = some w) :
    (s.put k v).entries = (k, v) :: s.entries.filter (fun e => decide (e.1 ≠ k)) := by
  rw [(LRUCache.put_sim hw k v).1]
  simp only [absPut, h]

end CacheFrame

section CacheRecent
variable {K V : Type} [DecidableEq K]

/-- Distinct keys taken from a set, none of them `j`, are fewer than the set has members. -/
theorem length_lt_card (T : Finset K) (j : K) (hj : j ∈ T) (pre : List (K × V))
    (hnd : (pre.map Prod.fst).Nodup) (hT : ∀ e ∈ pre, e.1 ∈ T) (hne : ∀ e ∈ pre, e.1 ≠ j) :
    pre.length + 1 ≤ T.card := by
  have h1 : (pre.map Prod.fst).toFinset ⊆ T.erase j := by
    intro x hx
    rw [List.mem_toFinset] at hx
    obtain ⟨e, he, rfl⟩ := List.mem_map.1 hx
    exact Finset.mem_erase.2 ⟨hne e he, hT e he⟩
  have h2 := Finset.card_le_card h1
  rw [List.toFinset_card_of_nodup hnd, Finset.card_erase_of_mem hj, List.length_map] at h2
  have h3 : 0 < T.card := Finset.card_pos.2 ⟨j, hj⟩
  omega

/-- The pair `(k, v)` stays in the cache, behind keys of `T` only, under calls on keys of a
set `T` with fewer than `capacity` members. -/
theorem LRUCache.run_keeps (T : Finset K) (k : K) (v : V) (hkT : k ∉ T) :
    ∀ (ops : List (CacheOp K V)) (s : LRUCache K V), s.Wf → T.card + 1 ≤ s.capacity →
      (∀ op ∈ ops, op.key ∈ T) →
      (∃ pre post, s.entries = pre ++ (k, v) :: post ∧ ∀ e ∈ pre, e.1 ∈ T) →
      (s.run ops).Wf ∧
        ∃ pre post, (s.run ops).entries = pre ++ (k, v) :: post ∧ ∀ e ∈ pre, e.1 ∈ T := by
  intro ops
  induction ops with
  | nil => intro s hw _ _ h; exact ⟨hw, h⟩
  | cons op ops ih =>
    intro s hw hcard hops ⟨pre, post, hent, hpre⟩
    have hj : op.key ∈ T := hops op (List.mem_cons_self _ _)
    have hops' : ∀ op' ∈ ops, op'.key ∈ T := fun o ho => hops o (List.mem_cons_of_mem _ ho)
    have hjk : k ≠ op.key := fun h => hkT (h ▸ hj)
    -- moving the pair of the key to the front keeps the shape
    have hfront : ∀ w : V, ∃ pre' post',
        (op.key, w) :: s.entries.filter (fun e => decide (e.1 ≠ op.key)) =
          pre' ++ (k, v) :: post' ∧ ∀ e ∈ pre', e.1 ∈ T := by
      intro w
      refine ⟨(op.key, w) :: pre.filter (fun e => decide (e.1 ≠ op.key)),
        post.filter (fun e => decide (e.1 ≠ op.key)), ?_, ?_⟩
      · rw [hent, List.filter_append, List.filter_cons]
        simp [hjk]
      · intro e he
        rcases List.mem_cons.1 he with rfl | h
        · exact hj
        · exact hpre e (List.mem_of_mem_filter h)
    cases op with
    | get j =>
      obtain ⟨_, g2, g3, g4⟩ := LRUCache.get_sim hw j
      refine ih (s.get j).2 g3 (by rw [g4]; exact hcard) hops' ?_
      rw [g2]
      unfold absGet
      cases hl : s.entries.lookup j with
      | none => exact ⟨pre, post, hent, hpre⟩
      | some w => exact hfront w
    | put j w =>
      obtain ⟨p1, p2, p3⟩ := LRUCache.put_sim hw j w
      refine ih (s.put j w) p2 (by rw [p3]; exact hcard) hops' ?_
      rw [p1]
      cases hl : s.entries.lookup j with
      | some w0 =>
        simp only [absPut, hl]
        exact hfront w
      | none =>
        have hlen : s.entries.length ≤ max s.capacity 1 := by
          simpa [LRUCache.entries] using hw.size_le
        rw [absPut_absent _ j w _ hl hlen]
        have hnd := hw.keys_nodup
        rw [hent, List.map_append, List.nodup_append] at hnd
        have hnej : ∀ e ∈ pre, e.1 ≠ j := by
          intro e he
          exact (lookup_eq_none_iff j _).1 hl e (by rw [hent]; simp [he])
        have hcount := length_lt_card T j hj pre hnd.1 hpre hnej
        have hj' : j ∈ T := hj
        refine ⟨(j, w) :: pre, post.take (max s.capacity 1 - (pre.length + 2)), ?_, ?_⟩
        · have e1 : (j, w) :: s.entries = ((j, w) :: pre) ++ (k, v) :: post := by
            rw [hent]; simp
          rw [e1, List.take_append_eq_append_take, List.take_of_length_le (by simp; omega)]
          have e2 : max s.capacity 1 - ((j, w) :: pre).length =
              (max s.capacity 1 - (pre.length + 2)) + 1 := by
            simp
            omega
          rw [e2, List.take_succ_cons]
        · intro e he
          rcases List.mem_cons.1 he with rfl | h
          · exact hj'
          · exact hpre e h

end CacheRecent

/-! ### The rows of the rebuilt reverse adjacency -/

theorem ext_getD_nil {α : Type} (l1 l2 : List (List α)) (hlen : l1.length = l2.length)
    (h : ∀ v, l1.getD v [] = l2.getD v []) : l1 = l2 := by
  refine List.ext_getElem hlen ?_
  intro n h1 h2
  have := h n
  rw [List.getD_eq_getElem _ _ h1, List.getD_eq_getElem _ _ h2] at this
  exact this

theorem contrib_cons_eq (v u : Nat) (e : Edge) (es : List Edge) (he : e.target = v) :
    contrib v u (e :: es) = ⟨u, e.weight⟩ :: contrib v u es := by
  simp [contrib, List.filter_cons, he]

theorem contrib_cons_ne (v u : Nat) (e : Edge) (es : List Edge) (he : e.target ≠ v) :
    contrib v u (e :: es) = contrib v u es := by
  simp [contrib, List.filter_cons, he]

theorem revEdges_getD (u : Nat) (es : List Edge) (r : List (List Edge)) (v : Nat) :
    (revEdges u es r).getD v [] =
      r.getD v [] ++ (if v < r.length then contrib v u es else []) := by
  induction es generalizing r with
  | nil => simp [revEdges, contrib]
  | cons e es ih =>
    simp only [revEdges]
    rw [ih, modifyAt_length, modifyAt_getD]
    by_cases hv : v < r.length
    · by_cases he : e.target = v
      · have : v = e.target ∧ v < r.length := ⟨he.symm, hv⟩
        rw [if_pos this, if_pos hv, if_pos hv, contrib_cons_eq v u e es he]
        simp
      · have : ¬ (v = e.target ∧ v < r.length) := fun h => he h.1.symm
        rw [if_neg this, if_pos hv, if_pos hv, contrib_cons_ne v u e es he]
    · have : ¬ (v = e.target ∧ v < r.length) := fun h => hv h.2
      rw [if_neg this, if_neg hv, if_neg hv]

theorem revRows_getD (rows : List (List Edge)) :
    ∀ (u : Nat) (r : List (List Edge)) (v : Nat),
      (revRows u rows r).getD v [] =
        r.getD v [] ++ (if v < r.length then incoming v u rows else []) := by
  induction rows with
  | nil => intro u r v; simp [revRows, incoming]
  | cons es rows ih =>
    intro u r v
    simp only [revRows, incoming]
    rw [ih, revEdges_getD, revEdges_length]
    by_cases hv : v < r.length <;> simp [hv]

/-- Row `v` of the reverse adjacency that `buildReverseAdj` builds. -/
theorem buildReverseAdj_getD (g : Graph) (v : Nat) :
    g.buildReverseAdj.radj.getD v [] = if v < g.adj.length then incoming v 0 g.adj else [] := by
  simp only [Graph.buildReverseAdj]
  rw [revRows_getD]
  by_cases hv : v < g.adj.length
  · simp [hv, List.getD_eq_getElem]
  · simp [hv, List.getD_eq_default]

theorem buildReverseAdj_length (g : Graph) :
    g.buildReverseAdj.radj.length = g.adj.length := by
  simp [Graph.buildReverseAdj, revRows_length]

theorem contrib_target (v u : Nat) (es : List Edge) : ∀ x ∈ contrib v u es, x.target = u := by
  intro x hx
  obtain ⟨e, _, rfl⟩ := List.mem_map.1 hx
  rfl

theorem incoming_target (v : Nat) (rows : List (List Edge)) :
    ∀ (u : Nat), ∀ x ∈ incoming v u rows, u ≤ x.target ∧ x.target < u + rows.length := by
  induction rows with
  | nil => intro u x hx; simp [incoming] at hx
  | cons es rows ih =>
    intro u x hx
    simp only [incoming] at hx
    rcases List.mem_append.1 hx with h | h
    · have := contrib_target v u es x h
      simp [this]
    · have := ih (u + 1) x h
      simp only [List.length_cons]
      omega

/-! ### `updateEdgeWeight` -/

theorem setFirst_none (t : Nat) (w : Int) (es : List Edge) (h : ∀ e ∈ es, e.target ≠ t) :
    setFirst t w es = (es, false) := by
  induction es with
  | nil => rfl
  | cons e es ih =>
    have he := h e (List.mem_cons_self _ _)
    have := ih fun x hx => h x (List.mem_cons_of_mem _ hx)
    simp [setFirst, he, this]

/-- The loop with `break` changes the first entry that targets `t`, and only it. -/
theorem setFirst_spec (t : Nat) (w : Int) (es : List Edge) (h : ∃ e ∈ es, e.target = t) :
    ∃ pre e post, es = pre ++ e :: post ∧ e.target = t ∧ (∀ x ∈ pre, x.target ≠ t) ∧
      setFirst t w es = (pre ++ ⟨t, w⟩ :: post, true) := by
  induction es with
  | nil => simp at h
  | cons e es ih =>
    by_cases he : e.target = t
    · refine ⟨[], e, es, rfl, he, by simp, ?_⟩
      simp [setFirst, he]
    · have h' : ∃ e ∈ es, e.target = t := by
        obtain ⟨x, hx, hxt⟩ := h
        rcases List.mem_cons.1 hx with rfl | hx'
        · exact absurd hxt he
        · exact ⟨x, hx', hxt⟩
      obtain ⟨pre, e', post, h1, h2, h3, h4⟩ := ih h'
      refine ⟨e :: pre, e', post, by simp [h1], h2, ?_, ?_⟩
      · intro x hx
        rcases List.mem_cons.1 hx with rfl | hx'
        · exact he
        · exact h3 x hx'
      · simp [setFirst, he, h4]

theorem setFirst_snd (t : Nat) (w : Int) (es : List Edge) :
    (setFirst t w es).2 = true ↔ ∃ e ∈ es, e.target = t := by
  constructor
  · intro h
    by_contra hne
    have : ∀ e ∈ es, e.target ≠ t := fun e he het => hne ⟨e, he, het⟩
    rw [setFirst_none t w es this] at h
    cases h
  · intro h
    obtain ⟨pre, e, post, _, _, _, h4⟩ := setFirst_spec t w es h
    rw [h4]

theorem setFirst_append_left (t : Nat) (w : Int) (B R : List Edge)
    (h : ∀ e ∈ R, e.target ≠ t) : (setFirst t w (B ++ R)).1 = (setFirst t w B).1 ++ R := by
  induction B with
  | nil => simp [setFirst_none t w R h, setFirst]
  | cons e B ih =>
    by_cases he : e.target = t
    · simp [setFirst, he]
    · simp [setFirst, he, ih]

theorem setFirst_append_right (t : Nat) (w : Int) (A R : List Edge)
    (h : ∀ e ∈ A, e.target ≠ t) : (setFirst t w (A ++ R)).1 = A ++ (setFirst t w R).1 := by
  induction A with
  | nil => rfl
  | cons e A ih =>
    have he := h e (List.mem_cons_self _ _)
    have := ih fun x hx => h x (List.mem_cons_of_mem _ hx)
    simp [setFirst, he, this]

theorem contrib_setFirst_same (dest u : Nat) (w : Int) (es : List Edge) :
    contrib dest u (setFirst dest w es).1 = (setFirst u w (contrib dest u es)).1 := by
  induction es with
  | nil => rfl
  | cons e es ih =>
    by_cases he : e.target = dest
    · have h1 : (setFirst dest w (e :: es)).1 = ⟨e.target, w⟩ :: es := by simp [setFirst, he]
      rw [h1, contrib_cons_eq dest u ⟨e.target, w⟩ es he, contrib_cons_eq dest u e es he]
      simp [setFirst]
    · have h1 : (setFirst dest w (e :: es)).1 = e :: (setFirst dest w es).1 := by
        simp [setFirst, he]
      rw [h1, contrib_cons_ne dest u e _ he, contrib_cons_ne dest u e es he, ih]

theorem contrib_setFirst_other (v dest u : Nat) (w : Int) (es : List Edge) (hv : v ≠ dest) :
    contrib v u (setFirst dest w es).1 = contrib v u es := by
  induction es with
  | nil => rfl
  | cons e es ih =>
    by_cases he : e.target = dest
    · have h1 : (setFirst dest w (e :: es)).1 = ⟨e.target, w⟩ :: es := by simp [setFirst, he]
      have hne : e.target ≠ v := fun h => hv (h ▸ he)
      rw [h1, contrib_cons_ne v u ⟨e.target, w⟩ es hne, contrib_cons_ne v u e es hne]
    · have h1 : (setFirst dest w (e :: es)).1 = e :: (setFirst dest w es).1 := by
        simp [setFirst, he]
      rw [h1]
      by_cases hev : e.target = v
      · rw [contrib_cons_eq v u e _ hev, contrib_cons_eq v u e es hev, ih]
      · rw [contrib_cons_ne v u e _ hev, contrib_cons_ne v u e es hev, ih]

theorem incoming_setFirst_other (v dest : Nat) (w : Int) (hv : v ≠ dest)
    (rows : List (List Edge)) :
    ∀ (u i : Nat),
      incoming v u (modifyAt (fun es => (setFirst dest w es).1) i rows) = incoming v u rows := by
  induction rows with
  | nil => intro u i; cases i <;> rfl
  | cons es rows ih =>
    intro u i
    cases i with
    | zero => simp only [modifyAt, incoming, contrib_setFirst_other v dest u w es hv]
    | succ i => simp only [modifyAt, incoming, ih]

theorem incoming_setFirst_same (dest : Nat) (w : Int) (rows : List (List Edge)) :
    ∀ (u i : Nat),
      (setFirst (u + i) w (incoming dest u rows)).1 =
        incoming dest u (modifyAt (fun es => (setFirst dest w es).1) i rows) := by
  induction rows with
  | nil => intro u i; cases i <;> rfl
  | cons es rows ih =>
    intro u i
    cases i with
    | zero =>
      simp only [modifyAt, incoming, Nat.add_zero]
      rw [setFirst_append_left, contrib_setFirst_same]
      intro e he
      have := (incoming_target dest rows (u + 1) e he).1
      omega
    | succ i =>
      simp only [modifyAt, incoming]
      rw [setFirst_append_right]
      · have : u + (i + 1) = u + 1 + i := by omega
        rw [this, ih]
      · intro e he
        have := contrib_target dest u es e he
        omega

theorem modifyAt_const {α : Type} (f : α → α) (d : α) (l : List α) :
    ∀ i, modifyAt (fun _ => f (l.getD i d)) i l = modifyAt f i l := by
  induction l with
  | nil => intro i; cases i <;> rfl
  | cons x l ih =>
    intro i
    cases i with
    | zero => rfl
    | succ i => simp only [modifyAt, List.getD_cons_succ, ih]

/-- Changing the first `src -> dest` edge and the first `dest <- src` entry keeps the
reverse adjacency equal to the rebuilt one. -/
theorem rebuilt_setFirst (g : Graph) (src dest : Nat) (w : Int) (hr : g.Rebuilt) :
    ({ g with adj := modifyAt (fun es => (setFirst dest w es).1) src g.adj,
              radj := modifyAt (fun res => (setFirst src w res).1) dest g.radj } :
      Graph).Rebuilt := by
  unfold Graph.Rebuilt
  refine ext_getD_nil _ _ ?_ ?_
  · rw [buildReverseAdj_length]
    simp only [modifyAt_length]
    rw [hr, buildReverseAdj_length]
  · intro v
    rw [buildReverseAdj_getD]
    simp only [modifyAt_length]
    rw [modifyAt_getD, hr, buildReverseAdj_length, buildReverseAdj_getD]
    by_cases hv : v < g.adj.length
    · by_cases hvd : v = dest
      · subst hvd
        rw [if_pos ⟨rfl, hv⟩, if_pos hv, if_pos hv]
        have := incoming_setFirst_same v w g.adj 0 src
        rw [Nat.zero_add] at this
        exact this
      · have : ¬ (v = dest ∧ v < g.adj.length) := fun h => hvd h.1
        rw [if_neg this, if_pos hv, if_pos hv, incoming_setFirst_other v dest w hvd]
    · have : ¬ (v = dest ∧ v < g.adj.length) := fun h => hv h.2
      rw [if_neg this, if_neg hv, if_neg hv]

theorem updateEdgeWeight_found (g : Graph) (src dest : Nat) (w : Int)
    (hs : src < g.adj.length) (he : ∃ e ∈ g.adj.getD src [], e.target = dest) :
    g.updateEdgeWeight src dest w =
      ({ g with adj := modifyAt (fun es => (setFirst dest w es).1) src g.adj,
                radj := modifyAt (fun res => (setFirst src w res).1) dest g.radj }, true) := by
  have h2 := (setFirst_snd dest w _).2 he
  have hs' : ¬ src ≥ g.adj.length := by omega
  simp only [Graph.updateEdgeWeight, hs', if_false, h2, if_true]
  rw [modifyAt_const (fun es => (setFirst dest w es).1) [] g.adj src]

theorem updateEdgeWeight_missing (g : Graph) (src dest : Nat) (w : Int)
    (h : ¬ (src < g.adj.length ∧ ∃ e ∈ g.adj.getD src [], e.target = dest)) :
    g.updateEdgeWeight src dest w = (g, false) := by
  by_cases hs : src ≥ g.adj.length
  · simp [Graph.updateEdgeWeight, hs]
  · have hne : ¬ ∃ e ∈ g.adj.getD src [], e.target = dest := fun he => h ⟨by omega, he⟩
    have h2 : (setFirst dest w (g.adj.getD src [])).2 = false := by
      cases hb : (setFirst dest w (g.adj.getD src [])).2 with
      | false => rfl
      | true => exact absurd ((setFirst_snd dest w _).1 hb) hne
    simp only [Graph.updateEdgeWeight, hs, if_false, h2]
    rfl

/-! ### Counting the entries of the rebuilt reverse adjacency -/

theorem count_contrib (v k u : Nat) (w : Int) (es : List Edge) :
    (contrib v k es).count ⟨u, w⟩ = if u = k then es.count ⟨v, w⟩ else 0 := by
  induction es with
  | nil => simp [contrib]
  | cons e es ih =>
    by_cases he : e.target = v
    · rw [contrib_cons_eq v k e es he, List.count_cons, List.count_cons, ih]
      by_cases huk : u = k
      · subst huk
        by_cases hw : e.weight = w
        · have h1 : ((⟨u, e.weight⟩ : Edge) == ⟨u, w⟩) = true := by simp [hw]
          have h2 : (e == (⟨v, w⟩ : Edge)) = true := by
            obtain ⟨t, x⟩ := e
            simp only at he hw
            simp [he, hw]
          simp [h1, h2]
        · have h1 : ((⟨u, e.weight⟩ : Edge) == ⟨u, w⟩) = false := by simp [hw]
          have h2 : (e == (⟨v, w⟩ : Edge)) = false := by
            obtain ⟨t, x⟩ := e
            simp only at he hw
            simp [hw]
          simp [h1, h2]
      · have h1 : ((⟨k, e.weight⟩ : Edge) == ⟨u, w⟩) = false := by
          simp [Ne.symm huk]
        simp [h1, huk]
    · rw [contrib_cons_ne v k e es he, List.count_cons, ih]
      have h2 : (e == (⟨v, w⟩ : Edge)) = false := by
        obtain ⟨t, x⟩ := e
        simp only at he
        simp [he]
      simp [h2]

theorem count_incoming (v u : Nat) (w : Int) (rows : List (List Edge)) :
    ∀ k, (incoming v k rows).count ⟨u, w⟩ =
      if k ≤ u then (rows.getD (u - k) []).count ⟨v, w⟩ else 0 := by
  induction rows with
  | nil => intro k; simp [incoming]
  | cons es rows ih =>
    intro k
    simp only [incoming, List.count_append, count_contrib, ih]
    by_cases h1 : u = k
    · subst h1
      simp
    · by_cases h2 : k ≤ u
      · have h3 : k + 1 ≤ u := by omega
        have h4 : u - k = (u - (k + 1)) + 1 := by omega
        rw [if_neg h1, if_pos h3, if_pos h2, h4, List.getD_cons_succ]
        simp
      · have h3 : ¬ k + 1 ≤ u := by omega
        rw [if_neg h1, if_neg h3, if_neg h2]

/-! ### The lengths of the three vectors -/

theorem resize_length {α : Type} (d : α) (l : List α) (n : Nat) : (resize d l n).length = n := by
  simp only [resize, List.length_append, List.length_take, List.length_replicate]
  omega

theorem addNode_lengths (g : Graph) (id : Nat) (name : String) (lat lon : Int)
    (h : g.nodes.length = g.adj.length ∧ g.adj.length = g.radj.length) :
    ((g.addNode id name lat lon).nodes.length = (g.addNode id name lat lon).adj.length ∧
      (g.addNode id name lat lon).adj.length = (g.addNode id name lat lon).radj.length) ∧
      g.nodes.length ≤ (g.addNode id name lat lon).nodes.length ∧
      id < (g.addNode id name lat lon).nodes.length := by
  unfold Graph.addNode
  by_cases hid : id ≥ g.nodes.length
  · simp only [hid, if_true, modifyAt_length, resize_length]
    exact ⟨⟨trivial, trivial⟩, le_max_of_le_right (by omega), lt_max_of_lt_left (by omega)⟩
  · simp only [hid, if_false, modifyAt_length]
    omega

theorem addEdge_lengths (g : Graph) (src dest : Nat) (w : Int)
    (h : g.nodes.length = g.adj.length ∧ g.adj.length = g.radj.length) :
    ((g.addEdge src dest w).nodes.length = (g.addEdge src dest w).adj.length ∧
      (g.addEdge src dest w).adj.length = (g.addEdge src dest w).radj.length) ∧
      g.nodes.length ≤ (g.addEdge src dest w).nodes.length ∧
      src < (g.addEdge src dest w).nodes.length ∧
      dest < (g.addEdge src dest w).nodes.length := by
  unfold Graph.addEdge
  by_cases hc : src ≥ g.adj.length ∨ dest ≥ g.adj.length
  · simp only [hc, if_true, modifyAt_length, resize_length]
    have h1 : src ≤ max src dest := le_max_left _ _
    have h2 : dest ≤ max src dest := le_max_right _ _
    have h3 : g.adj.length ≤ max src dest := by
      rcases hc with hc | hc
      · exact le_trans hc h1
      · exact le_trans hc h2
    refine ⟨⟨trivial, trivial⟩, ?_, ?_, ?_⟩
    · rw [h.1]
      exact Nat.le_succ_of_le h3
    · exact Nat.lt_succ_of_le h1
    · exact Nat.lt_succ_of_le h2
  · simp only [hc, if_false, modifyAt_length]
    omega

theorem updateEdgeWeight_lengths (g : Graph) (src dest : Nat) (w : Int) :
    (g.updateEdgeWeight src dest w).1.nodes.length = g.nodes.length ∧
      (g.updateEdgeWeight src dest w).1.adj.length = g.adj.length ∧
      (g.updateEdgeWeight src dest w).1.radj.length = g.radj.length := by
  by_cases h : src < g.adj.length ∧ ∃ e ∈ g.adj.getD src [], e.target = dest
  · rw [updateEdgeWeight_found g src dest w h.1 h.2]
    exact ⟨rfl, modifyAt_length _ _ _, modifyAt_length _ _ _⟩
  · rw [updateEdgeWeight_missing g src dest w h]
    exact ⟨rfl, rfl, rfl⟩

/-- The three vectors of a reached graph have one length. -/
theorem Graph.Reached.lengths {g : Graph} (hr : g.Reached) :
    g.nodes.length = g.adj.length ∧ g.adj.length = g.radj.length := by
  induction hr with
  | empty => exact ⟨rfl, rfl⟩
  | reserve n _ _ => simp [Graph.reserve]
  | addNode id name lat lon _ ih => exact (addNode_lengths _ id name lat lon ih).1
  | addEdge src dest w _ ih => exact (addEdge_lengths _ src dest w ih).1
  | updateEdgeWeight src dest w _ ih =>
    obtain ⟨h1, h2, h3⟩ := updateEdgeWeight_lengths _ src dest w
    rw [h1, h2, h3]
    exact ih
  | buildReverseAdj _ ih =>
    refine ⟨ih.1, ?_⟩
    rw [buildReverseAdj_length]
    rfl

/-! ### The stopping test of `bidir_a_star` -/

section StopTest
variable {g : Graph} {hF hB : Nat → Int}

theorem stopTest_eq (s : BState) :
    stopTest s = ltD s.best (minD (topPri s.fwd.openQ) (topPri s.bwd.openQ)) := rfl

theorem bwdHalf_flag (s : BState) :
    (bwdHalf g hB s).2 = (bwdReaches s && stopTest (bwdHalf g hB s).1) := by
  unfold bwdHalf bwdReaches
  cases hpop : pqPop s.bwd.openQ with
  | none => simp
  | some m =>
    obtain ⟨⟨f, u⟩, rest⟩ := m
    dsimp only
    by_cases hst : ltD (s.bwd.f u) f = true
    · simp [hst]
    · simp [hst]

/-- The loop is left by `break` exactly when the iteration reaches the stopping test and
the test `best < min(topF, topB)` holds. -/
theorem bidirIter_flag (s : BState) :
    (bidirIter g hF hB s).2 = (reachesTest g hF s && stopTest (bidirIter g hF hB s).1) := by
  rw [bidirIter_eq]
  unfold reachesTest
  cases hpop : pqPop s.fwd.openQ with
  | none => exact bwdHalf_flag s
  | some m =>
    obtain ⟨⟨f, u⟩, rest⟩ := m
    dsimp only
    by_cases hst : ltD (s.fwd.f u) f = true
    · simp [hst]
    · simp only [hst, if_false]
      exact bwdHalf_flag _

theorem bidirAt_loop (k : Nat) :
    ∀ (s0 s : BState), bidirAt g hF hB k s0 = some s →
      ∀ fuel, bidirLoop g hF hB (k + fuel) s0 = bidirLoop g hF hB fuel s := by
  induction k with
  | zero =>
    intro s0 s h fuel
    simp only [bidirAt, Option.some.injEq] at h
    subst h
    simp
  | succ k ih =>
    intro s0 s h fuel
    simp only [bidirAt] at h
    by_cases hex : s0.fwd.openQ = [] ∨ s0.bwd.openQ = []
    · simp [hex] at h
    · simp only [hex, if_false] at h
      by_cases hb : (bidirIter g hF hB s0).2 = true
      · simp [hb] at h
      · simp only [hb] at h
        have : k + 1 + fuel = (k + fuel) + 1 := by omega
        rw [this, bidirLoop_succ _ s0 hex]
        simp only [hb]
        exact ih _ s h fuel

theorem meet_meetOk (os : Nat → Bool) (u : Nat) (s : BState)
    (h : s.meeting = none → s.best = none) :
    (meet os u s).meeting = none → (meet os u s).best = none := by
  rcases meet_cases os u s with ⟨h1, h2⟩ | ⟨x, y, _, _, _, h4⟩
  · rw [h1, h2]; exact h
  · intro h5
    rw [h4] at h5
    cases h5

theorem expandSide_meetOk (adj : List (List Edge)) (heur : Nat → Int) (u : Nat)
    (rest : List PDI) (s : BState) (h : s.meeting = none → s.best = none) :
    (expandSide adj heur u rest s).meeting = none → (expandSide adj heur u rest s).best = none := by
  obtain ⟨h1, h2⟩ := expandSide_best adj heur u rest s
  rw [h1, h2]
  exact meet_meetOk _ _ _ h

theorem bwdHalf_meetOk (s : BState) (h : s.meeting = none → s.best = none) :
    (bwdHalf g hB s).1.meeting = none → (bwdHalf g hB s).1.best = none := by
  rw [bwdHalf_eq]
  cases hpop : pqPop s.bwd.openQ with
  | none => exact h
  | some m =>
    obtain ⟨⟨f, u⟩, rest⟩ := m
    dsimp only
    split
    · exact h
    · exact expandSide_meetOk g.radj hB u rest s.swap h

theorem bidirIter_meetOk (s : BState) (h : s.meeting = none → s.best = none) :
    (bidirIter g hF hB s).1.meeting = none → (bidirIter g hF hB s).1.best = none := by
  rw [bidirIter_eq]
  cases hpop : pqPop s.fwd.openQ with
  | none => exact bwdHalf_meetOk s h
  | some m =>
    obtain ⟨⟨f, u⟩, rest⟩ := m
    dsimp only
    split
    · exact h
    · exact bwdHalf_meetOk _ (expandSide_meetOk g.adj hF u rest s h)

theorem bidirLoop_meetOk :
    ∀ (fuel : Nat) (s s' : BState), (s.meeting = none → s.best = none) →
      bidirLoop g hF hB fuel s = some s' → s'.meeting = none → s'.best = none := by
  intro fuel
  induction fuel with
  | zero =>
    intro s s' h hl
    by_cases hex : s.fwd.openQ = [] ∨ s.bwd.openQ = []
    · rw [bidirLoop_exit _ s hex] at hl
      cases hl
      exact h
    · rw [bidirLoop_zero s hex] at hl
      cases hl
  | succ n ih =>
    intro s s' h hl
    by_cases hex : s.fwd.openQ = [] ∨ s.bwd.openQ = []
    · rw [bidirLoop_exit _ s hex] at hl
      cases hl
      exact h
    · rw [bidirLoop_succ n s hex] at hl
      split at hl
      · cases hl
        exact bidirIter_meetOk s h
      · exact ih _ _ (bidirIter_meetOk s h) hl

end StopTest

/-- The distance `bidir_a_star` returns is the value of `best` when the loop is left. -/
theorem bidir_returns_best (hav : Int → Int → Int → Int → Int) (g : Graph) {src dst : Nat}
    (hne : src ≠ dst) (fuel : Nat) (s' : BState)
    (hl : bidirLoop g (g.heurTo hav dst) (g.heurTo hav src) fuel
      (bidirInit (g.heurTo hav dst) (g.heurTo hav src) src dst) = some s')
    (d : Option Int) (path : List Nat)
    (hr : bidir_a_star hav fuel g src dst = some (d, path)) : d = s'.best := by
  have hok := bidirLoop_meetOk fuel _ s' (fun _ => rfl) hl
  have hl' : bidirLoop g (fun u => g.haversineDistance hav u dst)
      (fun u => g.haversineDistance hav u src) fuel
      (bidirInit (fun u => g.haversineDistance hav u dst)
        (fun u => g.haversineDistance hav u src) src dst) = some s' := hl
  simp only [bidir_a_star, hne, if_false, hl'] at hr
  cases hm : s'.meeting with
  | none =>
    simp only [hm, Option.some.injEq, Prod.mk.injEq] at hr
    rw [hok hm]
    exact hr.1.symm
  | some m =>
    simp only [hm] at hr
    split at hr
    · simp only [Option.some.injEq, Prod.mk.injEq] at hr
      exact hr.1.symm
    · cases hr

/-- With no more fuel than iterations before iteration `k`, the loop does not come back. -/
theorem bidirAt_none {g : Graph} {hF hB : Nat → Int} (k : Nat) :
    ∀ (s0 s : BState), bidirAt g hF hB k s0 = some s →
      ¬ (s.fwd.openQ = [] ∨ s.bwd.openQ = []) →
      ∀ fuel, fuel ≤ k → bidirLoop g hF hB fuel s0 = none := by
  induction k with
  | zero =>
    intro s0 s hs hne fuel hf
    simp only [bidirAt, Option.some.injEq] at hs
    subst hs
    have : fuel = 0 := by omega
    subst this
    exact bidirLoop_zero _ hne
  | succ n ih =>
    intro s0 s hs hne fuel hf
    simp only [bidirAt] at hs
    by_cases hex0 : s0.fwd.openQ = [] ∨ s0.bwd.openQ = []
    · simp [hex0] at hs
    · simp only [hex0, if_false] at hs
      by_cases hb : (bidirIter g hF hB s0).2 = true
      · simp [hb] at hs
      · simp only [hb] at hs
        cases fuel with
        | zero => exact bidirLoop_zero _ hex0
        | succ m =>
          rw [bidirLoop_succ m s0 hex0]
          simp only [hb]
          exact ih _ s hs hne m (by omega)

/-! ### The range check of the dispatcher -/

/-- An id at or beyond the number of node slots is rejected: `Invalid ids` is printed, the
cache is not consulted and no search is called. -/
theorem queryCommand_rejects_large (hav : Int → Int → Int → Int → Int) (fuel : Nat) (g : Graph)
    (cache : LRUCache String QueryResult) (cmd : String) (s t : Int)
    (h : (g.adj.length : Int) ≤ s ∨ (g.adj.length : Int) ≤ t) :
    queryCommand hav fuel g cache cmd s t = some (QueryOutput.invalidIds, cache) := by
  have : idsRejected g s t = true := by
    simp only [idsRejected, Bool.or_eq_true, decide_eq_true_eq]
    exact h
  simp [queryCommand, this]

/-! ### Edge targets of a reached graph are in range -/

theorem mem_modifyAt {α : Type} (f : α → α) (x : α) (l : List α) :
    ∀ i, x ∈ modifyAt f i l → x ∈ l ∨ ∃ y ∈ l, x = f y := by
  induction l with
  | nil => intro i h; cases i <;> simp [modifyAt] at h
  | cons a l ih =>
    intro i h
    cases i with
    | zero =>
      simp only [modifyAt, List.mem_cons] at h
      rcases h with h | h
      · exact Or.inr ⟨a, List.mem_cons_self _ _, h⟩
      · exact Or.inl (List.mem_cons_of_mem _ h)
    | succ i =>
      simp only [modifyAt, List.mem_cons] at h
      rcases h with h | h
      · exact Or.inl (by simp [h])
      · rcases ih i h with h1 | ⟨y, hy, hxy⟩
        · exact Or.inl (List.mem_cons_of_mem _ h1)
        · exact Or.inr ⟨y, List.mem_cons_of_mem _ hy, hxy⟩

theorem mem_resize {α : Type} (d x : α) (l : List α) (n : Nat) (h : x ∈ resize d l n) :
    x ∈ l ∨ x = d := by
  simp only [resize, List.mem_append] at h
  rcases h with h | h
  · exact Or.inl (List.mem_of_mem_take h)
  · exact Or.inr (List.eq_of_mem_replicate h)

theorem setFirst_mem_target (t : Nat) (w : Int) (es : List Edge) :
    ∀ x ∈ (setFirst t w es).1, ∃ e ∈ es, x.target = e.target := by
  induction es with
  | nil => intro x hx; simp [setFirst] at hx
  | cons e es ih =>
    intro x hx
    by_cases he : e.target = t
    · simp only [setFirst, he, if_true, List.mem_cons] at hx
      rcases hx with rfl | hx
      · exact ⟨e, List.mem_cons_self _ _, he.symm⟩
      · exact ⟨x, List.mem_cons_of_mem _ hx, rfl⟩
    · simp only [setFirst, he, if_false, List.cons, List.mem_cons] at hx
      rcases hx with rfl | hx
      · exact ⟨x, List.mem_cons_self _ _, rfl⟩
      · obtain ⟨e', he', h⟩ := ih x hx
        exact ⟨e', List.mem_cons_of_mem _ he', h⟩

theorem mem_of_getD_rows {l : List (List Edge)} {es : List Edge} (h : es ∈ l) :
    ∃ v, v < l.length ∧ l.getD v [] = es := by
  obtain ⟨v, hv, rfl⟩ := List.getElem_of_mem h
  exact ⟨v, hv, List.getD_eq_getElem _ _ hv⟩

/-- In a graph reached from the empty one, every forward edge and every reverse entry names
a node slot. -/
theorem Graph.Reached.inRange {g : Graph} (hr : g.Reached) : g.InRange ∧ g.RevInRange := by
  induction hr with
  | empty =>
    constructor
    · intro es hes; simp [Graph.empty] at hes
    · intro es hes; simp [Graph.empty] at hes
  | reserve n _ _ =>
    constructor
    · intro es hes e he
      have := List.eq_of_mem_replicate hes
      subst this
      simp at he
    · intro es hes e he
      have := List.eq_of_mem_replicate hes
      subst this
      simp at he
  | @addNode g id name lat lon hg ih =>
    have hlen := hg.lengths
    obtain ⟨⟨h1, h2⟩, h3, _⟩ := addNode_lengths g id name lat lon hlen
    have ha : g.adj.length ≤ (g.addNode id name lat lon).adj.length := by omega
    have hb : g.radj.length ≤ (g.addNode id name lat lon).radj.length := by omega
    have hadj : ∀ es ∈ (g.addNode id name lat lon).adj, es ∈ g.adj ∨ es = [] := by
      intro es hes
      unfold Graph.addNode at hes
      by_cases hid : id ≥ g.nodes.length
      · simp only [hid, if_true] at hes
        exact mem_resize [] es g.adj _ hes
      · simp only [hid, if_false] at hes
        exact Or.inl hes
    have hradj : ∀ es ∈ (g.addNode id name lat lon).radj, es ∈ g.radj ∨ es = [] := by
      intro es hes
      unfold Graph.addNode at hes
      by_cases hid : id ≥ g.nodes.length
      · simp only [hid, if_true] at hes
        exact mem_resize [] es g.radj _ hes
      · simp only [hid, if_false] at hes
        exact Or.inl hes
    constructor
    · intro es hes e he
      rcases hadj es hes with h | h
      · exact lt_of_lt_of_le (ih.1 es h e he) ha
      · subst h; simp at he
    · intro es hes e he
      rcases hradj es hes with h | h
      · exact lt_of_lt_of_le (ih.2 es h e he) hb
      · subst h; simp at he
  | @addEdge g src dest w hg ih =>
    have hlen := hg.lengths
    obtain ⟨⟨h1, h2⟩, h3, h4, h5⟩ := addEdge_lengths g src dest w hlen
    have ha : g.adj.length ≤ (g.addEdge src dest w).adj.length := by omega
    have hb : g.radj.length ≤ (g.addEdge src dest w).radj.length := by omega
    have hd : dest < (g.addEdge src dest w).adj.length := by omega
    have hadj : ∀ es ∈ (g.addEdge src dest w).adj,
        es ∈ g.adj ∨ es = [] ∨ ∃ y, (y ∈ g.adj ∨ y = []) ∧ es = y ++ [⟨dest, w⟩] := by
      intro es hes
      unfold Graph.addEdge at hes
      by_cases hc : src ≥ g.adj.length ∨ dest ≥ g.adj.length
      · simp only [hc, if_true] at hes
        rcases mem_modifyAt _ es _ src hes with h | ⟨y, hy, hxy⟩
        · rcases mem_resize [] es g.adj _ h with h | h
          · exact Or.inl h
          · exact Or.inr (Or.inl h)
        · exact Or.inr (Or.inr ⟨y, mem_resize [] y g.adj _ hy, hxy⟩)
      · simp only [hc, if_false] at hes
        rcases mem_modifyAt _ es _ src hes with h | ⟨y, hy, hxy⟩
        · exact Or.inl h
        · exact Or.inr (Or.inr ⟨y, Or.inl hy, hxy⟩)
    have hradj : ∀ es ∈ (g.addEdge src dest w).radj, es ∈ g.radj ∨ es = [] := by
      intro es hes
      unfold Graph.addEdge at hes
      by_cases hc : src ≥ g.adj.length ∨ dest ≥ g.adj.length
      · simp only [hc, if_true] at hes
        exact mem_resize [] es g.radj _ hes
      · simp only [hc, if_false] at hes
        exact Or.inl hes
    constructor
    · intro es hes e he
      rcases hadj es hes with h | h | ⟨y, hy, rfl⟩
      · exact lt_of_lt_of_le (ih.1 es h e he) ha
      · subst h; simp at he
      · rcases List.mem_append.1 he with he1 | he1
        · rcases hy with hy | hy
          · exact lt_of_lt_of_le (ih.1 y hy e he1) ha
          · subst hy; simp at he1
        · simp only [List.mem_singleton] at he1
          subst he1
          exact hd
    · intro es hes e he
      rcases hradj es hes with h | h
      · exact lt_of_lt_of_le (ih.2 es h e he) hb
      · subst h; simp at he
  | @updateEdgeWeight g src dest w _ ih =>
    by_cases h : src < g.adj.length ∧ ∃ e ∈ g.adj.getD src [], e.target = dest
    · rw [updateEdgeWeight_found g src dest w h.1 h.2]
      constructor
      · intro es hes e he
        have hes' : es ∈ modifyAt (fun es => (setFirst dest w es).1) src g.adj := hes
        show e.target < (modifyAt (fun es => (setFirst dest w es).1) src g.adj).length
        rw [modifyAt_length]
        rcases mem_modifyAt _ es _ src hes' with h1 | ⟨y, hy, rfl⟩
        · exact ih.1 es h1 e he
        · obtain ⟨e', he', heq⟩ := setFirst_mem_target dest w y e he
          rw [heq]
          exact ih.1 y hy e' he'
      · intro es hes e he
        have hes' : es ∈ modifyAt (fun res => (setFirst src w res).1) dest g.radj := hes
        show e.target < (modifyAt (fun res => (setFirst src w res).1) dest g.radj).length
        rw [modifyAt_length]
        rcases mem_modifyAt _ es _ dest hes' with h1 | ⟨y, hy, rfl⟩
        · exact ih.2 es h1 e he
        · obtain ⟨e', he', heq⟩ := setFirst_mem_target src w y e he
          rw [heq]
          exact ih.2 y hy e' he'
    · rw [updateEdgeWeight_missing g src dest w h]
      exact ih
  | @buildReverseAdj g _ ih =>
    refine ⟨ih.1, ?_⟩
    intro es hes e he
    rw [buildReverseAdj_length]
    obtain ⟨v, hv, rfl⟩ := mem_of_getD_rows hes
    rw [buildReverseAdj_length] at hv
    rw [buildReverseAdj_getD, if_pos hv] at he
    have := (incoming_target v g.adj 0 e he).2
    omega

/-! ### With targets in range no access is out of range -/

theorem revEdgesChk_eq (u : Nat) (es : List Edge) :
    ∀ r : List (List Edge), (∀ e ∈ es, e.target < r.length) →
      revEdgesChk u es r = some (revEdges u es r) := by
  induction es with
  | nil => intro r _; rfl
  | cons e es ih =>
    intro r h
    have he := h e (List.mem_cons_self _ _)
    simp only [revEdgesChk, revEdges, he, if_true]
    refine ih _ ?_
    intro e' he'
    rw [modifyAt_length]
    exact h e' (List.mem_cons_of_mem _ he')

theorem revRowsChk_eq (rows : List (List Edge)) :
    ∀ (u : Nat) (r : List (List Edge)), (∀ es ∈ rows, ∀ e ∈ es, e.target < r.length) →
      revRowsChk u rows r = some (revRows u rows r) := by
  induction rows with
  | nil => intro u r _; rfl
  | cons es rows ih =>
    intro u r h
    simp only [revRowsChk, revRows,
      revEdgesChk_eq u es r (h es (List.mem_cons_self _ _))]
    refine ih _ _ ?_
    intro es' hes' e he
    rw [revEdges_length]
    exact h es' (List.mem_cons_of_mem _ hes') e he

theorem buildReverseAdjChk_eq (g : Graph) (hir : g.InRange) :
    g.buildReverseAdjChk = some g.buildReverseAdj := by
  have := revRowsChk_eq g.adj 0 (List.replicate g.adj.length []) (by simpa using hir)
  simp only [Graph.buildReverseAdjChk, this]
  rfl

theorem updateEdgeWeightChk_eq (g : Graph) (src dest : Nat) (w : Int) (hir : g.InRange)
    (hlen : g.adj.length = g.radj.length) :
    g.updateEdgeWeightChk src dest w = some (g.updateEdgeWeight src dest w) := by
  unfold Graph.updateEdgeWeightChk Graph.updateEdgeWeight
  by_cases hs : src ≥ g.adj.length
  · simp only [hs, if_true]
  · simp only [hs, if_false]
    by_cases hf : (setFirst dest w (g.adj.getD src [])).2 = true
    · obtain ⟨e, he, het⟩ := (setFirst_snd dest w _).1 hf
      obtain ⟨es, hes, hm⟩ := mem_getD_row he
      have hd : dest < g.radj.length := by
        rw [← hlen, ← het]
        exact hir es hes e hm
      simp only [hf, if_true, hd]
    · simp only [hf]
      rfl

theorem dijkstraRelaxChk_eq (n u : Nat) (hu : u < n) (es : List Edge) :
    ∀ s : DState, (∀ e ∈ es, e.target < n) →
      dijkstraRelaxChk n u es s = some (dijkstraRelax u es s) := by
  induction es with
  | nil => intro s _; rfl
  | cons e es ih =>
    intro s h
    have he : u < n ∧ e.target < n := ⟨hu, h e (List.mem_cons_self _ _)⟩
    have h' : ∀ e' ∈ es, e'.target < n := fun e' he' => h e' (List.mem_cons_of_mem _ he')
    simp only [dijkstraRelaxChk, dijkstraRelax, he, and_self, if_true]
    split
    · exact ih _ h'
    · exact ih _ h'

theorem aStarRelaxChk_eq (n : Nat) (heuristic : Nat → Int) (u : Nat) (hu : u < n)
    (es : List Edge) :
    ∀ s : AState, (∀ e ∈ es, e.target < n) →
      aStarRelaxChk n heuristic u es s = some (aStarRelax heuristic u es s) := by
  induction es with
  | nil => intro s _; rfl
  | cons e es ih =>
    intro s h
    have he : u < n ∧ e.target < n := ⟨hu, h e (List.mem_cons_self _ _)⟩
    have h' : ∀ e' ∈ es, e'.target < n := fun e' he' => h e' (List.mem_cons_of_mem _ he')
    simp only [aStarRelaxChk, aStarRelax, he, and_self, if_true]
    split
    · exact ih _ h'
    · exact ih _ h'

theorem sideRelaxChk_eq (n : Nat) (heur : Nat → Int) (u : Nat) (hu : u < n) (es : List Edge) :
    ∀ s : Side, (∀ e ∈ es, e.target < n) →
      sideRelaxChk n heur u es s = some (sideRelax heur u es s) := by
  induction es with
  | nil => intro s _; rfl
  | cons e es ih =>
    intro s h
    have he : u < n ∧ e.target < n := ⟨hu, h e (List.mem_cons_self _ _)⟩
    have h' : ∀ e' ∈ es, e'.target < n := fun e' he' => h e' (List.mem_cons_of_mem _ he')
    simp only [sideRelaxChk, sideRelax, he, and_self, if_true]
    split
    · exact ih _ h'
    · exact ih _ h'

theorem getD_row_lt {l : List (List Edge)} {n : Nat}
    (h : ∀ es ∈ l, ∀ e ∈ es, e.target < n) (u : Nat) : ∀ e ∈ l.getD u [], e.target < n := by
  intro e he
  obtain ⟨es, hes, hm⟩ := mem_getD_row he
  exact h es hes e hm

/-! ### The updated scenario: the result does not depend on the heuristic -/

theorem shortcutA_relax (h : Nat → Int) {s : AState} (hs : ShortcutA s) (u : Nat) :
    ShortcutA (aStarRelax h u
      (([[⟨1, 1⟩, ⟨2, 1⟩], [⟨2, 1⟩], [⟨3, 1⟩], []] : List (List Edge)).getD u []) s) := by
  obtain ⟨h0, p0, hc⟩ := hs
  match u with
  | 0 =>
    rcases hc with ⟨h1, h2, h3⟩ | ⟨h1, h2, p2, h3⟩
    · simp [aStarRelax, ltD, addW, upd, ShortcutA, h0, h1, h2, h3, p0]
    · rcases h3 with h3 | ⟨h3, p3⟩ <;>
        simp [aStarRelax, ltD, addW, upd, ShortcutA, h0, h1, h2, h3, p0, p2, *]
  | 1 =>
    rcases hc with ⟨h1, h2, h3⟩ | ⟨h1, h2, p2, h3⟩
    · simp [aStarRelax, ltD, addW, upd, ShortcutA, h0, h1, h2, h3, p0]
    · rcases h3 with h3 | ⟨h3, p3⟩ <;>
        simp [aStarRelax, ltD, addW, upd, ShortcutA, h0, h1, h2, h3, p0, p2, *]
  | 2 =>
    rcases hc with ⟨h1, h2, h3⟩ | ⟨h1, h2, p2, h3⟩
    · simp [aStarRelax, ltD, addW, upd, ShortcutA, h0, h1, h2, h3, p0]
    · rcases h3 with h3 | ⟨h3, p3⟩ <;>
        simp [aStarRelax, ltD, addW, upd, ShortcutA, h0, h1, h2, h3, p0, p2, *]
  | 3 => simpa [aStarRelax] using (⟨h0, p0, hc⟩ : ShortcutA s)
  | n + 4 => simpa [aStarRelax] using (⟨h0, p0, hc⟩ : ShortcutA s)

theorem shortcutA_loop {g : Graph} (hadj : g.adj = [[⟨1, 1⟩, ⟨2, 1⟩], [⟨2, 1⟩], [⟨3, 1⟩], []])
    (h : Nat → Int) (dst : Nat) :
    ∀ (fuel : Nat) (s s' : AState), ShortcutA s → aStarLoop g h dst fuel s = some s' →
      ShortcutA s' := by
  intro fuel
  induction fuel with
  | zero =>
    intro s s' hs hl
    cases hp : pqPop s.openQ with
    | none =>
      rw [aStarLoop_empty _ _ hp] at hl
      cases hl
      exact hs
    | some m =>
      rw [aStarLoop_zero _ hp] at hl
      cases hl
  | succ fuel ih =>
    intro s s' hs hl
    cases hp : pqPop s.openQ with
    | none =>
      rw [aStarLoop_empty _ _ hp] at hl
      cases hl
      exact hs
    | some m =>
      obtain ⟨⟨f, u⟩, rest⟩ := m
      rw [aStarLoop_succ _ _ hp] at hl
      have hs1 : ShortcutA ({ s with openQ := rest } : AState) := hs
      split at hl
      · cases hl
        exact hs1
      · split at hl
        · exact ih _ _ hs1 hl
        · refine ih _ _ ?_ hl
          rw [hadj]
          exact shortcutA_relax h hs1 u

theorem shortcut_a_star (hav : Int → Int → Int → Int → Int) {g : Graph}
    (hadj : g.adj = [[⟨1, 1⟩, ⟨2, 1⟩], [⟨2, 1⟩], [⟨3, 1⟩], []]) :
    ∃ n, ∀ fuel, n ≤ fuel → a_star hav fuel g 0 3 = some (some 2, [0, 2, 3]) := by
  have hnn : g.NonNeg := by simp [Graph.NonNeg, hadj]
  have hir : g.InRange := by simp [Graph.InRange, hadj]
  have hw := hnn.toE
  have hinit : ShortcutA (aStarInit (g.heurTo hav 3) 0) := by
    simp [ShortcutA, aStarInit, upd, INF]
  obtain ⟨n1, s, hloop⟩ : ∃ fuel s', aStarLoop g (g.heurTo hav 3) 3 fuel
      (aStarInit (g.heurTo hav 3) 0) = some s' :=
    aStarLoop_terminates hw hir.toBounded (aStarInit (g.heurTo hav 3) 0) aStarInit_inv
  obtain ⟨_, hopt⟩ := aStarLoop_post hw n1 _ s aStarInit_inv hloop
  obtain ⟨h0, p0, hc⟩ := shortcutA_loop hadj _ 3 n1 _ s hinit hloop
  have e0 : g.fwd 0 = [⟨1, 1⟩, ⟨2, 1⟩] := by simp [Graph.fwd, hadj]
  have e2 : g.fwd 2 = [⟨3, 1⟩] := by simp [Graph.fwd, hadj]
  have wk : Walk g.fwd 0 3 (1 + (1 + 0)) :=
    Walk.cons (by rw [e0]; exact List.mem_cons_of_mem _ (List.mem_cons_self _ _))
      (Walk.cons (by rw [e2]; exact List.mem_cons_self _ _) (Walk.nil 3))
  obtain ⟨z, hz, _⟩ := hopt _ wk
  have h3 : s.gscore 3 = some 2 ∧ s.parent 3 = some 2 ∧ s.parent 2 = some 0 := by
    rcases hc with ⟨_, _, h3⟩ | ⟨_, _, p2, h3 | ⟨h3, p3⟩⟩
    · rw [h3] at hz; cases hz
    · rw [h3] at hz; cases hz
    · exact ⟨h3, p3, p2⟩
  obtain ⟨g3, p3, p2⟩ := h3
  refine ⟨n1 + 3, fun fuel hf => ?_⟩
  obtain ⟨k, rfl⟩ := Nat.exists_eq_add_of_le hf
  have hl : aStarLoop g (fun u => g.haversineDistance hav u 3) 3 (n1 + 3 + k)
      (aStarInit (fun u => g.haversineDistance hav u 3) 0) = some s := by
    have := aStarLoop_mono hloop (3 + k)
    rwa [← Nat.add_assoc] at this
  have hwp : walkParents s.parent (n1 + 3 + k) (some 3) = some [3, 2, 0] := by
    have e : n1 + 3 + k = (n1 + k) + 1 + 1 + 1 := by omega
    rw [e]
    simp [walkParents, p3, p2, p0]
  simp [a_star, hl, g3, INF, hwp]

theorem shortcut_relaxF (h : Nat → Int) (u : Nat) (s : Side) (g0 : s.g 0 = some 0)
    (g1 : s.g 1 = some 1) (g2 : s.g 2 = some 1) (g3 : s.g 3 = some 2) :
    sideRelax h u
      (([[⟨1, 1⟩, ⟨2, 1⟩], [⟨2, 1⟩], [⟨3, 1⟩], []] : List (List Edge)).getD u []) s = s := by
  match u with
  | 0 => simp [sideRelax, ltD, addW, g0, g1, g2, g3]
  | 1 => simp [sideRelax, ltD, addW, g0, g1, g2, g3]
  | 2 => simp [sideRelax, ltD, addW, g0, g1, g2, g3]
  | 3 => simp [sideRelax]
  | n + 4 => simp [sideRelax]

theorem shortcut_relaxB (h : Nat → Int) (u : Nat) (s : Side) (g0 : s.g 0 = some 2)
    (g1 : s.g 1 = some 2) (g2 : s.g 2 = some 1) (g3 : s.g 3 = some 0) :
    sideRelax h u
      (([[], [⟨0, 1⟩], [⟨0, 1⟩, ⟨1, 1⟩], [⟨2, 1⟩]] : List (List Edge)).getD u []) s = s := by
  match u with
  | 0 => simp [sideRelax]
  | 1 => simp [sideRelax, ltD, addW, g0, g1, g2, g3]
  | 2 => simp [sideRelax, ltD, addW, g0, g1, g2, g3]
  | 3 => simp [sideRelax, ltD, addW, g0, g1, g2, g3]
  | n + 4 => simp [sideRelax]

theorem shortcutB_meet {s : BState} (hs : ShortcutB s) {os : Nat → Bool} {u : Nat} :
    meet os u s = s := by
  unfold PathMaster.meet
  split
  · have : ltD (addD (s.fwd.g u) (s.bwd.g u)) s.best = false := by
      rw [hs.best]
      match u with
      | 0 => simp [hs.gF0, hs.gB0, addD, ltD]
      | 1 => simp [hs.gF1, hs.gB1, addD, ltD]
      | 2 => simp [hs.gF2, hs.gB2, addD, ltD]
      | 3 => simp [hs.gF3, hs.gB3, addD, ltD]
      | n + 4 => simp [hs.gFn (n + 4) (by omega), addD, ltD]
    simp [this]
  · rfl

theorem shortcutB_of_eq {s s' : BState} (hs : ShortcutB s) (h1 : s'.best = s.best)
    (h2 : s'.meeting = s.meeting) (h3 : s'.fwd.g = s.fwd.g) (h4 : s'.fwd.p = s.fwd.p)
    (h5 : s'.bwd.g = s.bwd.g) (h6 : s'.bwd.p = s.bwd.p) : ShortcutB s' := by
  obtain ⟨a1, a2, a3, a4, a5, a6, a7, a8, a9, a10, a11, a12, a13, a14, a15, a16⟩ := hs
  constructor
  · rw [h1]; exact a1
  · rw [h2]; exact a2
  · rw [h3]; exact a3
  · rw [h3]; exact a4
  · rw [h3]; exact a5
  · rw [h3]; exact a6
  · rw [h3]; exact a7
  · rw [h5]; exact a8
  · rw [h5]; exact a9
  · rw [h5]; exact a10
  · rw [h5]; exact a11
  · rw [h5]; exact a12
  · rw [h4]; exact a13
  · rw [h4]; exact a14
  · rw [h6]; exact a15
  · rw [h6]; exact a16

theorem shortcutB_bwdHalf {g : Graph}
    (hradj : g.radj = [[], [⟨0, 1⟩], [⟨0, 1⟩, ⟨1, 1⟩], [⟨2, 1⟩]]) (hB : Nat → Int) {s : BState}
    (hs : ShortcutB s) : ShortcutB (bwdHalf g hB s).1 := by
  unfold PathMaster.bwdHalf
  split
  · exact hs
  · rename_i f u rest _
    dsimp only
    split
    · exact shortcutB_of_eq hs rfl rfl rfl rfl rfl rfl
    · have hs2 : ShortcutB ({ s with bwd := { s.bwd with openQ := rest, seen := upd s.bwd.seen u true } } : BState) :=
        shortcutB_of_eq hs rfl rfl rfl rfl rfl rfl
      rw [shortcutB_meet hs2]
      split
      · rw [hradj]
        rw [shortcut_relaxB hB u _ hs2.gB0 hs2.gB1 hs2.gB2 hs2.gB3]
        exact hs2
      · exact hs2

theorem shortcutB_iter {g : Graph}
    (hadj : g.adj = [[⟨1, 1⟩, ⟨2, 1⟩], [⟨2, 1⟩], [⟨3, 1⟩], []])
    (hradj : g.radj = [[], [⟨0, 1⟩], [⟨0, 1⟩, ⟨1, 1⟩], [⟨2, 1⟩]]) (hF hB : Nat → Int)
    {s : BState} (hs : ShortcutB s) : ShortcutB (bidirIter g hF hB s).1 := by
  unfold PathMaster.bidirIter
  split
  · exact shortcutB_bwdHalf hradj hB hs
  · rename_i f u rest _
    dsimp only
    split
    · exact shortcutB_of_eq hs rfl rfl rfl rfl rfl rfl
    · have hs2 : ShortcutB ({ s with fwd := { s.fwd with openQ := rest, seen := upd s.fwd.seen u true } } : BState) :=
        shortcutB_of_eq hs rfl rfl rfl rfl rfl rfl
      rw [shortcutB_meet hs2]
      apply shortcutB_bwdHalf hradj hB
      split
      · rw [hadj]
        rw [shortcut_relaxF hF u _ hs2.gF0 hs2.gF1 hs2.gF2 hs2.gF3]
        exact hs2
      · exact hs2

theorem shortcutB_loop {g : Graph}
    (hadj : g.adj = [[⟨1, 1⟩, ⟨2, 1⟩], [⟨2, 1⟩], [⟨3, 1⟩], []])
    (hradj : g.radj = [[], [⟨0, 1⟩], [⟨0, 1⟩, ⟨1, 1⟩], [⟨2, 1⟩]]) (hF hB : Nat → Int) :
    ∀ (fuel : Nat) (s s' : BState), ShortcutB s → bidirLoop g hF hB fuel s = some s' →
      ShortcutB s' := by
  intro fuel
  induction fuel with
  | zero =>
    intro s s' hs hl
    by_cases he : s.fwd.openQ = [] ∨ s.bwd.openQ = []
    · rw [bidirLoop_exit _ _ he] at hl
      cases hl
      exact hs
    · rw [bidirLoop_zero _ he] at hl
      cases hl
  | succ fuel ih =>
    intro s s' hs hl
    by_cases he : s.fwd.openQ = [] ∨ s.bwd.openQ = []
    · rw [bidirLoop_exit _ _ he] at hl
      cases hl
      exact hs
    · rw [bidirLoop_succ _ _ he] at hl
      split at hl
      · cases hl
        exact shortcutB_iter hadj hradj hF hB hs
      · exact ih _ _ (shortcutB_iter hadj hradj hF hB hs) hl

theorem shortcut_prefix {g : Graph}
    (hadj : g.adj = [[⟨1, 1⟩, ⟨2, 1⟩], [⟨2, 1⟩], [⟨3, 1⟩], []])
    (hradj : g.radj = [[], [⟨0, 1⟩], [⟨0, 1⟩, ⟨1, 1⟩], [⟨2, 1⟩]]) (hF hB : Nat → Int) :
    (bidirIter g hF hB (bidirInit hF hB 0 3)).2 = false ∧
    (bidirIter g hF hB (bidirInit hF hB 0 3)).1.fwd.openQ ≠ [] ∧
    (bidirIter g hF hB (bidirInit hF hB 0 3)).1.bwd.openQ ≠ [] ∧
    (ShortcutB (bidirIter g hF hB (bidirIter g hF hB (bidirInit hF hB 0 3)).1).1 ∨
      ((bidirIter g hF hB (bidirIter g hF hB (bidirInit hF hB 0 3)).1).2 = false ∧
       (bidirIter g hF hB (bidirIter g hF hB (bidirInit hF hB 0 3)).1).1.fwd.openQ ≠ [] ∧
       (bidirIter g hF hB (bidirIter g hF hB (bidirInit hF hB 0 3)).1).1.bwd.openQ ≠ [] ∧
       ShortcutB (bidirIter g hF hB
         (bidirIter g hF hB (bidirIter g hF hB (bidirInit hF hB 0 3)).1).1).1)) := by
  refine ⟨?_, ?_, ?_, ?_⟩
  · simp [bidirIter, bwdHalf, bidirInit, sideInit, pqPop, pqTop, pqMin, ltD, meet, sideRelax,
      stopTest, upd, addW, hadj, hradj, INF, minD]
  · simp [bidirIter, bwdHalf, bidirInit, sideInit, pqPop, pqTop, pqMin, ltD, meet, sideRelax,
      stopTest, upd, addW, hadj, hradj, INF, minD]
  · simp [bidirIter, bwdHalf, bidirInit, sideInit, pqPop, pqTop, pqMin, ltD, meet, sideRelax,
      stopTest, upd, addW, hadj, hradj, INF, minD]
  · by_cases hc : hF 2 < hF 1
    · left
      constructor <;>
      simp [bidirIter, bwdHalf, bidirInit, sideInit, pqPop, pqTop, pqMin, pdiLe, ltD, meet, sideRelax,
        stopTest, upd, addW, addD, hadj, hradj, INF, minD, hc]
      all_goals
        intro v hv
        have h0 : v ≠ 0 := by omega
        have h1 : v ≠ 1 := by omega
        have h2 : v ≠ 2 := by omega
        have h3 : v ≠ 3 := by omega
        simp [h0, h1, h2, h3]
    · right
      have q2 : pqPop (bidirIter g hF hB (bidirIter g hF hB (bidirInit hF hB 0 3)).1).1.fwd.openQ =
          some ((some (1 + hF 2), 2), []) := by
        simp [bidirIter, bwdHalf, bidirInit, sideInit, pqPop, pqTop, pqMin, pdiLe, ltD, meet,
          sideRelax, stopTest, upd, addW, addD, hadj, hradj, INF, minD, hc]
      have f2 : ltD ((bidirIter g hF hB (bidirIter g hF hB (bidirInit hF hB 0 3)).1).1.fwd.f 2)
          (some (1 + hF 2)) = false := by
        simp [bidirIter, bwdHalf, bidirInit, sideInit, pqPop, pqTop, pqMin, pdiLe, ltD, meet,
          sideRelax, stopTest, upd, addW, addD, hadj, hradj, INF, minD, hc]
      have k : ShortcutB (expandSide g.adj hF 2 []
          (bidirIter g hF hB (bidirIter g hF hB (bidirInit hF hB 0 3)).1).1) := by
        constructor <;>
        simp [expandSide, bidirIter, bwdHalf, bidirInit, sideInit, pqPop, pqTop, pqMin, pdiLe, ltD,
          meet, sideRelax, stopTest, upd, addW, addD, hadj, hradj, INF, minD, hc]
        all_goals
          intro v hv
          have h0 : v ≠ 0 := by omega
          have h1 : v ≠ 1 := by omega
          have h2 : v ≠ 2 := by omega
          have h3 : v ≠ 3 := by omega
          simp [h0, h1, h2, h3]
      refine ⟨?_, ?_, ?_, ?_⟩
      · simp [bidirIter, bwdHalf, bidirInit, sideInit, pqPop, pqTop, pqMin, pdiLe, ltD, meet,
          sideRelax, stopTest, upd, addW, addD, hadj, hradj, INF, minD, hc]
      · simp [bidirIter, bwdHalf, bidirInit, sideInit, pqPop, pqTop, pqMin, pdiLe, ltD, meet,
          sideRelax, stopTest, upd, addW, addD, hadj, hradj, INF, minD, hc]
      · simp [bidirIter, bwdHalf, bidirInit, sideInit, pqPop, pqTop, pqMin, pdiLe, ltD, meet,
          sideRelax, stopTest, upd, addW, addD, hadj, hradj, INF, minD, hc]
      · rw [bidirIter_eq g hF hB (bidirIter g hF hB (bidirIter g hF hB (bidirInit hF hB 0 3)).1).1,
          q2]
        dsimp only
        rw [f2]
        exact shortcutB_bwdHalf hradj hB k

theorem shortcut_bidir (hav : Int → Int → Int → Int → Int) {g : Graph}
    (hadj : g.adj = [[⟨1, 1⟩, ⟨2, 1⟩], [⟨2, 1⟩], [⟨3, 1⟩], []])
    (hradj : g.radj = [[], [⟨0, 1⟩], [⟨0, 1⟩, ⟨1, 1⟩], [⟨2, 1⟩]]) (hnn : g.NonNeg)
    (hir : g.InRange) (htr : g.Transposed) :
    ∃ n, ∀ fuel, n ≤ fuel → bidir_a_star hav fuel g 0 3 = some (some 2, [0, 2, 3]) := by
  have hwF := hnn.toE
  have hwB : NonNegE g.bwd := transposed_nonneg htr hwF
  have hne : (0 : Nat) ≠ 3 := by decide
  have hinit : BInv g.fwd (g.heurTo hav 3) 0 g.bwd (g.heurTo hav 0) 3
      (bidirInit (g.heurTo hav 3) (g.heurTo hav 0) 0 3) := bidirInit_inv hne
  obtain ⟨n1, s, hloop⟩ := bidirLoop_terminates hwF hwB hir.toBounded htr.bounded _ hinit
    (Or.inl ⟨rfl, rfl⟩)
  obtain ⟨i1, i2, i3, i4⟩ := shortcut_prefix hadj hradj (g.heurTo hav 3) (g.heurTo hav 0)
  have hk : ShortcutB s := by
    have hloopK := shortcutB_loop hadj hradj (g.heurTo hav 3) (g.heurTo hav 0)
    have hne0 : ¬ ((bidirInit (g.heurTo hav 3) (g.heurTo hav 0) 0 3).fwd.openQ = [] ∨
        (bidirInit (g.heurTo hav 3) (g.heurTo hav 0) 0 3).bwd.openQ = []) := by
      simp [bidirInit, sideInit]
    have hne1 : ¬ ((bidirIter g (g.heurTo hav 3) (g.heurTo hav 0)
          (bidirInit (g.heurTo hav 3) (g.heurTo hav 0) 0 3)).1.fwd.openQ = [] ∨
        (bidirIter g (g.heurTo hav 3) (g.heurTo hav 0)
          (bidirInit (g.heurTo hav 3) (g.heurTo hav 0) 0 3)).1.bwd.openQ = []) := by
      rintro (h | h)
      · exact i2 h
      · exact i3 h
    cases n1 with
    | zero =>
      rw [bidirLoop_zero _ hne0] at hloop
      cases hloop
    | succ n2 =>
      rw [bidirLoop_succ _ _ hne0, i1] at hloop
      simp only [Bool.false_eq_true, if_false] at hloop
      cases n2 with
      | zero =>
        rw [bidirLoop_zero _ hne1] at hloop
        cases hloop
      | succ n3 =>
        rw [bidirLoop_succ _ _ hne1] at hloop
        rcases i4 with hK | ⟨j1, j2, j3, hK⟩
        · split at hloop
          · cases hloop
            exact hK
          · exact hloopK _ _ _ hK hloop
        · rw [j1] at hloop
          simp only [Bool.false_eq_true, if_false] at hloop
          have hne2 : ¬ ((bidirIter g (g.heurTo hav 3) (g.heurTo hav 0)
                (bidirIter g (g.heurTo hav 3) (g.heurTo hav 0)
                  (bidirInit (g.heurTo hav 3) (g.heurTo hav 0) 0 3)).1).1.fwd.openQ = [] ∨
              (bidirIter g (g.heurTo hav 3) (g.heurTo hav 0)
                (bidirIter g (g.heurTo hav 3) (g.heurTo hav 0)
                  (bidirInit (g.heurTo hav 3) (g.heurTo hav 0) 0 3)).1).1.bwd.openQ = []) := by
            rintro (h | h)
            · exact j2 h
            · exact j3 h
          cases n3 with
          | zero =>
            rw [bidirLoop_zero _ hne2] at hloop
            cases hloop
          | succ n4 =>
            rw [bidirLoop_succ _ _ hne2] at hloop
            split at hloop
            · cases hloop
              exact hK
            · exact hloopK _ _ _ hK hloop
  refine ⟨n1 + 2, fun fuel hf => ?_⟩
  obtain ⟨k, rfl⟩ := Nat.exists_eq_add_of_le hf
  have hl : bidirLoop g (fun u => g.haversineDistance hav u 3)
      (fun u => g.haversineDistance hav u 0) (n1 + 2 + k)
      (bidirInit (fun u => g.haversineDistance hav u 3)
        (fun u => g.haversineDistance hav u 0) 0 3) = some s := by
    have := bidirLoop_mono hloop (2 + k)
    rwa [← Nat.add_assoc] at this
  have e : n1 + 2 + k = (n1 + k) + 1 + 1 := by omega
  have hwF : walkParents s.fwd.p (n1 + 2 + k) (some 2) = some [2, 0] := by
    rw [e]
    simp [walkParents, hk.pF2, hk.pF0]
  have hwB : walkParents s.bwd.p (n1 + 2 + k) (some 2) = some [2, 3] := by
    rw [e]
    simp [walkParents, hk.pB2, hk.pB3]
  simp [bidir_a_star, hl, hk.meeting, hk.best, hwF, hwB]

/-! ### Rounding to a double -/

theorem dropBits_spec (k n : Nat) (h : n < 2 ^ (53 + k)) :
    (dropBits k n = 0 ∧ n < 2 ^ 53) ∨
      (0 < dropBits k n ∧ 2 ^ (52 + dropBits k n) ≤ n ∧ n < 2 ^ (53 + dropBits k n)) := by
  induction k generalizing n with
  | zero => exact Or.inl ⟨rfl, h⟩
  | succ k ih =>
    unfold dropBits
    by_cases hn : n < 2 ^ 53
    · rw [if_pos hn]
      exact Or.inl ⟨rfl, hn⟩
    · rw [if_neg hn]
      have h2 : n / 2 < 2 ^ (53 + k) := by
        have e : 2 ^ (53 + (k + 1)) = 2 * 2 ^ (53 + k) := by
          rw [← Nat.add_assoc, Nat.pow_succ]; omega
        rw [e] at h
        omega
      right
      refine ⟨Nat.succ_pos _, ?_, ?_⟩
      · rcases ih (n / 2) h2 with ⟨h0, _⟩ | ⟨_, hlo, _⟩
        · rw [h0]
          simpa using Nat.le_of_not_lt hn
        · have e : 2 ^ (52 + (dropBits k (n / 2) + 1)) = 2 * 2 ^ (52 + dropBits k (n / 2)) := by
            rw [← Nat.add_assoc, Nat.pow_succ]; omega
          rw [e]
          omega
      · have hhi : n / 2 < 2 ^ (53 + dropBits k (n / 2)) := by
          rcases ih (n / 2) h2 with ⟨h0, hlt⟩ | ⟨_, _, hhi⟩
          · rw [h0]; exact hlt
          · exact hhi
        have e : 2 ^ (53 + (dropBits k (n / 2) + 1)) = 2 * 2 ^ (53 + dropBits k (n / 2)) := by
          rw [← Nat.add_assoc, Nat.pow_succ]; omega
        rw [e]
        omega

theorem dropBits_self (n : Nat) :
    (dropBits n n = 0 ∧ n < 2 ^ 53) ∨
      (0 < dropBits n n ∧ 2 ^ (52 + dropBits n n) ≤ n ∧ n < 2 ^ (53 + dropBits n n)) := by
  apply dropBits_spec
  calc n < 2 ^ n := Nat.lt_two_pow n
    _ ≤ 2 ^ (53 + n) := Nat.pow_le_pow_right (by decide) (by omega)

theorem dropBits_upper (n : Nat) : n < 2 ^ (53 + dropBits n n) := by
  rcases dropBits_self n with ⟨h0, h1⟩ | ⟨_, _, h1⟩
  · rw [h0]; exact h1
  · exact h1

theorem dropBits_mono {x y : Nat} (h : x ≤ y) : dropBits x x ≤ dropBits y y := by
  by_contra hc
  have hlt : dropBits y y < dropBits x x := Nat.lt_of_not_le hc
  rcases dropBits_self x with ⟨h0, _⟩ | ⟨_, hlo, _⟩
  · omega
  · have hy := dropBits_upper y
    have : 2 ^ (53 + dropBits y y) ≤ 2 ^ (52 + dropBits x x) :=
      Nat.pow_le_pow_right (by decide) (by omega)
    omega


theorem roundTo_cases (s n : Nat) :
    roundTo s n = n / s * s ∨ roundTo s n = n / s * s + s := by
  unfold roundTo
  split
  · exact Or.inl rfl
  · split
    · exact Or.inr (Nat.succ_mul _ _)
    · split
      · exact Or.inl rfl
      · exact Or.inr (Nat.succ_mul _ _)

theorem roundTo_ge (s n : Nat) : n / s * s ≤ roundTo s n := by
  rcases roundTo_cases s n with h | h <;> omega

theorem roundTo_le (s n : Nat) : roundTo s n ≤ n / s * s + s := by
  rcases roundTo_cases s n with h | h <;> omega

theorem roundTo_of_dvd {s n : Nat} (hs : 0 < s) (h : n % s = 0) : roundTo s n = n := by
  unfold roundTo
  rw [h, if_pos (by omega)]
  have := Nat.div_add_mod n s
  rw [h, Nat.mul_comm] at this
  omega

theorem roundTo_mono {s x y : Nat} (hs : 0 < s) (h : x ≤ y) : roundTo s x ≤ roundTo s y := by
  have hq : x / s ≤ y / s := Nat.div_le_div_right h
  rcases Nat.lt_or_eq_of_le hq with hlt | heq
  · have h1 := roundTo_le s x
    have h2 := roundTo_ge s y
    have h3 : (x / s + 1) * s ≤ y / s * s := Nat.mul_le_mul_right s hlt
    rw [Nat.succ_mul] at h3
    omega
  · have ex := Nat.div_add_mod x s
    have ey := Nat.div_add_mod y s
    have e1 : s * (x / s) = x / s * s := Nat.mul_comm _ _
    have e2 : s * (y / s) = x / s * s := by rw [← heq]; exact Nat.mul_comm _ _
    rw [e1] at ex
    rw [e2] at ey
    have hr : x % s ≤ y % s := by omega
    unfold roundTo
    rw [← heq]
    simp only [Nat.succ_mul]
    generalize x / s * s = a at *
    split_ifs <;> omega

theorem roundTo_grid_le {s m n : Nat} (hd : m % s = 0) (h : m ≤ n) (hs : 0 < s) :
    m ≤ roundTo s n := by
  have := roundTo_mono hs h
  rwa [roundTo_of_dvd hs hd] at this

theorem roundNat_mono {x y : Nat} (h : x ≤ y) : roundNat x ≤ roundNat y := by
  unfold roundNat
  have he := dropBits_mono h
  rcases Nat.lt_or_eq_of_le he with hlt | heq
  · -- the grid of `y` is coarser
    have hx := dropBits_upper x
    have h1 := roundTo_le (2 ^ dropBits x x) x
    have hq : x / 2 ^ dropBits x x * 2 ^ dropBits x x + 2 ^ dropBits x x ≤
        2 ^ (53 + dropBits x x) := by
      have hlt' : x / 2 ^ dropBits x x < 2 ^ 53 := by
        rw [Nat.div_lt_iff_lt_mul (Nat.two_pow_pos _)]
        rwa [← Nat.pow_add]
      have : (x / 2 ^ dropBits x x + 1) * 2 ^ dropBits x x ≤ 2 ^ 53 * 2 ^ dropBits x x :=
        Nat.mul_le_mul_right _ hlt'
      rw [Nat.succ_mul, ← Nat.pow_add] at this
      exact this
    have hy : 2 ^ (52 + dropBits y y) ≤ y := by
      rcases dropBits_self y with ⟨h0, _⟩ | ⟨_, hlo, _⟩
      · omega
      · exact hlo
    have hgrid : 2 ^ (52 + dropBits y y) ≤ roundTo (2 ^ dropBits y y) y := by
      refine roundTo_grid_le ?_ hy (Nat.two_pow_pos _)
      rw [Nat.pow_add]
      exact Nat.mul_mod_left _ _
    have hpow : 2 ^ (53 + dropBits x x) ≤ 2 ^ (52 + dropBits y y) :=
      Nat.pow_le_pow_right (by decide) (by omega)
    omega
  · rw [← heq]
    exact roundTo_mono (Nat.two_pow_pos _) h

theorem roundNat_of_dvd {n : Nat} (h : n % 2 ^ dropBits n n = 0) : roundNat n = n :=
  roundTo_of_dvd (Nat.two_pow_pos _) h

theorem roundNat_small {n : Nat} (h : n < 2 ^ 53) : roundNat n = n := by
  apply roundNat_of_dvd
  have : dropBits n n = 0 := by
    rcases dropBits_self n with ⟨h0, _⟩ | ⟨_, hlo, _⟩
    · exact h0
    · have : 2 ^ 53 ≤ 2 ^ (52 + dropBits n n) := Nat.pow_le_pow_right (by decide) (by omega)
      omega
  rw [this]
  exact Nat.mod_one _

/-- A number with at most 53 significant bits is stored without loss. -/
theorem roundNat_scaled {k s : Nat} (hk : k < 2 ^ 53) : roundNat (k * 2 ^ s) = k * 2 ^ s := by
  apply roundNat_of_dvd
  rcases dropBits_self (k * 2 ^ s) with ⟨h0, _⟩ | ⟨_, hlo, _⟩
  · rw [h0]; exact Nat.mod_one _
  · have hle : dropBits (k * 2 ^ s) (k * 2 ^ s) ≤ s := by
      by_contra hc
      have h1 : k * 2 ^ s < 2 ^ 53 * 2 ^ s :=
        Nat.mul_lt_mul_of_pos_right hk (Nat.two_pow_pos _)
      rw [← Nat.pow_add] at h1
      have : 2 ^ (53 + s) ≤ 2 ^ (52 + dropBits (k * 2 ^ s) (k * 2 ^ s)) :=
        Nat.pow_le_pow_right (by decide) (by omega)
      omega
    generalize dropBits (k * 2 ^ s) (k * 2 ^ s) = e at hle
    obtain ⟨d, hd⟩ := Nat.exists_eq_add_of_le hle
    have : k * 2 ^ s = (k * 2 ^ d) * 2 ^ e := by
      rw [hd, Nat.pow_add]
      ring
    rw [this]
    exact Nat.mul_mod_left _ _


theorem roundD_nonneg {x : Int} (h : 0 ≤ x) :
    roundD x = if roundNat x.toNat < overflowD then some (roundNat x.toNat : Int) else none := by
  unfold roundD
  rw [if_pos h]

theorem roundD_neg {x : Int} (h : ¬ 0 ≤ x) :
    roundD x = some (-((min (roundNat (-x).toNat) (overflowD - 2 ^ 2045) : Nat) : Int)) := by
  unfold roundD
  rw [if_neg h]

/-- Rounding is monotone. -/
theorem roundD_mono {x y : Int} (h : x ≤ y) : ltD (roundD y) (roundD x) = false := by
  by_cases hx : 0 ≤ x
  · have hy : 0 ≤ y := le_trans hx h
    rw [roundD_nonneg hx, roundD_nonneg hy]
    have hm : roundNat x.toNat ≤ roundNat y.toNat := roundNat_mono (by omega)
    split_ifs with h1 h2
    · simp only [ltD, decide_eq_false_iff_not, not_lt]
      exact_mod_cast hm
    · exact absurd (lt_of_le_of_lt hm h1) h2
    · rfl
    · rfl
  · rw [roundD_neg hx]
    by_cases hy : 0 ≤ y
    · rw [roundD_nonneg hy]
      split_ifs
      · simp only [ltD, decide_eq_false_iff_not, not_lt]
        omega
      · rfl
    · rw [roundD_neg hy]
      have hm : roundNat (-y).toNat ≤ roundNat (-x).toNat := roundNat_mono (by omega)
      simp only [ltD, decide_eq_false_iff_not, not_lt]
      have : min (roundNat (-y).toNat) (overflowD - 2 ^ 2045) ≤
          min (roundNat (-x).toNat) (overflowD - 2 ^ 2045) := min_le_min_right _ hm
      omega

theorem IsDouble.le_round {x y : Int} (hx : IsDouble x) (h : x ≤ y) :
    ltD (roundD y) (some x) = false := by
  have := roundD_mono h
  rwa [hx] at this

set_option exponentiation.threshold 3000 in
theorem isDouble_zero : IsDouble 0 := by
  unfold IsDouble
  rw [roundD_nonneg (le_refl _)]
  have : roundNat (0 : Int).toNat = 0 := roundNat_small (by decide)
  rw [this, if_pos (by unfold overflowD; exact Nat.two_pow_pos _)]
  rfl

set_option exponentiation.threshold 3000 in
/-- A whole multiple `k * 2^s` of a power of two with `0 <= k < 2^53` and `s <= 2045` is the
value of a `double` (in units of `2^-1074`). -/
theorem isDouble_scaled {k : Int} {s : Nat} (h0 : 0 ≤ k) (hk : k < 2 ^ 53) (hs : s ≤ 2045) :
    IsDouble (k * 2 ^ s) := by
  obtain ⟨n, rfl⟩ := Int.eq_ofNat_of_zero_le h0
  have hn : n < 2 ^ 53 := by exact_mod_cast hk
  unfold IsDouble
  have hnn : (0 : Int) ≤ (n : Int) * 2 ^ s := by positivity
  rw [roundD_nonneg hnn]
  have e : ((n : Int) * 2 ^ s).toNat = n * 2 ^ s := by
    have : ((n : Int) * 2 ^ s) = ((n * 2 ^ s : Nat) : Int) := by push_cast; rfl
    rw [this, Int.toNat_ofNat]
  rw [e, roundNat_scaled hn]
  have hlt : n * 2 ^ s < overflowD := by
    unfold overflowD
    calc n * 2 ^ s < 2 ^ 53 * 2 ^ s := Nat.mul_lt_mul_of_pos_right hn (Nat.two_pow_pos _)
      _ = 2 ^ (53 + s) := (Nat.pow_add 2 53 s).symm
      _ ≤ 2 ^ 2098 := Nat.pow_le_pow_right (by decide) (by omega)
  rw [if_pos hlt]
  push_cast
  rfl

theorem isDouble_whole {k : Int} (h0 : 0 ≤ k) (hk : k < 2 ^ 53) : IsDouble (whole k) :=
  isDouble_scaled h0 hk (by decide)

/-! ### Simple paths and exact sums -/

section Trails
variable {E : Nat → List Edge} {start : Nat}

theorem Trail.head_mem {v : Nat} {c : Int} {vis : List (Nat × Int)}
    (ht : Trail E start v c vis) : (v, c) ∈ vis := by
  cases ht with
  | base => exact List.mem_cons_self _ _
  | snoc _ _ _ => exact List.mem_cons_self _ _

theorem Trail.sum_le (hw : NonNegE E) {v : Nat} {c : Int} {vis : List (Nat × Int)}
    (ht : Trail E start v c vis) : ∀ p ∈ vis, p.2 ≤ c := by
  induction ht with
  | base =>
    intro p hp
    simp only [List.mem_singleton] at hp
    subst hp
    exact le_refl _
  | @snoc u v w c vis _ he _ ih =>
    intro p hp
    have hw0 : 0 ≤ w := hw u ⟨v, w⟩ he
    rcases List.mem_cons.1 hp with rfl | hp'
    · exact le_refl _
    · have := ih p hp'
      omega

theorem Trail.nonneg (hw : NonNegE E) {v : Nat} {c : Int} {vis : List (Nat × Int)}
    (ht : Trail E start v c vis) : 0 ≤ c := by
  induction ht with
  | base => exact le_refl _
  | @snoc u v w c vis _ he _ ih =>
    have hw0 : 0 ≤ w := hw u ⟨v, w⟩ he
    omega

theorem Trail.toWalk {v : Nat} {c : Int} {vis : List (Nat × Int)}
    (ht : Trail E start v c vis) : Walk E start v c := by
  induction ht with
  | base => exact Walk.nil _
  | snoc _ he _ ih => exact ih.snoc_edge he

/-- Every node of a simple path is the end of a simple path, with the sum reached there. -/
theorem Trail.prefix_at {v : Nat} {c : Int} {vis : List (Nat × Int)}
    (ht : Trail E start v c vis) : ∀ p ∈ vis, ∃ vis', Trail E start p.1 p.2 vis' := by
  induction ht with
  | base =>
    intro p hp
    simp only [List.mem_singleton] at hp
    subst hp
    exact ⟨_, Trail.base⟩
  | @snoc u v w c vis ht he hn ih =>
    intro p hp
    rcases List.mem_cons.1 hp with rfl | hp'
    · exact ⟨_, Trail.snoc ht he hn⟩
    · exact ih p hp'

/-- A simple path followed by a walk: some simple path reaches the end of the walk with a
sum that is not larger. -/
theorem Trail.extend_walk (hw : NonNegE E) {a b : Nat} {cw : Int} (hwk : Walk E a b cw) :
    ∀ c0 vis, Trail E start a c0 vis → ∃ c' vis', Trail E start b c' vis' ∧ c' ≤ c0 + cw := by
  induction hwk with
  | nil u =>
    intro c0 vis ht
    exact ⟨c0, vis, ht, by omega⟩
  | @cons u v t w c he _ ih =>
    intro c0 vis ht
    have hw0 : 0 ≤ w := hw u ⟨v, w⟩ he
    by_cases hv : ∀ p ∈ vis, p.1 ≠ v
    · obtain ⟨c', vis', ht', hle⟩ := ih (c0 + w) _ (Trail.snoc ht he hv)
      exact ⟨c', vis', ht', by omega⟩
    · simp only [not_forall, not_not] at hv
      obtain ⟨p, hp, hpv⟩ := hv
      obtain ⟨visp, htp⟩ := ht.prefix_at p hp
      rw [hpv] at htp
      have hle0 := ht.sum_le hw p hp
      obtain ⟨c', vis', ht', hle⟩ := ih p.2 _ htp
      exact ⟨c', vis', ht', by omega⟩

/-- The least cost of a walk is the sum along a simple path. -/
theorem IsShortest.trail (hw : NonNegE E) {v : Nat} {d : Int} (hs : IsShortest E start v d) :
    ∃ vis, Trail E start v d vis := by
  obtain ⟨c', vis', ht, hle⟩ := Trail.extend_walk hw hs.1 0 _ (Trail.base : Trail E start start 0 [(start, 0)])
  have := hs.2 c' ht.toWalk
  have e : c' = d := by omega
  subst e
  exact ⟨vis', ht⟩

theorem IsShortest.isDouble (hw : NonNegE E) (hex : ExactFrom E start) {v : Nat} {d : Int}
    (hs : IsShortest E start v d) : IsDouble d := by
  obtain ⟨vis, ht⟩ := hs.trail hw
  exact hex v d vis ht

theorem trailInv_init : TrailInv E start (upd (fun _ => INF) start (some 0)) := by
  intro v x hv
  by_cases hvs : v = start
  · subst hvs
    rw [upd_same] at hv
    cases hv
    refine ⟨_, Trail.base, ?_⟩
    intro p hp
    simp only [List.mem_singleton] at hp
    subst hp
    exact ⟨0, upd_same _ _ _, le_refl _⟩
  · rw [upd_other _ _ hvs] at hv
    cases hv

/-- An improvement of `t` through `u` gives `t` a simple path. -/
theorem TrailInv.improve (hw : NonNegE E) {g : Nat → Option Int} (hg : TrailInv E start g)
    {u t : Nat} {xu w : Int} (hu : g u = some xu) (he : (⟨t, w⟩ : Edge) ∈ E u)
    (hlt : ∀ y, g t = some y → xu + w < y) :
    ∃ vis, Trail E start t (xu + w) ((t, xu + w) :: vis) ∧
      ∀ p ∈ vis, p.1 ≠ t ∧ ∃ y, g p.1 = some y ∧ y ≤ p.2 := by
  obtain ⟨vis, ht, hdom⟩ := hg u xu hu
  have hw0 : 0 ≤ w := hw u ⟨t, w⟩ he
  have hnot : ∀ p ∈ vis, p.1 ≠ t := by
    intro p hp hpt
    obtain ⟨y, hy, hle⟩ := hdom p hp
    rw [hpt] at hy
    have h1 := hlt y hy
    have h2 := ht.sum_le hw p hp
    omega
  exact ⟨vis, Trail.snoc ht he hnot, fun p hp => ⟨hnot p hp, hdom p hp⟩⟩

theorem TrailInv.update (hw : NonNegE E) {g : Nat → Option Int} (hg : TrailInv E start g)
    {u t : Nat} {xu w : Int} (hu : g u = some xu) (he : (⟨t, w⟩ : Edge) ∈ E u)
    (hlt : ∀ y, g t = some y → xu + w < y) :
    TrailInv E start (upd g t (some (xu + w))) := by
  obtain ⟨vis, ht, hdom⟩ := hg.improve hw hu he hlt
  intro v x hv
  by_cases hvt : v = t
  · subst hvt
    rw [upd_same] at hv
    cases hv
    refine ⟨_, ht, ?_⟩
    intro p hp
    rcases List.mem_cons.1 hp with rfl | hp'
    · exact ⟨xu + w, upd_same _ _ _, le_refl _⟩
    · obtain ⟨hne, y, hy, hle⟩ := hdom p hp'
      exact ⟨y, by rw [upd_other _ _ hne]; exact hy, hle⟩
  · rw [upd_other _ _ hvt] at hv
    obtain ⟨visv, htv, hdv⟩ := hg v x hv
    refine ⟨visv, htv, ?_⟩
    intro p hp
    obtain ⟨y, hy, hle⟩ := hdv p hp
    by_cases hpt : p.1 = t
    · rw [hpt] at hy
      have := hlt y hy
      exact ⟨xu + w, by rw [hpt]; exact upd_same _ _ _, by omega⟩
    · exact ⟨y, by rw [upd_other _ _ hpt]; exact hy, hle⟩

theorem TrailInv.cost_isDouble {g : Nat → Option Int} (hg : TrailInv E start g)
    (hex : ExactFrom E start) {v : Nat} {x : Int} (hv : g v = some x) : IsDouble x := by
  obtain ⟨vis, ht, _⟩ := hg v x hv
  exact hex v x vis ht

/-- While every cost is the sum along a simple path and those sums are exact, the rounded
sum `g[u] + w` compares with `g[t]` as the exact sum does, and equals it when it is smaller. -/
theorem TrailInv.faddW_eq (hw : NonNegE E) (hex : ExactFrom E start) {g : Nat → Option Int}
    (hg : TrailInv E start g) {u : Nat} {e : Edge} (he : e ∈ E u) :
    ltD (faddW (g u) e.weight) (g e.target) = ltD (addW (g u) e.weight) (g e.target) ∧
      (ltD (addW (g u) e.weight) (g e.target) = true →
        faddW (g u) e.weight = addW (g u) e.weight) := by
  cases hu : g u with
  | none => exact ⟨rfl, fun _ => rfl⟩
  | some xu =>
    simp only [faddW, addW]
    by_cases hlt : ltD (some (xu + e.weight)) (g e.target) = true
    · have hlt' : ∀ y, g e.target = some y → xu + e.weight < y := by
        intro y hy
        rw [hy] at hlt
        simpa [ltD] using hlt
      obtain ⟨vis, ht, _⟩ := hg.improve hw hu (t := e.target) (w := e.weight) he hlt'
      have hd : roundD (xu + e.weight) = some (xu + e.weight) := hex _ _ _ ht
      rw [hd]
      exact ⟨rfl, fun _ => rfl⟩
    · have hf : ltD (some (xu + e.weight)) (g e.target) = false := by simpa using hlt
      rw [hf]
      refine ⟨?_, fun h => by cases h⟩
      obtain ⟨y, hy, hle⟩ := ltD_false_iff.1 hf
      rw [hy]
      exact (hg.cost_isDouble hex hy).le_round hle

end Trails

/-! ### `dijkstra` in double arithmetic -/

theorem TrailInv.relax_step {E : Nat → List Edge} {start : Nat} (hw : NonNegE E)
    {g : Nat → Option Int} (hg : TrailInv E start g) {u : Nat} {e : Edge} (he : e ∈ E u)
    (hlt : ltD (addW (g u) e.weight) (g e.target) = true) :
    TrailInv E start (upd g e.target (addW (g u) e.weight)) := by
  cases hu : g u with
  | none => rw [hu] at hlt; cases hlt
  | some xu =>
    rw [hu] at hlt
    rw [addW_some]
    refine hg.update hw hu (t := e.target) (w := e.weight) he ?_
    intro y hy
    rw [hy] at hlt
    simpa using hlt

section DblDijkstra
variable {g : Graph} {src dst : Nat}

theorem dbl_dijkstraRelax_eq (hw : NonNegE g.fwd) (hex : ExactFrom g.fwd src) (u : Nat) :
    ∀ (es : List Edge) (s : DState), (∀ e ∈ es, e ∈ g.fwd u) → TrailInv g.fwd src s.dist →
      Dbl.dijkstraRelax u es s = dijkstraRelax u es s ∧
        TrailInv g.fwd src (dijkstraRelax u es s).dist := by
  intro es
  induction es with
  | nil => intro s _ hs; exact ⟨rfl, hs⟩
  | cons e es ih =>
    intro s hes hs
    have he : e ∈ g.fwd u := hes e (List.mem_cons_self _ _)
    obtain ⟨h1, h2⟩ := hs.faddW_eq hw hex he
    have hes' : ∀ e' ∈ es, e' ∈ g.fwd u := fun e' h => hes e' (List.mem_cons_of_mem _ h)
    simp only [Dbl.dijkstraRelax, dijkstraRelax, h1]
    split
    · rename_i hlt
      rw [h2 hlt]
      exact ih _ hes' (hs.relax_step hw he hlt)
    · exact ih _ hes' hs

theorem dbl_dijkstraLoop_eq (hw : NonNegE g.fwd) (hex : ExactFrom g.fwd src) :
    ∀ (fuel : Nat) (s : DState), TrailInv g.fwd src s.dist →
      Dbl.dijkstraLoop g dst fuel s = dijkstraLoop g dst fuel s := by
  intro fuel
  induction fuel with
  | zero =>
    intro s _
    unfold Dbl.dijkstraLoop dijkstraLoop
    rfl
  | succ fuel ih =>
    intro s hs
    unfold Dbl.dijkstraLoop dijkstraLoop
    cases hp : pqPop s.pq with
    | none => rfl
    | some m =>
      obtain ⟨⟨d, u⟩, rest⟩ := m
      dsimp only
      have hs1 : TrailInv g.fwd src ({ s with pq := rest } : DState).dist := hs
      split
      · exact ih _ hs1
      · split
        · rfl
        · split
          · exact ih _ hs1
          · obtain ⟨e1, e2⟩ := dbl_dijkstraRelax_eq hw hex u (g.adj.getD u [])
              { s with pq := rest } (fun _ h => h) hs1
            rw [e1]
            exact ih _ e2

/-- While no sum along a simple path from `src` is rounded, `dijkstra` in double arithmetic
does what `dijkstra` with exact sums does. -/
theorem dbl_dijkstra_eq (hnn : g.NonNeg) (hex : ExactFrom g.fwd src) (fuel : Nat) :
    Dbl.dijkstra fuel g src dst = dijkstra fuel g src dst := by
  unfold Dbl.dijkstra dijkstra
  rw [dbl_dijkstraLoop_eq hnn.toE hex fuel _ trailInv_init]

end DblDijkstra

/-! ### The search invariant with rounded priorities -/

@[simp] theorem keyOf_none (key : Int → Nat → Option Int) (v : Nat) :
    keyOf key none v = none := rfl

section RelaxK
variable {E : Nat → List Edge} {key : Int → Nat → Option Int} {start u : Nat}

end RelaxK

section PopK
variable {E : Nat → List Edge} {key : Int → Nat → Option Int} {start : Nat}

end PopK

section ChainK
variable {E : Nat → List Edge}

end ChainK

section BoundsK
variable {E : Nat → List Edge} {key : Int → Nat → Option Int} {start u0 : Nat} {c : Core}

end BoundsK

section RelaxMeasureK
variable {E : Nat → List Edge} {key : Int → Nat → Option Int} {start u : Nat} {B : Nat}

end RelaxMeasureK

section RelaxFactsK
variable {key : Int → Nat → Option Int} {u : Nat}

end RelaxFactsK

section ClosedK
variable {key : Int → Nat → Option Int}

end ClosedK

/-! ### `a_star` in double arithmetic -/

section DblAStar
variable {g : Graph} {h : Nat → Int} {src dst : Nat}

end DblAStar

/-! ### The order of the queue -/

theorem pdiLe_fst {a b : PDI} (h : pdiLe a b = true) : ltD b.1 a.1 = false := by
  obtain ⟨f, v⟩ := a
  obtain ⟨f', v'⟩ := b
  cases f <;> cases f' <;> simp [pdiLe, ltD] at h ⊢
  omega

section TightK1
variable {E : Nat → List Edge} {key : Int → Nat → Option Int}

end TightK1

section TightK2
variable {E : Nat → List Edge} {key : Int → Nat → Option Int}

end TightK2

section DblATight
variable {g : Graph} {h : Nat → Int} {src dst : Nat}

end DblATight

theorem isDouble_haversine {hav : Int → Int → Int → Int → Int}
    (hdbl : ∀ a b c d, IsDouble (hav a b c d)) (g : Graph) (u v : Nat) :
    IsDouble (g.haversineDistance hav u v) := by
  unfold Graph.haversineDistance
  split
  · exact isDouble_zero
  · exact hdbl _ _ _ _

@[simp] theorem dbl_meet_fwd (os : Nat → Bool) (u : Nat) (s : BState) :
    (Dbl.meet os u s).fwd = s.fwd := by
  unfold Dbl.meet
  split
  · split <;> rfl
  · rfl

@[simp] theorem dbl_meet_bwd (os : Nat → Bool) (u : Nat) (s : BState) :
    (Dbl.meet os u s).bwd = s.bwd := by
  unfold Dbl.meet
  split
  · split <;> rfl
  · rfl

section HalfK
variable {EF EB : Nat → List Edge} {hF hB : Nat → Int} {a b : Nat} {s : BState}

end HalfK

/-! ### Pairs of the start node, and the measure of a half-iteration -/

section HalfMoreK
variable {EF EB : Nat → List Edge} {hF hB : Nat → Int} {a b : Nat} {s : BState}

end HalfMoreK

/-! ### One iteration of `bidir_a_star` in double arithmetic -/

section IterK
variable {g : Graph} {hF hB : Nat → Int} {src dst : Nat} {B : Nat}

end IterK

/-! ### Leaving the loop of `bidir_a_star` in double arithmetic -/

section ExitK
variable {EF EB : Nat → List Edge} {hF hB : Nat → Int} {a b : Nat} {s : BState}

end ExitK

/-! ### The loop of `bidir_a_star` in double arithmetic -/

section DblBidirLoop
variable {g : Graph} {hF hB : Nat → Int} {src dst : Nat}

end DblBidirLoop

theorem Graph.WholeUpTo.toWholeE {g : Graph} {K : Nat} (h : g.WholeUpTo K) (hir : g.InRange) :
    WholeE g.fwd g.adj.length K := by
  intro a e he
  obtain ⟨es, hes, hm⟩ := mem_getD_row he
  obtain ⟨h0, h1, h2⟩ := h es hes e hm
  refine ⟨hir es hes e hm, (e.weight / 2 ^ 1074).toNat, ?_, ?_⟩
  · unfold whole at h1
    have hpos : (0 : Int) < 2 ^ 1074 := by positivity
    have h3 : e.weight / 2 ^ 1074 ≤ (K : Int) := by
      have := Int.ediv_le_ediv hpos h1
      rwa [Int.mul_ediv_cancel _ (ne_of_gt hpos)] at this
    omega
  · unfold whole
    have hpos : (0 : Int) < 2 ^ 1074 := by positivity
    have h3 : 0 ≤ e.weight / 2 ^ 1074 := Int.ediv_nonneg h0 (le_of_lt hpos)
    rw [Int.toNat_of_nonneg h3]
    exact (Int.ediv_mul_cancel (Int.dvd_of_emod_eq_zero h2)).symm

theorem WholeE.of_transposed {EF EB : Nat → List Edge} {N K : Nat}
    (htr : ∀ u v w, (⟨v, w⟩ : Edge) ∈ EF u ↔ (⟨u, w⟩ : Edge) ∈ EB v)
    (hb : BoundedE EB N) (h : WholeE EF N K) : WholeE EB N K := by
  intro v e he
  have h1 : (⟨v, e.weight⟩ : Edge) ∈ EF e.target := (htr e.target v e.weight).2 he
  exact ⟨hb v e he, (h e.target ⟨v, e.weight⟩ h1).2⟩

set_option exponentiation.threshold 3000 in
/-- Along a simple path over edges of whole weights at most `K`, the nodes are distinct and
below `N`, and the sum is a whole number of at most `K` units per edge. -/
theorem Trail.whole_sum {E : Nat → List Edge} {start N K : Nat} (hE : WholeE E N K)
    (hs : start < N) {v : Nat} {c : Int} {vis : List (Nat × Int)}
    (ht : Trail E start v c vis) :
    (vis.map Prod.fst).Nodup ∧ (∀ p ∈ vis, p.1 < N) ∧
      ∃ m : Nat, c = whole m ∧ m + K ≤ vis.length * K := by
  induction ht with
  | base =>
    refine ⟨by simp, ?_, 0, by simp [whole], by simp⟩
    intro p hp
    simp only [List.mem_singleton] at hp
    subst hp
    exact hs
  | @snoc u v w c vis _ he hnot ih =>
    obtain ⟨hnd, hlt, m, hm, hle⟩ := ih
    obtain ⟨htgt, k, hk, hwk⟩ := hE u ⟨v, w⟩ he
    refine ⟨?_, ?_, m + k, ?_, ?_⟩
    · rw [List.map_cons, List.nodup_cons]
      refine ⟨?_, hnd⟩
      intro hmem
      obtain ⟨p, hp, hpv⟩ := List.mem_map.1 hmem
      exact hnot p hp hpv
    · intro p hp
      rcases List.mem_cons.1 hp with rfl | hp
      · exact htgt
      · exact hlt p hp
    · have hwk' : w = whole k := hwk
      rw [hm, hwk']
      unfold whole
      push_cast
      ring
    · rw [List.length_cons, Nat.add_mul, Nat.one_mul]
      omega

theorem Trail.whole_bound {E : Nat → List Edge} {start N K : Nat} (hE : WholeE E N K)
    (hs : start < N) {v : Nat} {c : Int} {vis : List (Nat × Int)}
    (ht : Trail E start v c vis) : ∃ m : Nat, c = whole m ∧ m ≤ N * K := by
  obtain ⟨hnd, hlt, m, hm, hle⟩ := ht.whole_sum hE hs
  refine ⟨m, hm, ?_⟩
  have hsub : vis.map Prod.fst ⊆ List.range N := by
    intro x hx
    obtain ⟨p, hp, rfl⟩ := List.mem_map.1 hx
    exact List.mem_range.2 (hlt p hp)
  have hlen : (vis.map Prod.fst).length ≤ (List.range N).length :=
    (List.subperm_of_subset hnd hsub).length_le
  rw [List.length_map, List.length_range] at hlen
  have := Nat.mul_le_mul_right K hlen
  omega

set_option exponentiation.threshold 3000 in
/-- On a graph with in-range edge targets, transposed reverse adjacency and whole weights of
at most `K` units, where twice the number of node slots times `K` is below `2^53`: all the
sums along simple paths are exact. -/
theorem Graph.WholeUpTo.exactSums {g : Graph} {K : Nat} (h : g.WholeUpTo K) (hir : g.InRange)
    (htr : g.Transposed) (hK : 2 * (g.adj.length * K) < 2 ^ 53) {src dst : Nat}
    (hs : src < g.adj.length) (hd : dst < g.adj.length) : g.ExactSums src dst := by
  have hF := h.toWholeE hir
  have hB : WholeE g.bwd g.adj.length K := hF.of_transposed htr htr.bounded
  refine ⟨?_, ?_, ?_⟩
  · intro v c vis ht
    obtain ⟨m, hc, hm⟩ := ht.whole_bound hF hs
    rw [hc]
    have h1 : m < 2 ^ 53 := by omega
    exact isDouble_whole (Int.ofNat_nonneg m) (by exact_mod_cast h1)
  · intro v c vis ht
    obtain ⟨m, hc, hm⟩ := ht.whole_bound hB hd
    rw [hc]
    have h1 : m < 2 ^ 53 := by omega
    exact isDouble_whole (Int.ofNat_nonneg m) (by exact_mod_cast h1)
  · intro u cF visF cB visB tF tB
    obtain ⟨m1, hc1, hm1⟩ := tF.whole_bound hF hs
    obtain ⟨m2, hc2, hm2⟩ := tB.whole_bound hB hd
    rw [hc1, hc2]
    have : whole m1 + whole m2 = whole ((m1 + m2 : Nat) : Int) := by
      unfold whole
      push_cast
      ring
    rw [this]
    have h1 : m1 + m2 < 2 ^ 53 := by omega
    exact isDouble_whole (Int.ofNat_nonneg (m1 + m2)) (by exact_mod_cast h1)

/-! ### Outcomes of the three searches in double arithmetic -/

theorem dbl_dijkstra_outcome {g : Graph} (hnn : g.NonNeg) (hir : g.InRange) {src : Nat}
    (hex : ExactFrom g.fwd src) (dst : Nat) :
    Outcome (fun fuel => Dbl.dijkstra fuel g src dst) g.fwd src dst True := by
  have h : (fun fuel => Dbl.dijkstra fuel g src dst) = fun fuel => dijkstra fuel g src dst :=
    funext fun fuel => dbl_dijkstra_eq hnn hex fuel
  rw [h]
  exact dijkstra_outcome hnn hir src dst

/-- A potential that no edge undercuts bounds every walk from below. -/
theorem Walk.potential {E : Nat → List Edge} (φ : Nat → Int)
    (hφ : ∀ a e, e ∈ E a → φ a ≤ e.weight + φ e.target) {u t : Nat} {c : Int}
    (hwk : Walk E u t c) : φ u ≤ c + φ t := by
  induction hwk with
  | nil u => omega
  | @cons u v t w c he _ ih =>
    have := hφ u ⟨v, w⟩ he
    simp only at this
    omega

theorem Graph.forall_fwd {g : Graph} {P : Nat → Edge → Prop}
    (h : ∀ a, a < g.adj.length → ∀ e ∈ g.adj.getD a [], P a e) :
    ∀ a e, e ∈ g.fwd a → P a e := by
  intro a e he
  by_cases ha : a < g.adj.length
  · exact h a ha e he
  · rw [Graph.fwd_of_ge (by omega)] at he
    simp at he

theorem roundGraph_shortest : IsShortest roundGraph.fwd 0 3 (whole (2 ^ 53 + 2)) := by
  constructor
  · have h : Walk roundGraph.fwd 0 3 (whole (2 ^ 53 + 2) + 0) :=
      Walk.cons (v := 3) (by decide!) (Walk.nil 3)
    rwa [Int.add_zero] at h
  · intro c hc
    have h := hc.potential (fun v => [whole (2 ^ 53 + 2), whole 2, whole 1, 0].getD v 0)
      (Graph.forall_fwd (by decide!))
    have e1 : [whole (2 ^ 53 + 2), whole 2, whole 1, 0].getD 0 0 = whole (2 ^ 53 + 2) := rfl
    have e2 : [whole (2 ^ 53 + 2), whole 2, whole 1, (0 : Int)].getD 3 0 = 0 := rfl
    simp only [e1, e2] at h
    rwa [Int.add_zero] at h

/-- C1 (counterexample). On `roundGraph` (non-negative weights, in-range edge targets) the
least weight of a walk from node 0 to node 3 is `2^53 + 2`, the weight of the edge `0->3`,
yet `dijkstra` in double arithmetic returns the smaller value `2^53` with the path
`[0,1,2,3]`: the sum `2^53 + 1.0` made at node 2 is rounded to `2^53`. -/
theorem dijkstra_rounds_below_least_cost :
    roundGraph.NonNeg ∧ roundGraph.InRange ∧
      IsShortest roundGraph.fwd 0 3 (whole (2 ^ 53 + 2)) ∧
      Dbl.dijkstra 20 roundGraph 0 3 = some (some (whole (2 ^ 53)), [0, 1, 2, 3]) ∧
      whole (2 ^ 53) < whole (2 ^ 53 + 2) :=
  ⟨by decide!, by decide!, roundGraph_shortest, by decide!, by decide!⟩

/-- C1 (amended). On a graph with non-negative weights and in-range edge targets, for
in-range `src` and `dst` with `dst` reachable from `src`: if every sum of edge weights along
a simple forward path from `src` is a double (no sum is rounded), `dijkstra` in double
arithmetic returns (given enough fuel) a finite distance `d`, and `d` is the least weight of
a walk from `src` to `dst` along forward edges. -/
theorem dijkstra_least_cost_when_exact (g : Graph) (src dst : Nat) (hnn : g.NonNeg)
    (hir : g.InRange) (_hs : src < g.adj.length) (_hd : dst < g.adj.length)
    (hre : Reachable g.fwd src dst) (hex : ExactFrom g.fwd src) :
    ∃ n d path, (∀ fuel, n ≤ fuel → Dbl.dijkstra fuel g src dst = some (some d, path)) ∧
      IsShortest g.fwd src dst d := by
  obtain ⟨n, d, path, h1, h2, _⟩ := (dbl_dijkstra_outcome hnn hir hex dst).optimal trivial hre
  exact ⟨n, d, path, h1, h2⟩

theorem dijkstra_least_cost_when_exact_witness :
    (scenarioKm 0 0 0 0).NonNeg ∧ (scenarioKm 0 0 0 0).InRange ∧
      0 < (scenarioKm 0 0 0 0).adj.length ∧ 3 < (scenarioKm 0 0 0 0).adj.length ∧
      Reachable (scenarioKm 0 0 0 0).fwd 0 3 ∧ ExactFrom (scenarioKm 0 0 0 0).fwd 0 ∧
      ∃ n d path,
        (∀ fuel, n ≤ fuel →
          Dbl.dijkstra fuel (scenarioKm 0 0 0 0) 0 3 = some (some d, path)) ∧
        IsShortest (scenarioKm 0 0 0 0).fwd 0 3 d :=
  have hir : (scenarioKm 0 0 0 0).InRange := by decide!
  have hre : Reachable (scenarioKm 0 0 0 0).fwd 0 3 :=
    ⟨_, Walk.cons (v := 2) (w := whole 5) (by decide!)
      (Walk.cons (v := 3) (w := whole 1) (by decide!) (Walk.nil 3))⟩
  have hex : (scenarioKm 0 0 0 0).ExactSums 0 3 :=
    Graph.WholeUpTo.exactSums (K := 5) (by decide!) hir
      (Graph.Rebuilt.transposed (by decide!) hir) (by decide!) (by decide!) (by decide!)
  ⟨by decide!, hir, by decide!, by decide!, hre, hex.1,
    dijkstra_least_cost_when_exact (scenarioKm 0 0 0 0) 0 3 (by decide!) hir (by decide!)
      (by decide!) hre hex.1⟩

/-- C5. On a graph with non-negative weights, in-range edge targets and rebuilt reverse
adjacency, for in-range `src`, `dst` and any node coordinates: each of `dijkstra`, `a_star`
and `bidir_a_star` returns (given enough fuel), and every non-empty path it returns begins
with `src`, ends with `dst`, and has a forward edge from each node to the next. -/
theorem returned_paths_are_forward_paths (hav : Int → Int → Int → Int → Int) (g : Graph)
    (src dst : Nat) (hnn : g.NonNeg) (hir : g.InRange) (hrb : g.Rebuilt)
    (_hs : src < g.adj.length) (_hd : dst < g.adj.length) :
    ∃ n, ∀ fuel, n ≤ fuel → ∀ r,
      (r = dijkstra fuel g src dst ∨ r = a_star hav fuel g src dst ∨
        r = bidir_a_star hav fuel g src dst) →
      ∃ d path, r = some (d, path) ∧
        (path ≠ [] → path.head? = some src ∧ path.getLast? = some dst ∧ IsPath g.fwd path) := by
  obtain ⟨n, h⟩ := exists_both (dijkstra_outcome hnn hir src dst).valid
    (exists_both (a_star_outcome hav hnn hir src dst).valid
      (bidir_outcome hav hnn hir (hrb.transposed hir) src dst).valid)
  refine ⟨n, fun fuel hf r hr => ?_⟩
  obtain ⟨h1, h2, h3⟩ := h fuel hf
  rcases hr with rfl | rfl | rfl
  · exact h1
  · exact h2
  · exact h3

theorem returned_paths_are_forward_paths_witness :
    (scenario 0 90 0 0).NonNeg ∧ (scenario 0 90 0 0).InRange ∧ (scenario 0 90 0 0).Rebuilt ∧
      0 < (scenario 0 90 0 0).adj.length ∧ 3 < (scenario 0 90 0 0).adj.length ∧
      ∃ n, ∀ fuel, n ≤ fuel → ∀ r,
        (r = dijkstra fuel (scenario 0 90 0 0) 0 3 ∨
          r = a_star havMeridian fuel (scenario 0 90 0 0) 0 3 ∨
          r = bidir_a_star havMeridian fuel (scenario 0 90 0 0) 0 3) →
        ∃ d path, r = some (d, path) ∧
          (path ≠ [] → path.head? = some 0 ∧ path.getLast? = some 3 ∧
            IsPath (scenario 0 90 0 0).fwd path) :=
  ⟨by decide, by decide, by decide, by decide, by decide,
    returned_paths_are_forward_paths havMeridian (scenario 0 90 0 0) 0 3 (by decide) (by decide)
      (by decide) (by decide) (by decide)⟩

/-- C7. On a graph with non-negative weights, in-range edge targets and rebuilt reverse
adjacency, for in-range `src != dst` such that no sequence of forward edges leads from
`src` to `dst`: each of `dijkstra`, `a_star` and `bidir_a_star` returns (given enough fuel)
the distance `+infinity` and the empty path. -/
theorem unreachable_yields_infinity (hav : Int → Int → Int → Int → Int) (g : Graph)
    (src dst : Nat) (hnn : g.NonNeg) (hir : g.InRange) (hrb : g.Rebuilt)
    (_hs : src < g.adj.length) (_hd : dst < g.adj.length) (_hne : src ≠ dst)
    (hun : ¬ Reachable g.fwd src dst) :
    ∃ n, ∀ fuel, n ≤ fuel →
      dijkstra fuel g src dst = some (INF, []) ∧ a_star hav fuel g src dst = some (INF, []) ∧
        bidir_a_star hav fuel g src dst = some (INF, []) :=
  exists_both ((dijkstra_outcome hnn hir src dst).unreachable hun)
    (exists_both ((a_star_outcome hav hnn hir src dst).unreachable hun)
      ((bidir_outcome hav hnn hir (hrb.transposed hir) src dst).unreachable hun))

theorem unreachable_yields_infinity_witness :
    (scenario 0 90 0 0).NonNeg ∧ (scenario 0 90 0 0).InRange ∧ (scenario 0 90 0 0).Rebuilt ∧
      3 < (scenario 0 90 0 0).adj.length ∧ 0 < (scenario 0 90 0 0).adj.length ∧ 3 ≠ 0 ∧
      ¬ Reachable (scenario 0 90 0 0).fwd 3 0 ∧
      ∃ n, ∀ fuel, n ≤ fuel →
        dijkstra fuel (scenario 0 90 0 0) 3 0 = some (INF, []) ∧
          a_star havMeridian fuel (scenario 0 90 0 0) 3 0 = some (INF, []) ∧
          bidir_a_star havMeridian fuel (scenario 0 90 0 0) 3 0 = some (INF, []) :=
  have hun : ¬ Reachable (scenario 0 90 0 0).fwd 3 0 := by
    rintro ⟨c, hc⟩
    have e3 : (scenario 0 90 0 0).fwd 3 = [] := by decide
    generalize h3 : (3 : Nat) = a at hc
    generalize h0 : (0 : Nat) = b at hc
    cases hc with
    | nil u => omega
    | cons he _ =>
      rw [← h3, e3] at he
      simp at he
  ⟨by decide, by decide, by decide, by decide, by decide, by decide, hun,
    unreachable_yields_infinity havMeridian (scenario 0 90 0 0) 3 0 (by decide) (by decide)
      (by decide) (by decide) (by decide) (by decide) hun⟩

/-- C8 (counterexample). Scenario graph with node 1 at latitude 90 and the other nodes at
latitude 0: for the query `(0, 3)` both `a_star` and `bidir_a_star` return distance 6 and
the path `[0,2,3]`, not distance 3 and `[0,1,2,3]`. -/
theorem scenario_far_node_takes_long_edge :
    a_star havMeridian 20 (scenario 0 90 0 0) 0 3 = some (some 6, [0, 2, 3]) ∧
      bidir_a_star havMeridian 20 (scenario 0 90 0 0) 0 3 = some (some 6, [0, 2, 3]) := by
  decide

/-- C8 (amended). On the scenario graph, for every choice of node coordinates `dijkstra`
called with `(0, 3)` returns distance 3 and the path `[0,1,2,3]`; `a_star` and
`bidir_a_star` return the same whenever the great-circle estimate is zero between a point
and itself and never exceeds the least cost to node 3. -/
theorem scenario_query (hav : Int → Int → Int → Int → Int) (a b c d : Int) :
    (∃ n, ∀ fuel, n ≤ fuel →
        dijkstra fuel (scenario a b c d) 0 3 = some (some 3, [0, 1, 2, 3])) ∧
      ((∀ p q, hav p q p q = 0) →
        Admissible (scenario a b c d).fwd ((scenario a b c d).heurTo hav 3) 3 →
        ∃ n, ∀ fuel, n ≤ fuel →
          a_star hav fuel (scenario a b c d) 0 3 = some (some 3, [0, 1, 2, 3]) ∧
            bidir_a_star hav fuel (scenario a b c d) 0 3 = some (some 3, [0, 1, 2, 3])) := by
  have hadj : (scenario a b c d).adj = [[⟨1, 1⟩, ⟨2, 5⟩], [⟨2, 1⟩], [⟨3, 1⟩], []] := by
    rw [scenario_eq]
  obtain ⟨hnn, hir, hrb⟩ : (scenario a b c d).NonNeg ∧ (scenario a b c d).InRange ∧
      (scenario a b c d).Rebuilt := by
    rw [scenario_eq]
    exact diamond_facts _ 5 (by omega)
  refine ⟨?_, fun hself hadm => ?_⟩
  · exact (diamond_result hadj (dijkstra_outcome hnn hir 0 3) trivial).1 (by omega)
  · exact exists_both
      ((diamond_result hadj (a_star_outcome hav hnn hir 0 3) ⟨hself, hadm⟩).1 (by omega))
      ((diamond_result hadj (bidir_outcome hav hnn hir (hrb.transposed hir) 0 3) hadm).1
        (by omega))

theorem scenario_query_witness :
    (∀ p q : Int, (fun _ _ _ _ => 0 : Int → Int → Int → Int → Int) p q p q = 0) ∧
      Admissible (scenario 0 0 0 0).fwd ((scenario 0 0 0 0).heurTo (fun _ _ _ _ => 0) 3) 3 ∧
      ∃ n, ∀ fuel, n ≤ fuel →
        a_star (fun _ _ _ _ => 0) fuel (scenario 0 0 0 0) 0 3 = some (some 3, [0, 1, 2, 3]) ∧
          bidir_a_star (fun _ _ _ _ => 0) fuel (scenario 0 0 0 0) 0 3 =
            some (some 3, [0, 1, 2, 3]) :=
  ⟨fun _ _ => rfl, Graph.zero_heur_admissible (by decide) 3,
    (scenario_query (fun _ _ _ _ => 0) 0 0 0 0).2 (fun _ _ => rfl)
      (Graph.zero_heur_admissible (by decide) 3)⟩

/-- C9 (counterexample). After `updateEdgeWeight(0, 2, 1)` succeeds on the scenario graph,
`dijkstra` called with `(0, 3)` returns distance 2 (path `[0,2,3]`), not distance 3. -/
theorem updated_scenario_distance_is_two :
    ((scenario 0 0 0 0).updateEdgeWeight 0 2 1).2 = true ∧
      dijkstra 20 ((scenario 0 0 0 0).updateEdgeWeight 0 2 1).1 0 3 =
        some (some 2, [0, 2, 3]) := by
  decide

/-- C9 (amended). On the scenario graph, `updateEdgeWeight(0, 2, 1)` succeeds, and on the
updated graph the query `(0, 3)` yields distance 2 with the path `[0,2,3]` from `dijkstra`,
from `a_star` and from `bidir_a_star`, for every choice of node coordinates and whatever the
great-circle function returns. -/
theorem updated_scenario_query (hav : Int → Int → Int → Int → Int) (a b c d : Int) :
    ((scenario a b c d).updateEdgeWeight 0 2 1).2 = true ∧
      ∃ n, ∀ fuel, n ≤ fuel →
        dijkstra fuel ((scenario a b c d).updateEdgeWeight 0 2 1).1 0 3 =
            some (some 2, [0, 2, 3]) ∧
          a_star hav fuel ((scenario a b c d).updateEdgeWeight 0 2 1).1 0 3 =
            some (some 2, [0, 2, 3]) ∧
          bidir_a_star hav fuel ((scenario a b c d).updateEdgeWeight 0 2 1).1 0 3 =
            some (some 2, [0, 2, 3]) := by
  rw [updated_eq]
  dsimp only
  have hadj : (⟨[⟨0, "n0", a, 0⟩, ⟨1, "n1", b, 0⟩, ⟨2, "n2", c, 0⟩, ⟨3, "n3", d, 0⟩],
      [[⟨1, 1⟩, ⟨2, 1⟩], [⟨2, 1⟩], [⟨3, 1⟩], []],
      [[], [⟨0, 1⟩], [⟨0, 1⟩, ⟨1, 1⟩], [⟨2, 1⟩]]⟩ : Graph).adj =
      [[⟨1, 1⟩, ⟨2, 1⟩], [⟨2, 1⟩], [⟨3, 1⟩], []] := rfl
  have hradj : (⟨[⟨0, "n0", a, 0⟩, ⟨1, "n1", b, 0⟩, ⟨2, "n2", c, 0⟩, ⟨3, "n3", d, 0⟩],
      [[⟨1, 1⟩, ⟨2, 1⟩], [⟨2, 1⟩], [⟨3, 1⟩], []],
      [[], [⟨0, 1⟩], [⟨0, 1⟩, ⟨1, 1⟩], [⟨2, 1⟩]]⟩ : Graph).radj =
      [[], [⟨0, 1⟩], [⟨0, 1⟩, ⟨1, 1⟩], [⟨2, 1⟩]] := rfl
  obtain ⟨hnn, hir, hrb⟩ :=
    diamond_facts [⟨0, "n0", a, 0⟩, ⟨1, "n1", b, 0⟩, ⟨2, "n2", c, 0⟩, ⟨3, "n3", d, 0⟩] 1
      (by omega)
  exact ⟨rfl, exists_both
    ((diamond_result hadj (dijkstra_outcome hnn hir 0 3) trivial).2 (by omega))
    (exists_both (shortcut_a_star hav hadj)
      (shortcut_bidir hav hadj hradj hnn hir (hrb.transposed hir)))⟩

/-- C10. For every graph, every node `s` and any node coordinates, each of `dijkstra`,
`a_star` and `bidir_a_star` called with `src = dst = s` returns (with at least one unit of
fuel) the distance 0 and the one-element path `[s]`. -/
theorem identity_query (hav : Int → Int → Int → Int → Int) (g : Graph) (s fuel : Nat) :
    dijkstra (fuel + 1) g s s = some (some 0, [s]) ∧
      a_star hav (fuel + 1) g s s = some (some 0, [s]) ∧
      bidir_a_star hav (fuel + 1) g s s = some (some 0, [s]) := by
  have hpop : ∀ x : PDI, pqPop [x] = some (x, []) := fun x => by simp [pqPop, pqTop, pqMin]
  refine ⟨?_, ?_, bidir_same hav _ g s⟩
  · simp [dijkstra, dijkstraLoop, dijkstraInit, hpop, upd, ltD, INF, walkParents]
  · simp [a_star, aStarLoop, aStarInit, hpop, upd, INF, walkParents]

/-- C11. For a cache of capacity `c >= 1` in any reached state: after `put(k, v)` followed
by any sequence of `get` and `put` calls on keys other than `k` that involves at most
`c - 1` distinct keys (and no `clear`), `get(k)` is a hit and returns `v`. -/
theorem recent_put_survives {K V : Type} [DecidableEq K] (c : Nat) (s : LRUCache K V) (k : K)
    (v : V) (ops : List (CacheOp K V)) (hc : 1 ≤ c) (hr : LRUCache.Reach c s)
    (hne : ∀ op ∈ ops, op.key ≠ k)
    (hcard : (ops.map CacheOp.key).toFinset.card ≤ c - 1) :
    (((s.put k v).run ops).get k).1 = some v := by
  obtain ⟨hw, hcap⟩ := hr.wf
  obtain ⟨p1, p2, p3⟩ := LRUCache.put_sim hw k v
  have hkT : k ∉ (ops.map CacheOp.key).toFinset := by
    intro h
    rw [List.mem_toFinset] at h
    obtain ⟨op, hop, heq⟩ := List.mem_map.1 h
    exact hne op hop heq
  have hshape : ∃ pre post, (s.put k v).entries = pre ++ (k, v) :: post ∧
      ∀ e ∈ pre, e.1 ∈ (ops.map CacheOp.key).toFinset := by
    refine ⟨[], (s.put k v).entries.tail, ?_, by simp⟩
    rw [p1]
    unfold absPut
    cases s.entries.lookup k <;> rfl
  obtain ⟨hwf, pre, post, hent, hpre⟩ := LRUCache.run_keeps _ k v hkT ops (s.put k v) p2
    (by rw [p3, hcap]; omega) (fun op hop => List.mem_toFinset.2 (List.mem_map_of_mem _ hop))
    hshape
  rw [LRUCache.get_fst hwf, hent]
  refine lookup_split k v pre post ?_
  intro e he heq
  exact hkT (heq ▸ hpre e he)

theorem recent_put_survives_witness :
    1 ≤ 2 ∧
      (∀ op ∈ [CacheOp.get 2, CacheOp.put 2 (20 : Nat), CacheOp.get 2], op.key ≠ 1) ∧
      ([CacheOp.get 2, CacheOp.put 2 (20 : Nat), CacheOp.get 2].map CacheOp.key).toFinset.card
        ≤ 2 - 1 ∧
      (((((LRUCache.new 2 : LRUCache Nat Nat).put 3 30).put 1 10).run
        [CacheOp.get 2, CacheOp.put 2 20, CacheOp.get 2]).get 1).1 = some 10 :=
  ⟨by decide, by decide, by decide,
    recent_put_survives 2 _ 1 10 [CacheOp.get 2, CacheOp.put 2 20, CacheOp.get 2] (by decide)
      (LRUCache.Reach.put 3 30 LRUCache.Reach.new) (by decide) (by decide)⟩

/-- C12. On an empty cache of capacity `c >= 1`, after `put` was called on `c + 1` pairwise
distinct keys `k1, ..., k(c+1)` in that order (no `get` in between): `get(k1)` is a miss and
`get(ki)` is a hit returning the value put for `ki`, for each later key `ki`. -/
theorem put_beyond_capacity_evicts_first {K V : Type} [DecidableEq K] (c : Nat) (k1 : K)
    (v1 : V) (rest : List (K × V)) (hc : 1 ≤ c) (hlen : rest.length = c)
    (hnd : (((k1, v1) :: rest).map Prod.fst).Nodup) :
    (((LRUCache.new c).putAll ((k1, v1) :: rest)).get k1).1 = none ∧
      ∀ kv ∈ rest, (((LRUCache.new c).putAll ((k1, v1) :: rest)).get kv.1).1 = some kv.2 := by
  obtain ⟨h1, h2, _⟩ := LRUCache.putAll_entries ((k1, v1) :: rest) (LRUCache.new c)
    (LRUCache.Wf.ofNew c) hnd (fun e _ => rfl)
  have hent : ((LRUCache.new c).putAll ((k1, v1) :: rest)).entries = rest.reverse := by
    rw [h1]
    have hmax : max (LRUCache.new c : LRUCache K V).capacity 1 = rest.reverse.length := by
      simp [LRUCache.new, hlen]
      omega
    have : ((k1, v1) :: rest).reverse ++ (LRUCache.new c : LRUCache K V).entries =
        rest.reverse ++ [(k1, v1)] := by
      simp [LRUCache.new, LRUCache.entries]
    rw [this, hmax, List.take_left]
  rw [List.map_cons, List.nodup_cons] at hnd
  constructor
  · rw [LRUCache.get_fst h2, hent, lookup_eq_none_iff]
    intro e he heq
    exact hnd.1 (by rw [← heq]; exact List.mem_map.2 ⟨e, List.mem_reverse.1 he, rfl⟩)
  · intro kv hkv
    rw [LRUCache.get_fst h2, hent]
    refine lookup_mem_of_nodup _ ?_ kv.1 kv.2 (List.mem_reverse.2 hkv)
    rw [List.map_reverse]
    exact List.nodup_reverse.2 hnd.2

theorem put_beyond_capacity_evicts_first_witness :
    1 ≤ 2 ∧ [((2 : Nat), (20 : Nat)), (3, 30)].length = 2 ∧
      (((1, 10) :: [((2 : Nat), (20 : Nat)), (3, 30)]).map Prod.fst).Nodup ∧
      (((LRUCache.new 2).putAll ((1, 10) :: [((2 : Nat), (20 : Nat)), (3, 30)])).get 1).1 =
        none ∧
      ∀ kv ∈ [((2 : Nat), (20 : Nat)), (3, 30)],
        (((LRUCache.new 2).putAll ((1, 10) :: [(2, 20), (3, 30)])).get kv.1).1 = some kv.2 :=
  ⟨by decide, by decide, by decide,
    put_beyond_capacity_evicts_first 2 1 10 [(2, 20), (3, 30)] (by decide) (by decide)
      (by decide)⟩

/-- C13. On an empty cache of capacity `c >= 2`, after `put` on pairwise distinct keys
`k1, k2, ..., kc` in that order, then `get(k1)` (a hit), then `put(k', v')` for a further
key `k'`: `k1` is still retrievable with its value, the evicted key is `k2` (`get(k2)` is a
miss), and `k'` and `k3, ..., kc` are retrievable with their values. -/
theorem get_protects_from_eviction {K V : Type} [DecidableEq K] (c : Nat) (k1 k2 k' : K)
    (v1 v2 v' : V) (rest : List (K × V)) (hc : 2 ≤ c)
    (hlen : ((k1, v1) :: (k2, v2) :: rest).length = c)
    (hnd : (((k', v') :: (k1, v1) :: (k2, v2) :: rest).map Prod.fst).Nodup) :
    (((LRUCache.new c).putAll ((k1, v1) :: (k2, v2) :: rest)).get k1).1 = some v1 ∧
      (((((LRUCache.new c).putAll ((k1, v1) :: (k2, v2) :: rest)).get k1).2.put k' v').get
        k1).1 = some v1 ∧
      (((((LRUCache.new c).putAll ((k1, v1) :: (k2, v2) :: rest)).get k1).2.put k' v').get
        k2).1 = none ∧
      (((((LRUCache.new c).putAll ((k1, v1) :: (k2, v2) :: rest)).get k1).2.put k' v').get
        k').1 = some v' ∧
      ∀ kv ∈ rest,
        (((((LRUCache.new c).putAll ((k1, v1) :: (k2, v2) :: rest)).get k1).2.put k' v').get
          kv.1).1 = some kv.2 := by
  have hnd0 := hnd
  rw [List.map_cons, List.nodup_cons] at hnd
  obtain ⟨hk', hnd1⟩ := hnd
  obtain ⟨h1, h2, h3⟩ := LRUCache.putAll_entries ((k1, v1) :: (k2, v2) :: rest)
    (LRUCache.new c) (LRUCache.Wf.ofNew c) hnd1 (fun e _ => rfl)
  have hcap : (LRUCache.new c : LRUCache K V).capacity = c := rfl
  rw [hcap] at h3
  have hlen' : rest.length + 2 = c := by simpa using hlen
  -- the list after the `c` calls of `put`
  have hent : ((LRUCache.new c).putAll ((k1, v1) :: (k2, v2) :: rest)).entries =
      (rest.reverse ++ [(k2, v2)]) ++ (k1, v1) :: [] := by
    rw [h1, List.take_of_length_le]
    · simp [LRUCache.new, LRUCache.entries]
    · simp [LRUCache.new, LRUCache.entries]
      omega
  rw [List.map_cons, List.nodup_cons, List.map_cons, List.nodup_cons] at hnd1
  obtain ⟨hk1, hk2, hnd2⟩ := hnd1
  have hpre : ∀ e ∈ rest.reverse ++ [(k2, v2)], e.1 ≠ k1 := by
    intro e he heq
    apply hk1
    rw [← heq]
    rcases List.mem_append.1 he with h | h
    · exact List.mem_cons_of_mem _ (List.mem_map.2 ⟨e, List.mem_reverse.1 h, rfl⟩)
    · simp only [List.mem_singleton] at h
      simp [h]
  -- the call `get(k1)`
  obtain ⟨g1, g2, g3, g4⟩ := LRUCache.get_sim h2 k1
  have hlook : ((LRUCache.new c).putAll ((k1, v1) :: (k2, v2) :: rest)).entries.lookup k1 =
      some v1 := by
    rw [hent]
    exact lookup_split k1 v1 _ _ hpre
  have hfil : ((LRUCache.new c).putAll ((k1, v1) :: (k2, v2) :: rest)).entries.filter
      (fun e => decide (e.1 ≠ k1)) = rest.reverse ++ [(k2, v2)] := by
    rw [hent, filter_key_split k1 v1 _ _ hpre (by simp)]
    simp
  simp only [absGet, hlook, hfil] at g1 g2
  -- the call `put(k', v')`
  obtain ⟨p1, p2, p3⟩ := LRUCache.put_sim g3 k' v'
  have habs : (((LRUCache.new c).putAll ((k1, v1) :: (k2, v2) :: rest)).get k1).2.entries.lookup
      k' = none := by
    rw [g2, lookup_eq_none_iff]
    intro e he heq
    apply hk'
    rw [← heq]
    rcases List.mem_cons.1 he with h | h
    · simp [h]
    · rcases List.mem_append.1 h with h | h
      · exact List.mem_cons_of_mem _ (List.mem_cons_of_mem _
          (List.mem_map.2 ⟨e, List.mem_reverse.1 h, rfl⟩))
      · simp only [List.mem_singleton] at h
        simp [h]
  rw [absPut_absent _ k' v' _ habs (by rw [g2, g4, h3]; simp; omega), g2, g4, h3] at p1
  have htake : ((k', v') :: (k1, v1) :: (rest.reverse ++ [(k2, v2)])).take (max c 1) =
      (k', v') :: (k1, v1) :: rest.reverse := by
    have e1 : (k', v') :: (k1, v1) :: (rest.reverse ++ [(k2, v2)]) =
        ((k', v') :: (k1, v1) :: rest.reverse) ++ [(k2, v2)] := by simp
    have e2 : max c 1 = ((k', v') :: (k1, v1) :: rest.reverse).length := by
      simp
      omega
    rw [e1, e2, List.take_left]
  rw [htake] at p1
  have hkeys := p2.keys_nodup
  rw [p1] at hkeys
  refine ⟨g1, ?_, ?_, ?_, ?_⟩
  · rw [LRUCache.get_fst p2, p1]
    exact lookup_mem_of_nodup _ hkeys k1 v1 (by simp)
  · rw [LRUCache.get_fst p2, p1, lookup_eq_none_iff]
    intro e he heq
    rcases List.mem_cons.1 he with h | h
    · apply hk'
      rw [h] at heq
      simp only at heq
      simp [heq]
    · rcases List.mem_cons.1 h with h | h
      · apply hk1
        rw [h] at heq
        simp only at heq
        simp [heq]
      · apply hk2
        rw [← heq]
        exact List.mem_map.2 ⟨e, List.mem_reverse.1 h, rfl⟩
  · rw [LRUCache.get_fst p2, p1]
    exact lookup_mem_of_nodup _ hkeys k' v' (by simp)
  · intro kv hkv
    rw [LRUCache.get_fst p2, p1]
    exact lookup_mem_of_nodup _ hkeys kv.1 kv.2 (by simp [hkv])

theorem get_protects_from_eviction_witness :
    2 ≤ 3 ∧ (((1 : Nat), (10 : Nat)) :: (2, 20) :: [(3, 30)]).length = 3 ∧
      ((((4 : Nat), (40 : Nat)) :: (1, 10) :: (2, 20) :: [(3, 30)]).map Prod.fst).Nodup ∧
      (((LRUCache.new 3).putAll (((1 : Nat), (10 : Nat)) :: (2, 20) :: [(3, 30)])).get 1).1 =
        some 10 ∧
      (((((LRUCache.new 3).putAll (((1 : Nat), (10 : Nat)) :: (2, 20) :: [(3, 30)])).get
        1).2.put 4 40).get 1).1 = some 10 ∧
      (((((LRUCache.new 3).putAll (((1 : Nat), (10 : Nat)) :: (2, 20) :: [(3, 30)])).get
        1).2.put 4 40).get 2).1 = none ∧
      (((((LRUCache.new 3).putAll (((1 : Nat), (10 : Nat)) :: (2, 20) :: [(3, 30)])).get
        1).2.put 4 40).get 4).1 = some 40 ∧
      ∀ kv ∈ [((3 : Nat), (30 : Nat))],
        (((((LRUCache.new 3).putAll ((1, 10) :: (2, 20) :: [(3, 30)])).get 1).2.put 4 40).get
          kv.1).1 = some kv.2 :=
  ⟨by decide, by decide, by decide,
    get_protects_from_eviction 3 1 2 4 10 20 40 [(3, 30)] (by decide) (by decide) (by decide)⟩

/-- C14. In every state a cache reaches (a full one included), for every key `k` it holds:
`put(k, v)` evicts nothing: `get` of any other key gives what it gave before, and the
number of entries is unchanged; `k` now maps to `v` and is the most recently used entry: it
is at the front of the list, and after any subsequent insertions of new pairwise distinct
keys, while any entry that was present is still retrievable, so is `k`. -/
theorem put_existing_key_evicts_nothing {K V : Type} [DecidableEq K] (cap : Nat)
    (s : LRUCache K V) (k : K) (v : V) (hr : LRUCache.Reach cap s) (hk : (s.get k).1 ≠ none) :
    (∀ j, j ≠ k → ((s.put k v).get j).1 = (s.get j).1) ∧
      (s.put k v).items.length = s.items.length ∧
      ((s.put k v).get k).1 = some v ∧
      (s.put k v).entries.head? = some (k, v) ∧
      ∀ kvs : List (K × V), (kvs.map Prod.fst).Nodup →
        (∀ e ∈ kvs, ((s.put k v).get e.1).1 = none) →
        ∀ j, ((s.put k v).get j).1 ≠ none → (((s.put k v).putAll kvs).get j).1 ≠ none →
          (((s.put k v).putAll kvs).get k).1 = some v := by
  obtain ⟨hw, _⟩ := hr.wf
  obtain ⟨_, hw', _⟩ := LRUCache.put_sim hw k v
  rw [LRUCache.get_fst hw] at hk
  obtain ⟨w, hw0⟩ := Option.ne_none_iff_exists'.1 hk
  have hent := LRUCache.put_present hw k v w hw0
  obtain ⟨l1, l2, hsplit, h1, h2⟩ := split_of_lookup _ hw.keys_nodup k w hw0
  have hfil : s.entries.filter (fun e => decide (e.1 ≠ k)) = l1 ++ l2 := by
    rw [hsplit]
    exact filter_key_split k w l1 l2 h1 h2
  refine ⟨?_, ?_, ?_, ?_, ?_⟩
  · intro j hj
    rw [LRUCache.get_fst hw', LRUCache.get_fst hw, hent]
    have hb : (j == k) = false := by simpa using hj
    simp only [List.lookup, hb]
    exact lookup_filter_ne k j hj _
  · have e1 : (s.put k v).entries.length = s.entries.length := by
      rw [hent, hfil, hsplit]
      simp
      omega
    simpa [LRUCache.entries] using e1
  · rw [LRUCache.get_fst hw', hent]
    simp [List.lookup]
  · rw [hent]
    rfl
  · intro kvs hnd hnew j hj hj'
    have hnew' : ∀ e ∈ kvs, (s.put k v).entries.lookup e.1 = none := by
      intro e he
      rw [← LRUCache.get_fst hw']
      exact hnew e he
    obtain ⟨p1, p2, _⟩ := LRUCache.putAll_entries kvs (s.put k v) hw' hnd hnew'
    rw [LRUCache.get_fst hw'] at hj
    rw [LRUCache.get_fst p2] at hj' ⊢
    obtain ⟨w', hw1⟩ := Option.ne_none_iff_exists'.1 hj'
    have hmem := lookup_some_mem _ j w' hw1
    rw [p1, List.take_append_eq_append_take] at hmem
    have hjk : ∀ e ∈ kvs, e.1 ≠ j := by
      intro e he heq
      apply hj
      rw [← heq]
      exact hnew' e he
    rcases List.mem_append.1 hmem with h | h
    · exact absurd rfl (hjk (j, w') (List.mem_reverse.1 (List.mem_of_mem_take h)))
    · refine lookup_mem_of_nodup _ p2.keys_nodup k v ?_
      rw [p1, List.take_append_eq_append_take]
      refine List.mem_append_right _ ?_
      rw [hent] at h ⊢
      have hpos : max (s.put k v).capacity 1 - kvs.reverse.length ≠ 0 := by
        intro h0
        rw [h0] at h
        simp at h
      obtain ⟨n, hn⟩ := Nat.exists_eq_succ_of_ne_zero hpos
      rw [hn, List.take_succ_cons]
      exact List.mem_cons_self _ _

theorem put_existing_key_evicts_nothing_witness :
    (((((LRUCache.new 2 : LRUCache Nat Nat).put 1 10).put 2 20).get 1).1 ≠ none) ∧
      (∀ j, j ≠ 1 → (((((LRUCache.new 2 : LRUCache Nat Nat).put 1 10).put 2 20).put 1 11).get
          j).1 = ((((LRUCache.new 2 : LRUCache Nat Nat).put 1 10).put 2 20).get j).1) ∧
      ((((LRUCache.new 2 : LRUCache Nat Nat).put 1 10).put 2 20).put 1 11).items.length =
        (((LRUCache.new 2 : LRUCache Nat Nat).put 1 10).put 2 20).items.length ∧
      (((((LRUCache.new 2 : LRUCache Nat Nat).put 1 10).put 2 20).put 1 11).get 1).1 =
        some 11 ∧
      ((((LRUCache.new 2 : LRUCache Nat Nat).put 1 10).put 2 20).put 1 11).entries.head? =
        some (1, 11) ∧
      ∀ kvs : List (Nat × Nat), (kvs.map Prod.fst).Nodup →
        (∀ e ∈ kvs, (((((LRUCache.new 2 : LRUCache Nat Nat).put 1 10).put 2 20).put 1 11).get
          e.1).1 = none) →
        ∀ j, (((((LRUCache.new 2 : LRUCache Nat Nat).put 1 10).put 2 20).put 1 11).get j).1 ≠
            none →
          ((((((LRUCache.new 2 : LRUCache Nat Nat).put 1 10).put 2 20).put 1 11).putAll
            kvs).get j).1 ≠ none →
          ((((((LRUCache.new 2 : LRUCache Nat Nat).put 1 10).put 2 20).put 1 11).putAll
            kvs).get 1).1 = some 11 :=
  ⟨by decide,
    put_existing_key_evicts_nothing 2 _ 1 11
      (LRUCache.Reach.put 2 20 (LRUCache.Reach.put 1 10 LRUCache.Reach.new)) (by decide)⟩

/-- C15. For every graph, ids `from`, `to` and weight `w`: `updateEdgeWeight(from, to, w)`
returns `true` if and only if `from` is within the current range and the forward adjacency
list of `from` holds an edge targeting `to`; and whenever it returns `false` the graph
(nodes, forward and reverse adjacency) is left as it was. -/
theorem update_reports_edge_found (g : Graph) (src dest : Nat) (w : Int) :
    ((g.updateEdgeWeight src dest w).2 = true ↔
        src < g.adj.length ∧ ∃ e ∈ g.adj.getD src [], e.target = dest) ∧
      ((g.updateEdgeWeight src dest w).2 = false → (g.updateEdgeWeight src dest w).1 = g) := by
  by_cases h : src < g.adj.length ∧ ∃ e ∈ g.adj.getD src [], e.target = dest
  · rw [updateEdgeWeight_found g src dest w h.1 h.2]
    exact ⟨⟨fun _ => h, fun _ => rfl⟩, fun hf => by cases hf⟩
  · rw [updateEdgeWeight_missing g src dest w h]
    exact ⟨⟨fun hf => Bool.noConfusion hf, fun h' => absurd h' h⟩, fun _ => rfl⟩

/-- C16. For a graph whose reverse adjacency is the one `buildReverseAdj` builds from its
forward adjacency (parallel edges allowed) and an existing edge `from -> to`: after
`updateEdgeWeight(from, to, w)` (which returns `true`) the first edge of the forward list of
`from` that targets `to` has weight `w`, all other forward edges and the nodes are unchanged,
and the reverse adjacency is equal, entries and order, to what `buildReverseAdj` rebuilds
from the updated forward adjacency; for `to` in range its reverse list holds `(from, w)`. -/
theorem update_keeps_reverse_rebuilt (g : Graph) (src dest : Nat) (w : Int) (hrb : g.Rebuilt)
    (he : ∃ e ∈ g.fwd src, e.target = dest) :
    (g.updateEdgeWeight src dest w).2 = true ∧
      (∃ pre e post, g.fwd src = pre ++ e :: post ∧ e.target = dest ∧
        (∀ x ∈ pre, x.target ≠ dest) ∧
        (g.updateEdgeWeight src dest w).1.fwd src = pre ++ ⟨dest, w⟩ :: post) ∧
      (∀ u, u ≠ src → (g.updateEdgeWeight src dest w).1.fwd u = g.fwd u) ∧
      (g.updateEdgeWeight src dest w).1.adj.length = g.adj.length ∧
      (g.updateEdgeWeight src dest w).1.nodes = g.nodes ∧
      (g.updateEdgeWeight src dest w).1.radj =
        (g.updateEdgeWeight src dest w).1.buildReverseAdj.radj ∧
      (dest < g.adj.length → (⟨src, w⟩ : Edge) ∈ (g.updateEdgeWeight src dest w).1.bwd dest) := by
  have hs : src < g.adj.length := by
    by_contra hs
    obtain ⟨e, hmem, _⟩ := he
    have : g.fwd src = [] := List.getD_eq_default _ _ (by omega)
    rw [this] at hmem
    simp at hmem
  have hfound := updateEdgeWeight_found g src dest w hs he
  obtain ⟨pre, e, post, h1, h2, h3, h4⟩ := setFirst_spec dest w (g.adj.getD src []) he
  have hrow : (g.updateEdgeWeight src dest w).1.fwd src = pre ++ ⟨dest, w⟩ :: post := by
    rw [hfound]
    show (modifyAt (fun es => (setFirst dest w es).1) src g.adj).getD src [] = _
    rw [modifyAt_getD, if_pos ⟨rfl, hs⟩, h4]
  have hreb := rebuilt_setFirst g src dest w hrb
  rw [hfound]
  refine ⟨rfl, ⟨pre, e, post, h1, h2, h3, ?_⟩, ?_, ?_, rfl, hreb, ?_⟩
  · rw [← hrow, hfound]
  · intro u hu
    show (modifyAt (fun es => (setFirst dest w es).1) src g.adj).getD u [] = _
    rw [modifyAt_getD, if_neg (fun h => hu h.1)]
    rfl
  · exact modifyAt_length _ _ _
  · intro hd
    unfold Graph.bwd
    rw [hreb]
    simp only [Graph.buildReverseAdj]
    rw [revRows_mem]
    right
    refine ⟨by simpa [modifyAt_length] using hd, src, ⟨dest, w⟩, ?_, rfl, by simp⟩
    rw [hfound] at hrow
    have hrow' : (modifyAt (fun es => (setFirst dest w es).1) src g.adj).getD src [] =
        pre ++ ⟨dest, w⟩ :: post := hrow
    rw [hrow']
    simp

theorem update_keeps_reverse_rebuilt_witness :
    (scenario 0 0 0 0).Rebuilt ∧ (∃ e ∈ (scenario 0 0 0 0).fwd 0, e.target = 2) ∧
      ((scenario 0 0 0 0).updateEdgeWeight 0 2 1).2 = true ∧
      (∃ pre e post, (scenario 0 0 0 0).fwd 0 = pre ++ e :: post ∧ e.target = 2 ∧
        (∀ x ∈ pre, x.target ≠ 2) ∧
        ((scenario 0 0 0 0).updateEdgeWeight 0 2 1).1.fwd 0 = pre ++ ⟨2, 1⟩ :: post) ∧
      (∀ u, u ≠ 0 → ((scenario 0 0 0 0).updateEdgeWeight 0 2 1).1.fwd u =
        (scenario 0 0 0 0).fwd u) ∧
      ((scenario 0 0 0 0).updateEdgeWeight 0 2 1).1.adj.length = (scenario 0 0 0 0).adj.length ∧
      ((scenario 0 0 0 0).updateEdgeWeight 0 2 1).1.nodes = (scenario 0 0 0 0).nodes ∧
      ((scenario 0 0 0 0).updateEdgeWeight 0 2 1).1.radj =
        ((scenario 0 0 0 0).updateEdgeWeight 0 2 1).1.buildReverseAdj.radj ∧
      (2 < (scenario 0 0 0 0).adj.length →
        (⟨0, 1⟩ : Edge) ∈ ((scenario 0 0 0 0).updateEdgeWeight 0 2 1).1.bwd 2) :=
  ⟨by decide, ⟨⟨2, 5⟩, by decide, rfl⟩,
    update_keeps_reverse_rebuilt (scenario 0 0 0 0) 0 2 1 (by decide) ⟨⟨2, 5⟩, by decide, rfl⟩⟩

/-- C17. For a graph in which every forward edge targets a node slot: after
`buildReverseAdj` the reverse adjacency is the transpose of the forward adjacency: for all
`u`, `v`, `w` the number of entries `(u, w)` in the reverse list of `v` is the number of
edges `(v, w)` in the forward list of `u`; nodes and forward adjacency are unchanged, the
reverse adjacency has one row per forward row, and the previous reverse entries have no
effect on the result. -/
theorem rebuild_gives_transpose (g : Graph) (hir : g.InRange) :
    (∀ u v w, (g.buildReverseAdj.bwd v).count ⟨u, w⟩ = (g.fwd u).count ⟨v, w⟩) ∧
      g.buildReverseAdj.nodes = g.nodes ∧ g.buildReverseAdj.adj = g.adj ∧
      g.buildReverseAdj.radj.length = g.adj.length ∧
      ∀ r, ({ g with radj := r } : Graph).buildReverseAdj = g.buildReverseAdj := by
  refine ⟨?_, rfl, rfl, buildReverseAdj_length g, fun _ => rfl⟩
  intro u v w
  unfold Graph.bwd Graph.fwd
  rw [buildReverseAdj_getD]
  by_cases hv : v < g.adj.length
  · rw [if_pos hv, count_incoming]
    simp
  · rw [if_neg hv]
    symm
    rw [List.count_nil]
    refine List.count_eq_zero_of_not_mem ?_
    intro hmem
    obtain ⟨es, hes, hm⟩ := mem_getD_row hmem
    have := hir es hes _ hm
    simp only at this
    omega

theorem rebuild_gives_transpose_witness :
    (scenario 0 0 0 0).InRange ∧
      (∀ u v w, ((scenario 0 0 0 0).buildReverseAdj.bwd v).count ⟨u, w⟩ =
        ((scenario 0 0 0 0).fwd u).count ⟨v, w⟩) ∧
      (scenario 0 0 0 0).buildReverseAdj.nodes = (scenario 0 0 0 0).nodes ∧
      (scenario 0 0 0 0).buildReverseAdj.adj = (scenario 0 0 0 0).adj ∧
      (scenario 0 0 0 0).buildReverseAdj.radj.length = (scenario 0 0 0 0).adj.length ∧
      ∀ r, ({ scenario 0 0 0 0 with radj := r } : Graph).buildReverseAdj =
        (scenario 0 0 0 0).buildReverseAdj :=
  ⟨by decide, rebuild_gives_transpose (scenario 0 0 0 0) (by decide)⟩

/-- C18. For every graph reached from the empty graph by calls of `reserve`, `addNode`,
`addEdge`, `updateEdgeWeight` and `buildReverseAdj`: the three sequences `nodes`, forward
adjacency and reverse adjacency have equal length, also after one more such call; that
length does not decrease under `addNode`, `addEdge`, `updateEdgeWeight` and
`buildReverseAdj`; and after `addNode(id, ...)` it exceeds `id`, after
`addEdge(from, to, ...)` it exceeds `from` and `to`. -/
theorem reached_lengths_agree (g : Graph) (hr : g.Reached) :
    (g.nodes.length = g.adj.length ∧ g.adj.length = g.radj.length) ∧
      (∀ n, (g.reserve n).nodes.length = (g.reserve n).adj.length ∧
        (g.reserve n).adj.length = (g.reserve n).radj.length) ∧
      (∀ id name lat lon,
        ((g.addNode id name lat lon).nodes.length = (g.addNode id name lat lon).adj.length ∧
          (g.addNode id name lat lon).adj.length = (g.addNode id name lat lon).radj.length) ∧
        g.nodes.length ≤ (g.addNode id name lat lon).nodes.length ∧
        id < (g.addNode id name lat lon).nodes.length) ∧
      (∀ src dest w,
        ((g.addEdge src dest w).nodes.length = (g.addEdge src dest w).adj.length ∧
          (g.addEdge src dest w).adj.length = (g.addEdge src dest w).radj.length) ∧
        g.nodes.length ≤ (g.addEdge src dest w).nodes.length ∧
        src < (g.addEdge src dest w).nodes.length ∧
        dest < (g.addEdge src dest w).nodes.length) ∧
      (∀ src dest w,
        ((g.updateEdgeWeight src dest w).1.nodes.length =
            (g.updateEdgeWeight src dest w).1.adj.length ∧
          (g.updateEdgeWeight src dest w).1.adj.length =
            (g.updateEdgeWeight src dest w).1.radj.length) ∧
        g.nodes.length ≤ (g.updateEdgeWeight src dest w).1.nodes.length) ∧
      ((g.buildReverseAdj.nodes.length = g.buildReverseAdj.adj.length ∧
          g.buildReverseAdj.adj.length = g.buildReverseAdj.radj.length) ∧
        g.nodes.length ≤ g.buildReverseAdj.nodes.length) := by
  have h := hr.lengths
  refine ⟨h, fun n => (Graph.Reached.reserve n hr).lengths,
    fun id name lat lon => addNode_lengths g id name lat lon h,
    fun src dest w => addEdge_lengths g src dest w h, fun src dest w => ?_,
    (Graph.Reached.buildReverseAdj hr).lengths, le_refl _⟩
  refine ⟨(Graph.Reached.updateEdgeWeight src dest w hr).lengths, ?_⟩
  rw [(updateEdgeWeight_lengths g src dest w).1]

theorem reached_lengths_agree_witness :
    ((scenario 0 0 0 0).nodes.length = (scenario 0 0 0 0).adj.length ∧
        (scenario 0 0 0 0).adj.length = (scenario 0 0 0 0).radj.length) ∧
      (∀ src dest w,
        (((scenario 0 0 0 0).addEdge src dest w).nodes.length =
            ((scenario 0 0 0 0).addEdge src dest w).adj.length ∧
          ((scenario 0 0 0 0).addEdge src dest w).adj.length =
            ((scenario 0 0 0 0).addEdge src dest w).radj.length) ∧
        (scenario 0 0 0 0).nodes.length ≤ ((scenario 0 0 0 0).addEdge src dest w).nodes.length ∧
        src < ((scenario 0 0 0 0).addEdge src dest w).nodes.length ∧
        dest < ((scenario 0 0 0 0).addEdge src dest w).nodes.length) :=
  ⟨(reached_lengths_agree (scenario 0 0 0 0)
      (Graph.Reached.buildReverseAdj (Graph.Reached.addEdge 2 3 1 (Graph.Reached.addEdge 0 2 5
        (Graph.Reached.addEdge 1 2 1 (Graph.Reached.addEdge 0 1 1
          (Graph.Reached.addNode 3 "n3" 0 0 (Graph.Reached.addNode 2 "n2" 0 0
            (Graph.Reached.addNode 1 "n1" 0 0
              (Graph.Reached.addNode 0 "n0" 0 0 Graph.Reached.empty)))))))))).1,
    (reached_lengths_agree (scenario 0 0 0 0)
      (Graph.Reached.buildReverseAdj (Graph.Reached.addEdge 2 3 1 (Graph.Reached.addEdge 0 2 5
        (Graph.Reached.addEdge 1 2 1 (Graph.Reached.addEdge 0 1 1
          (Graph.Reached.addNode 3 "n3" 0 0 (Graph.Reached.addNode 2 "n2" 0 0
            (Graph.Reached.addNode 1 "n1" 0 0
              (Graph.Reached.addNode 0 "n0" 0 0 Graph.Reached.empty)))))))))).2.2.2.1⟩

/-- C19 (counterexample). Two runs of `bidir_a_star` in which an iteration ends with `best`
less than or equal to the minimum of the two top priorities, the loop goes on, and the
search returns another distance.

On `tieGraph` with the query `(0, 1)`, iteration 1 starts with both queues non-empty and
reaches the stopping test; at its end `best` is 5 (the edge `0->1`) and the minimum of the
tops is 5 (the backward pair of node 3, which lies at the source); `break` is not taken,
both queues are non-empty, and the search returns 0.

On `staleTopGraph` with the query `(3, 1)`, iteration 2 starts with both queues non-empty
and ends by the `continue` of a stale backward pair; at its end `best` is 555 and the
minimum of the tops is 666; both queues are non-empty, and the search returns 444. -/
theorem tie_does_not_stop_the_loop :
    (((bidirAt tieGraph (tieGraph.heurTo havMeridian 1) (tieGraph.heurTo havMeridian 0) 1
        (bidirInit (tieGraph.heurTo havMeridian 1) (tieGraph.heurTo havMeridian 0) 0 1)).map
      fun s =>
        (decide (s.fwd.openQ ≠ [] ∧ s.bwd.openQ ≠ []),
          reachesTest tieGraph (tieGraph.heurTo havMeridian 1) s,
          (bidirIter tieGraph (tieGraph.heurTo havMeridian 1) (tieGraph.heurTo havMeridian 0)
            s).1.best,
          minD
            (topPri (bidirIter tieGraph (tieGraph.heurTo havMeridian 1)
              (tieGraph.heurTo havMeridian 0) s).1.fwd.openQ)
            (topPri (bidirIter tieGraph (tieGraph.heurTo havMeridian 1)
              (tieGraph.heurTo havMeridian 0) s).1.bwd.openQ),
          (bidirIter tieGraph (tieGraph.heurTo havMeridian 1) (tieGraph.heurTo havMeridian 0)
            s).2,
          decide ((bidirIter tieGraph (tieGraph.heurTo havMeridian 1)
              (tieGraph.heurTo havMeridian 0) s).1.fwd.openQ ≠ [] ∧
            (bidirIter tieGraph (tieGraph.heurTo havMeridian 1)
              (tieGraph.heurTo havMeridian 0) s).1.bwd.openQ ≠ []))) =
      some (true, true, some 5, some 5, false, true) ∧
      bidir_a_star havMeridian 20 tieGraph 0 1 = some (some 0, [0, 2, 1])) ∧
    (((bidirAt staleTopGraph (staleTopGraph.heurTo havMeridian 1)
        (staleTopGraph.heurTo havMeridian 3) 2
        (bidirInit (staleTopGraph.heurTo havMeridian 1) (staleTopGraph.heurTo havMeridian 3)
          3 1)).map
      fun s =>
        (decide (s.fwd.openQ ≠ [] ∧ s.bwd.openQ ≠ []),
          reachesTest staleTopGraph (staleTopGraph.heurTo havMeridian 1) s,
          (bidirIter staleTopGraph (staleTopGraph.heurTo havMeridian 1)
            (staleTopGraph.heurTo havMeridian 3) s).1.best,
          minD
            (topPri (bidirIter staleTopGraph (staleTopGraph.heurTo havMeridian 1)
              (staleTopGraph.heurTo havMeridian 3) s).1.fwd.openQ)
            (topPri (bidirIter staleTopGraph (staleTopGraph.heurTo havMeridian 1)
              (staleTopGraph.heurTo havMeridian 3) s).1.bwd.openQ),
          (bidirIter staleTopGraph (staleTopGraph.heurTo havMeridian 1)
            (staleTopGraph.heurTo havMeridian 3) s).2,
          decide ((bidirIter staleTopGraph (staleTopGraph.heurTo havMeridian 1)
              (staleTopGraph.heurTo havMeridian 3) s).1.fwd.openQ ≠ [] ∧
            (bidirIter staleTopGraph (staleTopGraph.heurTo havMeridian 1)
              (staleTopGraph.heurTo havMeridian 3) s).1.bwd.openQ ≠ []))) =
      some (true, false, some 555, some 666, false, true) ∧
      bidir_a_star havMeridian 20 staleTopGraph 3 1 = some (some 444, [3, 2, 0, 1])) := by
  constructor <;> decide

/-- C19 (amended). In `bidir_a_star` (for `src != dst`), at the end of every loop iteration
that reaches the stopping test (neither popped pair was discarded as stale) and in which
the best candidate found so far is strictly less than the minimum of the forward queue's
top priority and the backward queue's top priority (an empty queue counting as
`+infinity`): the loop is left, every result of the search carries that candidate as its
distance, and on a graph with non-negative weights, in-range edge targets and rebuilt
reverse adjacency the search returns it. -/
theorem loop_stops_when_best_below_tops (hav : Int → Int → Int → Int → Int) (g : Graph)
    (src dst k : Nat) (s : BState) (hne : src ≠ dst)
    (hat : bidirAt g (g.heurTo hav dst) (g.heurTo hav src) k
      (bidirInit (g.heurTo hav dst) (g.heurTo hav src) src dst) = some s)
    (hq : s.fwd.openQ ≠ [] ∧ s.bwd.openQ ≠ [])
    (hreach : reachesTest g (g.heurTo hav dst) s = true)
    (hlt : ltD (bidirIter g (g.heurTo hav dst) (g.heurTo hav src) s).1.best
      (minD (topPri (bidirIter g (g.heurTo hav dst) (g.heurTo hav src) s).1.fwd.openQ)
        (topPri (bidirIter g (g.heurTo hav dst) (g.heurTo hav src) s).1.bwd.openQ)) = true) :
    (∀ fuel, k + 1 ≤ fuel →
      bidirLoop g (g.heurTo hav dst) (g.heurTo hav src) fuel
        (bidirInit (g.heurTo hav dst) (g.heurTo hav src) src dst) =
        some (bidirIter g (g.heurTo hav dst) (g.heurTo hav src) s).1) ∧
      (∀ fuel d path, bidir_a_star hav fuel g src dst = some (d, path) →
        d = (bidirIter g (g.heurTo hav dst) (g.heurTo hav src) s).1.best) ∧
      (g.NonNeg → g.InRange → g.Rebuilt → ∃ n, ∀ fuel, n ≤ fuel → ∃ path,
        bidir_a_star hav fuel g src dst =
          some ((bidirIter g (g.heurTo hav dst) (g.heurTo hav src) s).1.best, path)) := by
  have hflag : (bidirIter g (g.heurTo hav dst) (g.heurTo hav src) s).2 = true := by
    rw [bidirIter_flag, hreach, stopTest_eq, hlt]
    rfl
  have hex : ¬ (s.fwd.openQ = [] ∨ s.bwd.openQ = []) := fun h => h.elim hq.1 hq.2
  have hloop : ∀ fuel, k + 1 ≤ fuel →
      bidirLoop g (g.heurTo hav dst) (g.heurTo hav src) fuel
        (bidirInit (g.heurTo hav dst) (g.heurTo hav src) src dst) =
        some (bidirIter g (g.heurTo hav dst) (g.heurTo hav src) s).1 := by
    intro fuel hf
    obtain ⟨j, rfl⟩ := Nat.exists_eq_add_of_le hf
    have : k + 1 + j = k + (j + 1) := by omega
    rw [this, bidirAt_loop k _ s hat (j + 1), bidirLoop_succ j s hex]
    simp only [hflag, if_true]
  have hbest : ∀ fuel d path, bidir_a_star hav fuel g src dst = some (d, path) →
      d = (bidirIter g (g.heurTo hav dst) (g.heurTo hav src) s).1.best := by
    intro fuel d path hr
    by_cases hf : k + 1 ≤ fuel
    · exact bidir_returns_best hav g hne fuel _ (hloop fuel hf) d path hr
    · -- too little fuel: the loop does not come back
      exfalso
      have hl : bidirLoop g (fun u => g.haversineDistance hav u dst)
          (fun u => g.haversineDistance hav u src) fuel
          (bidirInit (fun u => g.haversineDistance hav u dst)
            (fun u => g.haversineDistance hav u src) src dst) = none :=
        bidirAt_none k _ s hat hex fuel (by omega)
      simp [bidir_a_star, hne, hl] at hr
  refine ⟨hloop, hbest, ?_⟩
  intro hnn hir hrb
  obtain ⟨n, h | ⟨d, path, cst, h1, _⟩⟩ := bidir_total hav hnn hir (hrb.transposed hir) hne
  · refine ⟨n, fun fuel hf => ⟨[], ?_⟩⟩
    rw [h.2 fuel hf, hbest fuel INF [] (h.2 fuel hf)]
  · refine ⟨n, fun fuel hf => ⟨path, ?_⟩⟩
    rw [h1 fuel hf, hbest fuel (some d) path (h1 fuel hf)]

theorem loop_stops_when_best_below_tops_witness :
    (0 : Nat) ≠ 3 ∧
      (∀ fuel, 3 + 1 ≤ fuel →
        (bidirLoop (scenario 0 0 0 0) ((scenario 0 0 0 0).heurTo (fun _ _ _ _ => 0) 3)
          ((scenario 0 0 0 0).heurTo (fun _ _ _ _ => 0) 0) fuel
          (bidirInit ((scenario 0 0 0 0).heurTo (fun _ _ _ _ => 0) 3)
            ((scenario 0 0 0 0).heurTo (fun _ _ _ _ => 0) 0) 0 3)).map (fun s => s.best) =
          some (some 3)) ∧
      ∃ n, ∀ fuel, n ≤ fuel → ∃ path,
        bidir_a_star (fun _ _ _ _ => 0) fuel (scenario 0 0 0 0) 0 3 = some (some 3, path) := by
  have h := loop_stops_when_best_below_tops (fun _ _ _ _ => 0) (scenario 0 0 0 0) 0 3 3
    (bidirIter (scenario 0 0 0 0) ((scenario 0 0 0 0).heurTo (fun _ _ _ _ => 0) 3)
      ((scenario 0 0 0 0).heurTo (fun _ _ _ _ => 0) 0)
      (bidirIter (scenario 0 0 0 0) ((scenario 0 0 0 0).heurTo (fun _ _ _ _ => 0) 3)
        ((scenario 0 0 0 0).heurTo (fun _ _ _ _ => 0) 0)
        (bidirIter (scenario 0 0 0 0) ((scenario 0 0 0 0).heurTo (fun _ _ _ _ => 0) 3)
          ((scenario 0 0 0 0).heurTo (fun _ _ _ _ => 0) 0)
          (bidirInit ((scenario 0 0 0 0).heurTo (fun _ _ _ _ => 0) 3)
            ((scenario 0 0 0 0).heurTo (fun _ _ _ _ => 0) 0) 0 3)).1).1).1
    (by decide) rfl (by decide) (by decide) (by decide)
  have hb : (bidirIter (scenario 0 0 0 0) ((scenario 0 0 0 0).heurTo (fun _ _ _ _ => 0) 3)
      ((scenario 0 0 0 0).heurTo (fun _ _ _ _ => 0) 0)
      (bidirIter (scenario 0 0 0 0) ((scenario 0 0 0 0).heurTo (fun _ _ _ _ => 0) 3)
        ((scenario 0 0 0 0).heurTo (fun _ _ _ _ => 0) 0)
        (bidirIter (scenario 0 0 0 0) ((scenario 0 0 0 0).heurTo (fun _ _ _ _ => 0) 3)
          ((scenario 0 0 0 0).heurTo (fun _ _ _ _ => 0) 0)
          (bidirIter (scenario 0 0 0 0) ((scenario 0 0 0 0).heurTo (fun _ _ _ _ => 0) 3)
            ((scenario 0 0 0 0).heurTo (fun _ _ _ _ => 0) 0)
            (bidirInit ((scenario 0 0 0 0).heurTo (fun _ _ _ _ => 0) 3)
              ((scenario 0 0 0 0).heurTo (fun _ _ _ _ => 0) 0) 0 3)).1).1).1).1.best =
      some 3 := by decide
  refine ⟨by decide, ?_, ?_⟩
  · intro fuel hf
    rw [h.1 fuel hf, Option.map_some', hb]
  · obtain ⟨n, hn⟩ := h.2.2 (by decide) (by decide) (by decide)
    refine ⟨n, fun fuel hf => ?_⟩
    obtain ⟨path, hp⟩ := hn fuel hf
    rw [hb] at hp
    exact ⟨path, hp⟩

/-- C20 (the code at the failing input). On the scenario graph (four node slots) with an
empty cache of capacity 200, for the command `dijkstra -1 0`: the range test of the
dispatcher does not reject the ids, the key `dijkstra|-1|0` is looked up in the cache and
missed, and the output is not `Invalid ids`: `dijkstra` is called with the source id `-1`,
for which it has no defined result. -/
theorem negative_id_passes_range_check :
    idsRejected (scenario 0 0 0 0) (-1) 0 = false ∧
      makeKey "dijkstra" (-1) 0 = "dijkstra|-1|0" ∧
      ((LRUCache.new 200 : LRUCache String QueryResult).get
        (makeKey "dijkstra" (-1) 0)).1.isSome = false ∧
      runSearch (fun _ _ _ _ => 0) 20 (scenario 0 0 0 0) "dijkstra" (-1) 0 = none ∧
      ((queryCommand (fun _ _ _ _ => 0) 20 (scenario 0 0 0 0) (LRUCache.new 200) "dijkstra"
        (-1) 0).map fun r => r.1.isInvalid) = none := by
  decide

/-- C21. For every graph reached from the empty graph by calls of `addNode`, `addEdge`,
`updateEdgeWeight` and `buildReverseAdj` (calls of `reserve` may occur as well): the three
sequences have one length, and every edge of the forward adjacency and every entry of the
reverse adjacency has a target below that length.  Hence no access is out of range in
`buildReverseAdj` (the accesses `radj[e.to]`), in `updateEdgeWeight` (the access
`radj[to]`, for any arguments) and in the relaxation loops of `dijkstra`, `a_star` and both
directions of `bidir_a_star`, run for a node `u` that passed the test against the size of
the adjacency, on vectors of any size `n` that is at least the number of node slots (the
searches allocate `max(adj.size(), max(src, dst) + 1)`): the loops with every access tested
give the results of the loops of the source. -/
theorem reached_targets_in_range (g : Graph) (hr : g.Reached) :
    (g.nodes.length = g.adj.length ∧ g.adj.length = g.radj.length) ∧
      (∀ es ∈ g.adj, ∀ e ∈ es, e.target < g.adj.length) ∧
      (∀ es ∈ g.radj, ∀ e ∈ es, e.target < g.adj.length) ∧
      g.buildReverseAdjChk = some g.buildReverseAdj ∧
      (∀ src dest w, g.updateEdgeWeightChk src dest w = some (g.updateEdgeWeight src dest w)) ∧
      (∀ n u s, g.adj.length ≤ n → u < g.adj.length →
        dijkstraRelaxChk n u (g.adj.getD u []) s = some (dijkstraRelax u (g.adj.getD u []) s)) ∧
      (∀ n heuristic u s, g.adj.length ≤ n → u < g.adj.length →
        aStarRelaxChk n heuristic u (g.adj.getD u []) s =
          some (aStarRelax heuristic u (g.adj.getD u []) s)) ∧
      (∀ n heur u s, g.adj.length ≤ n → u < g.adj.length →
        sideRelaxChk n heur u (g.adj.getD u []) s =
          some (sideRelax heur u (g.adj.getD u []) s)) ∧
      (∀ n heur u s, g.adj.length ≤ n → u < g.radj.length →
        sideRelaxChk n heur u (g.radj.getD u []) s =
          some (sideRelax heur u (g.radj.getD u []) s)) := by
  have hlen := hr.lengths
  obtain ⟨hF, hB⟩ := hr.inRange
  have hB' : ∀ es ∈ g.radj, ∀ e ∈ es, e.target < g.adj.length := by
    intro es hes e he
    rw [hlen.2]
    exact hB es hes e he
  refine ⟨hlen, hF, hB', buildReverseAdjChk_eq g hF,
    fun src dest w => updateEdgeWeightChk_eq g src dest w hF hlen.2, ?_, ?_, ?_, ?_⟩
  · intro n u s hn hu
    exact dijkstraRelaxChk_eq n u (by omega) _ s
      fun e he => lt_of_lt_of_le (getD_row_lt hF u e he) hn
  · intro n heuristic u s hn hu
    exact aStarRelaxChk_eq n heuristic u (by omega) _ s
      fun e he => lt_of_lt_of_le (getD_row_lt hF u e he) hn
  · intro n heur u s hn hu
    exact sideRelaxChk_eq n heur u (by omega) _ s
      fun e he => lt_of_lt_of_le (getD_row_lt hF u e he) hn
  · intro n heur u s hn hu
    exact sideRelaxChk_eq n heur u (by omega) _ s
      fun e he => lt_of_lt_of_le (getD_row_lt hB' u e he) hn

theorem reached_targets_in_range_witness :
    ((scenario 0 0 0 0).nodes.length = (scenario 0 0 0 0).adj.length ∧
        (scenario 0 0 0 0).adj.length = (scenario 0 0 0 0).radj.length) ∧
      (∀ es ∈ (scenario 0 0 0 0).adj, ∀ e ∈ es, e.target < (scenario 0 0 0 0).adj.length) ∧
      (∀ es ∈ (scenario 0 0 0 0).radj, ∀ e ∈ es, e.target < (scenario 0 0 0 0).adj.length) ∧
      (scenario 0 0 0 0).buildReverseAdjChk = some (scenario 0 0 0 0).buildReverseAdj ∧
      (∀ src dest w, (scenario 0 0 0 0).updateEdgeWeightChk src dest w =
        some ((scenario 0 0 0 0).updateEdgeWeight src dest w)) := by
  have h := reached_targets_in_range (scenario 0 0 0 0)
    (Graph.Reached.buildReverseAdj (Graph.Reached.addEdge 2 3 1 (Graph.Reached.addEdge 0 2 5
      (Graph.Reached.addEdge 1 2 1 (Graph.Reached.addEdge 0 1 1
        (Graph.Reached.addNode 3 "n3" 0 0 (Graph.Reached.addNode 2 "n2" 0 0
          (Graph.Reached.addNode 1 "n1" 0 0
            (Graph.Reached.addNode 0 "n0" 0 0 Graph.Reached.empty)))))))))
  exact ⟨h.1, h.2.1, h.2.2.1, h.2.2.2.1, h.2.2.2.2.1⟩

end PathMaster
